import Mathlib

/-!
# Clause archive of kissat-cr: storage, watch vectors and archive propagation

A shallow embedding of `src/archive.c` and `src/archive.h`.

Conventions of the embedding

* The offset based representation of `archive_vector` (the `COMPACT` branch of
  every `#ifdef` in the source) is the one embedded: a vector is an
  `offset` into the shared stack of unsigned words together with a `size`.
  Of the pointer based representation the fix-up of the table after a
  relocation of the stack is embedded (`pointer_vector`, `FIX_POINTER`,
  `fix_archive_vector_pointers_after_moving_stack`), with addresses in bytes.
* Assertions are compiled out (`NDEBUG`); a step whose behaviour C leaves
  undefined (a read or write outside the object) yields `Abort.undefined`,
  and `kissat_fatal` yields `Abort.fatal`.
* A pointer to a table entry `&solver->archive_watches[i]` is the index `i`.
* The fields of `kissat` carry the names of the source; `option_archive` is
  `GET_OPTION (archive)` and `archive_conflicts` is
  `statistics.archive_conflicts`.
* The arena of `ward`s is a list: the first ward of a record carries the
  record, the remaining wards of its footprint are `ward.body`.  A reference
  is an index into that list.
* Machine integers are `Nat`/`Int`.  Reductions are explicit where the source
  truncates: the 31 bit fields of a watch word, the cast of an arena size to
  `reference`, the unsigned `size - 3`, the `size_t` decrement of `usable`.
  The statistics counter `archive_conflicts` is a natural number.
  The index arithmetic of `lit2idx` is exact on `Int`; `lit2idx_int` carries
  out the same steps in the type `int` and agrees with it for literals of
  absolute value below `2 ^ 30` (`lit2idx_int_eq`).
* A loop whose number of rounds is not bounded by a list carries a bound
  (`fuel`) that the calling definition computes; the lemma `enlarge_until_spec`
  shows that bound is never exhausted.
* Macros, constants and functions declared outside `src/` are collected in
  `Env` (literal translation and validity, hard maxima, `sizeof (ward)`).
-/

namespace KissatArchive

/-! ## Outcomes -/

/-- How a call can fail to return. -/
inductive Abort where
  | fatal
  | undefined
deriving DecidableEq, Repr

/-- Result of a call: a value, or the way the call did not return. -/
abbrev Result (α : Type) := Except Abort α

/-! ## Collaborators declared outside the sources at hand -/

/-- The collaborators of the archive: hard maxima (`MAX_ARENA`, `MAX_VECTORS`),
the size in bytes of one arena word (`sizeof (ward)`), the translation between
internal and external literals and the two validity tests. -/
structure Env where
  MAX_ARENA : Nat
  MAX_VECTORS : Nat
  sizeof_ward : Nat
  kissat_export_literal : Nat → Int
  kissat_import_literal : Int → Nat
  VALID_EXTERNAL_LITERAL : Int → Bool
  VALID_INTERNAL_LITERAL : Nat → Bool

/-! ## Data model (`archive.h`) -/

/-- The record `struct archive_clause`: garbage flag, search cursor, literal
count and the inline literal array. -/
structure archive_clause where
  garbage : Bool
  searched : Nat
  size : Nat
  lits : List Int
deriving DecidableEq, Repr

/-- One word of the clause arena: the first word of a record, or a word in the
body of a record (also: allocated and not yet written). -/
inductive ward where
  | head (c : archive_clause)
  | body
deriving DecidableEq, Repr

/-- The shared store `struct archive_vectors`: the stack of unsigned words (its
elements up to `end`), its allocated capacity and the `usable` counter. -/
structure archive_vectors where
  stack : List Nat
  capacity : Nat
  usable : Nat
deriving DecidableEq, Repr

/-- A vector `struct archive_vector` in the offset representation. -/
structure archive_vector where
  offset : Nat
  size : Nat
deriving DecidableEq, Repr

/-- A learned clause of the main solver, in internal literals. -/
structure clause where
  lits : List Nat
deriving DecidableEq, Repr

/-- The part of the solver state `struct kissat` used by the archive. -/
structure kissat where
  option_archive : Bool
  archive_unlocked : Bool
  archive : List ward
  archive_capacity : Nat
  archive_vectors : archive_vectors
  archive_watches : List archive_vector
  max_var : Nat
  archive_propagate : List Nat
  values : Nat → Int
  archive_conflicts : Nat

/-- The value every byte-filled slot has after `memset (.., 0xff, ..)`:
`INVALID_VECTOR_ELEMENT`, all 32 bits set. -/
def INVALID_VECTOR_ELEMENT : Nat := 2 ^ 32 - 1

/-- The constant `INVALID_ELIT` (`INT_MAX`). -/
def INVALID_ELIT : Int := 2 ^ 31 - 1

/-- The size in bytes of `struct archive_clause` with its three inline
literals: a flag word, `searched`, `size` and three `int`s. -/
def sizeof_archive_clause : Nat := 24

/-! ## Watch words (`union archive_watch`) -/

/-- Read the field `blocking.lit`: the low 31 bits as a signed integer. -/
def blocking_lit (raw : Nat) : Int :=
  if raw % 2 ^ 31 < 2 ^ 30 then (raw % 2 ^ 31 : Nat) else (raw % 2 ^ 31 : Nat) - 2 ^ 31

/-- Read the tag bit `binary` (bit 31). -/
def binary_tag (raw : Nat) : Bool := raw / 2 ^ 31 % 2 = 1

/-- Store into the field `blocking.lit`, keeping the tag bit. -/
def set_blocking_lit (raw : Nat) (lit : Int) : Nat :=
  (raw / 2 ^ 31 % 2) * 2 ^ 31 + (lit % 2 ^ 31).toNat

/-- The function `archive_blocking_archive_watch`. -/
def archive_blocking_archive_watch (lit : Int) : Nat :=
  (lit % 2 ^ 31).toNat

/-- The function `archive_large_archive_watch`. -/
def archive_large_archive_watch (ref : Nat) : Nat :=
  ref % 2 ^ 31

/-- The function `lit2idx`. -/
def lit2idx (lit : Int) : Int :=
  if lit < 0 then -lit * 2 - 2 else lit * 2 - 1

/-- The table entry `solver->archive_watches[i]` for a C index. -/
def watches_at (s : kissat) (i : Int) : Option (Nat × archive_vector) :=
  if i < 0 then none else
    match s.archive_watches[i.toNat]? with
    | some v => some (i.toNat, v)
    | none => none

/-! ## Clause arena -/

/-- Modelled from the spec: `kissat_align_ward` rounds a byte count up to the
next multiple of the arena word size. -/
def kissat_align_ward (env : Env) (bytes : Nat) : Nat :=
  (bytes + env.sizeof_ward - 1) / env.sizeof_ward * env.sizeof_ward

/-- Modelled from the spec: `kissat_stack_enlarge` doubles the capacity of a
growable stack (an empty one gets capacity one) and keeps its elements. -/
def kissat_stack_enlarge (capacity : Nat) : Nat :=
  if capacity = 0 then 1 else 2 * capacity

/-- The function `bytes_of_archive_clause`; `size - 3` is unsigned 32 bit
arithmetic, the product and sum are `size_t` arithmetic. -/
def bytes_of_archive_clause (env : Env) (size : Nat) : Nat :=
  kissat_align_ward env
    ((sizeof_archive_clause + ((size + 2 ^ 32 - 3) % 2 ^ 32) * 4) % 2 ^ 64)

/-- The loop `do { if (capacity == MAX) kissat_fatal (..); kissat_stack_enlarge
(..); capacity = CAPACITY_STACK (..); available = capacity - size; } while
(needed > available)`, which `allocate_archived_clause` runs with `MAX_ARENA`
and `enlarge_archive_vector` with `MAX_VECTORS`; the argument `fuel` bounds the
number of rounds. -/
def enlarge_until (maximum size needed : Nat) : Nat → Nat → Result Nat
  | 0, _ => .error .undefined
  | fuel + 1, capacity =>
    if capacity = maximum then .error .fatal
    else
      let capacity' := kissat_stack_enlarge capacity
      if needed > capacity' - size then enlarge_until maximum size needed fuel capacity'
      else .ok capacity'

/-- The function `allocate_archived_clause`: reserve the words of a record of
`size` literals at the end of the arena and return its reference (the cast
`(reference) res` to `unsigned`). -/
def allocate_archived_clause (env : Env) (s : kissat) (size : Nat) :
    Result (Nat × kissat) :=
  let res := s.archive.length
  let bytes := bytes_of_archive_clause env size
  let needed := bytes / env.sizeof_ward
  let capacity := s.archive_capacity
  let available := capacity - res
  let grown : Result Nat :=
    if needed > available then
      enlarge_until env.MAX_ARENA res needed (res + needed + 1) capacity
    else .ok capacity
  match grown with
  | .error e => .error e
  | .ok capacity' =>
    .ok (res % 2 ^ 32,
      { s with archive := s.archive ++ List.replicate needed ward.body,
               archive_capacity := capacity' })

/-- The function `unchecked_dereference_archive_clause` followed by a read of
the record. -/
def dereference_archive_clause (arena : List ward) (ref : Nat) : Option archive_clause :=
  match arena[ref]? with
  | some (ward.head c) => some c
  | _ => none

/-! ## Vector engine -/

/-- Overwrite the slots of `l` from position `start` on with the words `xs`
(a `memcpy`/`memset` into the stack, or a single store). -/
def write_words (l : List Nat) (start : Nat) (xs : List Nat) : List Nat :=
  l.take start ++ xs ++ l.drop (start + xs.length)

/-- The readable element sequence of a vector: the slots `[offset, offset + size)`
of the stack (`begin_archive_vector` up to `end_archive_vector`). -/
def vector_contents (stack : List Nat) (v : archive_vector) : List Nat :=
  (stack.drop v.offset).take v.size

/-- The function `enlarge_archive_vector` for the vector at table index `idx`;
the result is the position of `middle_new_archive_vector` in the stack. -/
def enlarge_archive_vector (env : Env) (s : kissat) (idx : Nat) : Result (Nat × kissat) :=
  match s.archive_watches[idx]? with
  | none => .error .undefined
  | some v =>
    let old_size := v.size
    let new_size := if old_size = 0 then 1 else 2 * old_size
    let old_stack_size := s.archive_vectors.stack.length
    let capacity := s.archive_vectors.capacity
    let available := capacity - old_stack_size
    let grown : Result Nat :=
      if new_size > available then
        enlarge_until env.MAX_VECTORS old_stack_size new_size
          (old_stack_size + new_size + 1) capacity
      else .ok capacity
    match grown with
    | .error e => .error e
    | .ok capacity' =>
      if old_size ≠ 0 ∧ v.offset + old_size > old_stack_size then .error .undefined
      else
        let delta_size := new_size - old_size
        let moved := vector_contents s.archive_vectors.stack v
        let vacated :=
          write_words s.archive_vectors.stack v.offset
            (List.replicate old_size INVALID_VECTOR_ELEMENT)
        let stack' := vacated ++ moved ++ List.replicate delta_size INVALID_VECTOR_ELEMENT
        .ok (old_stack_size + old_size,
          { s with
            archive_vectors :=
              { stack := stack', capacity := capacity',
                usable := s.archive_vectors.usable + old_size + delta_size },
            archive_watches := s.archive_watches.set idx { v with offset := old_stack_size } })

/-- The function `dec_archive_usable` (a `size_t` decrement). -/
def dec_archive_usable (s : kissat) : kissat :=
  { s with archive_vectors :=
      { s.archive_vectors with usable := (s.archive_vectors.usable + 2 ^ 64 - 1) % 2 ^ 64 } }

/-- The store `*end = e` into the stack. -/
def store_word (s : kissat) (pos e : Nat) : kissat :=
  { s with archive_vectors :=
      { s.archive_vectors with stack := write_words s.archive_vectors.stack pos [e] } }

/-- The statement `*stack->end++ = e` (the caller has checked there is room). -/
def append_word (s : kissat) (e : Nat) : kissat :=
  { s with archive_vectors := { s.archive_vectors with stack := s.archive_vectors.stack ++ [e] } }

/-- The final `archive_vector->size++` of `push_archive_vectors`. -/
def increment_size (s : kissat) (idx : Nat) : kissat :=
  match s.archive_watches[idx]? with
  | none => s
  | some v => { s with archive_watches := s.archive_watches.set idx { v with size := v.size + 1 } }

/-- The macro call `PUSH_STACK (*stack, 0)`: enlarge a full stack, then append. -/
def push_stack_zero (s : kissat) : kissat :=
  { s with archive_vectors :=
      { s.archive_vectors with
        stack := s.archive_vectors.stack ++ [0],
        capacity := if s.archive_vectors.stack.length = s.archive_vectors.capacity
                    then kissat_stack_enlarge s.archive_vectors.capacity
                    else s.archive_vectors.capacity } }

/-- The branch `enlarge; *end = e; dec_archive_usable` shared by three paths of
`push_archive_vectors`. -/
def push_enlarged (env : Env) (s : kissat) (idx e : Nat) : Result kissat :=
  match enlarge_archive_vector env s idx with
  | .error a => .error a
  | .ok (pos, s') => .ok (dec_archive_usable (store_word s' pos e))

/-- The function `push_archive_vectors` for the vector at table index `idx`. -/
def push_archive_vectors (env : Env) (s : kissat) (idx e : Nat) : Result kissat :=
  match s.archive_watches[idx]? with
  | none => .error .undefined
  | some v =>
    let pushed : Result kissat :=
      if v.size = 0 ∧ v.offset = 0 then
        let s1 := if s.archive_vectors.stack.length = 0 then push_stack_zero s else s
        if s1.archive_vectors.stack.length = s1.archive_vectors.capacity then
          push_enlarged env s1 idx e
        else
          .ok (append_word
            { s1 with archive_watches :=
                s1.archive_watches.set idx { v with offset := s1.archive_vectors.stack.length } } e)
      else
        let pos := v.offset + v.size
        if pos = s.archive_vectors.stack.length then
          if s.archive_vectors.stack.length = s.archive_vectors.capacity then
            push_enlarged env s idx e
          else .ok (append_word s e)
        else
          match s.archive_vectors.stack[pos]? with
          | none => .error .undefined
          | some x =>
            if x ≠ INVALID_VECTOR_ELEMENT then push_enlarged env s idx e
            else .ok (dec_archive_usable (store_word s pos e))
    match pushed with
    | .error a => .error a
    | .ok s' => .ok (increment_size s' idx)

/-- The function `resize_archive_vector` for the vector at table index `idx`. -/
def resize_archive_vector (s : kissat) (idx new_size : Nat) : Result kissat :=
  match s.archive_watches[idx]? with
  | none => .error .undefined
  | some v =>
    let old_size := v.size
    if new_size = old_size then .ok s
    else if old_size < new_size ∨ s.archive_vectors.stack.length < v.offset + old_size then
      .error .undefined
    else
      let delta := old_size - new_size
      .ok { s with
            archive_watches := s.archive_watches.set idx { v with size := new_size },
            archive_vectors :=
              { s.archive_vectors with
                usable := s.archive_vectors.usable + delta,
                stack := write_words s.archive_vectors.stack (v.offset + new_size)
                           (List.replicate delta INVALID_VECTOR_ELEMENT) } }

/-- The function `kissat_release_archive_vectors`. -/
def kissat_release_archive_vectors (s : kissat) : kissat :=
  { s with archive_vectors := { stack := [], capacity := 0, usable := 0 } }

/-! ## Watch table and registration -/

/-- The function `kissat_resize_archive_watches`. -/
def kissat_resize_archive_watches (s : kissat) (max_var_old max_var_new : Nat) :
    Result kissat :=
  if !s.option_archive then .ok s
  else
    let grown : Result kissat :=
      if max_var_new > max_var_old then
        if s.archive_watches.length < 2 * max_var_old then .error .undefined
        else
          .ok { s with
                archive_watches :=
                  s.archive_watches.take (2 * max_var_old) ++
                    List.replicate (2 * max_var_new - 2 * max_var_old) ⟨0, 0⟩,
                max_var := max_var_new }
      else .ok s
    match grown with
    | .error a => .error a
    | .ok s1 =>
      if max_var_new < max_var_old then
        .ok { s1 with archive_watches := s1.archive_watches.take (2 * max_var_new),
                      max_var := max_var_new }
      else .ok s1

/-- The function `push_blocking_archive_watch` on the table entry at C index `i`. -/
def push_blocking_archive_watch (env : Env) (s : kissat) (i : Int) (blocking : Int)
    (ref : Nat) : Result kissat :=
  if i < 0 then .error .undefined
  else
    match push_archive_vectors env s i.toNat (archive_blocking_archive_watch blocking) with
    | .error a => .error a
    | .ok s1 => push_archive_vectors env s1 i.toNat (archive_large_archive_watch ref)

/-- The function `watch_archive_blocking`. -/
def watch_archive_blocking (env : Env) (s : kissat) (lit blocking : Int) (ref : Nat) :
    Result kissat :=
  push_blocking_archive_watch env s (lit2idx lit) blocking ref

/-- The function `watch_archive_reference`. -/
def watch_archive_reference (env : Env) (s : kissat) (a b : Int) (ref : Nat) :
    Result kissat :=
  match watch_archive_blocking env s a b ref with
  | .error e => .error e
  | .ok s1 => watch_archive_blocking env s1 b a ref

/-- The function `watch_archive_clause` for the record at reference `ref`. -/
def watch_archive_clause (env : Env) (s : kissat) (ref : Nat) : Result kissat :=
  match dereference_archive_clause s.archive ref with
  | some c =>
    match c.lits with
    | l0 :: l1 :: _ => watch_archive_reference env s l0 l1 ref
    | _ => .error .undefined
  | none => .error .undefined

/-- The function `kissat_archive_init`. -/
def kissat_archive_init (s : kissat) : kissat :=
  { s with archive_unlocked := true }

/-- The `for` loop of `kissat_archive_clause`: export each literal, growing the
watch table when the variable is beyond `max_var`. -/
def export_literals (env : Env) : List Nat → kissat → Result (kissat × List Int)
  | [], s => .ok (s, [])
  | ilit :: rest, s =>
    let lit := env.kissat_export_literal ilit
    let resized : Result kissat :=
      if lit.natAbs > s.max_var then kissat_resize_archive_watches s s.max_var lit.natAbs
      else .ok s
    match resized with
    | .error a => .error a
    | .ok s1 =>
      match export_literals env rest s1 with
      | .error a => .error a
      | .ok (s2, lits) => .ok (s2, lit :: lits)

/-- The function `kissat_archive_clause`. -/
def kissat_archive_clause (env : Env) (s : kissat) (c : clause) : Result kissat :=
  if !s.option_archive || !s.archive_unlocked then .ok s
  else
    let size := c.lits.length
    match allocate_archived_clause env s size with
    | .error a => .error a
    | .ok (res, s1) =>
      match export_literals env c.lits s1 with
      | .error a => .error a
      | .ok (s2, lits) =>
        let archive_c : archive_clause :=
          { garbage := false, size := size, searched := 2, lits := lits }
        watch_archive_clause env
          { s2 with archive := s2.archive.set res (ward.head archive_c) } res

/-! ## Archive propagation -/

/-- What one of the two replacement loops of `kissat_propagate_archive` ends
with: a non-false literal at position `r`, a literal that is no longer valid
(the `goto NEXT_CLAUSE` exits), or the end of its range. -/
inductive Search where
  | found (r : Nat) (replacement : Int)
  | invalid
  | exhausted
deriving DecidableEq, Repr

/-- One replacement loop `for (r = ..; r != ..; r++)` over `count` positions
starting at position `r` of the literal array. -/
def search_from (env : Env) (values : Nat → Int) (lits : List Int) :
    Nat → Nat → Result Search
  | _, 0 => .ok .exhausted
  | r, count + 1 =>
    match lits[r]? with
    | none => .error .undefined
    | some replacement =>
      if !env.VALID_EXTERNAL_LITERAL replacement then .ok .invalid
      else
        let ireplacement := env.kissat_import_literal replacement
        if !env.VALID_INTERNAL_LITERAL ireplacement then .ok .invalid
        else if values ireplacement ≥ 0 then .ok (.found r replacement)
        else search_from env values lits (r + 1) count

/-- The replacement search: from `searched` to the end of the clause, then from
position two up to `searched`. -/
def search_replacement (env : Env) (values : Nat → Int) (c : archive_clause) :
    Result Search :=
  if c.size < c.searched then .error .undefined
  else
    match search_from env values c.lits c.searched (c.size - c.searched) with
    | .error a => .error a
    | .ok .exhausted =>
      if c.searched < 2 then .error .undefined
      else search_from env values c.lits 2 (c.searched - 2)
    | .ok found => .ok found

/-- Set the garbage flag of the record at `ref` (`c->garbage = true`). -/
def mark_garbage (arena : List ward) (ref : Nat) (c : archive_clause) : List ward :=
  arena.set ref (ward.head { c with garbage := true })

/-- The stores of the branch that found a replacement at position `r`:
`c->searched = r - lits; lits[0] = other; lits[1] = replacement; *r = -lit`. -/
def install_replacement (arena : List ward) (ref : Nat) (c : archive_clause)
    (lit other : Int) (r : Nat) (replacement : Int) : List ward :=
  arena.set ref (ward.head
    { c with searched := r,
             lits := ((c.lits.set 0 other).set 1 replacement).set r (-lit) })

/-- What the body of the loop `while (p != end_watches)` does with one watch
pair: the pair is not copied forward (`q` is stepped back; the arena is the
one given, with the clause possibly marked garbage or rearranged), or it is
copied forward with the given head word, or the loop is left by `break` with
`found_conflict` set. -/
inductive Visit where
  | removed (arena : List ward)
  | kept (head : Nat)
  | conflict
deriving DecidableEq, Repr

/-- The body of the loop `while (p != end_watches)` for the pair `head`, `tail`
read through `p`; `lit` is the exported literal being propagated. -/
def visit_watch (env : Env) (values : Nat → Int) (lit : Int) (arena : List ward)
    (head tail : Nat) : Result Visit :=
  let blocking := blocking_lit head
  if !env.VALID_EXTERNAL_LITERAL blocking then .ok (.removed arena)
  else
    let iblocking := env.kissat_import_literal blocking
    if !env.VALID_INTERNAL_LITERAL iblocking then .ok (.removed arena)
    else
      let blocking_value := values iblocking
      if blocking_value > 0 then .ok (.kept head)
      else
        match dereference_archive_clause arena tail with
        | none => .error .undefined
        | some c =>
          if c.garbage then .ok (.removed arena)
          else
            match c.lits with
            | l0 :: l1 :: _ =>
              let other := Int.xor (Int.xor l0 l1) (-lit)
              if !env.VALID_EXTERNAL_LITERAL other then
                .ok (.removed (mark_garbage arena tail c))
              else
                let iother := env.kissat_import_literal other
                if !env.VALID_INTERNAL_LITERAL iother then
                  .ok (.removed (mark_garbage arena tail c))
                else
                  let other_value := values iother
                  if other_value > 0 then .ok (.kept (set_blocking_lit head other))
                  else
                    match search_replacement env values c with
                    | .error a => .error a
                    | .ok .invalid => .ok (.removed (mark_garbage arena tail c))
                    | .ok (.found r replacement) =>
                      .ok (.removed (install_replacement arena tail c lit other r replacement))
                    | .ok .exhausted =>
                      if other_value ≠ 0 then .ok .conflict
                      else .ok (.kept head)
            | _ => .error .undefined

/-- The loop `while (p != end_watches)` together with the copy loop that
follows it, on the word sequence still to be read through `p`: the result is
the word sequence written through `q`, the arena, and `found_conflict`. -/
def walk_watches (env : Env) (values : Nat → Int) (lit : Int) :
    List Nat → List ward → Result (List Nat × List ward × Bool)
  | [], arena => .ok ([], arena, false)
  | [_], _ => .error .undefined
  | head :: tail :: rest, arena =>
    match visit_watch env values lit arena head tail with
    | .error a => .error a
    | .ok (.removed arena') => walk_watches env values lit rest arena'
    | .ok (.kept head') =>
      match walk_watches env values lit rest arena with
      | .error a => .error a
      | .ok (kept, arena', conflict) => .ok (head' :: tail :: kept, arena', conflict)
    | .ok .conflict => .ok (head :: tail :: rest, arena, true)

/-- What the body of the loop over the queue ends with: go on with the next
queued literal, or `return`. -/
inductive Step where
  | next (s : kissat)
  | done (s : kissat)

/-- The body of `for (all_stack (unsigned, ilit, solver->archive_propagate))`
for one queued internal literal. -/
def propagate_literal (env : Env) (s : kissat) (ilit : Nat) : Result Step :=
  let lit := env.kissat_export_literal ilit
  match watches_at s (lit2idx (-lit)) with
  | none => .error .undefined
  | some (idx, watches) =>
    if watches.size = 0 then .ok (.done s)
    else if s.archive_vectors.stack.length < watches.offset + watches.size then .error .undefined
    else
      match walk_watches env s.values lit (vector_contents s.archive_vectors.stack watches)
              s.archive with
      | .error a => .error a
      | .ok (kept, arena, found_conflict) =>
        let s1 : kissat :=
          { s with archive := arena,
                   archive_vectors :=
                     { s.archive_vectors with
                       stack := write_words s.archive_vectors.stack watches.offset kept } }
        match resize_archive_vector s1 idx kept.length with
        | .error a => .error a
        | .ok s2 =>
          if found_conflict then
            .ok (.done { s2 with archive_conflicts := s2.archive_conflicts + 1 })
          else .ok (.next s2)

/-- The loop over the queue `solver->archive_propagate`. -/
def propagate_queue (env : Env) : List Nat → kissat → Result kissat
  | [], s => .ok s
  | ilit :: rest, s =>
    match propagate_literal env s ilit with
    | .error a => .error a
    | .ok (.done s') => .ok s'
    | .ok (.next s') => propagate_queue env rest s'

/-- The function `kissat_propagate_archive`. -/
def kissat_propagate_archive (env : Env) (s : kissat) : Result kissat :=
  if !s.option_archive || !s.archive_unlocked then .ok s
  else if s.archive.length = 0 then .ok s
  else propagate_queue env s.archive_propagate s

/-! ## A concrete instance of the collaborators -/

/-- The usual numbering of kissat when no variable has been eliminated or
renumbered: external variable `v` is internal variable `v - 1`, and the
internal literal is twice the internal variable, plus one when negated. -/
def plain_env (vars : Nat) : Env where
  MAX_ARENA := 2 ^ 31
  MAX_VECTORS := 2 ^ 32
  sizeof_ward := 16
  kissat_export_literal := fun ilit =>
    if ilit % 2 = 1 then -((ilit / 2 + 1 : Nat) : Int) else ((ilit / 2 + 1 : Nat) : Int)
  kissat_import_literal := fun elit =>
    2 * (elit.natAbs - 1) + (if elit < 0 then 1 else 0)
  VALID_EXTERNAL_LITERAL := fun elit =>
    decide (elit ≠ 0 ∧ elit ≠ -(2 ^ 31) ∧ elit.natAbs ≤ 2 ^ 28 - 1)
  VALID_INTERNAL_LITERAL := fun ilit => decide (ilit < 2 * vars)

/-- The values array in which exactly the external literals of `trues` are
true (and their negations false). -/
def values_of (trues : List Int) : Nat → Int := fun ilit =>
  let elit := (plain_env 0).kissat_export_literal ilit
  if elit ∈ trues then 1 else if -elit ∈ trues then -1 else 0

/-- The solver state before anything was archived, archiving enabled. -/
def initial_state : kissat where
  option_archive := true
  archive_unlocked := true
  archive := []
  archive_capacity := 0
  archive_vectors := { stack := [], capacity := 0, usable := 0 }
  archive_watches := []
  max_var := 0
  archive_propagate := []
  values := fun _ => 0
  archive_conflicts := 0

/-- The internal clause whose export under `plain_env` is the given list of
external literals. -/
def clause_of (elits : List Int) : clause :=
  { lits := elits.map (plain_env 0).kissat_import_literal }

/-- Assign the literals `trues` and put their internal literals on the
propagation queue, in this order. -/
def assign_and_queue (s : kissat) (trues : List Int) : kissat :=
  { s with values := values_of trues,
           archive_propagate := trues.map (plain_env 0).kissat_import_literal }

/-! ## Notions used to state the properties -/

/-- The watch list of a literal: the readable words of its vector, and the
empty list for a literal the table does not cover. -/
def watch_list (s : kissat) (lit : Int) : List Nat :=
  match watches_at s (lit2idx lit) with
  | some (_, v) => vector_contents s.archive_vectors.stack v
  | none => []

/-- The word sequence of a watch list grouped into its (blocking, reference)
pairs. -/
def watch_pairs : List Nat → List (Nat × Nat)
  | head :: tail :: rest => (head, tail) :: watch_pairs rest
  | _ => []

/-- Two vectors do not share a live slot. -/
def disjoint_vectors (v w : archive_vector) : Prop :=
  v.offset + v.size ≤ w.offset ∨ w.offset + w.size ≤ v.offset ∨ v.size = 0 ∨ w.size = 0

instance (v w : archive_vector) : Decidable (disjoint_vectors v w) := by
  unfold disjoint_vectors; infer_instance

/-- The vector store is well formed: the stack fits its capacity, every vector
of the table lies inside the stack and holds no sentinel, and distinct vectors
do not overlap. -/
def vectors_ok (s : kissat) : Prop :=
  s.archive_vectors.stack.length ≤ s.archive_vectors.capacity ∧
  (∀ i, ∀ h : i < s.archive_watches.length,
    (s.archive_watches[i]).offset + (s.archive_watches[i]).size ≤ s.archive_vectors.stack.length ∧
    INVALID_VECTOR_ELEMENT ∉ vector_contents s.archive_vectors.stack (s.archive_watches[i])) ∧
  (∀ i, ∀ hi : i < s.archive_watches.length, ∀ j, ∀ hj : j < s.archive_watches.length,
    i ≠ j → disjoint_vectors (s.archive_watches[i]) (s.archive_watches[j]))

instance (s : kissat) : Decidable (vectors_ok s) := by
  unfold vectors_ok; infer_instance

/-- A record the walk can read: the literal array has `size` entries and the
cursor `searched` lies between two and `size`. -/
def record_ok (c : archive_clause) : Prop :=
  c.size = c.lits.length ∧ 2 ≤ c.searched ∧ c.searched ≤ c.size

instance (c : archive_clause) : Decidable (record_ok c) := by
  unfold record_ok; infer_instance

/-- A word sequence is a list of watch pairs over the arena: heads have the tag
bit clear and every tail is the reference of a readable record. -/
def pairs_ok (arena : List ward) : List Nat → Bool
  | [] => true
  | [_] => false
  | head :: tail :: rest =>
    decide (head < 2 ^ 31) &&
    (match dereference_archive_clause arena tail with
     | some c => decide (record_ok c)
     | none => false) &&
    pairs_ok arena rest

/-- The archive state is consistent: the table covers both literals of every
variable up to `max_var`, the arena fits its capacity, the vector store is
well formed and every watch list is a list of watch pairs over the arena. -/
def consistent (s : kissat) : Prop :=
  s.archive_watches.length = 2 * s.max_var ∧
  s.archive.length ≤ s.archive_capacity ∧
  vectors_ok s ∧
  ∀ i, ∀ h : i < s.archive_watches.length,
    pairs_ok s.archive (vector_contents s.archive_vectors.stack (s.archive_watches[i])) = true

instance (s : kissat) : Decidable (consistent s) := by
  unfold consistent; infer_instance

/-- The state after archiving the clause with external literals `5, -3, 7` in
the initial state (see `sample_state_eq`). -/
def sample_state : kissat where
  option_archive := true
  archive_unlocked := true
  archive := [ward.head { garbage := false, searched := 2, size := 3, lits := [5, -3, 7] },
              ward.body]
  archive_capacity := 2
  archive_vectors :=
    { stack := [0, 4294967295, 2147483645, 0, 5, 0], capacity := 8, usable := 1 }
  archive_watches :=
    [⟨0, 0⟩, ⟨0, 0⟩, ⟨0, 0⟩, ⟨0, 0⟩, ⟨4, 2⟩, ⟨0, 0⟩, ⟨0, 0⟩,
     ⟨0, 0⟩, ⟨0, 0⟩, ⟨2, 2⟩, ⟨0, 0⟩, ⟨0, 0⟩, ⟨0, 0⟩, ⟨0, 0⟩]
  max_var := 7
  archive_propagate := []
  values := fun _ => 0
  archive_conflicts := 0

/-- The contents of the vector at table index `i` (empty outside the table). -/
def contents_at (s : kissat) (i : Nat) : List Nat :=
  match s.archive_watches[i]? with
  | some v => vector_contents s.archive_vectors.stack v
  | none => []

/-- The state `s'` differs from `s` at most in the vector store and in the
entries of the watch table (whose length is the same). -/
def same_outside_vectors (s s' : kissat) : Prop :=
  s'.option_archive = s.option_archive ∧ s'.archive_unlocked = s.archive_unlocked ∧
  s'.archive = s.archive ∧ s'.archive_capacity = s.archive_capacity ∧
  s'.max_var = s.max_var ∧ s'.archive_propagate = s.archive_propagate ∧
  s'.values = s.values ∧ s'.archive_conflicts = s.archive_conflicts ∧
  s'.archive_watches.length = s.archive_watches.length

/-- What a push of `e` onto the vector `v` does to the stack: the stack does
not shrink, the new vector `v'` lies inside it and reads as the old contents
followed by `e`, slots of the old stack outside the old range of `v` that are
not free are unchanged, and `v'` occupies only slots of the old range, free
slots, or slots beyond the old end of the stack. -/
def push_effect (stack stack' : List Nat) (v v' : archive_vector) (e : Nat) : Prop :=
  stack.length ≤ stack'.length ∧
  v'.offset + v'.size ≤ stack'.length ∧
  (∀ k, k < stack.length → ¬(v.offset ≤ k ∧ k < v.offset + v.size) →
    stack[k]? ≠ some INVALID_VECTOR_ELEMENT → stack'[k]? = stack[k]?) ∧
  (∀ k, v'.offset ≤ k → k < v'.offset + v'.size →
    (v.offset ≤ k ∧ k < v.offset + v.size) ∨ stack.length ≤ k ∨
      stack[k]? = some INVALID_VECTOR_ELEMENT) ∧
  vector_contents stack' v' = vector_contents stack v ++ [e]

/-- What a completed push of `e` onto the vector at index `idx` guarantees about
the state `t` it leaves: the store is well formed, nothing outside the store
changed, the vector reads as before followed by `e`, and every other vector
reads as before. -/
def push_post (s t : kissat) (idx e : Nat) : Prop :=
  vectors_ok t ∧ same_outside_vectors s t ∧
  contents_at t idx = contents_at s idx ++ [e] ∧
  ∀ j, j ≠ idx → contents_at t j = contents_at s j

/-- The state `s'` is `s` with fresh (zeroed) vectors appended to the watch table
and a possibly larger `max_var`; nothing else differs. -/
def table_grown (s s' : kissat) : Prop :=
  s'.option_archive = s.option_archive ∧ s'.archive_unlocked = s.archive_unlocked ∧
  s'.archive = s.archive ∧ s'.archive_capacity = s.archive_capacity ∧
  s'.archive_vectors = s.archive_vectors ∧ s'.archive_propagate = s.archive_propagate ∧
  s'.values = s.values ∧ s'.archive_conflicts = s.archive_conflicts ∧
  s.max_var ≤ s'.max_var ∧
  ∃ k, s'.archive_watches = s.archive_watches ++ List.replicate k ⟨0, 0⟩

/-- The state in which the loop over the queue arrives after every literal of
`front` was processed without leaving the function; `none` when one of them
returned or failed. -/
def state_after (env : Env) : List Nat → kissat → Option kissat
  | [], s => some s
  | ilit :: rest, s =>
    match propagate_literal env s ilit with
    | .ok (.next s') => state_after env rest s'
    | _ => none

/-- Call `kissat_propagate_archive` `n` times in a row. -/
def propagate_times (env : Env) : Nat → kissat → Result kissat
  | 0, s => .ok s
  | n + 1, s =>
    match kissat_propagate_archive env s with
    | .error a => .error a
    | .ok s' => propagate_times env n s'

/-- An external literal is usable: it is a valid external literal and imports
to a valid internal literal. -/
def literal_valid (env : Env) (elit : Int) : Prop :=
  env.VALID_EXTERNAL_LITERAL elit = true ∧
  env.VALID_INTERNAL_LITERAL (env.kissat_import_literal elit) = true

instance (env : Env) (elit : Int) : Decidable (literal_valid env elit) := by
  unfold literal_valid; infer_instance

/-- The value of an external literal under the assignment `values`. -/
def value_of (env : Env) (values : Nat → Int) (elit : Int) : Int :=
  values (env.kissat_import_literal elit)

/-- The other watched literal of a record for the walk of the list of `¬lit`:
`lits[0] ^ lits[1] ^ (-lit)`. -/
def other_watched (c : archive_clause) (lit : Int) : Option Int :=
  match c.lits with
  | l0 :: l1 :: _ => some (Int.xor (Int.xor l0 l1) (-lit))
  | _ => none

/-- Every unwatched literal of the record (positions `2` to `size - 1`) is
valid and false: a replacement search visits them all and finds no non-false
literal. -/
def unwatched_all_false (env : Env) (values : Nat → Int) (c : archive_clause) : Prop :=
  ∀ k, 2 ≤ k → k < c.size →
    ∃ x, c.lits[k]? = some x ∧ literal_valid env x ∧ value_of env values x < 0

/-- The watch pair `head`, `tail` is a conflict for the walk of the list of
`¬lit` over `arena`: its blocking literal is valid and not true, its clause is
not garbage, the other watched literal of the clause is valid and false, and
every unwatched literal of the clause is valid and false. -/
def conflict_pair (env : Env) (values : Nat → Int) (lit : Int) (arena : List ward)
    (head tail : Nat) : Prop :=
  literal_valid env (blocking_lit head) ∧
  ¬ value_of env values (blocking_lit head) > 0 ∧
  ∃ c other, dereference_archive_clause arena tail = some c ∧ c.garbage = false ∧
    other_watched c lit = some other ∧
    literal_valid env other ∧ value_of env values other < 0 ∧
    unwatched_all_false env values c

/-- The arena `arena'` holds a record exactly where `arena` holds one, with the
same `size`; a readable record stays readable and a garbage record stays
garbage. -/
def arena_refines (arena arena' : List ward) : Prop :=
  arena'.length = arena.length ∧
  (∀ ref c', dereference_archive_clause arena' ref = some c' →
    ∃ c, dereference_archive_clause arena ref = some c) ∧
  ∀ ref c, dereference_archive_clause arena ref = some c →
    ∃ c', dereference_archive_clause arena' ref = some c' ∧ c'.size = c.size ∧
      (record_ok c → record_ok c') ∧ (c.garbage = true → c'.garbage = true)

/-- The blocking literal of a head word is valid and true. -/
def blocking_true (env : Env) (values : Nat → Int) (head : Nat) : Prop :=
  literal_valid env (blocking_lit head) ∧ value_of env values (blocking_lit head) > 0

instance (env : Env) (values : Nat → Int) (head : Nat) :
    Decidable (blocking_true env values head) := by
  unfold blocking_true; infer_instance

/-- The pair `p` is the pair `q` kept whole: the same reference word, and the
same head word or the head word of `q` with another blocking literal stored. -/
def same_pair_up_to_blocking (p q : Nat × Nat) : Prop :=
  p.2 = q.2 ∧ (p.1 = q.1 ∨ ∃ other, p.1 = set_blocking_lit q.1 other)

/-- The pair is one the walk removes as garbage: its blocking literal is valid
and not true and its reference is that of a record marked garbage. -/
def garbage_pair (env : Env) (values : Nat → Int) (arena : List ward) (p : Nat × Nat) : Prop :=
  literal_valid env (blocking_lit p.1) ∧ ¬ value_of env values (blocking_lit p.1) > 0 ∧
  ∃ c, dereference_archive_clause arena p.2 = some c ∧ c.garbage = true

/-- The walk of a call of `kissat_propagate_archive` on `s` reaches a conflict
pair: archiving is enabled and unlocked, the arena is not empty, the loop over
the queue arrives at a queued literal `ilit` (after the literals `front` were
processed without a return) in a state `sk`, and the walk of the watch list of
the negation of its export, after the words `ws_front` were walked without
conflict (leaving the arena `arena'`), arrives at a pair `head`, `tail` that is
a conflict pair over `arena'`. -/
def reaches_conflict (env : Env) (s : kissat) : Prop :=
  s.option_archive = true ∧ s.archive_unlocked = true ∧ s.archive.length ≠ 0 ∧
  ∃ front ilit rest sk ws_front head tail ws_back kept_front arena',
    s.archive_propagate = front ++ ilit :: rest ∧
    state_after env front s = some sk ∧
    watch_list sk (-(env.kissat_export_literal ilit)) = ws_front ++ head :: tail :: ws_back ∧
    walk_watches env sk.values (env.kissat_export_literal ilit) ws_front sk.archive =
      .ok (kept_front, arena', false) ∧
    conflict_pair env sk.values (env.kissat_export_literal ilit) arena' head tail

/-- A state holding the clauses `5, 1, 2` (reference 0), `5, -3, 7` (reference 2,
marked garbage) and `5, 4, 6` (reference 4), as archiving them in this order
leaves it, with `-5`, `1`, `4` and `3` assigned true and `-5` queued: the watch
list of `5` holds the three pairs (blocking `1`, 0), (blocking `-3`, 2),
(blocking `4`, 4). -/
def compaction_state : kissat where
  option_archive := true
  archive_unlocked := true
  archive :=
    [ward.head { garbage := false, searched := 2, size := 3, lits := [5, 1, 2] }, ward.body,
     ward.head { garbage := true, searched := 2, size := 3, lits := [5, -3, 7] }, ward.body,
     ward.head { garbage := false, searched := 2, size := 3, lits := [5, 4, 6] }, ward.body]
  archive_capacity := 8
  archive_vectors :=
    { stack := [0, 4294967295, 4294967295, 4294967295, 5, 0, 4294967295, 4294967295,
                4294967295, 4294967295, 5, 2, 1, 0, 2147483645, 2, 4, 4, 4294967295,
                4294967295, 5, 4],
      capacity := 32, usable := 9 }
  archive_watches :=
    [⟨0, 0⟩, ⟨4, 2⟩, ⟨0, 0⟩, ⟨0, 0⟩, ⟨10, 2⟩, ⟨0, 0⟩, ⟨0, 0⟩,
     ⟨20, 2⟩, ⟨0, 0⟩, ⟨12, 6⟩, ⟨0, 0⟩, ⟨0, 0⟩, ⟨0, 0⟩, ⟨0, 0⟩]
  max_var := 7
  archive_propagate := [9]
  values := values_of [-5, 1, 4, 3]
  archive_conflicts := 0

/-- Call `push_archive_vectors` on the vector at table index `idx` once for
each element of the list, in order. -/
def push_all (env : Env) (idx : Nat) : List Nat → kissat → Result kissat
  | [], s => .ok s
  | e :: rest, s =>
    match push_archive_vectors env s idx e with
    | .error a => .error a
    | .ok s' => push_all env idx rest s'

/-- Call `allocate_archived_clause` once for each clause size of the list, in
order; the result lists the returned references, each with the number of arena
words of its record. -/
def allocate_all (env : Env) : List Nat → kissat → Result (List (Nat × Nat) × kissat)
  | [], s => .ok ([], s)
  | size :: rest, s =>
    match allocate_archived_clause env s size with
    | .error a => .error a
    | .ok (ref, s1) =>
      match allocate_all env rest s1 with
      | .error a => .error a
      | .ok (refs, t) =>
        .ok ((ref, bytes_of_archive_clause env size / env.sizeof_ward) :: refs, t)

/-- The record is forcing for the walk of the list of `¬lit`: it is not
garbage, its other watched literal is valid and unassigned, and every unwatched
literal is valid and false (the replacement search finds no non-false
literal). -/
def forcing_record (env : Env) (values : Nat → Int) (lit : Int) (c : archive_clause) : Prop :=
  c.garbage = false ∧
  ∃ other, other_watched c lit = some other ∧ literal_valid env other ∧
    value_of env values other = 0 ∧ unwatched_all_false env values c

/-- Every record of the arena has a literal array of `size` entries and a
cursor `searched` with `2 ≤ searched < size`. -/
def cursors_ok (arena : List ward) : Prop :=
  ∀ ref c, dereference_archive_clause arena ref = some c →
    c.size = c.lits.length ∧ 2 ≤ c.searched ∧ c.searched < c.size

/-- The states a run of the solver reaches from a state with an empty archive:
by calls of `kissat_archive_clause` (on clauses of at least three literals) and
of `kissat_propagate_archive` that return, the rest of the solver (which does
not write into the arena) changing the assignment, the propagation queue and
any other part of the state in between. -/
inductive reachable (env : Env) : kissat → Prop
  | empty (s : kissat) : s.archive = [] → reachable env s
  | archive (s t : kissat) (c : clause) : reachable env s → 3 ≤ c.lits.length →
      kissat_archive_clause env s c = .ok t → reachable env t
  | propagate (s t : kissat) : reachable env s →
      kissat_propagate_archive env s = .ok t → reachable env t
  | other (s t : kissat) : reachable env s → t.archive = s.archive → reachable env t

/-- The head words of a word sequence (the words at positions 0, 2, 4, ..)
have the tag bit clear. -/
def heads_clear : List Nat → Prop
  | [] => True
  | [head] => head < 2 ^ 31
  | head :: _ :: rest => head < 2 ^ 31 ∧ heads_clear rest

/-- The vector store is sound: it is well formed (no vector holds the
sentinel) and the head words of every vector have the tag bit clear. -/
def store_ok (s : kissat) : Prop :=
  vectors_ok s ∧ ∀ i, heads_clear (contents_at s i)

/-- The states reached from an empty vector store (an empty stack, every table
entry the zeroed vector) by calls that return of `push_archive_vectors` (the
element is not the sentinel, and has the tag bit clear when it is pushed at an
even position of its vector, where the head word of a watch pair stands), of
`enlarge_archive_vector`, of `resize_archive_vector` and of
`kissat_propagate_archive`, the rest of the solver state changing freely in
between. -/
inductive store_reachable (env : Env) : kissat → Prop
  | empty (s : kissat) : s.archive_vectors.stack = [] →
      (∀ v ∈ s.archive_watches, v = ⟨0, 0⟩) → store_reachable env s
  | push (s t : kissat) (idx e : Nat) : store_reachable env s →
      e ≠ INVALID_VECTOR_ELEMENT → ((contents_at s idx).length % 2 = 0 → e < 2 ^ 31) →
      push_archive_vectors env s idx e = .ok t → store_reachable env t
  | enlarge (s t : kissat) (idx pos : Nat) : store_reachable env s →
      enlarge_archive_vector env s idx = .ok (pos, t) → store_reachable env t
  | resize (s t : kissat) (idx new_size : Nat) : store_reachable env s →
      resize_archive_vector s idx new_size = .ok t → store_reachable env t
  | propagate (s t : kissat) : store_reachable env s →
      kissat_propagate_archive env s = .ok t → store_reachable env t
  | other (s t : kissat) : store_reachable env s →
      t.archive_vectors = s.archive_vectors → t.archive_watches = s.archive_watches →
      store_reachable env t

/-- A state with an empty vector store, a table for three variables and the
clause `2, -1, 3` in the arena; `-2` and `-1` are assigned true and `-2` is
queued. -/
def unwatched_state : kissat where
  option_archive := true
  archive_unlocked := true
  archive := [ward.head { garbage := false, searched := 2, size := 3, lits := [2, -1, 3] },
              ward.body]
  archive_capacity := 2
  archive_vectors := { stack := [], capacity := 0, usable := 0 }
  archive_watches := [⟨0, 0⟩, ⟨0, 0⟩, ⟨0, 0⟩, ⟨0, 0⟩, ⟨0, 0⟩, ⟨0, 0⟩]
  max_var := 3
  archive_propagate := [3]
  values := values_of [-2, -1]
  archive_conflicts := 0

/-- A vector `struct archive_vector` in the pointer representation (the
branch `#ifndef COMPACT`): the addresses `begin` and `end` in bytes; the null
pointer is address zero. -/
structure pointer_vector where
  begin : Nat
  end_ : Nat
deriving DecidableEq, Repr

/-- The macro `FIX_POINTER`: a null pointer is left alone, any other pointer is
moved by `moved` bytes. -/
def FIX_POINTER (moved : Int) (ptr : Nat) : Nat :=
  if ptr = 0 then 0 else (ptr + moved).toNat

/-- The function `fix_archive_vector_pointers_after_moving_stack` on the watch
table: the entries `archive_watches[0 .. 2 * max_var - 1]` get both pointers
fixed. -/
def fix_archive_vector_pointers_after_moving_stack (watches : List pointer_vector)
    (max_var : Nat) (moved : Int) : List pointer_vector :=
  (watches.take (2 * max_var)).map
      (fun p => { begin := FIX_POINTER moved p.begin, end_ := FIX_POINTER moved p.end_ }) ++
    watches.drop (2 * max_var)

/-- The offset and size (the function `offset_archive_vector` and
`size_archive_vector`, in elements of four bytes) of a vector in the pointer
representation, for a stack that begins at address `begin_stack`. -/
def offset_view (begin_stack : Nat) (p : pointer_vector) : archive_vector :=
  { offset := if p.begin = 0 then 0 else (p.begin - begin_stack) / 4,
    size := (p.end_ - p.begin) / 4 }

/-! ## Index arithmetic in `int` and the layout of a record -/

/-- The largest value of the C type `int`. -/
def INT_MAX : Int := 2 ^ 31 - 1

/-- An arithmetic step on `int`: a value outside the range of the type is
undefined behaviour. -/
def int_value (x : Int) : Result Int :=
  if -INT_MAX - 1 ≤ x ∧ x ≤ INT_MAX then .ok x else .error .undefined

/-- The function `lit2idx` with each step carried out in the type `int`:
the negation, the product and the difference in the order the source
evaluates them. -/
def lit2idx_int (lit : Int) : Result Int :=
  if lit < 0 then
    match int_value (-lit) with
    | .error e => .error e
    | .ok negated =>
      match int_value (negated * 2) with
      | .error e => .error e
      | .ok doubled => int_value (doubled - 2)
  else
    match int_value (lit * 2) with
    | .error e => .error e
    | .ok doubled => int_value (doubled - 1)

/-- The byte offset of the member `lits` in `struct archive_clause`: the flag
word, `searched` and `size` come first. -/
def offsetof_lits : Nat := 12

/-- Modelled from the spec: `END_LITS (c)` is the address one past the last of
the `c->size` literals of the record, here as a byte offset from the start of
the record. -/
def END_LITS (c : archive_clause) : Nat :=
  offsetof_lits + c.size * 4

/-- The function `actual_bytes_of_archive_clause`. -/
def actual_bytes_of_archive_clause (env : Env) (c : archive_clause) : Nat :=
  kissat_align_ward env (END_LITS c)

/-- The function `next_archive_clause` for the record `c` at reference `ref`:
the address `(char *) c + bytes` as an index of the arena, whose elements have
`sizeof (ward)` bytes. -/
def next_archive_clause (env : Env) (ref : Nat) (c : archive_clause) : Nat :=
  ref + actual_bytes_of_archive_clause env c / env.sizeof_ward

/-! ## The replacement search in the words of the specification -/

/-- The positions of the literal array in the order in which the replacement
search is said to visit them: `searched, ..., size - 1` and then
`2, ..., searched - 1`. -/
def scan_order (c : archive_clause) : List Nat :=
  List.range' c.searched (c.size - c.searched) ++ List.range' 2 (c.searched - 2)

/-- The literal at position `k` of the record is not false. -/
def non_false (env : Env) (values : Nat → Int) (c : archive_clause) (k : Nat) : Bool :=
  match c.lits[k]? with
  | some x => decide (value_of env values x ≥ 0)
  | none => false

/-- The first position in `scan_order` whose literal is not false. -/
def first_non_false (env : Env) (values : Nat → Int) (c : archive_clause) : Option Nat :=
  (scan_order c).find? (non_false env values c)

/-! ## Watch lists and the records they reference -/

/-- The record at the reference has the literal `x` among its first two
literals. -/
def owns (arena : List ward) (ref : Nat) (x : Int) : Bool :=
  match dereference_archive_clause arena ref with
  | some c =>
    (match c.lits with
     | l0 :: l1 :: _ => decide (l0 = x ∨ l1 = x)
     | _ => false)
  | none => false

/-- Every pair that the walk of the word sequence for the literal `lit` visits
references, at the time it is visited, a record with `¬lit` among its first two
literals. -/
def owned_walk (env : Env) (values : Nat → Int) (lit : Int) : List Nat → List ward → Bool
  | head :: tail :: rest, arena =>
    owns arena tail (-lit) &&
    (match visit_watch env values lit arena head tail with
     | .ok (.removed arena') => owned_walk env values lit rest arena'
     | .ok (.kept _) => owned_walk env values lit rest arena
     | _ => true)
  | _, _ => true

/-- Every pair that a pass over the queue visits references, at the time it is
visited, a record with the negation of the propagated literal among its first
two literals. -/
def owned_pass (env : Env) : List Nat → kissat → Bool
  | [], _ => true
  | ilit :: rest, s =>
    owned_walk env s.values (env.kissat_export_literal ilit)
      (watch_list s (-(env.kissat_export_literal ilit))) s.archive &&
    (match propagate_literal env s ilit with
     | .ok (.next s') => owned_pass env rest s'
     | _ => true)

/-- The arena `arena'` holds, wherever `arena` holds a record, a record with
the same literals up to their order. -/
def literals_kept (arena arena' : List ward) : Prop :=
  ∀ ref c, dereference_archive_clause arena ref = some c →
    ∃ c', dereference_archive_clause arena' ref = some c' ∧ c'.lits.Perm c.lits

/-! ## The watch invariant -/

/-- The literal whose watch list stands at index `i` of the table: the inverse
of `lit2idx`. -/
def idx2lit (i : Nat) : Int :=
  if i % 2 = 0 then -((i / 2 + 1 : Nat) : Int) else ((i / 2 + 1 : Nat) : Int)

/-- Every pair in the watch list of a literal `x` references a record with `x`
among its first two literals. -/
def owner_ok (s : kissat) : Prop :=
  ∀ i, ∀ h : i < s.archive_watches.length,
    ∀ p ∈ watch_pairs (vector_contents s.archive_vectors.stack (s.archive_watches[i])),
      owns s.archive p.2 (idx2lit i) = true

instance (s : kissat) : Decidable (owner_ok s) := by
  unfold owner_ok; infer_instance

/-- No watch list holds two pairs with the same reference. -/
def refs_nodup (s : kissat) : Prop :=
  ∀ i, ∀ h : i < s.archive_watches.length,
    ((watch_pairs (vector_contents s.archive_vectors.stack (s.archive_watches[i]))).map
      Prod.snd).Nodup

instance (s : kissat) : Decidable (refs_nodup s) := by
  unfold refs_nodup; infer_instance

/-- A state holding the clause `1, 2, 4` (reference 0) in which the watch list
of `1` holds the pair (blocking `2`, 0) twice and the list of `2` the pair
(blocking `1`, 0); `-1`, `-2` and `-7` are true, `4` is unassigned and `-1` is
queued. -/
def twice_watched_state : kissat where
  option_archive := true
  archive_unlocked := true
  archive := [ward.head { garbage := false, searched := 2, size := 3, lits := [1, 2, 4] },
              ward.body]
  archive_capacity := 2
  archive_vectors := { stack := [0, 2, 0, 2, 0, 1, 0], capacity := 8, usable := 0 }
  archive_watches :=
    [⟨0, 0⟩, ⟨1, 4⟩, ⟨0, 0⟩, ⟨5, 2⟩, ⟨0, 0⟩, ⟨0, 0⟩, ⟨0, 0⟩,
     ⟨0, 0⟩, ⟨0, 0⟩, ⟨0, 0⟩, ⟨0, 0⟩, ⟨0, 0⟩, ⟨0, 0⟩, ⟨0, 0⟩]
  max_var := 7
  archive_propagate := [1]
  values := values_of [-1, -2, -7]
  archive_conflicts := 0

/-! ## The counter of free slots -/

/-- The loop of `check_archive_vectors` over the stack from its second element
on: the number of elements equal to the sentinel (the local `invalid`). -/
def count_invalid (stack : List Nat) : Nat :=
  (stack.drop 1).count INVALID_VECTOR_ELEMENT

/-- The counter `usable` is in step with the stack: it is the number of
sentinel-valued elements, the first element of the stack is not the sentinel,
no vector that holds an element starts at slot zero, and the capacity is zero
or a power of two up to `2 ^ k`. -/
def usable_ok (k : Nat) (s : kissat) : Prop :=
  s.archive_vectors.usable = s.archive_vectors.stack.count INVALID_VECTOR_ELEMENT ∧
  (∀ x, s.archive_vectors.stack[0]? = some x → x ≠ INVALID_VECTOR_ELEMENT) ∧
  (∀ (i : Nat) (v : archive_vector), s.archive_watches[i]? = some v → v.size ≠ 0 →
    1 ≤ v.offset) ∧
  (s.archive_vectors.capacity = 0 ∨ ∃ j, j ≤ k ∧ s.archive_vectors.capacity = 2 ^ j)

/-- The states reached from the released vector store (an empty stack of
capacity zero, the counter `usable` zero, every table entry the zeroed vector)
by calls that return of `push_archive_vectors` (the element is not the
sentinel, and has the tag bit clear when it is pushed at an even position of
its vector, where the head word of a watch pair stands), of
`enlarge_archive_vector` on a stack that is not empty, of
`resize_archive_vector` and of `kissat_propagate_archive`, the rest of the
solver state changing freely in between. -/
inductive usable_reachable (env : Env) : kissat → Prop
  | empty (s : kissat) : s.archive_vectors = { stack := [], capacity := 0, usable := 0 } →
      (∀ v ∈ s.archive_watches, v = ⟨0, 0⟩) → usable_reachable env s
  | push (s t : kissat) (idx e : Nat) : usable_reachable env s →
      e ≠ INVALID_VECTOR_ELEMENT → ((contents_at s idx).length % 2 = 0 → e < 2 ^ 31) →
      push_archive_vectors env s idx e = .ok t → usable_reachable env t
  | enlarge (s t : kissat) (idx pos : Nat) : usable_reachable env s →
      s.archive_vectors.stack ≠ [] →
      enlarge_archive_vector env s idx = .ok (pos, t) → usable_reachable env t
  | resize (s t : kissat) (idx new_size : Nat) : usable_reachable env s →
      resize_archive_vector s idx new_size = .ok t → usable_reachable env t
  | propagate (s t : kissat) : usable_reachable env s →
      kissat_propagate_archive env s = .ok t → usable_reachable env t
  | other (s t : kissat) : usable_reachable env s →
      t.archive_vectors = s.archive_vectors → t.archive_watches = s.archive_watches →
      usable_reachable env t

/-! # Properties

From here on: lemmas about the definitions above, then the properties of the
archive. -/

/-! ## Lists of words -/

theorem length_write_words (l xs : List Nat) (start : Nat)
    (h : start + xs.length ≤ l.length) :
    (write_words l start xs).length = l.length := by
  simp only [write_words, List.length_append, List.length_take, List.length_drop]
  omega

theorem getElem?_write_words (l xs : List Nat) (start k : Nat)
    (h : start + xs.length ≤ l.length) :
    (write_words l start xs)[k]? =
      if start ≤ k ∧ k < start + xs.length then xs[k - start]? else l[k]? := by
  unfold write_words
  have hlen : (l.take start).length = start := by
    rw [List.length_take]; omega
  rw [List.append_assoc, List.getElem?_append, hlen]
  by_cases h1 : k < start
  · rw [if_pos h1, List.getElem?_take, if_pos h1, if_neg (by omega)]
  · rw [if_neg h1, List.getElem?_append]
    by_cases h2 : k - start < xs.length
    · rw [if_pos h2, if_pos (by omega)]
    · rw [if_neg h2, if_neg (by omega), List.getElem?_drop]
      congr 1
      omega

theorem getElem?_vector_contents (stack : List Nat) (v : archive_vector) (k : Nat) :
    (vector_contents stack v)[k]? = if k < v.size then stack[v.offset + k]? else none := by
  unfold vector_contents
  rw [List.getElem?_take, List.getElem?_drop]

theorem length_vector_contents (stack : List Nat) (v : archive_vector)
    (h : v.offset + v.size ≤ stack.length) :
    (vector_contents stack v).length = v.size := by
  unfold vector_contents
  rw [List.length_take, List.length_drop]
  omega

theorem vector_contents_congr (stack stack' : List Nat) (v : archive_vector)
    (h : ∀ k, v.offset ≤ k → k < v.offset + v.size → stack'[k]? = stack[k]?) :
    vector_contents stack' v = vector_contents stack v := by
  apply List.ext_getElem?
  intro k
  rw [getElem?_vector_contents, getElem?_vector_contents]
  split
  · exact h _ (by omega) (by omega)
  · rfl

theorem mem_vector_contents (stack : List Nat) (v : archive_vector) (x : Nat) :
    x ∈ vector_contents stack v ↔
      ∃ k, v.offset ≤ k ∧ k < v.offset + v.size ∧ stack[k]? = some x := by
  rw [List.mem_iff_getElem?]
  constructor
  · rintro ⟨n, hn⟩
    rw [getElem?_vector_contents] at hn
    split at hn
    · exact ⟨v.offset + n, by omega, by omega, hn⟩
    · cases hn
  · rintro ⟨k, h1, h2, h3⟩
    refine ⟨k - v.offset, ?_⟩
    rw [getElem?_vector_contents, if_pos (by omega)]
    rw [← h3]
    congr 1
    omega

/-! ## The enlargement loop -/

theorem kissat_stack_enlarge_gt (capacity : Nat) : capacity < kissat_stack_enlarge capacity := by
  unfold kissat_stack_enlarge
  split <;> omega

theorem enlarge_until_spec (maximum size needed : Nat) :
    ∀ fuel capacity, size ≤ capacity → size + needed ≤ capacity + fuel →
      capacity < size + needed →
      enlarge_until maximum size needed fuel capacity = .error .fatal ∨
      ∃ capacity', enlarge_until maximum size needed fuel capacity = .ok capacity' ∧
        size + needed ≤ capacity' := by
  intro fuel
  induction fuel with
  | zero => intro capacity h0 h1 h2; omega
  | succ fuel ih =>
    intro capacity h0 h1 h2
    unfold enlarge_until
    by_cases hmax : capacity = maximum
    · left; simp [hmax]
    · simp only [if_neg hmax]
      have hgt := kissat_stack_enlarge_gt capacity
      by_cases hcont : needed > kissat_stack_enlarge capacity - size
      · simp only [if_pos hcont]
        exact ih _ (by omega) (by omega) (by omega)
      · simp only [if_neg hcont]
        right
        exact ⟨_, rfl, by omega⟩

/-! ## The invariant of the vector store -/

theorem vectors_ok_iff (s : kissat) : vectors_ok s ↔
    s.archive_vectors.stack.length ≤ s.archive_vectors.capacity ∧
    (∀ (i : Nat) (v : archive_vector), s.archive_watches[i]? = some v →
      v.offset + v.size ≤ s.archive_vectors.stack.length ∧
      ∀ k, v.offset ≤ k → k < v.offset + v.size →
        s.archive_vectors.stack[k]? ≠ some INVALID_VECTOR_ELEMENT) ∧
    (∀ (i j : Nat) (v w : archive_vector), i ≠ j → s.archive_watches[i]? = some v →
      s.archive_watches[j]? = some w →
      disjoint_vectors v w) := by
  unfold vectors_ok
  constructor
  · rintro ⟨h1, h2, h3⟩
    refine ⟨h1, ?_, ?_⟩
    · intro i v hv
      obtain ⟨hi, rfl⟩ := List.getElem?_eq_some_iff.mp hv
      refine ⟨(h2 i hi).1, ?_⟩
      intro k hk1 hk2 hk
      exact (h2 i hi).2 ((mem_vector_contents _ _ _).mpr ⟨k, hk1, hk2, hk⟩)
    · intro i j v w hij hv hw
      obtain ⟨hi, rfl⟩ := List.getElem?_eq_some_iff.mp hv
      obtain ⟨hj, rfl⟩ := List.getElem?_eq_some_iff.mp hw
      exact h3 i hi j hj hij
  · rintro ⟨h1, h2, h3⟩
    refine ⟨h1, ?_, ?_⟩
    · intro i hi
      have hv := List.getElem?_eq_getElem hi
      refine ⟨(h2 i _ hv).1, ?_⟩
      intro hmem
      obtain ⟨k, hk1, hk2, hk⟩ := (mem_vector_contents _ _ _).mp hmem
      exact (h2 i _ hv).2 k hk1 hk2 hk
    · intro i hi j hj hij
      exact h3 i j _ _ hij (List.getElem?_eq_getElem hi) (List.getElem?_eq_getElem hj)

/-- Replacing the vector at `idx` and changing only slots that were in its old
range, were free (sentinel) or lie beyond the old end of the stack keeps the
store well formed and every other vector readable as before. -/
theorem vectors_ok_step (s s' : kissat) (idx : Nat) (v v' : archive_vector)
    (hs : vectors_ok s) (hv : s.archive_watches[idx]? = some v)
    (htbl : s'.archive_watches = s.archive_watches.set idx v')
    (hcap : s'.archive_vectors.stack.length ≤ s'.archive_vectors.capacity)
    (hgrow : s.archive_vectors.stack.length ≤ s'.archive_vectors.stack.length)
    (hin : v'.offset + v'.size ≤ s'.archive_vectors.stack.length)
    (hkeep : ∀ k, k < s.archive_vectors.stack.length → ¬(v.offset ≤ k ∧ k < v.offset + v.size) →
      s.archive_vectors.stack[k]? ≠ some INVALID_VECTOR_ELEMENT →
      s'.archive_vectors.stack[k]? = s.archive_vectors.stack[k]?)
    (hfoot : ∀ k, v'.offset ≤ k → k < v'.offset + v'.size →
      (v.offset ≤ k ∧ k < v.offset + v.size) ∨ s.archive_vectors.stack.length ≤ k ∨
        s.archive_vectors.stack[k]? = some INVALID_VECTOR_ELEMENT)
    (hnew : ∀ k, v'.offset ≤ k → k < v'.offset + v'.size →
      s'.archive_vectors.stack[k]? ≠ some INVALID_VECTOR_ELEMENT) :
    vectors_ok s' ∧ ∀ j, j ≠ idx → contents_at s' j = contents_at s j := by
  obtain ⟨h1, h2, h3⟩ := (vectors_ok_iff s).mp hs
  have hidx : idx < s.archive_watches.length := (List.getElem?_eq_some_iff.mp hv).1
  -- slots of another vector are outside the old range of `v`, inside the stack, not free
  have hother : ∀ (j : Nat) (w : archive_vector), j ≠ idx → s.archive_watches[j]? = some w →
      ∀ k, w.offset ≤ k → k < w.offset + w.size →
        k < s.archive_vectors.stack.length ∧ ¬(v.offset ≤ k ∧ k < v.offset + v.size) ∧
          s.archive_vectors.stack[k]? ≠ some INVALID_VECTOR_ELEMENT := by
    intro j w hj hw k hk1 hk2
    have hb := (h2 j w hw).1
    refine ⟨by omega, ?_, (h2 j w hw).2 k hk1 hk2⟩
    have hd := h3 j idx w v hj hw hv
    unfold disjoint_vectors at hd
    omega
  -- a vector of the new table is the new vector at `idx` or an old one elsewhere
  have hget : ∀ (i : Nat) (w : archive_vector), s'.archive_watches[i]? = some w →
      (i = idx ∧ w = v') ∨ (i ≠ idx ∧ s.archive_watches[i]? = some w) := by
    intro i w hw
    rw [htbl, List.getElem?_set] at hw
    by_cases hi : idx = i
    · subst hi
      simp only [if_true, hidx] at hw
      left; exact ⟨rfl, (Option.some.inj hw).symm⟩
    · rw [if_neg hi] at hw
      right; exact ⟨fun h => hi h.symm, hw⟩
  -- the new vector shares no slot with another vector
  have hsep : ∀ (j : Nat) (w : archive_vector), j ≠ idx → s.archive_watches[j]? = some w →
      disjoint_vectors v' w := by
    intro j w hj hw
    unfold disjoint_vectors
    by_contra hcon
    have hc : ¬ v'.offset + v'.size ≤ w.offset ∧ ¬ w.offset + w.size ≤ v'.offset ∧
        v'.size ≠ 0 ∧ w.size ≠ 0 := by
      refine ⟨fun h => hcon (Or.inl h), fun h => hcon (Or.inr (Or.inl h)),
        fun h => hcon (Or.inr (Or.inr (Or.inl h))), fun h => hcon (Or.inr (Or.inr (Or.inr h)))⟩
    obtain ⟨c1, c2, c3, c4⟩ := hc
    -- a common slot
    have hex : ∃ k, v'.offset ≤ k ∧ k < v'.offset + v'.size ∧ w.offset ≤ k ∧
        k < w.offset + w.size := by
      by_cases hle : v'.offset ≤ w.offset
      · exact ⟨w.offset, by omega, by omega, by omega, by omega⟩
      · exact ⟨v'.offset, by omega, by omega, by omega, by omega⟩
    obtain ⟨k, k1, k2, k3, k4⟩ := hex
    obtain ⟨a, b, c⟩ := hother j w hj hw k k3 k4
    rcases hfoot k k1 k2 with h | h | h
    · exact b h
    · omega
    · exact c h
  constructor
  · rw [vectors_ok_iff]
    refine ⟨hcap, ?_, ?_⟩
    · intro i w hw
      rcases hget i w hw with ⟨_, rfl⟩ | ⟨hi, hw0⟩
      · exact ⟨hin, hnew⟩
      · have hb := (h2 i w hw0).1
        refine ⟨by omega, ?_⟩
        intro k hk1 hk2
        obtain ⟨a, b, c⟩ := hother i w hi hw0 k hk1 hk2
        rw [hkeep k a b c]
        exact c
    · intro i j w1 w2 hij hw1 hw2
      rcases hget i w1 hw1 with ⟨hi, rfl⟩ | ⟨hi, hw1'⟩
      · rcases hget j w2 hw2 with ⟨hj, rfl⟩ | ⟨hj, hw2'⟩
        · omega
        · exact hsep j w2 hj hw2'
      · rcases hget j w2 hw2 with ⟨hj, rfl⟩ | ⟨hj, hw2'⟩
        · have := hsep i w1 hi hw1'
          unfold disjoint_vectors at this ⊢
          omega
        · exact h3 i j w1 w2 hij hw1' hw2'
  · intro j hj
    unfold contents_at
    rw [htbl, List.getElem?_set_ne (Ne.symm hj)]
    cases hw : s.archive_watches[j]? with
    | none => rfl
    | some w =>
      simp only
      apply vector_contents_congr
      intro k hk1 hk2
      obtain ⟨a, b, c⟩ := hother j w hj hw k hk1 hk2
      exact hkeep k a b c

/-! ## The four ways a push changes the stack -/

theorem vector_contents_snoc (stack stack' : List Nat) (v v' : archive_vector) (e : Nat)
    (hsize : v'.size = v.size + 1) (hin : v.offset + v.size ≤ stack.length)
    (hold : ∀ i, i < v.size → stack'[v'.offset + i]? = stack[v.offset + i]?)
    (hlast : stack'[v'.offset + v.size]? = some e) :
    vector_contents stack' v' = vector_contents stack v ++ [e] := by
  apply List.ext_getElem?
  intro k
  rw [getElem?_vector_contents, List.getElem?_append, length_vector_contents _ _ hin,
    getElem?_vector_contents]
  by_cases h1 : k < v.size
  · rw [if_pos (by omega), if_pos h1, if_pos h1]
    exact hold k h1
  · rw [if_neg h1]
    by_cases h2 : k = v.size
    · subst h2
      rw [if_pos (by omega), hlast]
      simp
    · rw [if_neg (by omega)]
      have : k - v.size = (k - v.size - 1) + 1 := by omega
      rw [this]
      simp

theorem push_effect_append (stack : List Nat) (v : archive_vector) (e : Nat)
    (hend : v.offset + v.size = stack.length) :
    push_effect stack (stack ++ [e]) v { v with size := v.size + 1 } e := by
  refine ⟨by simp, by simp; omega, ?_, ?_, ?_⟩
  · intro k hk _ _
    exact List.getElem?_append_left hk
  · intro k hk1 hk2
    simp only at hk1 hk2
    omega
  · apply vector_contents_snoc _ _ _ _ _ rfl (by omega)
    · intro i hi
      show (stack ++ [e])[v.offset + i]? = stack[v.offset + i]?
      exact List.getElem?_append_left (by omega)
    · show (stack ++ [e])[v.offset + v.size]? = some e
      rw [hend, List.getElem?_append_right (Nat.le_refl _)]
      simp

theorem push_effect_fresh (stack st : List Nat) (v : archive_vector) (e : Nat)
    (hv : v.size = 0) (hst : stack.length ≤ st.length)
    (hsame : ∀ k, k < stack.length → st[k]? = stack[k]?) :
    push_effect stack (st ++ [e]) v ⟨st.length, 1⟩ e := by
  refine ⟨by simp; omega, by simp, ?_, ?_, ?_⟩
  · intro k hk _ _
    rw [List.getElem?_append_left (by omega)]
    exact hsame k hk
  · intro k hk1 hk2
    simp only at hk1 hk2
    omega
  · have h0 : vector_contents stack v = [] := by
      unfold vector_contents; rw [hv]; simp
    rw [h0]
    unfold vector_contents
    simp

theorem push_effect_store (stack : List Nat) (v : archive_vector) (e : Nat)
    (hin : v.offset + v.size < stack.length)
    (hfree : stack[v.offset + v.size]? = some INVALID_VECTOR_ELEMENT) :
    push_effect stack (write_words stack (v.offset + v.size) [e]) v
      { v with size := v.size + 1 } e := by
  have hlen : (write_words stack (v.offset + v.size) [e]).length = stack.length :=
    length_write_words _ _ _ (by simp; omega)
  have hget : ∀ k, (write_words stack (v.offset + v.size) [e])[k]? =
      if k = v.offset + v.size then some e else stack[k]? := by
    intro k
    rw [getElem?_write_words _ _ _ _ (by simp; omega)]
    by_cases hk : k = v.offset + v.size
    · subst hk; simp
    · rw [if_neg hk, if_neg]
      simp only [List.length_singleton]
      omega
  refine ⟨by omega, by simp only; omega, ?_, ?_, ?_⟩
  · intro k hk hout hne
    rw [hget, if_neg]
    intro hk'
    subst hk'
    exact hne hfree
  · intro k hk1 hk2
    simp only at hk1 hk2
    by_cases hk : k = v.offset + v.size
    · subst hk; right; right; exact hfree
    · left; omega
  · apply vector_contents_snoc _ _ _ _ _ rfl (by omega)
    · intro i hi
      simp only
      rw [hget, if_neg (by omega)]
    · simp only
      rw [hget, if_pos rfl]

theorem push_effect_enlarged (stack : List Nat) (v : archive_vector) (e delta : Nat)
    (hin : v.offset + v.size ≤ stack.length) (hdelta : 1 ≤ delta) :
    push_effect stack
      (write_words
        (write_words stack v.offset (List.replicate v.size INVALID_VECTOR_ELEMENT) ++
          vector_contents stack v ++ List.replicate delta INVALID_VECTOR_ELEMENT)
        (stack.length + v.size) [e])
      v ⟨stack.length, v.size + 1⟩ e := by
  have hvac : (write_words stack v.offset
      (List.replicate v.size INVALID_VECTOR_ELEMENT)).length = stack.length :=
    length_write_words _ _ _ (by simp; omega)
  have hmoved := length_vector_contents stack v hin
  have hext : (write_words stack v.offset (List.replicate v.size INVALID_VECTOR_ELEMENT) ++
      vector_contents stack v ++ List.replicate delta INVALID_VECTOR_ELEMENT).length =
      stack.length + v.size + delta := by
    simp only [List.length_append, hvac, hmoved, List.length_replicate]
  have hlen : (write_words
        (write_words stack v.offset (List.replicate v.size INVALID_VECTOR_ELEMENT) ++
          vector_contents stack v ++ List.replicate delta INVALID_VECTOR_ELEMENT)
        (stack.length + v.size) [e]).length = stack.length + v.size + delta := by
    rw [length_write_words _ _ _ (by rw [hext]; simp; omega), hext]
  have hget : ∀ k, (write_words
        (write_words stack v.offset (List.replicate v.size INVALID_VECTOR_ELEMENT) ++
          vector_contents stack v ++ List.replicate delta INVALID_VECTOR_ELEMENT)
        (stack.length + v.size) [e])[k]? =
      if k = stack.length + v.size then some e
      else if k < stack.length then
        (if v.offset ≤ k ∧ k < v.offset + v.size then some INVALID_VECTOR_ELEMENT
         else stack[k]?)
      else if k < stack.length + v.size then stack[v.offset + (k - stack.length)]?
      else if k < stack.length + v.size + delta then some INVALID_VECTOR_ELEMENT
      else none := by
    intro k
    rw [getElem?_write_words _ _ _ _ (by rw [hext]; simp; omega)]
    by_cases hk : k = stack.length + v.size
    · subst hk; simp
    · rw [if_neg hk, if_neg (by simp only [List.length_singleton]; omega)]
      rw [List.append_assoc, List.getElem?_append, hvac]
      by_cases hk1 : k < stack.length
      · rw [if_pos hk1, if_pos hk1,
          getElem?_write_words _ _ _ _ (by simp; omega)]
        simp only [List.length_replicate]
        by_cases hr : v.offset ≤ k ∧ k < v.offset + v.size
        · rw [if_pos hr, if_pos hr, List.getElem?_replicate, if_pos (by omega)]
        · rw [if_neg hr, if_neg hr]
      · rw [if_neg hk1, if_neg hk1, List.getElem?_append, hmoved]
        by_cases hk2 : k < stack.length + v.size
        · rw [if_pos (by omega), if_pos hk2, getElem?_vector_contents, if_pos (by omega)]
        · rw [if_neg (by omega), if_neg hk2, List.getElem?_replicate]
          by_cases hk3 : k < stack.length + v.size + delta
          · rw [if_pos (by omega), if_pos hk3]
          · rw [if_neg (by omega), if_neg hk3]
  refine ⟨by omega, by simp only; omega, ?_, ?_, ?_⟩
  · intro k hk hout hne
    rw [hget, if_neg (by omega), if_pos hk, if_neg hout]
  · intro k hk1 hk2
    simp only at hk1 hk2
    right; left; exact hk1
  · apply vector_contents_snoc _ _ _ _ _ rfl hin
    · intro i hi
      simp only
      rw [hget, if_neg (by omega), if_neg (by omega), if_pos (by omega)]
      congr 1
      omega
    · simp only
      rw [hget, if_pos rfl]

/-! ## `push_archive_vectors` -/

theorem push_effect_post (s t : kissat) (idx e : Nat) (v v' : archive_vector)
    (hs : vectors_ok s) (hv : s.archive_watches[idx]? = some v)
    (he : e ≠ INVALID_VECTOR_ELEMENT)
    (htbl : t.archive_watches = s.archive_watches.set idx v')
    (heff : push_effect s.archive_vectors.stack t.archive_vectors.stack v v' e)
    (hcap : t.archive_vectors.stack.length ≤ t.archive_vectors.capacity)
    (hsame : same_outside_vectors s t) :
    push_post s t idx e := by
  obtain ⟨hgrow, hin, hkeep, hfoot, hcont⟩ := heff
  have hidx : idx < s.archive_watches.length := (List.getElem?_eq_some_iff.mp hv).1
  have hold := ((vectors_ok_iff s).mp hs).2.1 idx v hv
  have hnew : ∀ k, v'.offset ≤ k → k < v'.offset + v'.size →
      t.archive_vectors.stack[k]? ≠ some INVALID_VECTOR_ELEMENT := by
    intro k hk1 hk2 hk
    have hmem : INVALID_VECTOR_ELEMENT ∈ vector_contents t.archive_vectors.stack v' :=
      (mem_vector_contents _ _ _).mpr ⟨k, hk1, hk2, hk⟩
    rw [hcont, List.mem_append] at hmem
    rcases hmem with hmem | hmem
    · obtain ⟨k', a, b, c⟩ := (mem_vector_contents _ _ _).mp hmem
      exact hold.2 k' a b c
    · simp only [List.mem_singleton] at hmem
      exact he hmem.symm
  obtain ⟨hok, hothers⟩ :=
    vectors_ok_step s t idx v v' hs hv htbl hcap hgrow hin hkeep hfoot hnew
  refine ⟨hok, hsame, ?_, hothers⟩
  unfold contents_at
  rw [htbl, hv, List.getElem?_set_self hidx]
  exact hcont

theorem increment_size_eq (s : kissat) (idx : Nat) (v : archive_vector)
    (hv : s.archive_watches[idx]? = some v) :
    increment_size s idx =
      { s with archive_watches := s.archive_watches.set idx { v with size := v.size + 1 } } := by
  unfold increment_size
  rw [hv]

theorem enlarge_archive_vector_eq (env : Env) (s : kissat) (idx : Nat) (v : archive_vector)
    (hcap : s.archive_vectors.stack.length ≤ s.archive_vectors.capacity)
    (hv : s.archive_watches[idx]? = some v)
    (hin : v.offset + v.size ≤ s.archive_vectors.stack.length) :
    enlarge_archive_vector env s idx = .error .fatal ∨
    ∃ capacity',
      s.archive_vectors.stack.length + (if v.size = 0 then 1 else 2 * v.size) ≤ capacity' ∧
      enlarge_archive_vector env s idx = .ok (s.archive_vectors.stack.length + v.size,
        { s with
          archive_vectors :=
            { stack :=
                write_words s.archive_vectors.stack v.offset
                    (List.replicate v.size INVALID_VECTOR_ELEMENT) ++
                  vector_contents s.archive_vectors.stack v ++
                  List.replicate ((if v.size = 0 then 1 else 2 * v.size) - v.size)
                    INVALID_VECTOR_ELEMENT,
              capacity := capacity',
              usable := s.archive_vectors.usable + v.size +
                ((if v.size = 0 then 1 else 2 * v.size) - v.size) },
          archive_watches := s.archive_watches.set idx { v with offset := s.archive_vectors.stack.length } }) := by
  unfold enlarge_archive_vector
  rw [hv]
  simp only
  by_cases hroom : (if v.size = 0 then 1 else 2 * v.size) >
      s.archive_vectors.capacity - s.archive_vectors.stack.length
  · rw [if_pos hroom]
    rcases enlarge_until_spec env.MAX_VECTORS s.archive_vectors.stack.length
        (if v.size = 0 then 1 else 2 * v.size)
        (s.archive_vectors.stack.length + (if v.size = 0 then 1 else 2 * v.size) + 1)
        s.archive_vectors.capacity hcap (by omega) (by omega) with hfatal | ⟨capacity', hc, hle⟩
    · left
      rw [hfatal]
    · right
      refine ⟨capacity', hle, ?_⟩
      rw [hc]
      simp only
      rw [if_neg (by omega)]
  · rw [if_neg hroom]
    right
    refine ⟨s.archive_vectors.capacity, by omega, ?_⟩
    simp only
    rw [if_neg (by omega)]

theorem push_enlarged_spec (env : Env) (s : kissat) (idx e : Nat) (v : archive_vector)
    (hs : vectors_ok s) (hv : s.archive_watches[idx]? = some v)
    (he : e ≠ INVALID_VECTOR_ELEMENT) :
    push_enlarged env s idx e = .error .fatal ∨
    ∃ s', push_enlarged env s idx e = .ok s' ∧ push_post s (increment_size s' idx) idx e := by
  have h := (vectors_ok_iff s).mp hs
  have hidx : idx < s.archive_watches.length := (List.getElem?_eq_some_iff.mp hv).1
  have hin := (h.2.1 idx v hv).1
  unfold push_enlarged
  rcases enlarge_archive_vector_eq env s idx v h.1 hv hin with hfatal | ⟨capacity', hle, heq⟩
  · left
    rw [hfatal]
  · right
    rw [heq]
    refine ⟨_, rfl, ?_⟩
    have hdelta : 1 ≤ (if v.size = 0 then 1 else 2 * v.size) - v.size := by
      split <;> omega
    have heff := push_effect_enlarged s.archive_vectors.stack v e _ hin hdelta
    rw [increment_size_eq _ idx ⟨s.archive_vectors.stack.length, v.size⟩
      (by simp [dec_archive_usable, store_word, hidx])]
    apply push_effect_post s _ idx e v ⟨s.archive_vectors.stack.length, v.size + 1⟩ hs hv he
    · simp [dec_archive_usable, store_word]
    · exact heff
    · have hvac := length_write_words s.archive_vectors.stack
        (List.replicate v.size INVALID_VECTOR_ELEMENT) v.offset (by simp; omega)
      have hmoved := length_vector_contents _ _ hin
      simp only [dec_archive_usable, store_word]
      rw [length_write_words _ _ _ (by
        simp only [List.length_append, hvac, hmoved, List.length_replicate,
          List.length_singleton]
        omega)]
      simp only [List.length_append, hvac, hmoved, List.length_replicate]
      split_ifs at hle ⊢ <;> omega
    · simp [same_outside_vectors, dec_archive_usable, store_word]

theorem push_stack_zero_spec (s : kissat) (hs : vectors_ok s)
    (hempty : s.archive_vectors.stack.length = 0) :
    vectors_ok (push_stack_zero s) ∧ same_outside_vectors s (push_stack_zero s) ∧
    (push_stack_zero s).archive_watches = s.archive_watches ∧
    (push_stack_zero s).archive_vectors.stack.length = 1 ∧
    ∀ j, contents_at (push_stack_zero s) j = contents_at s j := by
  obtain ⟨h1, h2, h3⟩ := (vectors_ok_iff s).mp hs
  have hnil : s.archive_vectors.stack = [] := List.length_eq_zero.mp hempty
  refine ⟨?_, ?_, rfl, ?_, ?_⟩
  · rw [vectors_ok_iff]
    refine ⟨?_, ?_, ?_⟩
    · simp only [push_stack_zero, hnil, List.nil_append, List.length_singleton,
        List.length_nil]
      unfold kissat_stack_enlarge
      split_ifs <;> omega
    · intro i v hv
      have := (h2 i v hv).1
      simp only [push_stack_zero, hnil, List.nil_append, List.length_singleton]
      refine ⟨by omega, ?_⟩
      intro k hk1 hk2
      omega
    · exact h3
  · simp [same_outside_vectors, push_stack_zero]
  · simp [push_stack_zero, hnil]
  · intro j
    unfold contents_at
    show (match s.archive_watches[j]? with
      | some v => vector_contents (push_stack_zero s).archive_vectors.stack v
      | none => []) = _
    cases hv : s.archive_watches[j]? with
    | none => rfl
    | some v =>
      have := (h2 j v hv).1
      have hz : v.size = 0 := by omega
      simp only [vector_contents, hz, List.take_zero]

theorem push_post_trans (s s1 t : kissat) (idx e : Nat)
    (h1 : same_outside_vectors s s1) (hc : ∀ j, contents_at s1 j = contents_at s j)
    (h : push_post s1 t idx e) : push_post s t idx e := by
  obtain ⟨a, b, c, d⟩ := h
  refine ⟨a, ?_, ?_, ?_⟩
  · unfold same_outside_vectors at *
    obtain ⟨b1, b2, b3, b4, b5, b6, b7, b8, b9⟩ := b
    obtain ⟨c1, c2, c3, c4, c5, c6, c7, c8, c9⟩ := h1
    exact ⟨b1.trans c1, b2.trans c2, b3.trans c3, b4.trans c4, b5.trans c5, b6.trans c6,
      b7.trans c7, b8.trans c8, b9.trans c9⟩
  · rw [c, hc]
  · intro j hj
    rw [d j hj, hc]

/-- The fresh branch of a push, started in a state whose stack is not empty. -/
theorem push_fresh_spec (env : Env) (s : kissat) (idx e : Nat) (v : archive_vector)
    (hs : vectors_ok s) (hv : s.archive_watches[idx]? = some v)
    (he : e ≠ INVALID_VECTOR_ELEMENT) (hfresh : v.size = 0) :
    (if s.archive_vectors.stack.length = s.archive_vectors.capacity then push_enlarged env s idx e
     else .ok (append_word
        { s with archive_watches :=
            s.archive_watches.set idx { v with offset := s.archive_vectors.stack.length } } e)) =
      .error .fatal ∨
    ∃ s', (if s.archive_vectors.stack.length = s.archive_vectors.capacity then push_enlarged env s idx e
     else .ok (append_word
        { s with archive_watches :=
            s.archive_watches.set idx { v with offset := s.archive_vectors.stack.length } } e)) =
      .ok s' ∧ push_post s (increment_size s' idx) idx e := by
  have hidx : idx < s.archive_watches.length := (List.getElem?_eq_some_iff.mp hv).1
  have h := (vectors_ok_iff s).mp hs
  by_cases hfull : s.archive_vectors.stack.length = s.archive_vectors.capacity
  · rw [if_pos hfull]
    exact push_enlarged_spec env s idx e v hs hv he
  · rw [if_neg hfull]
    right
    refine ⟨_, rfl, ?_⟩
    rw [increment_size_eq _ idx ⟨s.archive_vectors.stack.length, v.size⟩
      (by simp [append_word, hidx])]
    apply push_effect_post s _ idx e v ⟨s.archive_vectors.stack.length, 1⟩ hs hv he
    · simp [append_word, hfresh]
    · exact push_effect_fresh s.archive_vectors.stack s.archive_vectors.stack v e hfresh (Nat.le_refl _)
        (fun _ _ => rfl)
    · have := h.1
      simp only [append_word, List.length_append, List.length_singleton]
      omega
    · simp [same_outside_vectors, append_word]

theorem push_archive_vectors_spec (env : Env) (s : kissat) (idx e : Nat) (v : archive_vector)
    (hs : vectors_ok s) (hv : s.archive_watches[idx]? = some v)
    (he : e ≠ INVALID_VECTOR_ELEMENT) :
    push_archive_vectors env s idx e = .error .fatal ∨
    ∃ t, push_archive_vectors env s idx e = .ok t ∧ push_post s t idx e := by
  have hidx : idx < s.archive_watches.length := (List.getElem?_eq_some_iff.mp hv).1
  have h := (vectors_ok_iff s).mp hs
  have hin := (h.2.1 idx v hv).1
  unfold push_archive_vectors
  rw [hv]
  simp only
  by_cases hfresh : v.size = 0 ∧ v.offset = 0
  · rw [if_pos hfresh]
    by_cases hempty : s.archive_vectors.stack.length = 0
    · rw [if_pos hempty]
      obtain ⟨z1, z2, z3, z4, z5⟩ := push_stack_zero_spec s hs hempty
      rcases push_fresh_spec env (push_stack_zero s) idx e v z1 hv he
        hfresh.1 with hf | ⟨s', hs', hp⟩
      · left
        rw [hf]
      · right
        rw [hs']
        exact ⟨_, rfl, push_post_trans s _ _ idx e z2 z5 hp⟩
    · rw [if_neg hempty]
      rcases push_fresh_spec env s idx e v hs hv he hfresh.1 with hf | ⟨s', hs', hp⟩
      · left; rw [hf]
      · right; rw [hs']; exact ⟨_, rfl, hp⟩
  · rw [if_neg hfresh]
    by_cases hend : v.offset + v.size = s.archive_vectors.stack.length
    · rw [if_pos hend]
      by_cases hfull : s.archive_vectors.stack.length = s.archive_vectors.capacity
      · rw [if_pos hfull]
        rcases push_enlarged_spec env s idx e v hs hv he with hf | ⟨s', hs', hp⟩
        · left; rw [hf]
        · right; rw [hs']; exact ⟨_, rfl, hp⟩
      · rw [if_neg hfull]
        right
        refine ⟨_, rfl, ?_⟩
        rw [increment_size_eq _ idx v (by simp [append_word, hv])]
        apply push_effect_post s _ idx e v { v with size := v.size + 1 } hs hv he
        · simp [append_word]
        · exact push_effect_append s.archive_vectors.stack v e hend
        · have := h.1
          simp only [append_word, List.length_append, List.length_singleton]
          omega
        · simp [same_outside_vectors, append_word]
    · rw [if_neg hend]
      have hlt : v.offset + v.size < s.archive_vectors.stack.length := by omega
      rw [List.getElem?_eq_getElem hlt]
      simp only
      by_cases hx : s.archive_vectors.stack[v.offset + v.size] ≠ INVALID_VECTOR_ELEMENT
      · rw [if_pos hx]
        rcases push_enlarged_spec env s idx e v hs hv he with hf | ⟨s', hs', hp⟩
        · left; rw [hf]
        · right; rw [hs']; exact ⟨_, rfl, hp⟩
      · rw [if_neg hx]
        right
        refine ⟨_, rfl, ?_⟩
        have hfree : s.archive_vectors.stack[v.offset + v.size]? = some INVALID_VECTOR_ELEMENT := by
          rw [List.getElem?_eq_getElem hlt]
          simp only [ne_eq, not_not] at hx
          rw [hx]
        rw [increment_size_eq _ idx v (by simp [dec_archive_usable, store_word, hv])]
        apply push_effect_post s _ idx e v { v with size := v.size + 1 } hs hv he
        · simp [dec_archive_usable, store_word]
        · exact push_effect_store s.archive_vectors.stack v e hlt hfree
        · have := h.1
          simp only [dec_archive_usable, store_word]
          rw [length_write_words _ _ _ (by simp; omega)]
          exact this
        · simp [same_outside_vectors, dec_archive_usable, store_word]

/-! ## Literal indices and watch lists -/

theorem lit2idx_nonneg (lit : Int) (h : lit ≠ 0) : 0 ≤ lit2idx lit := by
  unfold lit2idx
  split <;> omega

theorem lit2idx_lt (lit : Int) (m : Nat) (h : lit ≠ 0) (hm : lit.natAbs ≤ m) :
    (lit2idx lit).toNat < 2 * m := by
  unfold lit2idx
  split <;> omega

theorem lit2idx_injective (a b : Int) (ha : a ≠ 0) (hb : b ≠ 0)
    (h : (lit2idx a).toNat = (lit2idx b).toNat) : a = b := by
  unfold lit2idx at h
  split at h <;> split at h <;> omega

theorem watch_list_eq (s : kissat) (lit : Int) (h : lit ≠ 0) :
    watch_list s lit = contents_at s (lit2idx lit).toNat := by
  unfold watch_list watches_at contents_at
  rw [if_neg (by have := lit2idx_nonneg lit h; omega)]
  cases s.archive_watches[(lit2idx lit).toNat]? <;> rfl

theorem watch_list_zero (s : kissat) : watch_list s 0 = [] := by
  unfold watch_list watches_at
  simp [lit2idx]

theorem archive_blocking_archive_watch_lt (lit : Int) :
    archive_blocking_archive_watch lit < 2 ^ 31 := by
  unfold archive_blocking_archive_watch
  omega

theorem archive_large_archive_watch_lt (ref : Nat) :
    archive_large_archive_watch ref < 2 ^ 31 := by
  unfold archive_large_archive_watch
  omega

/-! ## Registration of a watch pair -/

theorem push_blocking_archive_watch_spec (env : Env) (s : kissat) (i : Int)
    (blocking : Int) (ref : Nat) (hs : vectors_ok s) (hi : 0 ≤ i)
    (hidx : i.toNat < s.archive_watches.length) :
    push_blocking_archive_watch env s i blocking ref = .error .fatal ∨
    ∃ t, push_blocking_archive_watch env s i blocking ref = .ok t ∧
      vectors_ok t ∧ same_outside_vectors s t ∧
      contents_at t i.toNat = contents_at s i.toNat ++
        [archive_blocking_archive_watch blocking, archive_large_archive_watch ref] ∧
      ∀ j, j ≠ i.toNat → contents_at t j = contents_at s j := by
  unfold push_blocking_archive_watch
  rw [if_neg (by omega)]
  have hne1 : archive_blocking_archive_watch blocking ≠ INVALID_VECTOR_ELEMENT := by
    have := archive_blocking_archive_watch_lt blocking
    unfold INVALID_VECTOR_ELEMENT
    omega
  have hne2 : archive_large_archive_watch ref ≠ INVALID_VECTOR_ELEMENT := by
    have := archive_large_archive_watch_lt ref
    unfold INVALID_VECTOR_ELEMENT
    omega
  rcases push_archive_vectors_spec env s i.toNat _ _ hs (List.getElem?_eq_getElem hidx) hne1
    with hf | ⟨s1, h1, p1, p2, p3, p4⟩
  · left; rw [hf]
  · rw [h1]
    simp only
    have hidx1 : i.toNat < s1.archive_watches.length := by
      rw [p2.2.2.2.2.2.2.2.2]; exact hidx
    rcases push_archive_vectors_spec env s1 i.toNat _ _ p1 (List.getElem?_eq_getElem hidx1) hne2
      with hf | ⟨t, h2, q1, q2, q3, q4⟩
    · left; exact hf
    · right
      refine ⟨t, h2, q1, ?_, ?_, ?_⟩
      · unfold same_outside_vectors at *
        obtain ⟨b1, b2, b3, b4, b5, b6, b7, b8, b9⟩ := q2
        obtain ⟨c1, c2, c3, c4, c5, c6, c7, c8, c9⟩ := p2
        exact ⟨b1.trans c1, b2.trans c2, b3.trans c3, b4.trans c4, b5.trans c5, b6.trans c6,
          b7.trans c7, b8.trans c8, b9.trans c9⟩
      · rw [q3, p3, List.append_assoc]
        rfl
      · intro j hj
        rw [q4 j hj, p4 j hj]

theorem same_outside_vectors_trans (s s1 t : kissat) (h1 : same_outside_vectors s s1)
    (h2 : same_outside_vectors s1 t) : same_outside_vectors s t := by
  unfold same_outside_vectors at *
  obtain ⟨b1, b2, b3, b4, b5, b6, b7, b8, b9⟩ := h2
  obtain ⟨c1, c2, c3, c4, c5, c6, c7, c8, c9⟩ := h1
  exact ⟨b1.trans c1, b2.trans c2, b3.trans c3, b4.trans c4, b5.trans c5, b6.trans c6,
    b7.trans c7, b8.trans c8, b9.trans c9⟩

/-- The words a registration appends to the watch list of the literal `x`. -/
theorem watch_archive_reference_spec (env : Env) (s : kissat) (a b : Int) (ref : Nat)
    (hs : vectors_ok s) (hlen : s.archive_watches.length = 2 * s.max_var)
    (ha : a ≠ 0) (hb : b ≠ 0) (hab : a ≠ b)
    (ham : a.natAbs ≤ s.max_var) (hbm : b.natAbs ≤ s.max_var) :
    watch_archive_reference env s a b ref = .error .fatal ∨
    ∃ t, watch_archive_reference env s a b ref = .ok t ∧
      vectors_ok t ∧ same_outside_vectors s t ∧
      watch_list t a = watch_list s a ++
        [archive_blocking_archive_watch b, archive_large_archive_watch ref] ∧
      watch_list t b = watch_list s b ++
        [archive_blocking_archive_watch a, archive_large_archive_watch ref] ∧
      ∀ x, x ≠ a → x ≠ b → watch_list t x = watch_list s x := by
  unfold watch_archive_reference watch_archive_blocking
  have hia := lit2idx_nonneg a ha
  have hib := lit2idx_nonneg b hb
  have hne : (lit2idx a).toNat ≠ (lit2idx b).toNat :=
    fun h => hab (lit2idx_injective a b ha hb h)
  rcases push_blocking_archive_watch_spec env s (lit2idx a) b ref hs hia
      (by rw [hlen]; exact lit2idx_lt a _ ha ham) with hf | ⟨s1, h1, p1, p2, p3, p4⟩
  · left; rw [hf]
  · rw [h1]
    simp only
    have hlen1 : s1.archive_watches.length = s.archive_watches.length := p2.2.2.2.2.2.2.2.2
    have hmax1 : s1.max_var = s.max_var := p2.2.2.2.2.1
    rcases push_blocking_archive_watch_spec env s1 (lit2idx b) a ref p1 hib
        (by rw [hlen1, hlen]; exact lit2idx_lt b _ hb hbm) with hf | ⟨t, h2, q1, q2, q3, q4⟩
    · left; exact hf
    · right
      refine ⟨t, h2, q1, same_outside_vectors_trans s s1 t p2 q2, ?_, ?_, ?_⟩
      · rw [watch_list_eq t a ha, watch_list_eq s a ha, q4 _ hne, p3]
      · rw [watch_list_eq t b hb, watch_list_eq s b hb, q3, p4 _ (Ne.symm hne)]
      · intro x hxa hxb
        by_cases hx : x = 0
        · subst hx
          rw [watch_list_zero, watch_list_zero]
        · rw [watch_list_eq t x hx, watch_list_eq s x hx,
            q4 _ (fun h => hxb (lit2idx_injective x b hx hb h)),
            p4 _ (fun h => hxa (lit2idx_injective x a hx ha h))]

/-! ## Growing the watch table -/

theorem table_grown_refl (s : kissat) : table_grown s s :=
  ⟨rfl, rfl, rfl, rfl, rfl, rfl, rfl, rfl, Nat.le_refl _, 0, by simp⟩

theorem table_grown_trans (s s1 t : kissat) (h1 : table_grown s s1) (h2 : table_grown s1 t) :
    table_grown s t := by
  obtain ⟨b1, b2, b3, b4, b5, b6, b7, b8, b9, k2, hk2⟩ := h2
  obtain ⟨c1, c2, c3, c4, c5, c6, c7, c8, c9, k1, hk1⟩ := h1
  refine ⟨b1.trans c1, b2.trans c2, b3.trans c3, b4.trans c4, b5.trans c5, b6.trans c6,
    b7.trans c7, b8.trans c8, Nat.le_trans c9 b9, k1 + k2, ?_⟩
  rw [hk2, hk1, List.append_assoc, List.append_replicate_replicate]

theorem table_grown_getElem? (s t : kissat) (h : table_grown s t) (j : Nat)
    (v : archive_vector) (hv : t.archive_watches[j]? = some v) :
    s.archive_watches[j]? = some v ∨
      (s.archive_watches.length ≤ j ∧ v = ⟨0, 0⟩) := by
  obtain ⟨_, _, _, _, _, _, _, _, _, k, hk⟩ := h
  rw [hk, List.getElem?_append] at hv
  split at hv
  · left; exact hv
  · right
    rw [List.getElem?_replicate] at hv
    split at hv
    · exact ⟨by omega, (Option.some.inj hv).symm⟩
    · cases hv

theorem table_grown_contents (s t : kissat) (h : table_grown s t) (j : Nat) :
    contents_at t j = contents_at s j := by
  have hvec : t.archive_vectors = s.archive_vectors := h.2.2.2.2.1
  unfold contents_at
  cases hv : t.archive_watches[j]? with
  | none =>
    obtain ⟨_, _, _, _, _, _, _, _, _, k, hk⟩ := h
    have hle : t.archive_watches.length ≤ j := List.getElem?_eq_none_iff.mp hv
    rw [hk, List.length_append] at hle
    rw [List.getElem?_eq_none (by omega)]
  | some v =>
    rcases table_grown_getElem? s t h j v hv with h0 | ⟨h0, rfl⟩
    · rw [h0, hvec]
    · rw [List.getElem?_eq_none h0]
      simp [vector_contents]

theorem table_grown_vectors_ok (s t : kissat) (h : table_grown s t) (hs : vectors_ok s) :
    vectors_ok t := by
  have hvec : t.archive_vectors = s.archive_vectors := h.2.2.2.2.1
  obtain ⟨h1, h2, h3⟩ := (vectors_ok_iff s).mp hs
  rw [vectors_ok_iff, hvec]
  refine ⟨h1, ?_, ?_⟩
  · intro i v hv
    rcases table_grown_getElem? s t h i v hv with h0 | ⟨_, rfl⟩
    · exact h2 i v h0
    · refine ⟨by simp, ?_⟩
      intro k hk1 hk2
      simp only at hk1 hk2
      omega
  · intro i j v w hij hv hw
    rcases table_grown_getElem? s t h i v hv with h0 | ⟨_, rfl⟩
    · rcases table_grown_getElem? s t h j w hw with h0' | ⟨_, rfl⟩
      · exact h3 i j v w hij h0 h0'
      · unfold disjoint_vectors; simp
    · unfold disjoint_vectors; simp

theorem kissat_resize_archive_watches_grow (s : kissat) (max_var_new : Nat)
    (hopt : s.option_archive = true)
    (hlen : s.archive_watches.length = 2 * s.max_var) (hnew : s.max_var < max_var_new) :
    ∃ t, kissat_resize_archive_watches s s.max_var max_var_new = .ok t ∧
      table_grown s t ∧ t.max_var = max_var_new ∧
      t.archive_watches.length = 2 * t.max_var := by
  unfold kissat_resize_archive_watches
  have hcond : ¬ ((!s.option_archive) = true) := by simp [hopt]
  rw [if_neg hcond, if_pos (by omega), if_neg (by omega)]
  simp only
  rw [if_neg (by omega)]
  refine ⟨_, rfl, ⟨rfl, rfl, rfl, rfl, rfl, rfl, rfl, rfl, by simp only; omega,
    2 * max_var_new - 2 * s.max_var, ?_⟩, rfl, ?_⟩
  · simp only
    rw [List.take_of_length_le (by omega)]
  · simp only [List.length_append, List.length_take, List.length_replicate]
    omega

theorem export_literals_spec (env : Env) (lits : List Nat) :
    ∀ s : kissat, s.option_archive = true → s.archive_watches.length = 2 * s.max_var →
      ∃ t, export_literals env lits s = .ok (t, lits.map env.kissat_export_literal) ∧
        table_grown s t ∧ t.archive_watches.length = 2 * t.max_var ∧
        ∀ ilit ∈ lits, (env.kissat_export_literal ilit).natAbs ≤ t.max_var := by
  induction lits with
  | nil =>
    intro s _ hlen
    exact ⟨s, rfl, table_grown_refl s, hlen, by simp⟩
  | cons ilit rest ih =>
    intro s hopt hlen
    unfold export_literals
    simp only
    by_cases hbig : (env.kissat_export_literal ilit).natAbs > s.max_var
    · rw [if_pos hbig]
      obtain ⟨s1, h1, g1, m1, l1⟩ :=
        kissat_resize_archive_watches_grow s _ hopt hlen hbig
      rw [h1]
      simp only
      obtain ⟨t, h2, g2, l2, b2⟩ := ih s1 (g1.1.trans hopt) l1
      rw [h2]
      refine ⟨t, rfl, table_grown_trans s s1 t g1 g2, l2, ?_⟩
      intro x hx
      rcases List.mem_cons.mp hx with rfl | hx
      · have := g2.2.2.2.2.2.2.2.2.1
        omega
      · exact b2 x hx
    · rw [if_neg hbig]
      simp only
      obtain ⟨t, h2, g2, l2, b2⟩ := ih s hopt hlen
      rw [h2]
      refine ⟨t, rfl, g2, l2, ?_⟩
      intro x hx
      rcases List.mem_cons.mp hx with rfl | hx
      · have := g2.2.2.2.2.2.2.2.2.1
        omega
      · exact b2 x hx

/-! ## `allocate_archived_clause` and `kissat_archive_clause` -/

theorem bytes_of_archive_clause_words (env : Env) (size : Nat) (hward : 0 < env.sizeof_ward) :
    1 ≤ bytes_of_archive_clause env size / env.sizeof_ward := by
  unfold bytes_of_archive_clause kissat_align_ward sizeof_archive_clause
  rw [Nat.mul_div_cancel _ hward]
  have h24 : 24 ≤ (24 + (size + 2 ^ 32 - 3) % 2 ^ 32 * 4) % 2 ^ 64 := by omega
  apply (Nat.le_div_iff_mul_le hward).mpr
  omega

theorem allocate_archived_clause_spec (env : Env) (s : kissat) (size : Nat)
    (hcap : s.archive.length ≤ s.archive_capacity) (href : s.archive.length < 2 ^ 32) :
    allocate_archived_clause env s size = .error .fatal ∨
    ∃ capacity',
      s.archive.length + bytes_of_archive_clause env size / env.sizeof_ward ≤ capacity' ∧
      allocate_archived_clause env s size = .ok (s.archive.length,
        { s with
          archive := s.archive ++
            List.replicate (bytes_of_archive_clause env size / env.sizeof_ward) ward.body,
          archive_capacity := capacity' }) := by
  unfold allocate_archived_clause
  simp only
  rw [Nat.mod_eq_of_lt href]
  by_cases hroom : bytes_of_archive_clause env size / env.sizeof_ward >
      s.archive_capacity - s.archive.length
  · rw [if_pos hroom]
    rcases enlarge_until_spec env.MAX_ARENA s.archive.length
        (bytes_of_archive_clause env size / env.sizeof_ward)
        (s.archive.length + bytes_of_archive_clause env size / env.sizeof_ward + 1)
        s.archive_capacity hcap (by omega) (by omega) with hfatal | ⟨capacity', hc, hle⟩
    · left; rw [hfatal]
    · right
      refine ⟨capacity', hle, ?_⟩
      rw [hc]
  · rw [if_neg hroom]
    right
    exact ⟨s.archive_capacity, by omega, rfl⟩

theorem set_append_replicate (l : List ward) (n : Nat) (x : ward) (hn : 1 ≤ n) :
    (l ++ List.replicate n ward.body).set l.length x =
      l ++ x :: List.replicate (n - 1) ward.body := by
  obtain ⟨m, rfl⟩ : ∃ m, n = m + 1 := ⟨n - 1, by omega⟩
  rw [List.set_append_right _ _ (Nat.le_refl _), Nat.sub_self, List.replicate_succ,
    List.set_cons_zero, Nat.add_sub_cancel]

theorem dereference_append_head (l rest : List ward) (c : archive_clause) :
    dereference_archive_clause (l ++ ward.head c :: rest) l.length = some c := by
  unfold dereference_archive_clause
  rw [List.getElem?_append_right (Nat.le_refl _), Nat.sub_self]
  simp

theorem vectors_ok_of_eq (s t : kissat) (h1 : t.archive_vectors = s.archive_vectors)
    (h2 : t.archive_watches = s.archive_watches) (hs : vectors_ok s) : vectors_ok t := by
  rw [vectors_ok_iff] at hs ⊢
  rw [h1, h2]
  exact hs

theorem contents_at_of_eq (s t : kissat) (h1 : t.archive_vectors = s.archive_vectors)
    (h2 : t.archive_watches = s.archive_watches) (j : Nat) :
    contents_at t j = contents_at s j := by
  unfold contents_at
  rw [h1, h2]

/-- The record a call of `kissat_archive_clause` writes. -/
theorem kissat_archive_clause_eq (env : Env) (s : kissat) (c : clause)
    (i0 i1 : Nat) (rest : List Nat)
    (hward : 0 < env.sizeof_ward)
    (hopt : s.option_archive = true) (hun : s.archive_unlocked = true)
    (hlen : s.archive_watches.length = 2 * s.max_var)
    (hcap : s.archive.length ≤ s.archive_capacity) (href : s.archive.length < 2 ^ 32)
    (hs : vectors_ok s) (hc : c.lits = i0 :: i1 :: rest) :
    kissat_archive_clause env s c = .error .fatal ∨
    ∃ s3,
      kissat_archive_clause env s c =
        watch_archive_reference env s3 (env.kissat_export_literal i0)
          (env.kissat_export_literal i1) s.archive.length ∧
      s3.archive = s.archive ++
        ward.head { garbage := false, searched := 2, size := c.lits.length,
                    lits := c.lits.map env.kissat_export_literal } ::
          List.replicate (bytes_of_archive_clause env c.lits.length / env.sizeof_ward - 1)
            ward.body ∧
      s3.archive.length ≤ s3.archive_capacity ∧
      vectors_ok s3 ∧ s3.archive_watches.length = 2 * s3.max_var ∧
      (env.kissat_export_literal i0).natAbs ≤ s3.max_var ∧
      (env.kissat_export_literal i1).natAbs ≤ s3.max_var ∧
      (∀ j, contents_at s3 j = contents_at s j) ∧
      s3.values = s.values ∧ s3.archive_propagate = s.archive_propagate ∧
      s3.archive_conflicts = s.archive_conflicts ∧ s3.option_archive = s.option_archive ∧
      s3.archive_unlocked = s.archive_unlocked ∧ s.max_var ≤ s3.max_var := by
  unfold kissat_archive_clause
  have hcond : ¬ ((!s.option_archive || !s.archive_unlocked) = true) := by simp [hopt, hun]
  rw [if_neg hcond]
  simp only
  have hwords := bytes_of_archive_clause_words env c.lits.length hward
  rcases allocate_archived_clause_spec env s c.lits.length hcap href with
    hf | ⟨capacity', hle, ha⟩
  · left; rw [hf]
  · rw [ha]
    simp only
    obtain ⟨s2, he, hg, hl2, hb⟩ := export_literals_spec env c.lits
      { s with
        archive := s.archive ++
          List.replicate (bytes_of_archive_clause env c.lits.length / env.sizeof_ward) ward.body,
        archive_capacity := capacity' } hopt hlen
    rw [he]
    simp only
    obtain ⟨g1, g2, g3, g4, g5, g6, g7, g8, g9, k, hk⟩ := hg
    simp only at g1 g2 g3 g4 g5 g6 g7 g8 g9 hk
    have harena : s2.archive.set s.archive.length
        (ward.head { garbage := false, searched := 2, size := c.lits.length,
                     lits := c.lits.map env.kissat_export_literal }) =
        s.archive ++
          ward.head { garbage := false, searched := 2, size := c.lits.length,
                      lits := c.lits.map env.kissat_export_literal } ::
          List.replicate (bytes_of_archive_clause env c.lits.length / env.sizeof_ward - 1)
            ward.body := by
      rw [g3]
      exact set_append_replicate _ _ _ hwords
    right
    refine ⟨{ s2 with archive := (s2.archive.set s.archive.length
        (ward.head { garbage := false, searched := 2, size := c.lits.length,
                     lits := c.lits.map env.kissat_export_literal })) }, ?_, harena, ?_, ?_, hl2,
      hb i0 (by rw [hc]; simp), hb i1 (by rw [hc]; simp), ?_, g7, g6, g8, g1, g2, g9⟩
    · unfold watch_archive_clause
      simp only
      rw [harena, dereference_append_head]
      simp only [hc, List.map_cons]
    · simp only
      rw [harena, g4]
      simp only [List.length_append, List.length_cons, List.length_replicate]
      omega
    · have hgrown : table_grown s
          { s2 with archive := s.archive, archive_capacity := s.archive_capacity } :=
        ⟨g1, g2, rfl, rfl, g5, g6, g7, g8, g9, k, hk⟩
      exact vectors_ok_of_eq
        { s2 with archive := s.archive, archive_capacity := s.archive_capacity } _ rfl rfl
        (table_grown_vectors_ok s _ hgrown hs)
    · intro j
      have hgrown : table_grown s
          { s2 with archive := s.archive, archive_capacity := s.archive_capacity } :=
        ⟨g1, g2, rfl, rfl, g5, g6, g7, g8, g9, k, hk⟩
      exact (contents_at_of_eq
        { s2 with archive := s.archive, archive_capacity := s.archive_capacity } _ rfl rfl
        j).trans (table_grown_contents s _ hgrown j)

theorem watch_archive_reference_defined (env : Env) (s : kissat) (a b : Int) (ref : Nat)
    (hs : vectors_ok s) (hlen : s.archive_watches.length = 2 * s.max_var)
    (ha : a ≠ 0) (hb : b ≠ 0)
    (ham : a.natAbs ≤ s.max_var) (hbm : b.natAbs ≤ s.max_var) :
    watch_archive_reference env s a b ref = .error .fatal ∨
    ∃ t, watch_archive_reference env s a b ref = .ok t ∧
      vectors_ok t ∧ same_outside_vectors s t := by
  unfold watch_archive_reference watch_archive_blocking
  rcases push_blocking_archive_watch_spec env s (lit2idx a) b ref hs (lit2idx_nonneg a ha)
      (by rw [hlen]; exact lit2idx_lt a _ ha ham) with hf | ⟨s1, h1, p1, p2, _, _⟩
  · left; rw [hf]
  · rw [h1]
    simp only
    have hlen1 : s1.archive_watches.length = s.archive_watches.length := p2.2.2.2.2.2.2.2.2
    have hmax1 : s1.max_var = s.max_var := p2.2.2.2.2.1
    rcases push_blocking_archive_watch_spec env s1 (lit2idx b) a ref p1 (lit2idx_nonneg b hb)
        (by rw [hlen1, hlen]; exact lit2idx_lt b _ hb hbm) with hf | ⟨t, h2, q1, q2, _, _⟩
    · left; exact hf
    · right
      exact ⟨t, h2, q1, same_outside_vectors_trans s s1 t p2 q2⟩

/-! ## The sample states -/

/-- The state `sample_state` is what archiving the clause `5, -3, 7` in the
initial state returns. -/
theorem sample_state_eq :
    kissat_archive_clause (plain_env 8) initial_state (clause_of [5, -3, 7]) =
      .ok sample_state := rfl

/-- The state `compaction_state` is what archiving `5, 1, 2`, then `5, -3, 7`,
then `5, 4, 6` in the initial state returns, with the second record marked
garbage, the literals `-5`, `1`, `4`, `3` assigned and `-5` queued. -/
theorem compaction_state_eq :
    ∃ s1 s2 s3,
      kissat_archive_clause (plain_env 8) initial_state (clause_of [5, 1, 2]) = .ok s1 ∧
      kissat_archive_clause (plain_env 8) s1 (clause_of [5, -3, 7]) = .ok s2 ∧
      kissat_archive_clause (plain_env 8) s2 (clause_of [5, 4, 6]) = .ok s3 ∧
      compaction_state =
        { s3 with
          archive := mark_garbage s3.archive 2
            { garbage := false, searched := 2, size := 3, lits := [5, -3, 7] },
          values := values_of [-5, 1, 4, 3],
          archive_propagate := [9] } :=
  ⟨_, _, _, rfl, rfl, rfl, rfl⟩

/-! ## The properties of the archive -/

/-- C1: with archiving enabled and unlocked, a call of `kissat_archive_clause`
on a learned clause with `n ≥ 3` literals (whose exported literals are
non-zero, as `kissat_export_literal` asserts), in a state whose watch table and
vector store are well formed and whose arena size fits a `reference`,
returns unless `kissat_fatal` ends the process,
and then the arena is the old arena followed by exactly one record and the
unused words of its footprint: the record sits at the reference that was the
arena size before the call, its literal at position `i` is the export of
`c.lits[i]`, its size is `n`, its garbage flag is false and its cursor is 2;
every word that was in the arena before is unchanged. -/
theorem kissat_archive_clause_appends_record (env : Env) (s : kissat) (c : clause)
    (hward : 0 < env.sizeof_ward)
    (hlen : s.archive_watches.length = 2 * s.max_var)
    (hcap : s.archive.length ≤ s.archive_capacity) (href : s.archive.length < 2 ^ 32)
    (hs : vectors_ok s)
    (hopt : s.option_archive = true) (hun : s.archive_unlocked = true)
    (hn : 3 ≤ c.lits.length)
    (hvalid : ∀ ilit ∈ c.lits, env.kissat_export_literal ilit ≠ 0)
    (hret : kissat_archive_clause env s c ≠ .error .fatal) :
    ∃ t record,
      kissat_archive_clause env s c = .ok t ∧
      t.archive = s.archive ++ ward.head record ::
        List.replicate (bytes_of_archive_clause env c.lits.length / env.sizeof_ward - 1)
          ward.body ∧
      dereference_archive_clause t.archive s.archive.length = some record ∧
      (∀ i : Nat, record.lits[i]? = (c.lits[i]?).map env.kissat_export_literal) ∧
      record.size = c.lits.length ∧ record.garbage = false ∧ record.searched = 2 ∧
      (∀ ref : Nat, ref < s.archive.length → t.archive[ref]? = s.archive[ref]?) := by
  obtain ⟨i0, i1, rest, hc⟩ : ∃ i0 i1 rest, c.lits = i0 :: i1 :: rest := by
    match hl : c.lits, hn with
    | i0 :: i1 :: rest, _ => exact ⟨i0, i1, rest, rfl⟩
    | [_], h => simp at h
    | [], h => simp at h
  rcases kissat_archive_clause_eq env s c i0 i1 rest hward hopt hun hlen hcap href hs hc with
    hf | ⟨s3, heq, harena, _, hok, hlen3, hm0, hm1, _⟩
  · exact absurd hf hret
  · rcases watch_archive_reference_defined env s3 _ _ s.archive.length hok hlen3
        (hvalid i0 (by rw [hc]; simp)) (hvalid i1 (by rw [hc]; simp)) hm0 hm1 with
      hf | ⟨t, ht, _, hsame⟩
    · exact absurd (heq.trans hf) hret
    · have harena' : t.archive = s3.archive := hsame.2.2.1
      refine ⟨t, _, heq.trans ht, harena'.trans harena, ?_, ?_, rfl, rfl, rfl, ?_⟩
      · rw [harena', harena]
        exact dereference_append_head _ _ _
      · intro i
        simp only [List.getElem?_map]
      · intro ref href
        rw [harena', harena, List.getElem?_append_left href]

/-- Witness of C1: archiving the clause `5, -3, 7` in the initial state. -/
theorem kissat_archive_clause_appends_record_witness :
    ∃ t record,
      kissat_archive_clause (plain_env 8) initial_state (clause_of [5, -3, 7]) = .ok t ∧
      t.archive = initial_state.archive ++ ward.head record ::
        List.replicate
          (bytes_of_archive_clause (plain_env 8) (clause_of [5, -3, 7]).lits.length /
            (plain_env 8).sizeof_ward - 1) ward.body ∧
      dereference_archive_clause t.archive initial_state.archive.length = some record ∧
      (∀ i : Nat, record.lits[i]? =
        ((clause_of [5, -3, 7]).lits[i]?).map (plain_env 8).kissat_export_literal) ∧
      record.size = (clause_of [5, -3, 7]).lits.length ∧ record.garbage = false ∧
      record.searched = 2 ∧
      (∀ ref : Nat, ref < initial_state.archive.length →
        t.archive[ref]? = initial_state.archive[ref]?) :=
  kissat_archive_clause_appends_record (plain_env 8) initial_state (clause_of [5, -3, 7])
    (by decide) (by decide) (by decide) (by decide) (by decide) rfl rfl (by decide)
    (by decide)
    (by
      rw [show kissat_archive_clause (plain_env 8) initial_state (clause_of [5, -3, 7]) =
        .ok sample_state from rfl]
      intro h
      cases h)

/-- C2: in a state whose watch table and vector store are well formed, for
literals `a ≠ b` within `max_var` and every reference, a call of
`watch_archive_reference` that is not ended by `kissat_fatal` returns, the
watch list of `a` is its old contents followed by the pair (blocking `b`,
`ref`), the watch list of `b` is its old contents followed by the pair
(blocking `a`, `ref`), and the watch list of every other literal is unchanged.
`kissat_archive_clause` performs exactly this registration, once, for the
first two literals of the record it has just written at the old end of the
arena: afterwards each of their two lists has gained exactly that one pair
and no other list has changed.  (The hypothesis `a ≠ -b` of the claim is not
needed.) -/
theorem watch_archive_reference_registers (env : Env) (s : kissat)
    (hward : 0 < env.sizeof_ward)
    (hlen : s.archive_watches.length = 2 * s.max_var)
    (hcap : s.archive.length ≤ s.archive_capacity) (href : s.archive.length < 2 ^ 32)
    (hs : vectors_ok s) :
    (∀ (a b : Int) (ref : Nat), a ≠ 0 → b ≠ 0 → a ≠ b →
      a.natAbs ≤ s.max_var → b.natAbs ≤ s.max_var →
      watch_archive_reference env s a b ref ≠ .error .fatal →
      ∃ t, watch_archive_reference env s a b ref = .ok t ∧
        watch_list t a = watch_list s a ++
          [archive_blocking_archive_watch b, archive_large_archive_watch ref] ∧
        watch_list t b = watch_list s b ++
          [archive_blocking_archive_watch a, archive_large_archive_watch ref] ∧
        ∀ x, x ≠ a → x ≠ b → watch_list t x = watch_list s x) ∧
    (∀ (c : clause) (i0 i1 : Nat) (rest : List Nat),
      s.option_archive = true → s.archive_unlocked = true →
      c.lits = i0 :: i1 :: rest →
      env.kissat_export_literal i0 ≠ 0 → env.kissat_export_literal i1 ≠ 0 →
      env.kissat_export_literal i0 ≠ env.kissat_export_literal i1 →
      kissat_archive_clause env s c ≠ .error .fatal →
      ∃ t record tail,
        kissat_archive_clause env s c = .ok t ∧
        dereference_archive_clause t.archive s.archive.length = some record ∧
        record.lits = env.kissat_export_literal i0 :: env.kissat_export_literal i1 :: tail ∧
        watch_list t (env.kissat_export_literal i0) =
          watch_list s (env.kissat_export_literal i0) ++
            [archive_blocking_archive_watch (env.kissat_export_literal i1),
             archive_large_archive_watch s.archive.length] ∧
        watch_list t (env.kissat_export_literal i1) =
          watch_list s (env.kissat_export_literal i1) ++
            [archive_blocking_archive_watch (env.kissat_export_literal i0),
             archive_large_archive_watch s.archive.length] ∧
        ∀ x, x ≠ env.kissat_export_literal i0 → x ≠ env.kissat_export_literal i1 →
          watch_list t x = watch_list s x) := by
  constructor
  · intro a b ref ha hb hab ham hbm hret
    rcases watch_archive_reference_spec env s a b ref hs hlen ha hb hab ham hbm with
      hf | ⟨t, ht, _, _, h1, h2, h3⟩
    · exact absurd hf hret
    · exact ⟨t, ht, h1, h2, h3⟩
  · intro c i0 i1 rest hopt hun hc h0 h1 h01 hret
    rcases kissat_archive_clause_eq env s c i0 i1 rest hward hopt hun hlen hcap href hs hc with
      hf | ⟨s3, heq, harena, _, hok, hlen3, hm0, hm1, hcont, _⟩
    · exact absurd hf hret
    · have hlist : ∀ x, watch_list s3 x = watch_list s x := by
        intro x
        by_cases hx : x = 0
        · subst hx
          rw [watch_list_zero, watch_list_zero]
        · rw [watch_list_eq s3 x hx, watch_list_eq s x hx, hcont]
      rcases watch_archive_reference_spec env s3 _ _ s.archive.length hok hlen3 h0 h1 h01
          hm0 hm1 with hf | ⟨t, ht, _, hsame, w1, w2, w3⟩
      · exact absurd (heq.trans hf) hret
      · have harena' : t.archive = s3.archive := hsame.2.2.1
        refine ⟨t, { garbage := false, searched := 2, size := c.lits.length,
                     lits := c.lits.map env.kissat_export_literal },
          rest.map env.kissat_export_literal, heq.trans ht, ?_, ?_, ?_, ?_, ?_⟩
        · rw [harena', harena]
          exact dereference_append_head _ _ _
        · simp only [hc, List.map_cons]
        · rw [w1, hlist]
        · rw [w2, hlist]
        · intro x hx0 hx1
          rw [w3 x hx0 hx1, hlist]

/-- Witness of C2: registering the pair of literals `1`, `-2` for reference `0`
in the state that holds the clause `5, -3, 7`, and archiving `5, -3, 7` in the
initial state. -/
theorem watch_archive_reference_registers_witness :
    (∃ t, watch_archive_reference (plain_env 8) sample_state 1 (-2) 0 = .ok t ∧
        watch_list t 1 = watch_list sample_state 1 ++
          [archive_blocking_archive_watch (-2), archive_large_archive_watch 0] ∧
        watch_list t (-2) = watch_list sample_state (-2) ++
          [archive_blocking_archive_watch 1, archive_large_archive_watch 0] ∧
        ∀ x, x ≠ 1 → x ≠ -2 → watch_list t x = watch_list sample_state x) ∧
    (∃ t record tail,
        kissat_archive_clause (plain_env 8) initial_state (clause_of [5, -3, 7]) = .ok t ∧
        dereference_archive_clause t.archive initial_state.archive.length = some record ∧
        record.lits = 5 :: -3 :: tail ∧
        watch_list t 5 = watch_list initial_state 5 ++
            [archive_blocking_archive_watch (-3), archive_large_archive_watch 0] ∧
        watch_list t (-3) = watch_list initial_state (-3) ++
            [archive_blocking_archive_watch 5, archive_large_archive_watch 0] ∧
        ∀ x, x ≠ 5 → x ≠ -3 → watch_list t x = watch_list initial_state x) :=
  ⟨(watch_archive_reference_registers (plain_env 8) sample_state (by decide) (by decide)
      (by decide) (by decide) (by decide)).1 1 (-2) 0 (by decide) (by decide) (by decide) (by decide)
      (by decide)
      (by
        intro h
        have h2 : ∃ t, watch_archive_reference (plain_env 8) sample_state 1 (-2) 0 = .ok t :=
          ⟨_, rfl⟩
        obtain ⟨t, ht⟩ := h2
        rw [ht] at h
        cases h),
   (watch_archive_reference_registers (plain_env 8) initial_state (by decide) (by decide)
      (by decide) (by decide) (by decide)).2 (clause_of [5, -3, 7]) 8 5 [12] rfl rfl rfl (by decide)
      (by decide) (by decide)
      (by
        rw [show kissat_archive_clause (plain_env 8) initial_state (clause_of [5, -3, 7]) =
          .ok sample_state from rfl]
        intro h
        cases h)⟩

/-! ## The loop over the queue -/

theorem propagate_queue_append (env : Env) (front rest : List Nat) :
    ∀ s sk : kissat, state_after env front s = some sk →
      propagate_queue env (front ++ rest) s = propagate_queue env rest sk := by
  induction front with
  | nil =>
    intro s sk h
    simp only [state_after, Option.some.injEq] at h
    subst h
    rfl
  | cons ilit front ih =>
    intro s sk h
    simp only [List.cons_append]
    unfold state_after at h
    split at h
    · rename_i s' hstep
      simp only [propagate_queue, hstep]
      exact ih s' sk h
    · cases h

/-- C5: starting from the empty archive, archive the clause with external
literals `5, -3, 7`, then run `kissat_propagate_archive` with the queue
holding `-5` and `3` (both true) while `7` is unassigned: the conflict counter
is unchanged and `7` (and `-7`) is still unassigned. -/
theorem forcing_clause_no_conflict :
    ∃ s1 s2,
      kissat_archive_clause (plain_env 8) initial_state (clause_of [5, -3, 7]) = .ok s1 ∧
      kissat_propagate_archive (plain_env 8) (assign_and_queue s1 [-5, 3]) = .ok s2 ∧
      s2.archive_conflicts = s1.archive_conflicts ∧
      s2.archive_conflicts = initial_state.archive_conflicts ∧
      s2.values ((plain_env 8).kissat_import_literal 7) = 0 ∧
      s2.values ((plain_env 8).kissat_import_literal (-7)) = 0 :=
  ⟨_, _, rfl, rfl, rfl, rfl, rfl, rfl⟩

/-- C6 (amended): starting from the empty archive, archive the clause
`5, -3, 7`, then run `kissat_propagate_archive` once with `-5`, `3` and `-7` all
true and all three queued, `-5` or `3` being the first of them: in each of
these four orders of the queue the conflict counter has increased by exactly
one. -/
theorem falsified_clause_one_conflict :
    ∃ s1 s2 s3 s4 s5,
      kissat_archive_clause (plain_env 8) initial_state (clause_of [5, -3, 7]) = .ok s1 ∧
      kissat_propagate_archive (plain_env 8) (assign_and_queue s1 [-5, 3, -7]) = .ok s2 ∧
      s2.archive_conflicts = s1.archive_conflicts + 1 ∧
      kissat_propagate_archive (plain_env 8) (assign_and_queue s1 [-5, -7, 3]) = .ok s3 ∧
      s3.archive_conflicts = s1.archive_conflicts + 1 ∧
      kissat_propagate_archive (plain_env 8) (assign_and_queue s1 [3, -5, -7]) = .ok s4 ∧
      s4.archive_conflicts = s1.archive_conflicts + 1 ∧
      kissat_propagate_archive (plain_env 8) (assign_and_queue s1 [3, -7, -5]) = .ok s5 ∧
      s5.archive_conflicts = s1.archive_conflicts + 1 :=
  ⟨_, _, _, _, _, rfl, rfl, rfl, rfl, rfl, rfl, rfl, rfl, rfl⟩

/-- C6, as stated, fails when `-7` is the first queued literal: `-5`, `3` and
`-7` are all true and all three are in the queue, the record `5, -3, 7` is not
garbage and each of its literals is false, but the watch list of `7` is empty,
the pass returns at once and the conflict counter is unchanged. -/
theorem queue_order_hides_conflict :
    ∃ s1 s2 s3 c,
      kissat_archive_clause (plain_env 8) initial_state (clause_of [5, -3, 7]) = .ok s1 ∧
      (∀ l ∈ [(-5 : Int), 3, -7],
        0 < (assign_and_queue s1 [-7, -5, 3]).values ((plain_env 8).kissat_import_literal l) ∧
        (plain_env 8).kissat_import_literal l ∈
          (assign_and_queue s1 [-7, -5, 3]).archive_propagate) ∧
      watch_list (assign_and_queue s1 [-7, -5, 3]) 7 = [] ∧
      kissat_propagate_archive (plain_env 8) (assign_and_queue s1 [-7, -5, 3]) = .ok s2 ∧
      s2.archive_conflicts = s1.archive_conflicts ∧
      kissat_propagate_archive (plain_env 8) (assign_and_queue s1 [-7, 3, -5]) = .ok s3 ∧
      s3.archive_conflicts = s1.archive_conflicts ∧
      dereference_archive_clause s2.archive 0 = some c ∧ c.garbage = false ∧
      (∀ l ∈ c.lits, value_of (plain_env 8) s2.values l < 0) :=
  ⟨_, _, _, _, rfl, by decide, rfl, rfl, rfl, rfl, rfl, rfl, rfl, by decide⟩

/-- C7: starting from the empty archive, archive the clauses `1, 2, 3` and
`-1, 4, 5`, then run `kissat_propagate_archive` with only `-1` true and queued:
the conflict counter is unchanged, the first clause (reference 0) now has the
literals `2` and `3` in its two watched positions and still consists of the
literals `1, 2, 3`, and the second clause (reference 2) is not garbage. -/
theorem replacement_scenario :
    ∃ s1 s2 s3 first second,
      kissat_archive_clause (plain_env 8) initial_state (clause_of [1, 2, 3]) = .ok s1 ∧
      kissat_archive_clause (plain_env 8) s1 (clause_of [-1, 4, 5]) = .ok s2 ∧
      kissat_propagate_archive (plain_env 8) (assign_and_queue s2 [-1]) = .ok s3 ∧
      s3.archive_conflicts = s2.archive_conflicts ∧
      dereference_archive_clause s1.archive 0 =
        some { garbage := false, searched := 2, size := 3, lits := [1, 2, 3] } ∧
      dereference_archive_clause s2.archive 2 =
        some { garbage := false, searched := 2, size := 3, lits := [-1, 4, 5] } ∧
      dereference_archive_clause s3.archive 0 = some first ∧
      first.lits.take 2 = [2, 3] ∧ first.lits.Perm [1, 2, 3] ∧ first.size = 3 ∧
      dereference_archive_clause s3.archive 2 = some second ∧
      second.garbage = false ∧ second.lits = [-1, 4, 5] :=
  ⟨_, _, _, _, _, rfl, rfl, rfl, rfl, rfl, rfl, rfl, rfl, by decide, rfl, rfl, rfl, rfl⟩

/-- C9: if the loop of `kissat_propagate_archive` arrives at a queued literal
`L` (after the literals `front` before it were processed without a return)
in the state `sk`, and the watch vector of `¬L` has size zero, then the call
returns `sk` at once, whatever literals `rest` follow in the queue: nothing is
changed on behalf of `L` or of any later literal. -/
theorem empty_watch_list_ends_pass (env : Env) (s sk : kissat) (front rest : List Nat)
    (ilit idx : Nat) (watches : archive_vector)
    (hopt : s.option_archive = true) (hun : s.archive_unlocked = true)
    (harena : s.archive.length ≠ 0)
    (hqueue : s.archive_propagate = front ++ ilit :: rest)
    (hreach : state_after env front s = some sk)
    (hwatches : watches_at sk (lit2idx (-(env.kissat_export_literal ilit))) =
      some (idx, watches))
    (hempty : watches.size = 0) :
    kissat_propagate_archive env s = .ok sk ∧
    propagate_queue env (ilit :: rest) sk = .ok sk := by
  have hstep : propagate_queue env (ilit :: rest) sk = .ok sk := by
    simp only [propagate_queue, propagate_literal, hwatches, hempty, if_true]
  refine ⟨?_, hstep⟩
  unfold kissat_propagate_archive
  have hcond : ¬ ((!s.option_archive || !s.archive_unlocked) = true) := by simp [hopt, hun]
  rw [if_neg hcond, if_neg harena, hqueue, propagate_queue_append env front _ s sk hreach]
  exact hstep

/-- Witness of C9: in the state holding the clause `5, -3, 7`, with `-7`, `-5`
and `3` true and queued in this order, the list of `7` is empty, so the call
returns at once and reports no conflict although the clause is falsified and
the later queued literal `-5` has the clause in the list it walks. -/
theorem empty_watch_list_ends_pass_witness :
    (kissat_propagate_archive (plain_env 8) (assign_and_queue sample_state [-7, -5, 3]) =
        .ok (assign_and_queue sample_state [-7, -5, 3]) ∧
      propagate_queue (plain_env 8) (13 :: [9, 4]) (assign_and_queue sample_state [-7, -5, 3]) =
        .ok (assign_and_queue sample_state [-7, -5, 3])) ∧
    watch_list (assign_and_queue sample_state [-7, -5, 3]) 5 ≠ [] :=
  ⟨empty_watch_list_ends_pass (plain_env 8) (assign_and_queue sample_state [-7, -5, 3])
      (assign_and_queue sample_state [-7, -5, 3]) [] [9, 4] 13 13 ⟨0, 0⟩ rfl rfl (by decide)
      rfl rfl rfl rfl,
    by decide⟩

/-- C10: in a state whose arena is empty, whatever the queue and the
assignment hold, `kissat_propagate_archive` returns the state unchanged (in
particular the conflict counter), and so does any number of calls in a row. -/
theorem propagate_empty_archive (env : Env) (s : kissat) (h : s.archive = []) :
    kissat_propagate_archive env s = .ok s ∧
    (∀ n, propagate_times env n s = .ok s) ∧
    (∀ n t, propagate_times env n s = .ok t → t.archive_conflicts = s.archive_conflicts) := by
  have h1 : kissat_propagate_archive env s = .ok s := by
    unfold kissat_propagate_archive
    split
    · rfl
    · rw [if_pos (by rw [h]; rfl)]
  have h2 : ∀ n, propagate_times env n s = .ok s := by
    intro n
    induction n with
    | zero => rfl
    | succ n ih =>
      unfold propagate_times
      rw [h1]
      exact ih
  refine ⟨h1, h2, ?_⟩
  intro n t ht
  rw [h2 n] at ht
  cases ht
  rfl

/-- Witness of C10: the initial state with `-5` and `3` assigned and queued. -/
theorem propagate_empty_archive_witness :
    kissat_propagate_archive (plain_env 8) (assign_and_queue initial_state [-5, 3]) =
      .ok (assign_and_queue initial_state [-5, 3]) ∧
    (∀ n, propagate_times (plain_env 8) n (assign_and_queue initial_state [-5, 3]) =
      .ok (assign_and_queue initial_state [-5, 3])) ∧
    (∀ n t, propagate_times (plain_env 8) n (assign_and_queue initial_state [-5, 3]) = .ok t →
      t.archive_conflicts = (assign_and_queue initial_state [-5, 3]).archive_conflicts) :=
  propagate_empty_archive (plain_env 8) (assign_and_queue initial_state [-5, 3]) rfl

/-! ## The replacement search -/

theorem search_from_spec (env : Env) (values : Nat → Int) (lits : List Int) :
    ∀ count start, start + count ≤ lits.length →
      ∃ res, search_from env values lits start count = .ok res ∧
        (res = .exhausted ↔ ∀ k, start ≤ k → k < start + count →
          ∃ x, lits[k]? = some x ∧ literal_valid env x ∧ value_of env values x < 0) ∧
        (∀ r rep, res = .found r rep → start ≤ r ∧ r < start + count ∧ lits[r]? = some rep ∧
          literal_valid env rep ∧ value_of env values rep ≥ 0) := by
  intro count
  induction count with
  | zero =>
    intro start _
    refine ⟨.exhausted, rfl, ?_, ?_⟩
    · constructor
      · intro _ k h1 h2; omega
      · intro _; rfl
    · intro r rep h; cases h
  | succ count ih =>
    intro start hlen
    have hlt : start < lits.length := by omega
    unfold search_from
    rw [List.getElem?_eq_getElem hlt]
    simp only
    by_cases hv1 : env.VALID_EXTERNAL_LITERAL lits[start] = true
    · by_cases hv2 : env.VALID_INTERNAL_LITERAL (env.kissat_import_literal lits[start]) = true
      · by_cases hval : values (env.kissat_import_literal lits[start]) ≥ 0
        · simp only [hv1, hv2, hval, Bool.not_true, Bool.false_eq_true, if_false, if_true]
          refine ⟨_, rfl, ?_, ?_⟩
          · constructor
            · intro h; cases h
            · intro h
              obtain ⟨x, hx, _, hneg⟩ := h start (Nat.le_refl _) (by omega)
              rw [List.getElem?_eq_getElem hlt] at hx
              cases hx
              unfold value_of at hneg
              omega
          · intro r rep h
            cases h
            exact ⟨Nat.le_refl _, by omega, List.getElem?_eq_getElem hlt, ⟨hv1, hv2⟩, hval⟩
        · simp only [hv1, hv2, hval, Bool.not_true, Bool.false_eq_true, if_false]
          obtain ⟨res, hres, h1, h2⟩ := ih (start + 1) (by omega)
          refine ⟨res, hres, ?_, ?_⟩
          · rw [h1]
            constructor
            · intro h k hk1 hk2
              by_cases hk : k = start
              · subst hk
                exact ⟨_, List.getElem?_eq_getElem hlt, ⟨hv1, hv2⟩, by unfold value_of; omega⟩
              · exact h k (by omega) (by omega)
            · intro h k hk1 hk2
              exact h k (by omega) (by omega)
          · intro r rep h
            obtain ⟨a, b, c⟩ := h2 r rep h
            exact ⟨by omega, by omega, c⟩
      · simp only [hv1, hv2, Bool.not_true, Bool.false_eq_true, if_false, Bool.not_false,
          if_true]
        refine ⟨_, rfl, ?_, ?_⟩
        · constructor
          · intro h; cases h
          · intro h
            obtain ⟨x, hx, hvalid, _⟩ := h start (Nat.le_refl _) (by omega)
            rw [List.getElem?_eq_getElem hlt] at hx
            cases hx
            exact absurd hvalid.2 hv2
        · intro r rep h; cases h
    · simp only [hv1, Bool.not_false, if_true]
      refine ⟨_, rfl, ?_, ?_⟩
      · constructor
        · intro h; cases h
        · intro h
          obtain ⟨x, hx, hvalid, _⟩ := h start (Nat.le_refl _) (by omega)
          rw [List.getElem?_eq_getElem hlt] at hx
          cases hx
          exact absurd hvalid.1 hv1
      · intro r rep h; cases h

theorem search_replacement_spec (env : Env) (values : Nat → Int) (c : archive_clause)
    (hok : record_ok c) :
    ∃ res, search_replacement env values c = .ok res ∧
      (res = .exhausted ↔ unwatched_all_false env values c) ∧
      (∀ r rep, res = .found r rep → 2 ≤ r ∧ r < c.size ∧ c.lits[r]? = some rep ∧
        literal_valid env rep ∧ value_of env values rep ≥ 0) := by
  obtain ⟨hsize, hlo, hhi⟩ := hok
  unfold search_replacement
  rw [if_neg (by omega)]
  obtain ⟨res1, hres1, a1, b1⟩ :=
    search_from_spec env values c.lits (c.size - c.searched) c.searched (by omega)
  rw [hres1]
  have hrange1 : c.searched + (c.size - c.searched) = c.size := by omega
  rw [hrange1] at a1 b1
  cases res1 with
  | found r rep =>
    simp only
    refine ⟨_, rfl, ?_, ?_⟩
    · constructor
      · intro h; cases h
      · intro h
        obtain ⟨r1, r2, r3, r4, r5⟩ := b1 r rep rfl
        obtain ⟨x, hx, _, hneg⟩ := h r (by omega) r2
        rw [r3] at hx
        cases hx
        omega
    · intro r' rep' h
      cases h
      obtain ⟨r1, r2, r3⟩ := b1 r rep rfl
      exact ⟨by omega, r2, r3⟩
  | invalid =>
    simp only
    refine ⟨_, rfl, ?_, ?_⟩
    · constructor
      · intro h; cases h
      · intro h
        have : Search.invalid = Search.exhausted :=
          a1.mpr (fun k hk1 hk2 => h k (by omega) hk2)
        cases this
    · intro r rep h; cases h
  | exhausted =>
    simp only
    rw [if_neg (by omega)]
    obtain ⟨res2, hres2, a2, b2⟩ :=
      search_from_spec env values c.lits (c.searched - 2) 2 (by omega)
    have hrange2 : 2 + (c.searched - 2) = c.searched := by omega
    rw [hrange2] at a2 b2
    refine ⟨res2, hres2, ?_, ?_⟩
    · rw [a2]
      constructor
      · intro h k hk1 hk2
        by_cases hk : k < c.searched
        · exact h k hk1 hk
        · exact (a1.mp rfl) k (by omega) hk2
      · intro h k hk1 hk2
        exact h k hk1 (by omega)
    · intro r rep h
      obtain ⟨r1, r2, r3⟩ := b2 r rep h
      exact ⟨r1, by omega, r3⟩

/-! ## One watch pair -/

theorem record_ok_lits (c : archive_clause) (hok : record_ok c) :
    ∃ l0 l1 tl, c.lits = l0 :: l1 :: tl := by
  obtain ⟨hsize, hlo, hhi⟩ := hok
  match hl : c.lits with
  | l0 :: l1 :: tl => exact ⟨l0, l1, tl, rfl⟩
  | [_] => rw [hl] at hsize; simp at hsize; omega
  | [] => rw [hl] at hsize; simp at hsize; omega

/-- The decision tree of the loop body for one pair, with the condition of
every branch. -/
theorem visit_watch_spec (env : Env) (values : Nat → Int) (lit : Int) (arena : List ward)
    (head tail : Nat) (c : archive_clause)
    (hc : dereference_archive_clause arena tail = some c) (hok : record_ok c) :
    ∃ other, other_watched c lit = some other ∧
      ((¬ literal_valid env (blocking_lit head) ∧
          visit_watch env values lit arena head tail = .ok (.removed arena)) ∨
       (literal_valid env (blocking_lit head) ∧ value_of env values (blocking_lit head) > 0 ∧
          visit_watch env values lit arena head tail = .ok (.kept head)) ∨
       (literal_valid env (blocking_lit head) ∧ ¬ value_of env values (blocking_lit head) > 0 ∧
          c.garbage = true ∧
          visit_watch env values lit arena head tail = .ok (.removed arena)) ∨
       (literal_valid env (blocking_lit head) ∧ ¬ value_of env values (blocking_lit head) > 0 ∧
          c.garbage = false ∧ ¬ literal_valid env other ∧
          visit_watch env values lit arena head tail =
            .ok (.removed (mark_garbage arena tail c))) ∨
       (literal_valid env (blocking_lit head) ∧ ¬ value_of env values (blocking_lit head) > 0 ∧
          c.garbage = false ∧ literal_valid env other ∧ value_of env values other > 0 ∧
          visit_watch env values lit arena head tail =
            .ok (.kept (set_blocking_lit head other))) ∨
       (literal_valid env (blocking_lit head) ∧ ¬ value_of env values (blocking_lit head) > 0 ∧
          c.garbage = false ∧ literal_valid env other ∧ ¬ value_of env values other > 0 ∧
          ((search_replacement env values c = .ok .invalid ∧
              visit_watch env values lit arena head tail =
                .ok (.removed (mark_garbage arena tail c))) ∨
           (∃ r rep, search_replacement env values c = .ok (.found r rep) ∧
              visit_watch env values lit arena head tail =
                .ok (.removed (install_replacement arena tail c lit other r rep))) ∨
           (search_replacement env values c = .ok .exhausted ∧
              value_of env values other ≠ 0 ∧
              visit_watch env values lit arena head tail = .ok .conflict) ∨
           (search_replacement env values c = .ok .exhausted ∧
              value_of env values other = 0 ∧
              visit_watch env values lit arena head tail = .ok (.kept head))))) := by
  obtain ⟨l0, l1, tl, hl⟩ := record_ok_lits c hok
  refine ⟨Int.xor (Int.xor l0 l1) (-lit), by unfold other_watched; rw [hl], ?_⟩
  unfold visit_watch literal_valid value_of
  by_cases hb1 : env.VALID_EXTERNAL_LITERAL (blocking_lit head) = true
  swap
  · left
    simp [hb1]
  by_cases hb2 : env.VALID_INTERNAL_LITERAL
      (env.kissat_import_literal (blocking_lit head)) = true
  swap
  · left
    simp [hb1, hb2]
  by_cases hbv : values (env.kissat_import_literal (blocking_lit head)) > 0
  · right; left
    simp [hb1, hb2, hbv]
  right; right
  by_cases hg : c.garbage = true
  · left
    simp [hb1, hb2, hbv, hc, hg]
  right
  have hg' : c.garbage = false := by simpa using hg
  by_cases ho1 : env.VALID_EXTERNAL_LITERAL (Int.xor (Int.xor l0 l1) (-lit)) = true
  swap
  · left
    simp [hb1, hb2, hbv, hc, hg', hl, ho1]
  by_cases ho2 : env.VALID_INTERNAL_LITERAL
      (env.kissat_import_literal (Int.xor (Int.xor l0 l1) (-lit))) = true
  swap
  · left
    simp [hb1, hb2, hbv, hc, hg', hl, ho1, ho2]
  right
  by_cases hov : values (env.kissat_import_literal (Int.xor (Int.xor l0 l1) (-lit))) > 0
  · left
    simp [hb1, hb2, hbv, hc, hg', hl, ho1, ho2, hov]
  right
  refine ⟨⟨hb1, hb2⟩, hbv, hg', ⟨ho1, ho2⟩, hov, ?_⟩
  obtain ⟨res, hres, _, _⟩ := search_replacement_spec env values c hok
  cases res with
  | invalid =>
    left
    simp [hb1, hb2, hbv, hc, hg', hl, ho1, ho2, hov, hres]
  | found r rep =>
    right; left
    refine ⟨r, rep, hres, ?_⟩
    simp [hb1, hb2, hbv, hc, hg', hl, ho1, ho2, hov, hres]
  | exhausted =>
    right; right
    by_cases hz : values (env.kissat_import_literal (Int.xor (Int.xor l0 l1) (-lit))) = 0
    · right
      simp [hb1, hb2, hbv, hc, hg', hl, ho1, ho2, hov, hres, hz]
    · left
      simp [hb1, hb2, hbv, hc, hg', hl, ho1, ho2, hov, hres, hz]

/-! ## Changes of the arena during a walk -/

theorem arena_refines_refl (arena : List ward) : arena_refines arena arena :=
  ⟨rfl, fun _ c' h => ⟨c', h⟩, fun _ c h => ⟨c, h, rfl, id, id⟩⟩

theorem arena_refines_trans (a b c : List ward) (h1 : arena_refines a b)
    (h2 : arena_refines b c) : arena_refines a c := by
  obtain ⟨l1, r1, f1⟩ := h1
  obtain ⟨l2, r2, f2⟩ := h2
  refine ⟨l2.trans l1, ?_, ?_⟩
  · intro ref c' h
    obtain ⟨x, hx⟩ := r2 ref c' h
    exact r1 ref x hx
  · intro ref x hx
    obtain ⟨y, hy, s1, o1, g1⟩ := f1 ref x hx
    obtain ⟨z, hz, s2, o2, g2⟩ := f2 ref y hy
    exact ⟨z, hz, s2.trans s1, fun h => o2 (o1 h), fun h => g2 (g1 h)⟩

theorem dereference_set (arena : List ward) (ref ref' : Nat) (c c' : archive_clause)
    (hc : dereference_archive_clause arena ref = some c) :
    dereference_archive_clause (arena.set ref (ward.head c')) ref' =
      if ref' = ref then some c' else dereference_archive_clause arena ref' := by
  have hlt : ref < arena.length := by
    unfold dereference_archive_clause at hc
    by_contra hge
    rw [List.getElem?_eq_none (by omega)] at hc
    cases hc
  unfold dereference_archive_clause
  by_cases h : ref' = ref
  · subst h
    rw [if_pos rfl, List.getElem?_set_self hlt]
  · rw [if_neg h, List.getElem?_set_ne (fun h' => h h'.symm)]

theorem arena_refines_set (arena : List ward) (ref : Nat) (c c' : archive_clause)
    (hc : dereference_archive_clause arena ref = some c)
    (hsize : c'.size = c.size) (hok : record_ok c → record_ok c')
    (hg : c.garbage = true → c'.garbage = true) :
    arena_refines arena (arena.set ref (ward.head c')) := by
  refine ⟨List.length_set _ _ _, ?_, ?_⟩
  · intro ref' x hx
    rw [dereference_set arena ref ref' c c' hc] at hx
    by_cases h : ref' = ref
    · subst h; exact ⟨c, hc⟩
    · rw [if_neg h] at hx; exact ⟨x, hx⟩
  · intro ref' x hx
    rw [dereference_set arena ref ref' c c' hc]
    by_cases h : ref' = ref
    · subst h
      rw [hc] at hx
      cases hx
      rw [if_pos rfl]
      exact ⟨c', rfl, hsize, hok, hg⟩
    · rw [if_neg h]
      exact ⟨x, hx, rfl, id, id⟩

theorem arena_refines_mark_garbage (arena : List ward) (ref : Nat) (c : archive_clause)
    (hc : dereference_archive_clause arena ref = some c) :
    arena_refines arena (mark_garbage arena ref c) :=
  arena_refines_set arena ref c _ hc rfl (fun h => h) (fun _ => rfl)

theorem arena_refines_install_replacement (arena : List ward) (ref : Nat)
    (c : archive_clause) (lit other : Int) (r : Nat) (rep : Int)
    (hc : dereference_archive_clause arena ref = some c)
    (hr1 : 2 ≤ r) (hr2 : r < c.size) :
    arena_refines arena (install_replacement arena ref c lit other r rep) := by
  unfold install_replacement
  apply arena_refines_set arena ref c
    { c with searched := r, lits := ((c.lits.set 0 other).set 1 rep).set r (-lit) } hc rfl
  · rintro ⟨h1, h2, h3⟩
    refine ⟨?_, hr1, Nat.le_of_lt hr2⟩
    simp only [List.length_set]
    exact h1
  · intro h; exact h

/-- Induction over a word sequence two words at a time. -/
theorem pairs_induction {P : List Nat → Prop} (h0 : P []) (h1 : ∀ x, P [x])
    (h2 : ∀ head tail rest, P rest → P (head :: tail :: rest)) (l : List Nat) : P l := by
  have h : ∀ l, P l ∧ ∀ x, P (x :: l) := by
    intro l
    induction l with
    | nil => exact ⟨h0, h1⟩
    | cons y l ih => exact ⟨ih.2 y, fun x => h2 x y l ih.1⟩
  exact (h l).1

theorem pairs_ok_cons (arena : List ward) (head tail : Nat) (rest : List Nat) :
    pairs_ok arena (head :: tail :: rest) = true ↔
      head < 2 ^ 31 ∧
      (∃ c, dereference_archive_clause arena tail = some c ∧ record_ok c) ∧
      pairs_ok arena rest = true := by
  simp only [pairs_ok]
  cases hd : dereference_archive_clause arena tail with
  | none => simp
  | some c => simp [and_assoc]

theorem pairs_ok_of_refines (arena arena' : List ward) (h : arena_refines arena arena')
    (ws : List Nat) : pairs_ok arena ws = true → pairs_ok arena' ws = true := by
  induction ws using pairs_induction with
  | h0 => intro _; rfl
  | h1 x => intro hx; simp [pairs_ok] at hx
  | h2 head tail rest ih =>
    intro hp
    rw [pairs_ok_cons] at hp ⊢
    obtain ⟨a, ⟨c, hc, hok⟩, b⟩ := hp
    obtain ⟨c', hc', _, hok', _⟩ := h.2.2 tail c hc
    exact ⟨a, ⟨c', hc', hok' hok⟩, ih b⟩

theorem set_blocking_lit_lt (head : Nat) (other : Int) (h : head < 2 ^ 31) :
    set_blocking_lit head other < 2 ^ 31 := by
  unfold set_blocking_lit
  have h0 : head / 2 ^ 31 = 0 := Nat.div_eq_of_lt h
  rw [h0]
  omega

/-- What the loop body does with one pair of a well-formed watch list. -/
theorem visit_watch_facts (env : Env) (values : Nat → Int) (lit : Int) (arena : List ward)
    (head tail : Nat) (c : archive_clause)
    (hc : dereference_archive_clause arena tail = some c) (hok : record_ok c) :
    ∃ v, visit_watch env values lit arena head tail = .ok v ∧
      (∀ a', v = .removed a' → arena_refines arena a' ∧
        ¬ (literal_valid env (blocking_lit head) ∧
            value_of env values (blocking_lit head) > 0)) ∧
      (∀ h', v = .kept h' →
        (h' = head ∨ ∃ other, h' = set_blocking_lit head other) ∧
        ((literal_valid env (blocking_lit head) ∧
            value_of env values (blocking_lit head) > 0) → h' = head) ∧
        ((literal_valid env (blocking_lit head) ∧
            value_of env values (blocking_lit head) > 0) ∨ c.garbage = false)) ∧
      (v = .conflict ↔ conflict_pair env values lit arena head tail) ∧
      ((literal_valid env (blocking_lit head) ∧
          ¬ value_of env values (blocking_lit head) > 0 ∧ c.garbage = true) →
        v = .removed arena) := by
  obtain ⟨other, hother, hcases⟩ := visit_watch_spec env values lit arena head tail c hc hok
  obtain ⟨res, hres, hex, hfound⟩ := search_replacement_spec env values c hok
  -- a conflict pair determines the record and the other literal
  have hcp : conflict_pair env values lit arena head tail →
      literal_valid env (blocking_lit head) ∧
      ¬ value_of env values (blocking_lit head) > 0 ∧ c.garbage = false ∧
      literal_valid env other ∧ value_of env values other < 0 ∧
      unwatched_all_false env values c := by
    rintro ⟨p1, p2, c', other', q1, q2, q3, q4, q5, q6⟩
    rw [hc] at q1
    cases q1
    rw [hother] at q3
    cases q3
    exact ⟨p1, p2, q2, q4, q5, q6⟩
  rcases hcases with ⟨n1, hv⟩ | ⟨p1, p2, hv⟩ | ⟨p1, p2, p3, hv⟩ | ⟨p1, p2, p3, p4, hv⟩ |
    ⟨p1, p2, p3, p4, p5, hv⟩ | ⟨p1, p2, p3, p4, p5, hsearch⟩
  · refine ⟨_, hv, ?_, ?_, ?_, ?_⟩
    · intro a' h; cases h
      exact ⟨arena_refines_refl _, fun h => n1 h.1⟩
    · intro h' h; cases h
    · constructor
      · intro h; cases h
      · intro h; exact absurd (hcp h).1 n1
    · intro h; exact absurd h.1 n1
  · refine ⟨_, hv, ?_, ?_, ?_, ?_⟩
    · intro a' h; cases h
    · intro h' h; cases h
      exact ⟨Or.inl rfl, fun _ => rfl, Or.inl ⟨p1, p2⟩⟩
    · constructor
      · intro h; cases h
      · intro h; exact absurd p2 (hcp h).2.1
    · intro h; exact absurd p2 h.2.1
  · refine ⟨_, hv, ?_, ?_, ?_, ?_⟩
    · intro a' h; cases h
      exact ⟨arena_refines_refl _, fun h => p2 h.2⟩
    · intro h' h; cases h
    · constructor
      · intro h; cases h
      · intro h
        have := (hcp h).2.2.1
        rw [p3] at this
        cases this
    · intro _; rfl
  · refine ⟨_, hv, ?_, ?_, ?_, ?_⟩
    · intro a' h; cases h
      exact ⟨arena_refines_mark_garbage arena tail c hc, fun h => p2 h.2⟩
    · intro h' h; cases h
    · constructor
      · intro h; cases h
      · intro h; exact absurd (hcp h).2.2.2.1 p4
    · intro h
      rw [p3] at h
      cases h.2.2
  · refine ⟨_, hv, ?_, ?_, ?_, ?_⟩
    · intro a' h; cases h
    · intro h' h; cases h
      exact ⟨Or.inr ⟨other, rfl⟩, fun h => absurd h.2 p2, Or.inr p3⟩
    · constructor
      · intro h; cases h
      · intro h
        have := (hcp h).2.2.2.2.1
        omega
    · intro h
      rw [p3] at h
      cases h.2.2
  · rcases hsearch with ⟨hs, hv⟩ | ⟨r, rep, hs, hv⟩ | ⟨hs, hnz, hv⟩ | ⟨hs, hz, hv⟩
    · refine ⟨_, hv, ?_, ?_, ?_, ?_⟩
      · intro a' h; cases h
        exact ⟨arena_refines_mark_garbage arena tail c hc, fun h => p2 h.2⟩
      · intro h' h; cases h
      · constructor
        · intro h; cases h
        · intro h
          have h6 := (hcp h).2.2.2.2.2
          rw [hres] at hs
          cases hs
          have := hex.mpr h6
          cases this
      · intro h
        rw [p3] at h
        cases h.2.2
    · refine ⟨_, hv, ?_, ?_, ?_, ?_⟩
      · intro a' h; cases h
        rw [hres] at hs
        cases hs
        obtain ⟨r1, r2, _⟩ := hfound r rep rfl
        exact ⟨arena_refines_install_replacement arena tail c lit other r rep hc r1 r2,
          fun h => p2 h.2⟩
      · intro h' h; cases h
      · constructor
        · intro h; cases h
        · intro h
          have h6 := (hcp h).2.2.2.2.2
          rw [hres] at hs
          cases hs
          have := hex.mpr h6
          cases this
      · intro h
        rw [p3] at h
        cases h.2.2
    · refine ⟨_, hv, ?_, ?_, ?_, ?_⟩
      · intro a' h; cases h
      · intro h' h; cases h
      · constructor
        · intro _
          rw [hres] at hs
          cases hs
          exact ⟨p1, p2, c, other, hc, p3, hother, p4, by omega, hex.mp rfl⟩
        · intro _; rfl
      · intro h
        rw [p3] at h
        cases h.2.2
    · refine ⟨_, hv, ?_, ?_, ?_, ?_⟩
      · intro a' h; cases h
      · intro h' h; cases h
        exact ⟨Or.inl rfl, fun _ => rfl, Or.inr p3⟩
      · constructor
        · intro h; cases h
        · intro h
          have := (hcp h).2.2.2.2.1
          omega
      · intro h
        rw [p3] at h
        cases h.2.2

/-! ## The walk over one watch list -/

theorem walk_watches_cons (env : Env) (values : Nat → Int) (lit : Int) (arena : List ward)
    (head tail : Nat) (rest : List Nat) (v : Visit)
    (hv : visit_watch env values lit arena head tail = .ok v) :
    walk_watches env values lit (head :: tail :: rest) arena =
      match v with
      | .removed arena' => walk_watches env values lit rest arena'
      | .kept head' =>
        match walk_watches env values lit rest arena with
        | .error a => .error a
        | .ok (kept, arena', conflict) => .ok (head' :: tail :: kept, arena', conflict)
      | .conflict => .ok (head :: tail :: rest, arena, true) := by
  simp only [walk_watches, hv]
  cases v <;> rfl

/-- A walk over a well-formed watch list returns; the arena it leaves refines
the one it started with, the words it leaves form a well-formed watch list,
each of them is a word of the list or a head with the tag bit clear, and there
are no more of them than before. -/
theorem walk_watches_defined (env : Env) (values : Nat → Int) (lit : Int) (ws : List Nat) :
    ∀ arena, pairs_ok arena ws = true →
      ∃ kept arena' conflict,
        walk_watches env values lit ws arena = .ok (kept, arena', conflict) ∧
        arena_refines arena arena' ∧ pairs_ok arena' kept = true ∧
        (∀ x ∈ kept, x ∈ ws ∨ x < 2 ^ 31) ∧ kept.length ≤ ws.length := by
  induction ws using pairs_induction with
  | h0 =>
    intro arena _
    exact ⟨[], arena, false, rfl, arena_refines_refl _, rfl, by simp, Nat.le_refl _⟩
  | h1 x => intro arena hx; simp [pairs_ok] at hx
  | h2 head tail rest ih =>
    intro arena hp
    obtain ⟨hlt, ⟨c, hc, hok⟩, hrest⟩ := (pairs_ok_cons arena head tail rest).mp hp
    obtain ⟨v, hv, f1, f2, _, _⟩ := visit_watch_facts env values lit arena head tail c hc hok
    rw [walk_watches_cons env values lit arena head tail rest v hv]
    cases v with
    | removed a' =>
      simp only
      obtain ⟨href, _⟩ := f1 a' rfl
      obtain ⟨kept, arena', conflict, hw, r, p, m, l⟩ :=
        ih a' (pairs_ok_of_refines arena a' href rest hrest)
      refine ⟨kept, arena', conflict, hw, arena_refines_trans _ _ _ href r, p, ?_, ?_⟩
      · intro x hx
        rcases m x hx with h | h
        · left; simp [h]
        · right; exact h
      · simp only [List.length_cons]; omega
    | kept h' =>
      simp only
      obtain ⟨kept, arena', conflict, hw, r, p, m, l⟩ := ih arena hrest
      rw [hw]
      obtain ⟨hshape, _, _⟩ := f2 h' rfl
      have hlt' : h' < 2 ^ 31 := by
        rcases hshape with rfl | ⟨other, rfl⟩
        · exact hlt
        · exact set_blocking_lit_lt head other hlt
      obtain ⟨c', hc', _, hok', _⟩ := r.2.2 tail c hc
      refine ⟨h' :: tail :: kept, arena', conflict, rfl, r, ?_, ?_, ?_⟩
      · rw [pairs_ok_cons]
        exact ⟨hlt', ⟨c', hc', hok' hok⟩, p⟩
      · intro x hx
        simp only [List.mem_cons] at hx
        rcases hx with rfl | rfl | hx
        · right; exact hlt'
        · left; simp
        · rcases m x hx with h | h
          · left; simp [h]
          · right; exact h
      · simp only [List.length_cons]; omega
    | conflict =>
      simp only
      exact ⟨_, arena, true, rfl, arena_refines_refl _, hp, fun x hx => Or.inl hx,
        Nat.le_refl _⟩

theorem watch_pairs_cons (head tail : Nat) (rest : List Nat) :
    watch_pairs (head :: tail :: rest) = (head, tail) :: watch_pairs rest := rfl

theorem garbage_pair_of_refines (env : Env) (values : Nat → Int) (arena arena' : List ward)
    (h : arena_refines arena arena') (p : Nat × Nat)
    (hp : garbage_pair env values arena p) : garbage_pair env values arena' p := by
  obtain ⟨a, b, c, hc, hg⟩ := hp
  obtain ⟨c', hc', _, _, hg'⟩ := h.2.2 p.2 c hc
  exact ⟨a, b, c', hc', hg' hg⟩

theorem same_pair_up_to_blocking_refl (l : List (Nat × Nat)) :
    List.Forall₂ same_pair_up_to_blocking l l :=
  List.forall₂_same.mpr (fun _ _ => ⟨rfl, Or.inl rfl⟩)

/-- What a walk keeps of a well-formed watch list: a sublist of its pairs, in
order, each kept whole up to its blocking literal; every pair with a true
blocking literal, unchanged; and, when no conflict stops the walk, no pair
whose clause is garbage and whose blocking literal is valid and not true. -/
theorem walk_watches_kept (env : Env) (values : Nat → Int) (lit : Int) (ws : List Nat) :
    ∀ arena kept arena' conflict, pairs_ok arena ws = true →
      walk_watches env values lit ws arena = .ok (kept, arena', conflict) →
      (∃ sub, List.Sublist sub (watch_pairs ws) ∧
        List.Forall₂ same_pair_up_to_blocking (watch_pairs kept) sub) ∧
      List.Sublist ((watch_pairs ws).filter (fun p => decide (blocking_true env values p.1)))
        (watch_pairs kept) ∧
      (conflict = false → ∀ p, garbage_pair env values arena p → p ∉ watch_pairs kept) := by
  induction ws using pairs_induction with
  | h0 =>
    intro arena kept arena' conflict _ hw
    simp only [walk_watches, Except.ok.injEq, Prod.mk.injEq] at hw
    obtain ⟨rfl, _, _⟩ := hw
    exact ⟨⟨[], List.Sublist.slnil, List.Forall₂.nil⟩, List.Sublist.slnil,
      fun _ p _ hp => by simp [watch_pairs] at hp⟩
  | h1 x => intro arena kept arena' conflict hx; simp [pairs_ok] at hx
  | h2 head tail rest ih =>
    intro arena kept arena' conflict hp hw
    obtain ⟨hlt, ⟨c, hc, hok⟩, hrest⟩ := (pairs_ok_cons arena head tail rest).mp hp
    obtain ⟨v, hv, f1, f2, _, f4⟩ := visit_watch_facts env values lit arena head tail c hc hok
    rw [walk_watches_cons env values lit arena head tail rest v hv] at hw
    rw [watch_pairs_cons]
    cases v with
    | removed a' =>
      simp only at hw
      obtain ⟨href, hnot⟩ := f1 a' rfl
      obtain ⟨⟨sub, s1, s2⟩, t1, g1⟩ :=
        ih a' kept arena' conflict (pairs_ok_of_refines arena a' href rest hrest) hw
      refine ⟨⟨sub, List.Sublist.cons _ s1, s2⟩, ?_, ?_⟩
      · rw [List.filter_cons_of_neg (by simpa [blocking_true] using hnot)]
        exact t1
      · intro hcf p hg
        exact g1 hcf p (garbage_pair_of_refines env values arena a' href p hg)
    | kept h' =>
      simp only at hw
      obtain ⟨k0, a0, c0, hw0, _⟩ := walk_watches_defined env values lit rest arena hrest
      rw [hw0] at hw
      simp only [Except.ok.injEq, Prod.mk.injEq] at hw
      obtain ⟨rfl, rfl, rfl⟩ := hw
      obtain ⟨⟨sub, s1, s2⟩, t1, g1⟩ := ih arena k0 a0 c0 hrest hw0
      obtain ⟨hshape, htrue, hwhy⟩ := f2 h' rfl
      rw [watch_pairs_cons]
      refine ⟨⟨(head, tail) :: sub, List.Sublist.cons₂ _ s1,
        List.Forall₂.cons ⟨rfl, hshape⟩ s2⟩, ?_, ?_⟩
      · by_cases hb : blocking_true env values head
        · rw [List.filter_cons_of_pos (by simpa using hb), htrue hb]
          exact List.Sublist.cons₂ _ t1
        · rw [List.filter_cons_of_neg (by simpa using hb)]
          exact List.Sublist.cons _ t1
      · intro hcf p hg hmem
        rcases List.mem_cons.mp hmem with rfl | hmem
        · obtain ⟨g1', g2', c', hc', hgar⟩ := hg
          simp only at hc' g1' g2'
          rw [hc] at hc'
          cases hc'
          rcases hwhy with hb | hng
          · rw [htrue hb] at g2'
            exact g2' hb.2
          · rw [hng] at hgar
            cases hgar
        · exact g1 hcf p hg hmem
    | conflict =>
      simp only [Except.ok.injEq, Prod.mk.injEq] at hw
      obtain ⟨rfl, rfl, rfl⟩ := hw
      rw [watch_pairs_cons]
      refine ⟨⟨_, List.Sublist.refl _, same_pair_up_to_blocking_refl _⟩,
        List.filter_sublist _, ?_⟩
      intro h
      cases h

/-- A walk that reports a conflict has walked a front part of the list without
conflict, has then met a conflict pair, and has left that pair and everything
behind it in place. -/
theorem walk_watches_conflict_split (env : Env) (values : Nat → Int) (lit : Int)
    (ws : List Nat) :
    ∀ arena kept arena', pairs_ok arena ws = true →
      walk_watches env values lit ws arena = .ok (kept, arena', true) →
      ∃ front head tail back kept_front,
        ws = front ++ head :: tail :: back ∧
        walk_watches env values lit front arena = .ok (kept_front, arena', false) ∧
        conflict_pair env values lit arena' head tail ∧
        kept = kept_front ++ head :: tail :: back := by
  induction ws using pairs_induction with
  | h0 =>
    intro arena kept arena' _ hw
    simp [walk_watches] at hw
  | h1 x => intro arena kept arena' hx; simp [pairs_ok] at hx
  | h2 head tail rest ih =>
    intro arena kept arena' hp hw
    obtain ⟨hlt, ⟨c, hc, hok⟩, hrest⟩ := (pairs_ok_cons arena head tail rest).mp hp
    obtain ⟨v, hv, f1, f2, f3, _⟩ := visit_watch_facts env values lit arena head tail c hc hok
    rw [walk_watches_cons env values lit arena head tail rest v hv] at hw
    cases v with
    | removed a' =>
      simp only at hw
      obtain ⟨href, _⟩ := f1 a' rfl
      obtain ⟨front, h, t, back, kf, e1, e2, e3, e4⟩ :=
        ih a' kept arena' (pairs_ok_of_refines arena a' href rest hrest) hw
      refine ⟨head :: tail :: front, h, t, back, kf, by rw [e1]; rfl, ?_, e3, e4⟩
      rw [walk_watches_cons env values lit arena head tail front _ hv]
      exact e2
    | kept h' =>
      simp only at hw
      obtain ⟨k0, a0, c0, hw0, _⟩ := walk_watches_defined env values lit rest arena hrest
      rw [hw0] at hw
      simp only [Except.ok.injEq, Prod.mk.injEq] at hw
      obtain ⟨rfl, rfl, rfl⟩ := hw
      obtain ⟨front, h, t, back, kf, e1, e2, e3, e4⟩ := ih arena k0 a0 hrest hw0
      refine ⟨head :: tail :: front, h, t, back, h' :: tail :: kf, by rw [e1]; rfl, ?_, e3,
        by rw [e4]; rfl⟩
      rw [walk_watches_cons env values lit arena head tail front _ hv]
      simp only [e2]
    | conflict =>
      simp only [Except.ok.injEq, Prod.mk.injEq] at hw
      obtain ⟨rfl, rfl, _⟩ := hw
      exact ⟨[], head, tail, rest, [], rfl, rfl, f3.mp rfl, rfl⟩

/-- Conversely: when a front part of the list is walked without conflict and
the next pair is a conflict pair, the walk of the whole list stops there. -/
theorem walk_watches_conflict_of_split (env : Env) (values : Nat → Int) (lit : Int)
    (head tail : Nat) (back : List Nat) (front : List Nat) :
    ∀ arena kept_front arena',
      pairs_ok arena (front ++ head :: tail :: back) = true →
      walk_watches env values lit front arena = .ok (kept_front, arena', false) →
      conflict_pair env values lit arena' head tail →
      walk_watches env values lit (front ++ head :: tail :: back) arena =
        .ok (kept_front ++ head :: tail :: back, arena', true) := by
  induction front using pairs_induction with
  | h0 =>
    intro arena kf a1 hp hw hcp
    simp only [walk_watches, Except.ok.injEq, Prod.mk.injEq] at hw
    obtain ⟨rfl, rfl, _⟩ := hw
    simp only [List.nil_append] at hp ⊢
    obtain ⟨hlt, ⟨c, hc, hok⟩, hrest⟩ := (pairs_ok_cons arena head tail back).mp hp
    obtain ⟨v, hv, _, _, f3, _⟩ := visit_watch_facts env values lit arena head tail c hc hok
    have hvc := f3.mpr hcp
    subst hvc
    rw [walk_watches_cons env values lit arena head tail back _ hv]
  | h1 x =>
    intro arena kf a1 _ hw
    simp [walk_watches] at hw
  | h2 h0 t0 front ih =>
    intro arena kf a1 hp hw hcp
    simp only [List.cons_append] at hp ⊢
    obtain ⟨hlt, ⟨c, hc, hok⟩, hrest⟩ := (pairs_ok_cons arena h0 t0 _).mp hp
    obtain ⟨v, hv, f1, _, _, _⟩ := visit_watch_facts env values lit arena h0 t0 c hc hok
    rw [walk_watches_cons env values lit arena h0 t0 _ v hv] at hw ⊢
    cases v with
    | removed a' =>
      simp only at hw ⊢
      obtain ⟨href, _⟩ := f1 a' rfl
      exact ih a' kf a1 (pairs_ok_of_refines arena a' href _ hrest) hw hcp
    | kept h' =>
      simp only at hw ⊢
      cases hw0 : walk_watches env values lit front arena with
      | error a => rw [hw0] at hw; cases hw
      | ok r =>
        obtain ⟨k0, a0, c0⟩ := r
        rw [hw0] at hw
        simp only [Except.ok.injEq, Prod.mk.injEq] at hw
        obtain ⟨rfl, rfl, rfl⟩ := hw
        rw [ih arena k0 a0 hrest hw0 hcp]
        rfl
    | conflict =>
      simp at hw

/-! ## One queued literal -/

theorem consistent_iff (s : kissat) : consistent s ↔
    s.archive_watches.length = 2 * s.max_var ∧ s.archive.length ≤ s.archive_capacity ∧
    vectors_ok s ∧ ∀ i, pairs_ok s.archive (contents_at s i) = true := by
  unfold consistent
  constructor
  · rintro ⟨a, b, c, d⟩
    refine ⟨a, b, c, ?_⟩
    intro i
    unfold contents_at
    by_cases hi : i < s.archive_watches.length
    · rw [List.getElem?_eq_getElem hi]
      exact d i hi
    · rw [List.getElem?_eq_none (by omega)]
      rfl
  · rintro ⟨a, b, c, d⟩
    refine ⟨a, b, c, ?_⟩
    intro i hi
    have := d i
    unfold contents_at at this
    rw [List.getElem?_eq_getElem hi] at this
    exact this

theorem write_words_nil (l : List Nat) (start : Nat) : write_words l start [] = l := by
  unfold write_words
  simp

/-- The stack after the words `kept` were written through `q` from the start of
a vector of `size` slots and the slots behind them were filled with the
sentinel. -/
theorem getElem?_written_back (stack kept : List Nat) (off size k : Nat)
    (hin : off + size ≤ stack.length) (hk : kept.length ≤ size) :
    (write_words (write_words stack off kept) (off + kept.length)
        (List.replicate (size - kept.length) INVALID_VECTOR_ELEMENT))[k]? =
      if off ≤ k ∧ k < off + kept.length then kept[k - off]?
      else if off + kept.length ≤ k ∧ k < off + size then some INVALID_VECTOR_ELEMENT
      else stack[k]? := by
  have h1 : (write_words stack off kept).length = stack.length :=
    length_write_words _ _ _ (by omega)
  rw [getElem?_write_words _ _ _ _ (by rw [h1, List.length_replicate]; omega),
    List.length_replicate, getElem?_write_words _ _ _ _ (by omega)]
  by_cases c1 : off ≤ k ∧ k < off + kept.length
  · rw [if_neg (by omega), if_pos c1, if_pos c1]
  · rw [if_neg c1, if_neg c1]
    by_cases c2 : off + kept.length ≤ k ∧ k < off + size
    · rw [if_pos (by omega), if_pos c2, List.getElem?_replicate, if_pos (by omega)]
    · rw [if_neg (by omega), if_neg c2]

theorem length_written_back (stack kept : List Nat) (off size : Nat)
    (hin : off + size ≤ stack.length) (hk : kept.length ≤ size) :
    (write_words (write_words stack off kept) (off + kept.length)
        (List.replicate (size - kept.length) INVALID_VECTOR_ELEMENT)).length =
      stack.length := by
  have h1 : (write_words stack off kept).length = stack.length :=
    length_write_words _ _ _ (by omega)
  rw [length_write_words _ _ _ (by rw [h1, List.length_replicate]; omega), h1]

/-- The state a walk leaves behind, given by its fields. -/
theorem walked_state_consistent (s t : kissat) (idx : Nat) (w : archive_vector)
    (kept : List Nat) (arena' : List ward)
    (hs : consistent s) (hw : s.archive_watches[idx]? = some w)
    (hk : kept.length ≤ w.size)
    (hmem : ∀ x ∈ kept, x ∈ vector_contents s.archive_vectors.stack w ∨ x < 2 ^ 31)
    (href : arena_refines s.archive arena') (hpairs : pairs_ok arena' kept = true)
    (hstack : t.archive_vectors.stack =
      write_words (write_words s.archive_vectors.stack w.offset kept) (w.offset + kept.length)
        (List.replicate (w.size - kept.length) INVALID_VECTOR_ELEMENT))
    (hcapv : t.archive_vectors.capacity = s.archive_vectors.capacity)
    (htbl : t.archive_watches = s.archive_watches.set idx ⟨w.offset, kept.length⟩)
    (harena : t.archive = arena') (hcap : t.archive_capacity = s.archive_capacity)
    (hmax : t.max_var = s.max_var) :
    consistent t ∧ contents_at t idx = kept ∧
    ∀ j, j ≠ idx → contents_at t j = contents_at s j := by
  obtain ⟨c1, c2, c3, c4⟩ := (consistent_iff s).mp hs
  obtain ⟨v1, v2, v3⟩ := (vectors_ok_iff s).mp c3
  have hidx : idx < s.archive_watches.length := (List.getElem?_eq_some_iff.mp hw).1
  obtain ⟨hin, hnosent⟩ := v2 idx w hw
  have hget := fun k => getElem?_written_back s.archive_vectors.stack kept w.offset w.size k hin hk
  have hlen := length_written_back s.archive_vectors.stack kept w.offset w.size hin hk
  have hcontents : contents_at t idx = kept := by
    unfold contents_at
    rw [htbl, List.getElem?_set_self hidx, hstack]
    apply List.ext_getElem?
    intro k
    rw [getElem?_vector_contents]
    simp only
    by_cases hk' : k < kept.length
    · rw [if_pos hk', hget, if_pos (by omega)]
      congr 1
      omega
    · rw [if_neg hk', List.getElem?_eq_none (by omega)]
  obtain ⟨hok, hothers⟩ := vectors_ok_step s t idx w ⟨w.offset, kept.length⟩ c3 hw htbl
    (by rw [hstack, hlen, hcapv]; exact v1)
    (by rw [hstack, hlen])
    (by rw [hstack, hlen]; simp only; omega)
    (by
      intro k hk1 hk2 _
      rw [hstack, hget, if_neg (by omega), if_neg (by omega)])
    (by
      intro k hk1 hk2
      simp only at hk1 hk2
      left; omega)
    (by
      intro k hk1 hk2 hbad
      simp only at hk1 hk2
      rw [hstack, hget, if_pos ⟨hk1, hk2⟩] at hbad
      have hmem' : INVALID_VECTOR_ELEMENT ∈ kept := List.mem_iff_getElem?.mpr ⟨_, hbad⟩
      rcases hmem _ hmem' with h | h
      · obtain ⟨k', a, b, c⟩ := (mem_vector_contents _ _ _).mp h
        exact hnosent k' a b c
      · unfold INVALID_VECTOR_ELEMENT at h
        omega)
  refine ⟨?_, hcontents, hothers⟩
  rw [consistent_iff]
  refine ⟨by rw [htbl, List.length_set, hmax]; exact c1,
    by rw [harena, href.1, hcap]; exact c2, hok, ?_⟩
  intro i
  rw [harena]
  by_cases hi : i = idx
  · subst hi
    rw [hcontents]
    exact hpairs
  · rw [hothers i hi]
    exact pairs_ok_of_refines _ _ href _ (c4 i)

theorem watches_at_eq (s : kissat) (i : Int) (idx : Nat) (w : archive_vector)
    (h : watches_at s i = some (idx, w)) : s.archive_watches[idx]? = some w := by
  unfold watches_at at h
  split at h
  · cases h
  · split at h
    · rename_i v hv
      simp only [Option.some.injEq, Prod.mk.injEq] at h
      obtain ⟨rfl, rfl⟩ := h
      exact hv
    · cases h

theorem set_same (l : List archive_vector) (idx : Nat) (w : archive_vector)
    (h : l[idx]? = some w) : l.set idx w = l := by
  apply List.ext_getElem?
  intro k
  rw [List.getElem?_set]
  split
  · rename_i hk
    subst hk
    rw [h]
    simp [(List.getElem?_eq_some_iff.mp h).1]
  · rfl

/-- The body of the loop for one queued literal whose watch vector is not
empty, in a consistent state: the walk of the vector returns, and the state
`t` behind it is consistent, holds the arena left by the walk and the words
the walk kept as the watch list, and reads every other watch list as before;
the conflict counter is incremented exactly when the walk reports a conflict,
in which case the function returns. -/
theorem propagate_literal_spec (env : Env) (s : kissat) (ilit idx : Nat) (w : archive_vector)
    (hs : consistent s)
    (hw : watches_at s (lit2idx (-(env.kissat_export_literal ilit))) = some (idx, w))
    (hne : w.size ≠ 0) :
    ∃ kept arena' conflict t,
      walk_watches env s.values (env.kissat_export_literal ilit)
        (vector_contents s.archive_vectors.stack w) s.archive = .ok (kept, arena', conflict) ∧
      propagate_literal env s ilit = .ok (if conflict = true then .done t else .next t) ∧
      consistent t ∧ t.archive = arena' ∧ contents_at t idx = kept ∧
      (∀ j, j ≠ idx → contents_at t j = contents_at s j) ∧
      t.archive_conflicts = s.archive_conflicts + (if conflict = true then 1 else 0) ∧
      t.values = s.values ∧ t.archive_propagate = s.archive_propagate ∧
      t.option_archive = s.option_archive ∧ t.archive_unlocked = s.archive_unlocked ∧
      t.max_var = s.max_var ∧ t.archive_capacity = s.archive_capacity := by
  have hw' := watches_at_eq s _ idx w hw
  obtain ⟨c1, c2, c3, c4⟩ := (consistent_iff s).mp hs
  obtain ⟨v1, v2, v3⟩ := (vectors_ok_iff s).mp c3
  obtain ⟨hin, _⟩ := v2 idx w hw'
  have hpairs : pairs_ok s.archive (vector_contents s.archive_vectors.stack w) = true := by
    have := c4 idx
    unfold contents_at at this
    rw [hw'] at this
    exact this
  obtain ⟨kept, arena', conflict, hwalk, href, hpk, hmem, hlen⟩ :=
    walk_watches_defined env s.values (env.kissat_export_literal ilit) _ s.archive hpairs
  rw [length_vector_contents _ _ hin] at hlen
  have hlen1 : (write_words s.archive_vectors.stack w.offset kept).length = s.archive_vectors.stack.length :=
    length_write_words _ _ _ (by omega)
  -- the state behind the walk, in the two cases of `resize_archive_vector`
  have hresize : ∃ t, resize_archive_vector
      { s with archive := arena',
               archive_vectors :=
                 { s.archive_vectors with
                   stack := write_words s.archive_vectors.stack w.offset kept } }
        idx kept.length =
        .ok t ∧
      t.archive_vectors.stack =
        write_words (write_words s.archive_vectors.stack w.offset kept) (w.offset + kept.length)
          (List.replicate (w.size - kept.length) INVALID_VECTOR_ELEMENT) ∧
      t.archive_vectors.capacity = s.archive_vectors.capacity ∧
      t.archive_watches = s.archive_watches.set idx ⟨w.offset, kept.length⟩ ∧
      t.archive = arena' ∧ t.archive_capacity = s.archive_capacity ∧
      t.max_var = s.max_var ∧ t.archive_conflicts = s.archive_conflicts ∧
      t.values = s.values ∧ t.archive_propagate = s.archive_propagate ∧
      t.option_archive = s.option_archive ∧ t.archive_unlocked = s.archive_unlocked := by
    unfold resize_archive_vector
    simp only [hw']
    by_cases heq : kept.length = w.size
    · rw [if_pos heq]
      refine ⟨_, rfl, ?_, rfl, ?_, rfl, rfl, rfl, rfl, rfl, rfl, rfl, rfl⟩
      · simp only [heq, Nat.sub_self, List.replicate_zero, write_words_nil]
      · simp only
        rw [heq]
        exact (set_same _ _ _ hw').symm
    · rw [if_neg heq, if_neg (by rw [hlen1]; omega)]
      exact ⟨_, rfl, rfl, rfl, rfl, rfl, rfl, rfl, rfl, rfl, rfl, rfl, rfl⟩
  obtain ⟨t, hres, t1, t2, t3, t4, t5, t6, t7, t8, t9, t10, t11⟩ := hresize
  obtain ⟨hcons, hcont, hothers⟩ := walked_state_consistent s t idx w kept arena' hs hw' hlen
    hmem href hpk t1 t2 t3 t4 t5 t6
  have hstep : propagate_literal env s ilit =
      .ok (if conflict = true then
          .done { t with archive_conflicts := t.archive_conflicts + 1 }
        else .next t) := by
    unfold propagate_literal
    simp only [hw, if_neg hne]
    rw [if_neg (by omega), hwalk]
    simp only [hres]
    cases conflict <;> simp
  cases hcf : conflict with
  | false =>
    subst hcf
    refine ⟨kept, arena', false, t, hwalk, ?_, hcons, t4, hcont, hothers, ?_, t8, t9, t10,
      t11, t6, t5⟩
    · rw [hstep]; simp
    · simp [t7]
  | true =>
    subst hcf
    have hcons' : consistent { t with archive_conflicts := t.archive_conflicts + 1 } := hcons
    refine ⟨kept, arena', true, { t with archive_conflicts := t.archive_conflicts + 1 },
      hwalk, ?_, hcons', t4, hcont, hothers, ?_, t8, t9, t10, t11, t6, t5⟩
    · rw [hstep]; simp
    · simp [t7]

theorem watches_at_some (s : kissat) (i : Int) (idx : Nat) (w : archive_vector)
    (h : watches_at s i = some (idx, w)) : 0 ≤ i ∧ idx = i.toNat := by
  unfold watches_at at h
  split at h
  · cases h
  · split at h
    · simp only [Option.some.injEq, Prod.mk.injEq] at h
      exact ⟨by omega, h.1.symm⟩
    · cases h

theorem watches_at_of_bound (s : kissat) (lit : Int)
    (hlen : s.archive_watches.length = 2 * s.max_var)
    (h0 : lit ≠ 0) (hm : lit.natAbs ≤ s.max_var) :
    ∃ w, watches_at s (lit2idx lit) = some ((lit2idx lit).toNat, w) := by
  have h1 := lit2idx_nonneg lit h0
  have h2 := lit2idx_lt lit s.max_var h0 hm
  unfold watches_at
  rw [if_neg (by omega), List.getElem?_eq_getElem (by omega)]
  exact ⟨_, rfl⟩

theorem watch_list_of_watches_at (s : kissat) (lit : Int) (idx : Nat) (w : archive_vector)
    (h : watches_at s (lit2idx lit) = some (idx, w)) :
    watch_list s lit = vector_contents s.archive_vectors.stack w ∧ watch_list s lit = contents_at s idx := by
  have h1 := watches_at_eq s _ idx w h
  unfold watch_list contents_at
  rw [h, h1]
  exact ⟨rfl, rfl⟩

theorem lit_ne_zero_of_watches_at (s : kissat) (lit : Int) (idx : Nat) (w : archive_vector)
    (h : watches_at s (lit2idx lit) = some (idx, w)) : lit ≠ 0 := by
  rintro rfl
  have := (watches_at_some s _ idx w h).1
  unfold lit2idx at this
  simp at this

/-- The outcome `next` of the loop body: the watch vector was not empty and its
walk found no conflict. -/
theorem propagate_literal_next (env : Env) (s s' : kissat) (ilit : Nat)
    (hs : consistent s) (hstep : propagate_literal env s ilit = .ok (.next s')) :
    consistent s' ∧ s'.archive_conflicts = s.archive_conflicts ∧
    s'.max_var = s.max_var ∧ s'.values = s.values ∧
    s'.option_archive = s.option_archive ∧ s'.archive_unlocked = s.archive_unlocked ∧
    s'.archive_propagate = s.archive_propagate := by
  cases hw : watches_at s (lit2idx (-(env.kissat_export_literal ilit))) with
  | none =>
    unfold propagate_literal at hstep
    simp only [hw] at hstep
    cases hstep
  | some p =>
    obtain ⟨idx, w⟩ := p
    by_cases hne : w.size = 0
    · unfold propagate_literal at hstep
      simp only [hw, hne, if_true] at hstep
      cases hstep
    · obtain ⟨kept, arena', conflict, t, _, hp, hc, _, _, _, hcf, hv, hq, ho, hu, hm, _⟩ :=
        propagate_literal_spec env s ilit idx w hs hw hne
      rw [hp] at hstep
      cases conflict with
      | true => simp at hstep
      | false =>
        simp only [Bool.false_eq_true, if_false, Except.ok.injEq, Step.next.injEq] at hstep
        subst hstep
        exact ⟨hc, by simpa using hcf, hm, hv, ho, hu, hq⟩

theorem state_after_spec (env : Env) (front : List Nat) :
    ∀ s sk : kissat, consistent s → state_after env front s = some sk →
      consistent sk ∧ sk.archive_conflicts = s.archive_conflicts ∧
      sk.max_var = s.max_var ∧ sk.values = s.values ∧
      sk.option_archive = s.option_archive ∧ sk.archive_unlocked = s.archive_unlocked ∧
      sk.archive_propagate = s.archive_propagate := by
  induction front with
  | nil =>
    intro s sk hs h
    simp only [state_after, Option.some.injEq] at h
    subst h
    exact ⟨hs, rfl, rfl, rfl, rfl, rfl, rfl⟩
  | cons ilit front ih =>
    intro s sk hs h
    unfold state_after at h
    split at h
    · rename_i s' hstep
      obtain ⟨a1, a2, a3, a4, a5, a6, a7⟩ := propagate_literal_next env s s' ilit hs hstep
      obtain ⟨b1, b2, b3, b4, b5, b6, b7⟩ := ih s' sk a1 h
      exact ⟨b1, b2.trans a2, b3.trans a3, b4.trans a4, b5.trans a5, b6.trans a6,
        b7.trans a7⟩
    · cases h

/-! ## Conflicts -/

/-- When the loop arrives in a consistent state `sk` at a queued literal whose
walk meets a conflict pair, the function returns there: the arena is the one
the walk of the front part left, the walked list is what that front walk kept
followed by the conflict pair and everything behind it, every other list is
as in `sk`, and the counter is one more than in `sk`. -/
theorem propagate_queue_conflict (env : Env) (sk : kissat) (ilit : Nat) (rest : List Nat)
    (ws_front : List Nat) (head tail : Nat) (ws_back kept_front : List Nat)
    (arena' : List ward)
    (hs : consistent sk)
    (hlist : watch_list sk (-(env.kissat_export_literal ilit)) =
      ws_front ++ head :: tail :: ws_back)
    (hwalk : walk_watches env sk.values (env.kissat_export_literal ilit) ws_front sk.archive =
      .ok (kept_front, arena', false))
    (hcp : conflict_pair env sk.values (env.kissat_export_literal ilit) arena' head tail) :
    ∃ t, propagate_queue env (ilit :: rest) sk = .ok t ∧
      t.archive = arena' ∧
      watch_list t (-(env.kissat_export_literal ilit)) =
        kept_front ++ head :: tail :: ws_back ∧
      (∀ x, x ≠ -(env.kissat_export_literal ilit) → watch_list t x = watch_list sk x) ∧
      t.archive_conflicts = sk.archive_conflicts + 1 := by
  cases hw : watches_at sk (lit2idx (-(env.kissat_export_literal ilit))) with
  | none =>
    unfold watch_list at hlist
    rw [hw] at hlist
    simp at hlist
  | some p =>
    obtain ⟨idx, w⟩ := p
    obtain ⟨hl1, hl2⟩ := watch_list_of_watches_at sk _ idx w hw
    have hlit := lit_ne_zero_of_watches_at sk _ idx w hw
    obtain ⟨_, hidx⟩ := watches_at_some sk _ idx w hw
    have hw' := watches_at_eq sk _ idx w hw
    have hin := (((vectors_ok_iff sk).mp ((consistent_iff sk).mp hs).2.2.1).2.1 idx w hw').1
    have hne : w.size ≠ 0 := by
      intro h0
      have := length_vector_contents sk.archive_vectors.stack w hin
      rw [← hl1, hlist, h0] at this
      simp at this
    obtain ⟨kept, a2, conflict, t, hwk, hp, hc, ha, hcont, hothers, hcf, _⟩ :=
      propagate_literal_spec env sk ilit idx w hs hw hne
    have hpairs : pairs_ok sk.archive (ws_front ++ head :: tail :: ws_back) = true := by
      have := ((consistent_iff sk).mp hs).2.2.2 idx
      rw [← hl2, hlist] at this
      exact this
    have hconv := walk_watches_conflict_of_split env sk.values (env.kissat_export_literal ilit)
      head tail ws_back ws_front sk.archive kept_front arena' hpairs hwalk hcp
    rw [← hl1, hlist, hconv] at hwk
    simp only [Except.ok.injEq, Prod.mk.injEq] at hwk
    obtain ⟨rfl, rfl, rfl⟩ := hwk
    refine ⟨t, ?_, ha, ?_, ?_, by simpa using hcf⟩
    · simp only [propagate_queue, hp, if_true]
    · have hlen : t.archive_watches.length = sk.archive_watches.length := by
        have h1 := ((consistent_iff t).mp hc).1
        have h2 := ((consistent_iff sk).mp hs).1
        omega
      rw [watch_list_eq t _ hlit, ← hidx, hcont]
    · intro x hx
      by_cases hx0 : x = 0
      · subst hx0
        rw [watch_list_zero, watch_list_zero]
      · rw [watch_list_eq t x hx0, watch_list_eq sk x hx0]
        apply hothers
        rw [hidx]
        intro h
        exact hx (lit2idx_injective x _ hx0 hlit h)

/-- The loop over the queue in a consistent state whose table covers the
queued literals: it returns, the counter is unchanged or one more, and when it
is one more the loop has arrived at a literal whose walk met a conflict
pair. -/
theorem propagate_queue_spec (env : Env) (queue : List Nat) :
    ∀ s : kissat, consistent s →
      (∀ ilit ∈ queue, env.kissat_export_literal ilit ≠ 0 ∧
        (env.kissat_export_literal ilit).natAbs ≤ s.max_var) →
      ∃ t, propagate_queue env queue s = .ok t ∧
        (t.archive_conflicts = s.archive_conflicts ∨
          t.archive_conflicts = s.archive_conflicts + 1) ∧
        (t.archive_conflicts = s.archive_conflicts + 1 →
          ∃ front ilit rest sk ws_front head tail ws_back kept_front arena',
            queue = front ++ ilit :: rest ∧
            state_after env front s = some sk ∧
            watch_list sk (-(env.kissat_export_literal ilit)) =
              ws_front ++ head :: tail :: ws_back ∧
            walk_watches env sk.values (env.kissat_export_literal ilit) ws_front sk.archive =
              .ok (kept_front, arena', false) ∧
            conflict_pair env sk.values (env.kissat_export_literal ilit) arena' head tail) := by
  induction queue with
  | nil =>
    intro s _ _
    exact ⟨s, rfl, Or.inl rfl, fun h => by omega⟩
  | cons ilit rest ih =>
    intro s hs hq
    obtain ⟨h0, hm⟩ := hq ilit (List.mem_cons_self _ _)
    have hlen := ((consistent_iff s).mp hs).1
    obtain ⟨w, hw⟩ := watches_at_of_bound s (-(env.kissat_export_literal ilit)) hlen
      (by omega) (by omega)
    by_cases hne : w.size = 0
    · refine ⟨s, ?_, Or.inl rfl, fun h => by omega⟩
      simp only [propagate_queue, propagate_literal, hw, hne, if_true]
    · obtain ⟨kept, a2, conflict, t, hwk, hp, hc, ha, hcont, hothers, hcf, hv, _, _, _, hmax, _⟩ :=
        propagate_literal_spec env s ilit _ w hs hw hne
      cases conflict with
      | true =>
        refine ⟨t, ?_, Or.inr (by simpa using hcf), ?_⟩
        · simp only [propagate_queue, hp, if_true]
        · intro _
          obtain ⟨hl1, _⟩ := watch_list_of_watches_at s _ _ w hw
          have hpairs : pairs_ok s.archive (vector_contents s.archive_vectors.stack w) = true := by
            have := ((consistent_iff s).mp hs).2.2.2 (lit2idx (-(env.kissat_export_literal ilit))).toNat
            unfold contents_at at this
            rw [watches_at_eq s _ _ w hw] at this
            exact this
          obtain ⟨front, head, tail, back, kf, e1, e2, e3, _⟩ :=
            walk_watches_conflict_split env s.values (env.kissat_export_literal ilit) _
              s.archive kept a2 hpairs hwk
          exact ⟨[], ilit, rest, s, front, head, tail, back, kf, a2, rfl, rfl,
            by rw [hl1, e1], e2, e3⟩
      | false =>
        have hstep : propagate_literal env s ilit = .ok (.next t) := by
          rw [hp]; simp
        have hcf' : t.archive_conflicts = s.archive_conflicts := by simpa using hcf
        obtain ⟨t', ht', hcount, hreach⟩ := ih t hc (by
          intro x hx
          rw [hmax]
          exact hq x (List.mem_cons_of_mem _ hx))
        refine ⟨t', ?_, by rw [← hcf']; exact hcount, ?_⟩
        · simp only [propagate_queue, hstep]
          exact ht'
        · intro h
          obtain ⟨front, il, rs, sk, wf, hd, tl, wb, kf, a', e1, e2, e3, e4, e5⟩ :=
            hreach (by rw [hcf']; exact h)
          refine ⟨ilit :: front, il, rs, sk, wf, hd, tl, wb, kf, a', by rw [e1]; rfl, ?_, e3,
            e4, e5⟩
          simp only [state_after, hstep]
          exact e2

/-- C3: in a consistent state whose watch table covers the queued literals, a
call of `kissat_propagate_archive` returns and the conflict counter is
unchanged or exactly one more.  It is one more precisely when the walk reaches
a conflict pair (`reaches_conflict`: blocking literal valid and not true,
clause not garbage, other watched literal valid and false, every unwatched
literal valid and false).  When it does, the call returns the state left at
that pair: the arena is as the walk of the pairs before it left it, the walked
list is what was kept of those pairs followed by the conflict pair and every
pair after it, no other list has changed since the loop arrived at the
literal, and the result is the same whatever literals follow in the queue. -/
theorem conflict_counter_step (env : Env) (s : kissat) (hs : consistent s)
    (hq : ∀ ilit ∈ s.archive_propagate, env.kissat_export_literal ilit ≠ 0 ∧
      (env.kissat_export_literal ilit).natAbs ≤ s.max_var) :
    ∃ t, kissat_propagate_archive env s = .ok t ∧
      (t.archive_conflicts = s.archive_conflicts ∨
        t.archive_conflicts = s.archive_conflicts + 1) ∧
      (t.archive_conflicts = s.archive_conflicts + 1 ↔ reaches_conflict env s) ∧
      (∀ front ilit rest sk ws_front head tail ws_back kept_front arena',
        s.option_archive = true → s.archive_unlocked = true → s.archive.length ≠ 0 →
        s.archive_propagate = front ++ ilit :: rest →
        state_after env front s = some sk →
        watch_list sk (-(env.kissat_export_literal ilit)) =
          ws_front ++ head :: tail :: ws_back →
        walk_watches env sk.values (env.kissat_export_literal ilit) ws_front sk.archive =
          .ok (kept_front, arena', false) →
        conflict_pair env sk.values (env.kissat_export_literal ilit) arena' head tail →
        t.archive = arena' ∧
        watch_list t (-(env.kissat_export_literal ilit)) =
          kept_front ++ head :: tail :: ws_back ∧
        (∀ x, x ≠ -(env.kissat_export_literal ilit) → watch_list t x = watch_list sk x) ∧
        t.archive_conflicts = sk.archive_conflicts + 1 ∧
        ∀ rest', propagate_queue env (front ++ ilit :: rest') s = .ok t) := by
  -- what the call returns once a conflict pair is reached
  have hreached : ∀ front ilit rest sk ws_front head tail ws_back kept_front arena',
      s.option_archive = true → s.archive_unlocked = true → s.archive.length ≠ 0 →
      s.archive_propagate = front ++ ilit :: rest →
      state_after env front s = some sk →
      watch_list sk (-(env.kissat_export_literal ilit)) =
        ws_front ++ head :: tail :: ws_back →
      walk_watches env sk.values (env.kissat_export_literal ilit) ws_front sk.archive =
        .ok (kept_front, arena', false) →
      conflict_pair env sk.values (env.kissat_export_literal ilit) arena' head tail →
      ∃ t, kissat_propagate_archive env s = .ok t ∧ t.archive = arena' ∧
        watch_list t (-(env.kissat_export_literal ilit)) =
          kept_front ++ head :: tail :: ws_back ∧
        (∀ x, x ≠ -(env.kissat_export_literal ilit) → watch_list t x = watch_list sk x) ∧
        t.archive_conflicts = sk.archive_conflicts + 1 ∧
        t.archive_conflicts = s.archive_conflicts + 1 ∧
        ∀ rest', propagate_queue env (front ++ ilit :: rest') s = .ok t := by
    intro front ilit rest sk wf hd tl wb kf a' hopt hun harena hqueue hreach hlist hwalk hcp
    obtain ⟨k1, k2, _⟩ := state_after_spec env front s sk hs hreach
    obtain ⟨t, ht, r1, r2, r3, r4⟩ :=
      propagate_queue_conflict env sk ilit rest wf hd tl wb kf a' k1 hlist hwalk hcp
    refine ⟨t, ?_, r1, r2, r3, r4, by omega, ?_⟩
    · unfold kissat_propagate_archive
      have hcond : ¬ ((!s.option_archive || !s.archive_unlocked) = true) := by
        simp [hopt, hun]
      rw [if_neg hcond, if_neg harena, hqueue,
        propagate_queue_append env front _ s sk hreach]
      exact ht
    · intro rest'
      obtain ⟨t', ht', q1, q2, q3, q4⟩ :=
        propagate_queue_conflict env sk ilit rest' wf hd tl wb kf a' k1 hlist hwalk hcp
      rw [propagate_queue_append env front _ s sk hreach, ht']
      -- both queues stop in the same state
      have e1 : propagate_queue env (ilit :: rest') sk = propagate_queue env (ilit :: rest) sk := by
        simp only [propagate_queue]
        cases hstep : propagate_literal env sk ilit with
        | error a => rfl
        | ok step =>
          cases step with
          | done x => rfl
          | next x =>
            obtain ⟨w, hw⟩ : ∃ w, watches_at sk (lit2idx (-(env.kissat_export_literal ilit))) = some w := by
              cases hw : watches_at sk (lit2idx (-(env.kissat_export_literal ilit))) with
              | none =>
                unfold propagate_literal at hstep
                simp only [hw] at hstep
                cases hstep
              | some w => exact ⟨w, rfl⟩
            obtain ⟨idx, w⟩ := w
            obtain ⟨hl1, hl2⟩ := watch_list_of_watches_at sk _ idx w hw
            have hw' := watches_at_eq sk _ idx w hw
            have hne : w.size ≠ 0 := by
              intro h0
              unfold propagate_literal at hstep
              simp only [hw, h0, if_true] at hstep
              cases hstep
            obtain ⟨kept, a2, conflict, u, hwk, hp, _⟩ :=
              propagate_literal_spec env sk ilit idx w k1 hw hne
            have hpairs : pairs_ok sk.archive (wf ++ hd :: tl :: wb) = true := by
              have := ((consistent_iff sk).mp k1).2.2.2 idx
              rw [← hl2, hlist] at this
              exact this
            have hconv := walk_watches_conflict_of_split env sk.values
              (env.kissat_export_literal ilit) hd tl wb wf sk.archive kf a' hpairs hwalk hcp
            rw [← hl1, hlist, hconv] at hwk
            simp only [Except.ok.injEq, Prod.mk.injEq] at hwk
            obtain ⟨_, _, rfl⟩ := hwk
            rw [hp] at hstep
            simp at hstep
      rw [e1] at ht'
      rw [ht] at ht'
      exact ht'.symm
  by_cases hrun : s.option_archive = true ∧ s.archive_unlocked = true ∧ s.archive.length ≠ 0
  · obtain ⟨hopt, hun, harena⟩ := hrun
    obtain ⟨t, ht, hcount, hsplit⟩ := propagate_queue_spec env s.archive_propagate s hs hq
    have hcall : kissat_propagate_archive env s = .ok t := by
      unfold kissat_propagate_archive
      have hcond : ¬ ((!s.option_archive || !s.archive_unlocked) = true) := by
        simp [hopt, hun]
      rw [if_neg hcond, if_neg harena]
      exact ht
    refine ⟨t, hcall, hcount, ?_, ?_⟩
    · constructor
      · intro h
        exact ⟨hopt, hun, harena, hsplit h⟩
      · rintro ⟨_, _, _, front, ilit, rest, sk, wf, hd, tl, wb, kf, a', e1, e2, e3, e4, e5⟩
        obtain ⟨t', ht', _, _, _, _, r5, _⟩ :=
          hreached front ilit rest sk wf hd tl wb kf a' hopt hun harena e1 e2 e3 e4 e5
        rw [hcall] at ht'
        cases ht'
        exact r5
    · intro front ilit rest sk wf hd tl wb kf a' h1 h2 h3 e1 e2 e3 e4 e5
      obtain ⟨t', ht', r1, r2, r3, r4, _, r6⟩ :=
        hreached front ilit rest sk wf hd tl wb kf a' h1 h2 h3 e1 e2 e3 e4 e5
      rw [hcall] at ht'
      cases ht'
      exact ⟨r1, r2, r3, r4, r6⟩
  · have hcall : kissat_propagate_archive env s = .ok s := by
      unfold kissat_propagate_archive
      by_cases hcond : (!s.option_archive || !s.archive_unlocked) = true
      · rw [if_pos hcond]
      · rw [if_neg hcond]
        have : s.archive.length = 0 := by
          by_contra hne
          apply hrun
          simp only [Bool.or_eq_true, Bool.not_eq_true', not_or, Bool.not_eq_false] at hcond
          exact ⟨hcond.1, hcond.2, hne⟩
        rw [if_pos this]
    refine ⟨s, hcall, Or.inl rfl, ?_, ?_⟩
    · constructor
      · intro h; omega
      · rintro ⟨h1, h2, h3, _⟩
        exact absurd ⟨h1, h2, h3⟩ hrun
    · intro front ilit rest sk wf hd tl wb kf a' h1 h2 h3
      exact absurd ⟨h1, h2, h3⟩ hrun

/-- Witness of C3: the state holding the clause `5, -3, 7` with `-5`, `3` and
`-7` true and queued; the walk reaches a conflict pair and the counter goes
from 0 to 1. -/
theorem conflict_counter_step_witness :
    consistent (assign_and_queue sample_state [-5, 3, -7]) ∧
    ∃ t, kissat_propagate_archive (plain_env 8) (assign_and_queue sample_state [-5, 3, -7]) =
        .ok t ∧
      (t.archive_conflicts = (assign_and_queue sample_state [-5, 3, -7]).archive_conflicts ∨
        t.archive_conflicts =
          (assign_and_queue sample_state [-5, 3, -7]).archive_conflicts + 1) ∧
      (t.archive_conflicts =
          (assign_and_queue sample_state [-5, 3, -7]).archive_conflicts + 1 ↔
        reaches_conflict (plain_env 8) (assign_and_queue sample_state [-5, 3, -7])) ∧
      t.archive_conflicts = 1 := by
  refine ⟨by decide, ?_⟩
  obtain ⟨t, h1, h2, h3, _⟩ :=
    conflict_counter_step (plain_env 8) (assign_and_queue sample_state [-5, 3, -7])
      (by decide) (by decide)
  refine ⟨t, h1, h2, h3, ?_⟩
  have h : ∃ u, kissat_propagate_archive (plain_env 8)
      (assign_and_queue sample_state [-5, 3, -7]) = .ok u ∧ u.archive_conflicts = 1 :=
    ⟨_, rfl, rfl⟩
  obtain ⟨u, hu, hc⟩ := h
  rw [h1] at hu
  cases hu
  exact hc

theorem walk_watches_even (env : Env) (values : Nat → Int) (lit : Int) (ws : List Nat) :
    ∀ arena kept arena',
      walk_watches env values lit ws arena = .ok (kept, arena', false) →
      ws.length % 2 = 0 := by
  induction ws using pairs_induction with
  | h0 => intro _ _ _ _; rfl
  | h1 x =>
    intro arena kept arena' hw
    simp [walk_watches] at hw
  | h2 head tail rest ih =>
    intro arena kept arena' hw
    simp only [List.length_cons]
    cases hv : visit_watch env values lit arena head tail with
    | error a => simp [walk_watches, hv] at hw
    | ok v =>
      rw [walk_watches_cons env values lit arena head tail rest v hv] at hw
      cases v with
      | removed a' =>
        have := ih a' kept arena' hw
        omega
      | kept h' =>
        simp only at hw
        cases hw0 : walk_watches env values lit rest arena with
        | error a => rw [hw0] at hw; cases hw
        | ok r0 =>
          obtain ⟨k0, a0, c0⟩ := r0
          rw [hw0] at hw
          simp only [Except.ok.injEq, Prod.mk.injEq] at hw
          obtain ⟨_, _, rfl⟩ := hw
          have := ih arena k0 a0 hw0
          omega
      | conflict => simp at hw

theorem pairs_ok_front (arena : List ward) (back : List Nat) (front : List Nat) :
    front.length % 2 = 0 → pairs_ok arena (front ++ back) = true →
      pairs_ok arena front = true := by
  induction front using pairs_induction with
  | h0 => intro _ _; rfl
  | h1 x => intro h; simp at h
  | h2 head tail front ih =>
    intro hev hp
    simp only [List.cons_append] at hp
    simp only [List.length_cons] at hev
    rw [pairs_ok_cons] at hp ⊢
    exact ⟨hp.1, hp.2.1, ih (by omega) hp.2.2⟩

/-! ## Compaction -/

theorem visit_watch_blocking_true (env : Env) (values : Nat → Int) (lit : Int)
    (arena : List ward) (head tail : Nat) (h : blocking_true env values head) :
    visit_watch env values lit arena head tail = .ok (.kept head) := by
  obtain ⟨⟨h1, h2⟩, h3⟩ := h
  unfold value_of at h3
  unfold visit_watch
  simp [h1, h2, h3]

theorem visit_watch_garbage (env : Env) (values : Nat → Int) (lit : Int)
    (arena : List ward) (head tail : Nat)
    (h : garbage_pair env values arena (head, tail)) :
    visit_watch env values lit arena head tail = .ok (.removed arena) := by
  obtain ⟨⟨h1, h2⟩, h3, c, hc, hg⟩ := h
  unfold value_of at h3
  simp only at h1 h2 h3 hc
  unfold visit_watch
  simp [h1, h2, h3, hc, hg]

theorem visit_watch_invalid (env : Env) (values : Nat → Int) (lit : Int)
    (arena : List ward) (head tail : Nat) (h : ¬ literal_valid env (blocking_lit head)) :
    visit_watch env values lit arena head tail = .ok (.removed arena) := by
  unfold literal_valid at h
  unfold visit_watch
  by_cases h1 : env.VALID_EXTERNAL_LITERAL (blocking_lit head) = true
  · have h2 : ¬ env.VALID_INTERNAL_LITERAL
        (env.kissat_import_literal (blocking_lit head)) = true := fun h2 => h ⟨h1, h2⟩
    simp [h1, h2]
  · simp [h1]

/-- C8 (amended): for a queued literal whose watch vector is not empty, in a consistent
state, the body of the loop of `kissat_propagate_archive` returns, and between
the state `s` before and the state `t` after it the walked watch list has
changed as follows.  (1) The pairs after the walk are, in order, a sublist of
the pairs before it, each kept whole: same reference word, and the same head
word or that head word with another blocking literal stored.  (2) Every pair
whose blocking literal is true is kept unchanged, in order.  (3) When the walk
does not report a conflict, no pair whose blocking literal is valid and not
true and whose clause is marked garbage remains.  (4) When the walk reports a
conflict, the list is what was kept of the pairs before the conflict pair
(no such garbage pair among them), followed by the conflict pair and every
pair after it, unchanged and in their order.  (5) A list `e1, g, e2` of three pairs, where `g` references a garbage
clause and has a blocking literal that is valid and not true (or has a
blocking literal that is no longer valid) and `e1`, `e2` have true blocking
literals, becomes `e1, e2`. -/
theorem walked_list_is_compacted (env : Env) (s : kissat) (ilit idx : Nat)
    (w : archive_vector) (hs : consistent s)
    (hw : watches_at s (lit2idx (-(env.kissat_export_literal ilit))) = some (idx, w))
    (hne : w.size ≠ 0) :
    ∃ t, (propagate_literal env s ilit = .ok (.next t) ∨
          propagate_literal env s ilit = .ok (.done t)) ∧
      (∃ sub,
        List.Sublist sub (watch_pairs (watch_list s (-(env.kissat_export_literal ilit)))) ∧
        List.Forall₂ same_pair_up_to_blocking
          (watch_pairs (watch_list t (-(env.kissat_export_literal ilit)))) sub) ∧
      List.Sublist
        ((watch_pairs (watch_list s (-(env.kissat_export_literal ilit)))).filter
          (fun p => decide (blocking_true env s.values p.1)))
        (watch_pairs (watch_list t (-(env.kissat_export_literal ilit)))) ∧
      (t.archive_conflicts = s.archive_conflicts →
        ∀ p, garbage_pair env s.values s.archive p →
          p ∉ watch_pairs (watch_list t (-(env.kissat_export_literal ilit)))) ∧
      (t.archive_conflicts ≠ s.archive_conflicts →
        ∃ front head tail back kept_front arena',
          watch_list s (-(env.kissat_export_literal ilit)) = front ++ head :: tail :: back ∧
          walk_watches env s.values (env.kissat_export_literal ilit) front s.archive =
            .ok (kept_front, arena', false) ∧
          conflict_pair env s.values (env.kissat_export_literal ilit) arena' head tail ∧
          watch_list t (-(env.kissat_export_literal ilit)) =
            kept_front ++ head :: tail :: back ∧
          ∀ p, garbage_pair env s.values s.archive p → p ∉ watch_pairs kept_front) ∧
      (∀ h1 t1 hg tg h2 t2,
        watch_list s (-(env.kissat_export_literal ilit)) = [h1, t1, hg, tg, h2, t2] →
        blocking_true env s.values h1 → blocking_true env s.values h2 →
        (garbage_pair env s.values s.archive (hg, tg) ∨
          ¬ literal_valid env (blocking_lit hg)) →
        watch_list t (-(env.kissat_export_literal ilit)) = [h1, t1, h2, t2]) := by
  obtain ⟨hl1, hl2⟩ := watch_list_of_watches_at s _ idx w hw
  have hlit := lit_ne_zero_of_watches_at s _ idx w hw
  obtain ⟨_, hidx⟩ := watches_at_some s _ idx w hw
  have hw' := watches_at_eq s _ idx w hw
  obtain ⟨kept, arena', conflict, t, hwk, hp, hc, ha, hcont, hothers, hcf, _⟩ :=
    propagate_literal_spec env s ilit idx w hs hw hne
  have hpairs : pairs_ok s.archive (vector_contents s.archive_vectors.stack w) = true := by
    have := ((consistent_iff s).mp hs).2.2.2 idx
    rw [← hl2, hl1] at this
    exact this
  have hafter : watch_list t (-(env.kissat_export_literal ilit)) = kept := by
    rw [watch_list_eq t _ hlit, ← hidx, hcont]
  obtain ⟨k1, k2, k3⟩ := walk_watches_kept env s.values (env.kissat_export_literal ilit) _
    s.archive kept arena' conflict hpairs hwk
  refine ⟨t, ?_⟩
  rw [hafter, hl1]
  refine ⟨?_, k1, k2, ?_, ?_, ?_⟩
  · rw [hp]
    cases conflict
    · left; simp
    · right; simp
  · intro hsame
    apply k3
    cases conflict
    · rfl
    · simp at hcf; omega
  · intro hdiff
    have hct : conflict = true := by
      cases conflict
      · simp at hcf; omega
      · rfl
    subst hct
    obtain ⟨front, head, tail, back, kf, e1, e2, e3, e4⟩ :=
      walk_watches_conflict_split env s.values (env.kissat_export_literal ilit) _
        s.archive kept arena' hpairs hwk
    have hfront : pairs_ok s.archive front = true :=
      pairs_ok_front s.archive (head :: tail :: back) front
        (walk_watches_even env s.values _ front s.archive kf arena' e2)
        (by rw [← e1]; exact hpairs)
    exact ⟨front, head, tail, back, kf, arena', e1, e2, e3, e4,
      (walk_watches_kept env s.values _ front s.archive kf arena' false hfront e2).2.2 rfl⟩
  · intro h1 t1 hg tg h2 t2 hshape hb1 hb2 hgar
    rw [hshape] at hwk
    rw [walk_watches_cons env s.values _ s.archive h1 t1 _ _
        (visit_watch_blocking_true env s.values _ s.archive h1 t1 hb1)] at hwk
    simp only at hwk
    have hvisit : visit_watch env s.values (env.kissat_export_literal ilit) s.archive hg tg =
        .ok (.removed s.archive) := by
      rcases hgar with hgar | hinv
      · exact visit_watch_garbage env s.values _ s.archive hg tg hgar
      · exact visit_watch_invalid env s.values _ s.archive hg tg hinv
    rw [walk_watches_cons env s.values _ s.archive hg tg _ _ hvisit] at hwk
    simp only at hwk
    rw [walk_watches_cons env s.values _ s.archive h2 t2 _ _
        (visit_watch_blocking_true env s.values _ s.archive h2 t2 hb2)] at hwk
    simp only [walk_watches, Except.ok.injEq, Prod.mk.injEq] at hwk
    exact hwk.1.symm

/-- Witness of C8: in `compaction_state` the list of `5` holds three pairs, the
middle one for a garbage clause, the outer ones with true blocking literals;
the walk for the queued literal `-5` leaves the two outer pairs, in order. -/
theorem walked_list_is_compacted_witness :
    consistent compaction_state ∧
    watch_list compaction_state 5 = [1, 0, 2147483645, 2, 4, 4] ∧
    ∃ t, (propagate_literal (plain_env 8) compaction_state 9 = .ok (.next t) ∨
          propagate_literal (plain_env 8) compaction_state 9 = .ok (.done t)) ∧
      watch_list t 5 = [1, 0, 4, 4] := by
  refine ⟨by decide, rfl, ?_⟩
  obtain ⟨t, h1, _, _, _, _, h6⟩ :=
    walked_list_is_compacted (plain_env 8) compaction_state 9 9 ⟨12, 6⟩ (by decide) rfl
      (by decide)
  exact ⟨t, h1, h6 1 0 2147483645 2 4 4 rfl (by decide) (by decide)
    (Or.inl ⟨by decide, by decide, _, rfl, rfl⟩)⟩

/-- C8, as stated, fails in its last sentence: in `compaction_state` with `-3`
true instead of `3`, the list of `5` is `e1, g, e2` where `g` references the
garbage record at reference 2 and `e1`, `e2` have true blocking literals; the
blocking literal `-3` of `g` is true as well, so `g` is kept and the list after
the pass is still `e1, g, e2`. -/
theorem true_blocking_keeps_garbage_pair :
    ∃ t c,
      consistent { compaction_state with values := values_of [-5, 1, 4, -3] } ∧
      watch_list { compaction_state with values := values_of [-5, 1, 4, -3] } 5 =
        [1, 0, 2147483645, 2, 4, 4] ∧
      blocking_true (plain_env 8) (values_of [-5, 1, 4, -3]) 1 ∧
      blocking_true (plain_env 8) (values_of [-5, 1, 4, -3]) 2147483645 ∧
      blocking_true (plain_env 8) (values_of [-5, 1, 4, -3]) 4 ∧
      dereference_archive_clause compaction_state.archive 2 = some c ∧ c.garbage = true ∧
      kissat_propagate_archive (plain_env 8)
        { compaction_state with values := values_of [-5, 1, 4, -3] } = .ok t ∧
      watch_list t 5 = [1, 0, 2147483645, 2, 4, 4] ∧
      t.archive_conflicts = compaction_state.archive_conflicts :=
  ⟨_, _, by decide, rfl, by decide, by decide, by decide, rfl, rfl, rfl, rfl, rfl⟩

/-- C4, evaluated at the failing input: in the state holding the clause
`5, -3, 7` (reference 0, watched in the lists of `5` and `-3`), with `-5` and
`3` true and queued and `7` unassigned, the walk of the list of `5` finds the
replacement `7`: the record becomes `-3, 7, 5` and the pair leaves the list of
`5`, but no pair is pushed to the list of `7`, which stays empty; of the
fourteen watch lists only that of `-3` (table index 4) holds a pair, so the
clause is left watched by `-3` only. -/
theorem replacement_not_registered :
    ∃ t c,
      kissat_propagate_archive (plain_env 8) (assign_and_queue sample_state [-5, 3]) = .ok t ∧
      watch_list (assign_and_queue sample_state [-5, 3]) 5 =
        [archive_blocking_archive_watch (-3), archive_large_archive_watch 0] ∧
      dereference_archive_clause t.archive 0 = some c ∧
      c.lits = [-3, 7, 5] ∧ c.searched = 2 ∧ c.garbage = false ∧
      watch_list t 5 = [] ∧
      watch_list t 7 = [] ∧
      watch_list t (-3) = [archive_blocking_archive_watch 5, archive_large_archive_watch 0] ∧
      t.archive_watches.map (vector_contents t.archive_vectors.stack) =
        [[], [], [], [], [5, 0], [], [], [], [], [], [], [], [], []] :=
  ⟨_, _, rfl, rfl, rfl, rfl, rfl, rfl, rfl, rfl, rfl, rfl⟩

/-! ## Shrinking a vector -/

theorem resize_archive_vector_eq (s : kissat) (idx n : Nat) (v : archive_vector)
    (hv : s.archive_watches[idx]? = some v)
    (hin : v.offset + v.size ≤ s.archive_vectors.stack.length)
    (hn : n < v.size) :
    resize_archive_vector s idx n =
      .ok { s with
            archive_watches := s.archive_watches.set idx { v with size := n },
            archive_vectors :=
              { s.archive_vectors with
                usable := s.archive_vectors.usable + (v.size - n),
                stack := write_words s.archive_vectors.stack (v.offset + n)
                           (List.replicate (v.size - n) INVALID_VECTOR_ELEMENT) } } := by
  unfold resize_archive_vector
  rw [hv]
  have h1 : ¬ n = v.size := by omega
  have h2 : ¬ (v.size < n ∨ s.archive_vectors.stack.length < v.offset + v.size) := by omega
  simp only [h1, h2, if_false]

theorem resize_archive_vector_same (s : kissat) (idx : Nat) (v : archive_vector)
    (hv : s.archive_watches[idx]? = some v) :
    resize_archive_vector s idx v.size = .ok s := by
  unfold resize_archive_vector
  rw [hv]
  simp

/-- C18: for a vector `v` of the table that lies in the stack and every
`n ≤ v.size`, `resize_archive_vector (v, n)` returns; afterwards the table entry
is `v` with size `n` at the same offset, the first `n` elements are the old
ones at the same stack positions, the `v.size - n` slots behind them hold the
sentinel, the stack has the same length and capacity and is unchanged outside
those slots, every other table entry is unchanged (and in a well formed store
reads as before), nothing but the vector store and the table entry differs,
and for `n = v.size` the state is unchanged. -/
theorem resize_archive_vector_shrinks (s : kissat) (idx n : Nat) (v : archive_vector)
    (hv : s.archive_watches[idx]? = some v)
    (hin : v.offset + v.size ≤ s.archive_vectors.stack.length)
    (hn : n ≤ v.size) :
    ∃ t, resize_archive_vector s idx n = .ok t ∧
      t.archive_watches = s.archive_watches.set idx ⟨v.offset, n⟩ ∧
      t.archive_watches[idx]? = some ⟨v.offset, n⟩ ∧
      contents_at t idx = (contents_at s idx).take n ∧
      (∀ k, k < n →
        t.archive_vectors.stack[v.offset + k]? = s.archive_vectors.stack[v.offset + k]?) ∧
      (∀ k, v.offset + n ≤ k → k < v.offset + v.size →
        t.archive_vectors.stack[k]? = some INVALID_VECTOR_ELEMENT) ∧
      t.archive_vectors.stack.length = s.archive_vectors.stack.length ∧
      t.archive_vectors.capacity = s.archive_vectors.capacity ∧
      t.archive_vectors.usable = s.archive_vectors.usable + (v.size - n) ∧
      (∀ k, ¬ (v.offset + n ≤ k ∧ k < v.offset + v.size) →
        t.archive_vectors.stack[k]? = s.archive_vectors.stack[k]?) ∧
      (∀ j, j ≠ idx → t.archive_watches[j]? = s.archive_watches[j]?) ∧
      (vectors_ok s → ∀ j, j ≠ idx → contents_at t j = contents_at s j) ∧
      same_outside_vectors s t ∧
      (n = v.size → t = s) := by
  have hidx : idx < s.archive_watches.length := by
    rcases List.getElem?_eq_some_iff.mp hv with ⟨h, _⟩
    exact h
  rcases Nat.lt_or_ge n v.size with hlt | hge
  · have hstack : ∀ k,
        (write_words s.archive_vectors.stack (v.offset + n)
          (List.replicate (v.size - n) INVALID_VECTOR_ELEMENT))[k]? =
        if v.offset + n ≤ k ∧ k < v.offset + v.size then some INVALID_VECTOR_ELEMENT
        else s.archive_vectors.stack[k]? := by
      intro k
      rw [getElem?_write_words _ _ _ _ (by rw [List.length_replicate]; omega),
        List.length_replicate]
      by_cases hk : v.offset + n ≤ k ∧ k < v.offset + v.size
      · rw [if_pos (by omega), if_pos hk, List.getElem?_replicate, if_pos (by omega)]
      · rw [if_neg (by omega), if_neg hk]
    have hlen : (write_words s.archive_vectors.stack (v.offset + n)
          (List.replicate (v.size - n) INVALID_VECTOR_ELEMENT)).length =
        s.archive_vectors.stack.length :=
      length_write_words _ _ _ (by rw [List.length_replicate]; omega)
    refine ⟨_, resize_archive_vector_eq s idx n v hv hin hlt, rfl, ?_, ?_, ?_, ?_, hlen, rfl,
      rfl, ?_, ?_, ?_, ?_, ?_⟩
    · show (s.archive_watches.set idx _)[idx]? = _
      rw [List.getElem?_set_self hidx]
    · unfold contents_at
      show (match (s.archive_watches.set idx _)[idx]? with
        | some v => vector_contents _ v | none => []) = _
      rw [List.getElem?_set_self hidx, hv]
      show vector_contents _ ⟨v.offset, n⟩ = _
      apply List.ext_getElem?
      intro k
      rw [getElem?_vector_contents, List.getElem?_take, getElem?_vector_contents]
      dsimp only
      by_cases hk : k < n
      · rw [if_pos hk, if_pos hk, if_pos (by omega), hstack, if_neg (by omega)]
      · rw [if_neg hk, if_neg hk]
    · intro k hk
      show (write_words _ _ _)[v.offset + k]? = _
      rw [hstack, if_neg (by omega)]
    · intro k h1 h2
      show (write_words _ _ _)[k]? = _
      rw [hstack, if_pos ⟨h1, h2⟩]
    · intro k hk
      show (write_words _ _ _)[k]? = _
      rw [hstack, if_neg hk]
    · intro j hj
      show (s.archive_watches.set idx _)[j]? = _
      rw [List.getElem?_set_ne (Ne.symm hj)]
    · intro hs j hj
      unfold contents_at
      show (match (s.archive_watches.set idx _)[j]? with
        | some v => vector_contents _ v | none => []) = _
      rw [List.getElem?_set_ne (Ne.symm hj)]
      cases hw : s.archive_watches[j]? with
      | none => rfl
      | some w =>
        show vector_contents (write_words _ _ _) w = vector_contents _ w
        apply vector_contents_congr
        intro k h1 h2
        rw [hstack]
        have hd := ((vectors_ok_iff s).mp hs).2.2 idx j v w (Ne.symm hj) hv hw
        unfold disjoint_vectors at hd
        rw [if_neg (by omega)]
    · exact ⟨rfl, rfl, rfl, rfl, rfl, rfl, rfl, rfl, by
        show (s.archive_watches.set idx _).length = _
        rw [List.length_set]⟩
    · intro h; omega
  · have hnv : n = v.size := by omega
    subst hnv
    refine ⟨s, resize_archive_vector_same s idx v hv, ?_, hv, ?_, ?_, ?_, rfl, rfl, ?_, ?_, ?_,
      ?_, ?_, ?_⟩
    · exact (set_same _ _ _ hv).symm
    · unfold contents_at
      rw [hv]
      show _ = (vector_contents _ v).take v.size
      unfold vector_contents
      rw [List.take_take, Nat.min_self]
    · intro k _; rfl
    · intro k h1 h2; omega
    · omega
    · intro k _; rfl
    · intro j _; rfl
    · intro _ j _; rfl
    · exact ⟨rfl, rfl, rfl, rfl, rfl, rfl, rfl, rfl, rfl⟩
    · intro _; rfl

theorem resize_archive_vector_shrinks_witness :
    ∃ t, resize_archive_vector sample_state 4 1 = .ok t ∧
      contents_at sample_state 4 = [5, 0] ∧ contents_at t 4 = [5] ∧
      t.archive_vectors.stack = [0, 4294967295, 2147483645, 0, 5, 4294967295] ∧
      contents_at t 9 = contents_at sample_state 9 := by
  obtain ⟨t, h1, -, -, h4, -⟩ :=
    resize_archive_vector_shrinks sample_state 4 1 ⟨4, 2⟩ rfl (by decide) (by decide)
  have ht : t = { sample_state with
      archive_watches := sample_state.archive_watches.set 4 ⟨4, 1⟩,
      archive_vectors := { stack := [0, 4294967295, 2147483645, 0, 5, 4294967295],
                           capacity := 8, usable := 2 } } := by
    have h : resize_archive_vector sample_state 4 1 = .ok _ := h1
    have h' : resize_archive_vector sample_state 4 1 = .ok { sample_state with
      archive_watches := sample_state.archive_watches.set 4 ⟨4, 1⟩,
      archive_vectors := { stack := [0, 4294967295, 2147483645, 0, 5, 4294967295],
                           capacity := 8, usable := 2 } } := rfl
    rw [h'] at h
    injection h with h
    exact h.symm
  subst ht
  exact ⟨_, h1, rfl, rfl, rfl, rfl⟩

/-! ## Enlarging a vector -/

theorem getElem?_enlarged_stack (stack : List Nat) (v : archive_vector) (delta k : Nat)
    (hin : v.offset + v.size ≤ stack.length) :
    (write_words stack v.offset (List.replicate v.size INVALID_VECTOR_ELEMENT) ++
        vector_contents stack v ++ List.replicate delta INVALID_VECTOR_ELEMENT)[k]? =
      if k < stack.length then
        (if v.offset ≤ k ∧ k < v.offset + v.size then some INVALID_VECTOR_ELEMENT
         else stack[k]?)
      else if k < stack.length + v.size then stack[v.offset + (k - stack.length)]?
      else if k < stack.length + v.size + delta then some INVALID_VECTOR_ELEMENT
      else none := by
  have hvac : (write_words stack v.offset
      (List.replicate v.size INVALID_VECTOR_ELEMENT)).length = stack.length :=
    length_write_words _ _ _ (by rw [List.length_replicate]; exact hin)
  have hmoved := length_vector_contents stack v hin
  rw [List.append_assoc, List.getElem?_append, hvac]
  by_cases h1 : k < stack.length
  · rw [if_pos h1, if_pos h1,
      getElem?_write_words _ _ _ _ (by rw [List.length_replicate]; exact hin),
      List.length_replicate]
    by_cases h2 : v.offset ≤ k ∧ k < v.offset + v.size
    · rw [if_pos h2, if_pos h2, List.getElem?_replicate, if_pos (by omega)]
    · rw [if_neg h2, if_neg h2]
  · rw [if_neg h1, if_neg h1, List.getElem?_append, hmoved]
    by_cases h2 : k < stack.length + v.size
    · rw [if_pos (by omega), if_pos h2, getElem?_vector_contents, if_pos (by omega)]
    · rw [if_neg (by omega), if_neg h2, List.getElem?_replicate]
      by_cases h3 : k < stack.length + v.size + delta
      · rw [if_pos (by omega), if_pos h3]
      · rw [if_neg (by omega), if_neg h3]

theorem length_enlarged_stack (stack : List Nat) (v : archive_vector) (delta : Nat)
    (hin : v.offset + v.size ≤ stack.length) :
    (write_words stack v.offset (List.replicate v.size INVALID_VECTOR_ELEMENT) ++
        vector_contents stack v ++ List.replicate delta INVALID_VECTOR_ELEMENT).length =
      stack.length + v.size + delta := by
  rw [List.length_append, List.length_append, List.length_replicate,
    length_write_words _ _ _ (by rw [List.length_replicate]; exact hin),
    length_vector_contents stack v hin]

/-- C17: for a vector `v` of the table that lies in the stack,
`enlarge_archive_vector (v)`, unless it ends in `kissat_fatal`, returns with
`c = (v.size == 0 ? 1 : 2 * v.size)` slots appended to the stack (the stack is
longer by exactly `c` and still fits its capacity); `v` has the same size and
its offset is the previous end of the stack, where its elements are found in
the same order; every slot of the previous location of `v` and each of the
`c - v.size` slots behind the moved elements holds the sentinel; the returned
position is that of the first of these slack slots; the slots of the old stack
outside the previous location of `v`, the other table entries and everything
outside the vector store are unchanged. -/
theorem enlarge_archive_vector_relocates (env : Env) (s : kissat) (idx : Nat)
    (v : archive_vector)
    (hcap : s.archive_vectors.stack.length ≤ s.archive_vectors.capacity)
    (hv : s.archive_watches[idx]? = some v)
    (hin : v.offset + v.size ≤ s.archive_vectors.stack.length)
    (hret : enlarge_archive_vector env s idx ≠ .error .fatal) :
    ∃ pos t, enlarge_archive_vector env s idx = .ok (pos, t) ∧
      t.archive_vectors.stack.length =
        s.archive_vectors.stack.length + (if v.size = 0 then 1 else 2 * v.size) ∧
      t.archive_vectors.stack.length ≤ t.archive_vectors.capacity ∧
      t.archive_watches[idx]? = some ⟨s.archive_vectors.stack.length, v.size⟩ ∧
      contents_at t idx = contents_at s idx ∧
      (∀ k, k < v.size →
        t.archive_vectors.stack[s.archive_vectors.stack.length + k]? =
          s.archive_vectors.stack[v.offset + k]?) ∧
      (∀ k, v.offset ≤ k → k < v.offset + v.size →
        t.archive_vectors.stack[k]? = some INVALID_VECTOR_ELEMENT) ∧
      (∀ k, s.archive_vectors.stack.length + v.size ≤ k →
        k < s.archive_vectors.stack.length + (if v.size = 0 then 1 else 2 * v.size) →
        t.archive_vectors.stack[k]? = some INVALID_VECTOR_ELEMENT) ∧
      pos = s.archive_vectors.stack.length + v.size ∧
      (∀ k, k < s.archive_vectors.stack.length → ¬ (v.offset ≤ k ∧ k < v.offset + v.size) →
        t.archive_vectors.stack[k]? = s.archive_vectors.stack[k]?) ∧
      (∀ j, j ≠ idx → t.archive_watches[j]? = s.archive_watches[j]?) ∧
      t.archive_vectors.usable =
        s.archive_vectors.usable + (if v.size = 0 then 1 else 2 * v.size) ∧
      same_outside_vectors s t := by
  have hidx : idx < s.archive_watches.length := (List.getElem?_eq_some_iff.mp hv).1
  rcases enlarge_archive_vector_eq env s idx v hcap hv hin with hfatal | ⟨capacity', hle, heq⟩
  · exact absurd hfatal hret
  · have hc : v.size ≤ (if v.size = 0 then 1 else 2 * v.size) := by split <;> omega
    have hget := fun k => getElem?_enlarged_stack s.archive_vectors.stack v
      ((if v.size = 0 then 1 else 2 * v.size) - v.size) k hin
    have hlen := length_enlarged_stack s.archive_vectors.stack v
      ((if v.size = 0 then 1 else 2 * v.size) - v.size) hin
    refine ⟨_, _, heq, ?_, ?_, ?_, ?_, ?_, ?_, ?_, rfl, ?_, ?_, ?_, ?_⟩
    · show (_ ++ _ ++ _ : List Nat).length = _
      rw [hlen]; omega
    · show (_ ++ _ ++ _ : List Nat).length ≤ capacity'
      rw [hlen]; omega
    · show (s.archive_watches.set idx _)[idx]? = _
      rw [List.getElem?_set_self hidx]
    · unfold contents_at
      show (match (s.archive_watches.set idx _)[idx]? with
        | some w => vector_contents (_ ++ _ ++ _) w | none => []) = _
      rw [List.getElem?_set_self hidx, hv]
      show vector_contents _ ⟨s.archive_vectors.stack.length, v.size⟩ = vector_contents _ v
      apply List.ext_getElem?
      intro k
      rw [getElem?_vector_contents, getElem?_vector_contents]
      dsimp only
      by_cases hk : k < v.size
      · rw [if_pos hk, if_pos hk, hget, if_neg (by omega), if_pos (by omega)]
        congr 2
        omega
      · rw [if_neg hk, if_neg hk]
    · intro k hk
      show (_ ++ _ ++ _ : List Nat)[_]? = _
      rw [hget, if_neg (by omega), if_pos (by omega)]
      congr 2
      omega
    · intro k h1 h2
      show (_ ++ _ ++ _ : List Nat)[_]? = _
      rw [hget, if_pos (by omega), if_pos ⟨h1, h2⟩]
    · intro k h1 h2
      show (_ ++ _ ++ _ : List Nat)[_]? = _
      rw [hget, if_neg (by omega), if_neg (by omega), if_pos (by omega)]
    · intro k h1 h2
      show (_ ++ _ ++ _ : List Nat)[_]? = _
      rw [hget, if_pos h1, if_neg h2]
    · intro j hj
      show (s.archive_watches.set idx _)[j]? = _
      rw [List.getElem?_set_ne (Ne.symm hj)]
    · show s.archive_vectors.usable + v.size + _ = _
      omega
    · exact ⟨rfl, rfl, rfl, rfl, rfl, rfl, rfl, rfl, by
        show (s.archive_watches.set idx _).length = _
        rw [List.length_set]⟩

theorem enlarge_archive_vector_relocates_witness :
    ∃ pos t, enlarge_archive_vector (plain_env 8) sample_state 9 = .ok (pos, t) ∧
      sample_state.archive_vectors.stack = [0, 4294967295, 2147483645, 0, 5, 0] ∧
      sample_state.archive_watches[9]? = some ⟨2, 2⟩ ∧
      t.archive_vectors.stack =
        [0, 4294967295, 4294967295, 4294967295, 5, 0, 2147483645, 0, 4294967295,
         4294967295] ∧
      t.archive_watches[9]? = some ⟨6, 2⟩ ∧ pos = 8 ∧
      t.archive_vectors.capacity = 16 := by
  have h' : enlarge_archive_vector (plain_env 8) sample_state 9 = .ok (8,
      { sample_state with
        archive_watches := sample_state.archive_watches.set 9 ⟨6, 2⟩,
        archive_vectors :=
          { stack := [0, 4294967295, 4294967295, 4294967295, 5, 0, 2147483645, 0, 4294967295,
                      4294967295],
            capacity := 16, usable := 5 } }) := rfl
  obtain ⟨pos, t, h1, -⟩ :=
    enlarge_archive_vector_relocates (plain_env 8) sample_state 9 ⟨2, 2⟩ (by decide) rfl
      (by decide) (by rw [h']; intro h; cases h)
  rw [h'] at h1
  injection h1 with h1
  injection h1 with hp ht
  subst hp
  subst ht
  exact ⟨_, _, h', rfl, rfl, rfl, rfl, rfl, rfl⟩

/-! ## Pushing onto a vector -/

theorem contents_at_some (s : kissat) (idx : Nat) (v : archive_vector)
    (hv : s.archive_watches[idx]? = some v) :
    contents_at s idx = vector_contents s.archive_vectors.stack v := by
  unfold contents_at
  rw [hv]

theorem size_of_contents_at (s : kissat) (idx : Nat) (v : archive_vector) (hs : vectors_ok s)
    (hv : s.archive_watches[idx]? = some v) : (contents_at s idx).length = v.size := by
  rw [contents_at_some s idx v hv]
  exact length_vector_contents _ _ (((vectors_ok_iff s).mp hs).2.1 idx v hv).1

theorem push_post_entry (s t : kissat) (idx e : Nat) (h : push_post s t idx e) (j : Nat)
    (w : archive_vector) (hw : s.archive_watches[j]? = some w) :
    ∃ w', t.archive_watches[j]? = some w' := by
  have hlen := h.2.1.2.2.2.2.2.2.2.2
  have hj : j < s.archive_watches.length := (List.getElem?_eq_some_iff.mp hw).1
  exact ⟨_, List.getElem?_eq_getElem (by omega)⟩

/-- C15: in a well formed store, for every vector `v` of the table (whatever
its offset, size and position in the stack) and every element `e` other than
the sentinel, `push_archive_vectors (v, e)`, unless it ends in `kissat_fatal`,
returns; afterwards the vector reads as its old contents followed by `e`, its
size is larger by one, and the store is well formed again. -/
theorem push_archive_vectors_appends (env : Env) (s : kissat) (idx e : Nat)
    (v : archive_vector) (hs : vectors_ok s) (hv : s.archive_watches[idx]? = some v)
    (he : e ≠ INVALID_VECTOR_ELEMENT)
    (hret : push_archive_vectors env s idx e ≠ .error .fatal) :
    ∃ t v', push_archive_vectors env s idx e = .ok t ∧
      t.archive_watches[idx]? = some v' ∧
      vector_contents t.archive_vectors.stack v' =
        vector_contents s.archive_vectors.stack v ++ [e] ∧
      v'.size = v.size + 1 ∧ vectors_ok t := by
  rcases push_archive_vectors_spec env s idx e v hs hv he with hf | ⟨t, ht, hp⟩
  · exact absurd hf hret
  · obtain ⟨v', hv'⟩ := push_post_entry s t idx e hp idx v hv
    have hc := hp.2.2.1
    rw [contents_at_some t idx v' hv', contents_at_some s idx v hv] at hc
    refine ⟨t, v', ht, hv', hc, ?_, hp.1⟩
    have h1 := size_of_contents_at t idx v' hp.1 hv'
    have h2 := size_of_contents_at s idx v hs hv
    rw [contents_at_some t idx v' hv', hc, List.length_append, List.length_singleton,
      ← contents_at_some s idx v hv, h2] at h1
    omega

theorem push_archive_vectors_appends_witness :
    (∃ t v', push_archive_vectors (plain_env 8) sample_state 9 7 = .ok t ∧
      t.archive_watches[9]? = some v' ∧
      vector_contents t.archive_vectors.stack v' =
        vector_contents sample_state.archive_vectors.stack ⟨2, 2⟩ ++ [7] ∧
      v'.size = 2 + 1 ∧ vectors_ok t) ∧
    (∃ t v', push_archive_vectors (plain_env 8) sample_state 4 7 = .ok t ∧
      t.archive_watches[4]? = some v' ∧
      vector_contents t.archive_vectors.stack v' =
        vector_contents sample_state.archive_vectors.stack ⟨4, 2⟩ ++ [7] ∧
      v'.size = 2 + 1 ∧ vectors_ok t) ∧
    (∃ t v', push_archive_vectors (plain_env 8) sample_state 0 7 = .ok t ∧
      t.archive_watches[0]? = some v' ∧
      vector_contents t.archive_vectors.stack v' =
        vector_contents sample_state.archive_vectors.stack ⟨0, 0⟩ ++ [7] ∧
      v'.size = 0 + 1 ∧ vectors_ok t) ∧
    (∃ s1, resize_archive_vector sample_state 9 0 = .ok s1 ∧
      s1.archive_watches[9]? = some ⟨2, 0⟩ ∧
      ∃ t v', push_archive_vectors (plain_env 8) s1 9 7 = .ok t ∧
        t.archive_watches[9]? = some v' ∧
        vector_contents t.archive_vectors.stack v' =
          vector_contents s1.archive_vectors.stack ⟨2, 0⟩ ++ [7] ∧
        v'.size = 0 + 1 ∧ vectors_ok t) := by
  have h9 : ∃ t, push_archive_vectors (plain_env 8) sample_state 9 7 = .ok t := ⟨_, rfl⟩
  have h4 : ∃ t, push_archive_vectors (plain_env 8) sample_state 4 7 = .ok t := ⟨_, rfl⟩
  have h0 : ∃ t, push_archive_vectors (plain_env 8) sample_state 0 7 = .ok t := ⟨_, rfl⟩
  refine ⟨?_, ?_, ?_, _, rfl, rfl, ?_⟩
  · exact push_archive_vectors_appends (plain_env 8) sample_state 9 7 ⟨2, 2⟩ (by decide) rfl
      (by decide) (by obtain ⟨t, ht⟩ := h9; rw [ht]; intro h; cases h)
  · exact push_archive_vectors_appends (plain_env 8) sample_state 4 7 ⟨4, 2⟩ (by decide) rfl
      (by decide) (by obtain ⟨t, ht⟩ := h4; rw [ht]; intro h; cases h)
  · exact push_archive_vectors_appends (plain_env 8) sample_state 0 7 ⟨0, 0⟩ (by decide) rfl
      (by decide) (by obtain ⟨t, ht⟩ := h0; rw [ht]; intro h; cases h)
  · exact push_archive_vectors_appends (plain_env 8) _ 9 7 ⟨2, 0⟩ (by decide) rfl
      (by decide) (by intro h; cases h)

/-! ## Pushes leave the other vectors alone -/

theorem push_all_spec (env : Env) (idx : Nat) :
    ∀ (es : List Nat) (s : kissat), vectors_ok s → idx < s.archive_watches.length →
      (∀ e ∈ es, e ≠ INVALID_VECTOR_ELEMENT) →
      push_all env idx es s = .error .fatal ∨
      ∃ t, push_all env idx es s = .ok t ∧ vectors_ok t ∧ same_outside_vectors s t ∧
        contents_at t idx = contents_at s idx ++ es ∧
        ∀ j, j ≠ idx → contents_at t j = contents_at s j := by
  intro es
  induction es with
  | nil =>
    intro s hs _ _
    right
    exact ⟨s, rfl, hs, ⟨rfl, rfl, rfl, rfl, rfl, rfl, rfl, rfl, rfl⟩, by simp, fun _ _ => rfl⟩
  | cons e rest ih =>
    intro s hs hidx hes
    have hv : s.archive_watches[idx]? = some (s.archive_watches[idx]) :=
      List.getElem?_eq_getElem hidx
    simp only [push_all]
    rcases push_archive_vectors_spec env s idx e _ hs hv (hes e (List.mem_cons_self _ _))
      with hf | ⟨s1, h1, hp⟩
    · left
      rw [hf]
    · rw [h1]
      have hlen : s1.archive_watches.length = s.archive_watches.length :=
        hp.2.1.2.2.2.2.2.2.2.2
      rcases ih s1 hp.1 (by omega) (fun x hx => hes x (List.mem_cons_of_mem _ hx))
        with hf | ⟨t, ht, hok, hsame, hc, hother⟩
      · left
        exact hf
      · right
        refine ⟨t, ht, hok, same_outside_vectors_trans s s1 t hp.2.1 hsame, ?_, ?_⟩
        · rw [hc, hp.2.2.1, List.append_assoc, List.singleton_append]
        · intro j hj
          rw [hother j hj, hp.2.2.2 j hj]

theorem offset_view_fixed (begin_stack begin_stack' : Nat) (p : pointer_vector)
    (h0 : begin_stack ≠ 0) (h0' : begin_stack' ≠ 0)
    (hp : (p.begin = 0 ∧ p.end_ = 0) ∨ (begin_stack ≤ p.begin ∧ p.begin ≤ p.end_)) :
    offset_view begin_stack'
        { begin := FIX_POINTER ((begin_stack' : Int) - begin_stack) p.begin,
          end_ := FIX_POINTER ((begin_stack' : Int) - begin_stack) p.end_ } =
      offset_view begin_stack p := by
  unfold offset_view FIX_POINTER
  rcases hp with ⟨hb, he⟩ | ⟨hb, he⟩
  · simp [hb, he]
  · have hbn : p.begin ≠ 0 := by omega
    have hen : p.end_ ≠ 0 := by omega
    have hb' : ((p.begin : Int) + ((begin_stack' : Int) - begin_stack)).toNat =
        begin_stack' + (p.begin - begin_stack) := by omega
    have he' : ((p.end_ : Int) + ((begin_stack' : Int) - begin_stack)).toNat =
        begin_stack' + (p.end_ - begin_stack) := by omega
    simp only [if_neg hbn, if_neg hen, hb', he']
    have h1 : begin_stack' + (p.begin - begin_stack) ≠ 0 := by omega
    rw [if_neg h1]
    have h2 : begin_stack' + (p.begin - begin_stack) - begin_stack' = p.begin - begin_stack := by
      omega
    have h3 : begin_stack' + (p.end_ - begin_stack) - (begin_stack' + (p.begin - begin_stack)) =
        p.end_ - p.begin := by omega
    rw [h2, h3]

theorem fix_keeps_offset_view (watches : List pointer_vector) (max_var : Nat)
    (begin_stack begin_stack' : Nat) (h0 : begin_stack ≠ 0) (h0' : begin_stack' ≠ 0)
    (hlen : watches.length = 2 * max_var)
    (hp : ∀ p ∈ watches,
      (p.begin = 0 ∧ p.end_ = 0) ∨ (begin_stack ≤ p.begin ∧ p.begin ≤ p.end_)) :
    (fix_archive_vector_pointers_after_moving_stack watches max_var
        ((begin_stack' : Int) - begin_stack)).map (offset_view begin_stack') =
      watches.map (offset_view begin_stack) := by
  unfold fix_archive_vector_pointers_after_moving_stack
  rw [List.take_of_length_le (by omega), List.drop_of_length_le (by omega), List.append_nil,
    List.map_map]
  apply List.map_congr_left
  intro p hmem
  exact offset_view_fixed begin_stack begin_stack' p h0 h0' (hp p hmem)

/-- C16: in a well formed store, any number of `push_archive_vectors` calls on
the vector at table index `idx` (elements other than the sentinel), unless one
of them ends in `kissat_fatal`, all return; afterwards every other vector of the
table has the size it had and reads as it did, the pushed vector reads as
before followed by the pushed elements, and the live ranges of two distinct
non-empty vectors of the table do not overlap.  In the pointer representation,
where a relocation of the stack moves the addresses, the pointer fix-up leaves
the offset and the size of every vector of the table as they were. -/
theorem push_leaves_other_vectors (env : Env) (s : kissat) (idx : Nat) (es : List Nat)
    (hs : vectors_ok s) (hidx : idx < s.archive_watches.length)
    (hes : ∀ e ∈ es, e ≠ INVALID_VECTOR_ELEMENT)
    (hret : push_all env idx es s ≠ .error .fatal) :
    (∃ t, push_all env idx es s = .ok t ∧
      (∀ (j : Nat) (w : archive_vector), j ≠ idx → s.archive_watches[j]? = some w →
        ∃ w', t.archive_watches[j]? = some w' ∧ w'.size = w.size ∧
          vector_contents t.archive_vectors.stack w' =
            vector_contents s.archive_vectors.stack w) ∧
      contents_at t idx = contents_at s idx ++ es ∧
      (∀ (i j : Nat) (v w : archive_vector), i ≠ j → t.archive_watches[i]? = some v →
        t.archive_watches[j]? = some w → v.size ≠ 0 → w.size ≠ 0 →
        v.offset + v.size ≤ w.offset ∨ w.offset + w.size ≤ v.offset)) ∧
    (∀ (watches : List pointer_vector) (max_var begin_stack begin_stack' : Nat),
      begin_stack ≠ 0 → begin_stack' ≠ 0 → watches.length = 2 * max_var →
      (∀ p ∈ watches,
        (p.begin = 0 ∧ p.end_ = 0) ∨ (begin_stack ≤ p.begin ∧ p.begin ≤ p.end_)) →
      (fix_archive_vector_pointers_after_moving_stack watches max_var
          ((begin_stack' : Int) - begin_stack)).map (offset_view begin_stack') =
        watches.map (offset_view begin_stack)) := by
  refine ⟨?_, fun watches max_var b b' h0 h0' hlen hp =>
    fix_keeps_offset_view watches max_var b b' h0 h0' hlen hp⟩
  rcases push_all_spec env idx es s hs hidx hes with hf | ⟨t, ht, hok, hsame, hc, hother⟩
  · exact absurd hf hret
  · refine ⟨t, ht, ?_, hc, ?_⟩
    · intro j w hj hw
      have hjlt : j < t.archive_watches.length := by
        rw [hsame.2.2.2.2.2.2.2.2]
        exact (List.getElem?_eq_some_iff.mp hw).1
      have hw' : t.archive_watches[j]? = some (t.archive_watches[j]) :=
        List.getElem?_eq_getElem hjlt
      have hcj := hother j hj
      rw [contents_at_some t j _ hw', contents_at_some s j w hw] at hcj
      refine ⟨_, hw', ?_, hcj⟩
      have h1 := size_of_contents_at t j _ hok hw'
      have h2 := size_of_contents_at s j w hs hw
      rw [hother j hj] at h1
      omega
    · intro i j v w hij hv hw hv0 hw0
      have hd := ((vectors_ok_iff t).mp hok).2.2 i j v w hij hv hw
      unfold disjoint_vectors at hd
      omega

theorem push_leaves_other_vectors_witness :
    (∃ t, push_all (plain_env 8) 4 [1, 2, 3, 4, 5, 6, 7, 8, 9] sample_state = .ok t ∧
      (∀ (j : Nat) (w : archive_vector), j ≠ 4 → sample_state.archive_watches[j]? = some w →
        ∃ w', t.archive_watches[j]? = some w' ∧ w'.size = w.size ∧
          vector_contents t.archive_vectors.stack w' =
            vector_contents sample_state.archive_vectors.stack w) ∧
      contents_at t 4 = contents_at sample_state 4 ++ [1, 2, 3, 4, 5, 6, 7, 8, 9] ∧
      (∀ (i j : Nat) (v w : archive_vector), i ≠ j → t.archive_watches[i]? = some v →
        t.archive_watches[j]? = some w → v.size ≠ 0 → w.size ≠ 0 →
        v.offset + v.size ≤ w.offset ∨ w.offset + w.size ≤ v.offset)) ∧
    (∃ t, push_all (plain_env 8) 4 [1, 2, 3, 4, 5, 6, 7, 8, 9] sample_state = .ok t ∧
      sample_state.archive_vectors.capacity = 8 ∧ t.archive_vectors.capacity = 32 ∧
      sample_state.archive_watches[4]? = some ⟨4, 2⟩ ∧
      t.archive_watches[4]? = some ⟨16, 11⟩ ∧
      contents_at sample_state 9 = [2147483645, 0] ∧ contents_at t 9 = [2147483645, 0]) ∧
    fix_archive_vector_pointers_after_moving_stack [⟨0, 0⟩, ⟨1008, 1016⟩] 1 (5000 - 1000) =
      [⟨0, 0⟩, ⟨5008, 5016⟩] ∧
    offset_view 1000 ⟨1008, 1016⟩ = ⟨2, 2⟩ ∧ offset_view 5000 ⟨5008, 5016⟩ = ⟨2, 2⟩ :=
  ⟨(push_leaves_other_vectors (plain_env 8) sample_state 4 [1, 2, 3, 4, 5, 6, 7, 8, 9]
      (by decide) (by decide) (by decide) (by intro h; cases h)).1,
    ⟨_, rfl, rfl, rfl, rfl, rfl, rfl, rfl⟩, by decide, by decide, by decide⟩

/-! ## Resizing the watch table -/

theorem contents_at_congr (s t : kissat) (i : Nat)
    (h1 : t.archive_vectors.stack = s.archive_vectors.stack)
    (h2 : t.archive_watches[i]? = s.archive_watches[i]?) :
    contents_at t i = contents_at s i := by
  unfold contents_at
  rw [h1, h2]

theorem kissat_resize_archive_watches_shrink (s : kissat) (max_var_new : Nat)
    (hopt : s.option_archive = true) (hnew : max_var_new < s.max_var) :
    kissat_resize_archive_watches s s.max_var max_var_new =
      .ok { s with archive_watches := s.archive_watches.take (2 * max_var_new),
                   max_var := max_var_new } := by
  unfold kissat_resize_archive_watches
  have hcond : ¬ ((!s.option_archive) = true) := by simp [hopt]
  rw [if_neg hcond, if_neg (by omega)]
  simp only
  rw [if_pos hnew]

theorem kissat_resize_archive_watches_same (s : kissat) :
    kissat_resize_archive_watches s s.max_var s.max_var = .ok s := by
  unfold kissat_resize_archive_watches
  split
  · rfl
  · rw [if_neg (by omega)]
    simp only
    rw [if_neg (by omega)]

/-- C19: with archiving enabled and a table of `2 * max_var` entries,
`kissat_resize_archive_watches (max_var, new)` returns; the watch list of every
literal whose variable is at most `min (max_var, new)` is unchanged and nothing
but the table and `max_var` differs; for `new > max_var` the table has `2 * new`
entries, `max_var` is `new` and every literal of a variable above the old
`max_var` and at most `new` has a table entry, which is the zeroed vector, so
its watch list is empty; for `new < max_var` the table has `2 * new` entries
and `max_var` is `new`; for `new = max_var` the state is unchanged. -/
theorem kissat_resize_archive_watches_spec (s : kissat) (max_var_new : Nat)
    (hopt : s.option_archive = true)
    (hlen : s.archive_watches.length = 2 * s.max_var) :
    ∃ t, kissat_resize_archive_watches s s.max_var max_var_new = .ok t ∧
      (∀ lit : Int, lit.natAbs ≤ min s.max_var max_var_new →
        watch_list t lit = watch_list s lit) ∧
      t.archive_vectors = s.archive_vectors ∧ t.archive = s.archive ∧
      t.archive_capacity = s.archive_capacity ∧ t.values = s.values ∧
      t.archive_propagate = s.archive_propagate ∧
      t.archive_conflicts = s.archive_conflicts ∧
      (s.max_var < max_var_new →
        t.archive_watches.length = 2 * max_var_new ∧ t.max_var = max_var_new ∧
        ∀ lit : Int, s.max_var < lit.natAbs → lit.natAbs ≤ max_var_new →
          watches_at t (lit2idx lit) = some ((lit2idx lit).toNat, ⟨0, 0⟩) ∧
          watch_list t lit = []) ∧
      (max_var_new < s.max_var →
        t.archive_watches.length = 2 * max_var_new ∧ t.max_var = max_var_new) ∧
      (max_var_new = s.max_var → t = s) := by
  have hzero : ∀ t : kissat, ∀ lit : Int, lit = 0 → watch_list t lit = watch_list s lit := by
    intro t lit h
    rw [h, watch_list_zero, watch_list_zero]
  rcases Nat.lt_trichotomy s.max_var max_var_new with hlt | heq | hgt
  · obtain ⟨t, ht, hg, hmax, hlen'⟩ := kissat_resize_archive_watches_grow s max_var_new hopt hlen hlt
    obtain ⟨g1, g2, g3, g4, g5, g6, g7, g8, g9, k, hk⟩ := hg
    refine ⟨t, ht, ?_, g5, g3, g4, g7, g6, g8, ?_, ?_, ?_⟩
    · intro lit hbound
      by_cases h0 : lit = 0
      · exact hzero t lit h0
      · rw [watch_list_eq t lit h0, watch_list_eq s lit h0]
        exact table_grown_contents s t ⟨g1, g2, g3, g4, g5, g6, g7, g8, g9, k, hk⟩ _
    · intro _
      refine ⟨by rw [hlen', hmax], hmax, ?_⟩
      intro lit h1 h2
      have h0 : lit ≠ 0 := by
        intro h; rw [h] at h1; simp at h1
      have hnn := lit2idx_nonneg lit h0
      have hidx : (lit2idx lit).toNat < 2 * max_var_new := lit2idx_lt lit _ h0 h2
      have hge : s.archive_watches.length ≤ (lit2idx lit).toNat := by
        rw [hlen]
        unfold lit2idx
        split <;> omega
      have hentry : t.archive_watches[(lit2idx lit).toNat]? = some ⟨0, 0⟩ := by
        rw [hk, List.getElem?_append_right hge, List.getElem?_replicate]
        have hlk : t.archive_watches.length = s.archive_watches.length + k := by
          rw [hk, List.length_append, List.length_replicate]
        rw [if_pos (by omega)]
      have hw : watches_at t (lit2idx lit) = some ((lit2idx lit).toNat, ⟨0, 0⟩) := by
        unfold watches_at
        rw [if_neg (by omega), hentry]
      refine ⟨hw, ?_⟩
      unfold watch_list
      rw [hw]
      rfl
    · intro h; omega
    · intro h; omega
  · rw [← heq]
    refine ⟨s, kissat_resize_archive_watches_same s, fun _ _ => rfl, rfl, rfl, rfl, rfl, rfl, rfl,
      ?_, ?_, fun _ => rfl⟩
    · intro h; omega
    · intro h; omega
  · refine ⟨_, kissat_resize_archive_watches_shrink s max_var_new hopt hgt, ?_, rfl, rfl, rfl,
      rfl, rfl, rfl, ?_, ?_, ?_⟩
    · intro lit hbound
      by_cases h0 : lit = 0
      · exact hzero _ lit h0
      · rw [watch_list_eq _ lit h0, watch_list_eq s lit h0]
        refine contents_at_congr s _ _ rfl ?_
        show (s.archive_watches.take (2 * max_var_new))[_]? = _
        have hidx : (lit2idx lit).toNat < 2 * max_var_new :=
          lit2idx_lt lit _ h0 (by omega)
        rw [List.getElem?_take, if_pos hidx]
    · intro h; omega
    · intro _
      refine ⟨?_, rfl⟩
      show (s.archive_watches.take (2 * max_var_new)).length = _
      rw [List.length_take]
      omega
    · intro h; omega

theorem kissat_resize_archive_watches_spec_witness :
    (∃ t, kissat_resize_archive_watches sample_state 7 9 = .ok t ∧
      t.archive_watches.length = 18 ∧ t.max_var = 9 ∧
      watch_list t 5 = watch_list sample_state 5 ∧ watch_list t (-3) = [5, 0] ∧
      watch_list t 9 = [] ∧ watch_list t (-8) = []) ∧
    (∃ t, kissat_resize_archive_watches sample_state 7 4 = .ok t ∧
      t.archive_watches.length = 8 ∧ t.max_var = 4 ∧
      watch_list t (-3) = watch_list sample_state (-3) ∧ watch_list t (-3) = [5, 0]) := by
  obtain ⟨t, h1, h2, -, -, -, -, -, -, h9, -, -⟩ :=
    kissat_resize_archive_watches_spec sample_state 9 rfl rfl
  obtain ⟨u, k1, k2, -, -, -, -, -, -, -, k10, -⟩ :=
    kissat_resize_archive_watches_spec sample_state 4 rfl rfl
  obtain ⟨h91, h92, h93⟩ := h9 (by decide)
  obtain ⟨k101, k102⟩ := k10 (by decide)
  refine ⟨⟨t, h1, h91, h92, h2 5 (by decide), ?_, (h93 9 (by decide) (by decide)).2,
    (h93 (-8) (by decide) (by decide)).2⟩,
    ⟨u, k1, k101, k102, k2 (-3) (by decide), ?_⟩⟩
  · rw [h2 (-3) (by decide)]; decide
  · rw [k2 (-3) (by decide)]; decide

/-! ## Allocation in the clause arena -/

theorem enlarge_until_exact (k size needed : Nat) :
    ∀ fuel capacity, (capacity = 0 ∨ ∃ j, j ≤ k ∧ capacity = 2 ^ j) → size ≤ capacity →
      capacity < size + needed → size + needed ≤ capacity + fuel →
      (2 ^ k < size + needed ∧
        enlarge_until (2 ^ k) size needed fuel capacity = .error .fatal) ∨
      (size + needed ≤ 2 ^ k ∧
        ∃ capacity' j, enlarge_until (2 ^ k) size needed fuel capacity = .ok capacity' ∧
          j ≤ k ∧ capacity' = 2 ^ j ∧ size + needed ≤ capacity') := by
  intro fuel
  induction fuel with
  | zero => intro capacity _ h0 h1 h2; omega
  | succ fuel ih =>
    intro capacity hpow h0 h1 h2
    unfold enlarge_until
    by_cases hmax : capacity = 2 ^ k
    · left
      rw [if_pos hmax]
      exact ⟨by omega, rfl⟩
    · rw [if_neg hmax]
      have hgt := kissat_stack_enlarge_gt capacity
      have hpow' : ∃ j, j ≤ k ∧ kissat_stack_enlarge capacity = 2 ^ j := by
        unfold kissat_stack_enlarge
        rcases hpow with h | ⟨j, hj, hc⟩
        · rw [if_pos h]
          exact ⟨0, Nat.zero_le _, rfl⟩
        · have hpos : 0 < 2 ^ j := Nat.pow_pos (by decide)
          rw [if_neg (by omega)]
          have hjk : j ≠ k := by
            intro h
            rw [h] at hc
            exact hmax hc
          refine ⟨j + 1, by omega, ?_⟩
          rw [hc, Nat.pow_succ]
          omega
      simp only
      by_cases hcont : needed > kissat_stack_enlarge capacity - size
      · rw [if_pos hcont]
        exact ih _ (Or.inr hpow') (by omega) (by omega) (by omega)
      · rw [if_neg hcont]
        right
        obtain ⟨j, hj, hc⟩ := hpow'
        have hle : 2 ^ j ≤ 2 ^ k := Nat.pow_le_pow_right (by decide) hj
        exact ⟨by omega, _, j, rfl, hj, hc, by omega⟩

theorem allocate_archived_clause_exact (env : Env) (s : kissat) (size k : Nat)
    (hmax : env.MAX_ARENA = 2 ^ k) (hk : k ≤ 32)
    (hward : 0 < env.sizeof_ward)
    (hcap : s.archive.length ≤ s.archive_capacity)
    (hpow : s.archive_capacity = 0 ∨ ∃ j, j ≤ k ∧ s.archive_capacity = 2 ^ j) :
    (env.MAX_ARENA < s.archive.length + bytes_of_archive_clause env size / env.sizeof_ward ∧
      allocate_archived_clause env s size = .error .fatal) ∨
    (s.archive.length + bytes_of_archive_clause env size / env.sizeof_ward ≤ env.MAX_ARENA ∧
      ∃ capacity',
        s.archive.length + bytes_of_archive_clause env size / env.sizeof_ward ≤ capacity' ∧
        capacity' ≤ env.MAX_ARENA ∧ (∃ j, j ≤ k ∧ capacity' = 2 ^ j) ∧
        allocate_archived_clause env s size = .ok (s.archive.length,
          { s with
            archive := s.archive ++
              List.replicate (bytes_of_archive_clause env size / env.sizeof_ward) ward.body,
            archive_capacity := capacity' })) := by
  have hw := bytes_of_archive_clause_words env size hward
  have h32 : (2 : Nat) ^ k ≤ 2 ^ 32 := Nat.pow_le_pow_right (by decide) hk
  unfold allocate_archived_clause
  simp only
  rw [hmax]
  by_cases hroom : bytes_of_archive_clause env size / env.sizeof_ward >
      s.archive_capacity - s.archive.length
  · rw [if_pos hroom]
    rcases enlarge_until_exact k s.archive.length
        (bytes_of_archive_clause env size / env.sizeof_ward)
        (s.archive.length + bytes_of_archive_clause env size / env.sizeof_ward + 1)
        s.archive_capacity hpow hcap (by omega) (by omega)
      with ⟨hbig, hfatal⟩ | ⟨hfit, capacity', j, hc, hj, hcj, hle⟩
    · left
      rw [hfatal]
      exact ⟨hbig, rfl⟩
    · right
      have hle2 : 2 ^ j ≤ 2 ^ k := Nat.pow_le_pow_right (by decide) hj
      refine ⟨hfit, capacity', hle, by omega, ⟨j, hj, hcj⟩, ?_⟩
      rw [hc]
      simp only
      rw [Nat.mod_eq_of_lt (by omega)]
  · rw [if_neg hroom]
    right
    have hcapmax : s.archive_capacity ≤ 2 ^ k := by
      rcases hpow with h | ⟨j, hj, hc⟩
      · omega
      · rw [hc]
        exact Nat.pow_le_pow_right (by decide) hj
    have hpos : s.archive_capacity ≠ 0 := by omega
    have hpow' : ∃ j, j ≤ k ∧ s.archive_capacity = 2 ^ j := by
      rcases hpow with h | h
      · exact absurd h hpos
      · exact h
    refine ⟨by omega, s.archive_capacity, by omega, hcapmax, hpow', ?_⟩
    simp only
    rw [Nat.mod_eq_of_lt (by omega)]
theorem allocate_all_spec (env : Env) (k : Nat)
    (hmax : env.MAX_ARENA = 2 ^ k) (hk : k ≤ 32) (hward : 0 < env.sizeof_ward) :
    ∀ (sizes : List Nat) (s : kissat) (recs : List (Nat × Nat)) (t : kissat),
      s.archive.length ≤ s.archive_capacity →
      (s.archive_capacity = 0 ∨ ∃ j, j ≤ k ∧ s.archive_capacity = 2 ^ j) →
      allocate_all env sizes s = .ok (recs, t) →
      s.archive.length ≤ t.archive.length ∧ t.archive.length ≤ t.archive_capacity ∧
      (t.archive_capacity = 0 ∨ ∃ j, j ≤ k ∧ t.archive_capacity = 2 ^ j) ∧
      recs.map Prod.snd =
        sizes.map (fun n => bytes_of_archive_clause env n / env.sizeof_ward) ∧
      (∀ a ∈ recs, s.archive.length ≤ a.1 ∧ a.1 < a.1 + a.2 ∧
        a.1 + a.2 ≤ t.archive.length) ∧
      recs.Pairwise (fun a b => a.1 + a.2 ≤ b.1) := by
  intro sizes
  induction sizes with
  | nil =>
    intro s recs t hcap hpow h
    simp only [allocate_all, Except.ok.injEq, Prod.mk.injEq] at h
    obtain ⟨h1, h2⟩ := h
    subst h1
    subst h2
    exact ⟨Nat.le_refl _, hcap, hpow, rfl, by simp, List.Pairwise.nil⟩
  | cons n rest ih =>
    intro s recs t hcap hpow h
    have hw := bytes_of_archive_clause_words env n hward
    simp only [allocate_all] at h
    rcases allocate_archived_clause_exact env s n k hmax hk hward hcap hpow
      with ⟨_, hfatal⟩ | ⟨_, capacity', hle, _, hpow', heq⟩
    · rw [hfatal] at h
      cases h
    · rw [heq] at h
      simp only at h
      cases hrest : allocate_all env rest
          { s with
            archive := s.archive ++
              List.replicate (bytes_of_archive_clause env n / env.sizeof_ward) ward.body,
            archive_capacity := capacity' } with
      | error a =>
        rw [hrest] at h
        cases h
      | ok r =>
        obtain ⟨refs, t'⟩ := r
        rw [hrest] at h
        simp only [Except.ok.injEq, Prod.mk.injEq] at h
        obtain ⟨h1, h2⟩ := h
        subst h1
        subst h2
        have hlen : (s.archive ++
            List.replicate (bytes_of_archive_clause env n / env.sizeof_ward) ward.body).length =
            s.archive.length + bytes_of_archive_clause env n / env.sizeof_ward := by
          rw [List.length_append, List.length_replicate]
        obtain ⟨i1, i2, i3, i4, i5, i6⟩ := ih _ refs t' (by
          show (s.archive ++ _).length ≤ capacity'
          rw [hlen]; exact hle) (Or.inr hpow') hrest
        have i1' : s.archive.length + bytes_of_archive_clause env n / env.sizeof_ward ≤
            t'.archive.length := by
          rw [← hlen]; exact i1
        refine ⟨by omega, i2, i3, ?_, ?_, ?_⟩
        · simp only [List.map_cons, i4]
        · intro a ha
          rcases List.mem_cons.mp ha with h | h
          · rw [h]
            exact ⟨Nat.le_refl _, by show s.archive.length < _; omega, i1'⟩
          · obtain ⟨j1, j2, j3⟩ := i5 a h
            have j1' : s.archive.length + bytes_of_archive_clause env n / env.sizeof_ward ≤
                a.1 := by
              rw [← hlen]; exact j1
            exact ⟨by omega, j2, j3⟩
        · refine List.Pairwise.cons ?_ i6
          intro a ha
          have j1 := (i5 a ha).1
          show s.archive.length + _ ≤ a.1
          rw [← hlen]
          exact j1
/-- C20: let `MAX_ARENA` be a power of two (at most `2 ^ 32`), the arena word
size positive, and the arena of size `r` within a capacity that is zero or a
power of two at most `MAX_ARENA`.  For a clause size `n ≥ 3` needing
`w = bytes_of_archive_clause (n) / sizeof (ward)` words (at least one),
`allocate_archived_clause` ends in `kissat_fatal` exactly when
`r + w > MAX_ARENA`; otherwise it returns the reference `r`, the arena has size
`r + w ≤ capacity ≤ MAX_ARENA` with the capacity again a power of two, the
words below `r` are unchanged and the words `r .. r + w - 1` are new.  For
successive calls (one per size of a list) that all return, every returned
record `[ref, ref + words)` is not empty, starts at or behind the old end of
the arena and ends inside the final arena, and a record returned earlier ends
at or before the start of one returned later, so the references are strictly
increasing. -/
theorem allocate_archived_clause_total (env : Env) (s : kissat) (k : Nat)
    (hmax : env.MAX_ARENA = 2 ^ k) (hk : k ≤ 32) (hward : 0 < env.sizeof_ward)
    (hcap : s.archive.length ≤ s.archive_capacity)
    (hpow : s.archive_capacity = 0 ∨ ∃ j, j ≤ k ∧ s.archive_capacity = 2 ^ j) :
    (∀ n, 3 ≤ n →
      1 ≤ bytes_of_archive_clause env n / env.sizeof_ward ∧
      (n < 2 ^ 32 → bytes_of_archive_clause env n =
        kissat_align_ward env (sizeof_archive_clause + (n - 3) * 4)) ∧
      (allocate_archived_clause env s n = .error .fatal ↔
        env.MAX_ARENA < s.archive.length + bytes_of_archive_clause env n / env.sizeof_ward) ∧
      (allocate_archived_clause env s n ≠ .error .fatal →
        ∃ t, allocate_archived_clause env s n = .ok (s.archive.length, t) ∧
          t.archive.length =
            s.archive.length + bytes_of_archive_clause env n / env.sizeof_ward ∧
          t.archive.length ≤ t.archive_capacity ∧ t.archive_capacity ≤ env.MAX_ARENA ∧
          (∃ j, j ≤ k ∧ t.archive_capacity = 2 ^ j) ∧
          (∀ ref, ref < s.archive.length → t.archive[ref]? = s.archive[ref]?) ∧
          (∀ ref, s.archive.length ≤ ref → ref < t.archive.length →
            t.archive[ref]? = some ward.body) ∧
          t.archive_vectors = s.archive_vectors ∧ t.archive_watches = s.archive_watches ∧
          t.max_var = s.max_var)) ∧
    (∀ (sizes : List Nat) (recs : List (Nat × Nat)) (t : kissat),
      (∀ n ∈ sizes, 3 ≤ n) → allocate_all env sizes s = .ok (recs, t) →
      recs.map Prod.snd =
        sizes.map (fun n => bytes_of_archive_clause env n / env.sizeof_ward) ∧
      (∀ a ∈ recs, s.archive.length ≤ a.1 ∧ a.1 < a.1 + a.2 ∧
        a.1 + a.2 ≤ t.archive.length) ∧
      recs.Pairwise (fun a b => a.1 + a.2 ≤ b.1) ∧
      (recs.map Prod.fst).Pairwise (fun a b => a < b) ∧
      t.archive.length ≤ t.archive_capacity) := by
  constructor
  · intro n hn
    have hw := bytes_of_archive_clause_words env n hward
    refine ⟨hw, ?_, ?_, ?_⟩
    · intro hlt
      unfold bytes_of_archive_clause
      have h1 : (n + 2 ^ 32 - 3) % 2 ^ 32 = n - 3 := by omega
      rw [h1, Nat.mod_eq_of_lt (by unfold sizeof_archive_clause; omega)]
    · rcases allocate_archived_clause_exact env s n k hmax hk hward hcap hpow
        with ⟨hbig, hfatal⟩ | ⟨hfit, capacity', _, _, _, heq⟩
      · exact ⟨fun _ => hbig, fun _ => hfatal⟩
      · constructor
        · intro h
          rw [heq] at h
          cases h
        · intro h
          omega
    · intro hret
      rcases allocate_archived_clause_exact env s n k hmax hk hward hcap hpow
        with ⟨_, hfatal⟩ | ⟨hfit, capacity', hle, hcm, hpow', heq⟩
      · exact absurd hfatal hret
      · have hlen : (s.archive ++
            List.replicate (bytes_of_archive_clause env n / env.sizeof_ward) ward.body).length =
            s.archive.length + bytes_of_archive_clause env n / env.sizeof_ward := by
          rw [List.length_append, List.length_replicate]
        refine ⟨_, heq, hlen, ?_, hcm, hpow', ?_, ?_, rfl, rfl, rfl⟩
        · show (s.archive ++ _).length ≤ capacity'
          rw [hlen]; exact hle
        · intro ref href
          show (s.archive ++ _)[ref]? = _
          rw [List.getElem?_append_left href]
        · intro ref h1 h2
          have h2' : ref < s.archive.length +
              bytes_of_archive_clause env n / env.sizeof_ward := by
            rw [← hlen]; exact h2
          show (s.archive ++ _)[ref]? = _
          rw [List.getElem?_append_right h1, List.getElem?_replicate, if_pos (by omega)]
  · intro sizes recs t _ hall
    obtain ⟨_, i2, _, i4, i5, i6⟩ :=
      allocate_all_spec env k hmax hk hward sizes s recs t hcap hpow hall
    refine ⟨i4, i5, i6, ?_, i2⟩
    rw [List.pairwise_map]
    refine List.Pairwise.imp_of_mem ?_ i6
    intro a b ha _ hab
    have := (i5 a ha).2.1
    omega

theorem allocate_archived_clause_total_witness :
    (∃ t, allocate_archived_clause (plain_env 8) sample_state 3 = .ok (2, t) ∧
      t.archive.length = 4 ∧ t.archive_capacity = 4) ∧
    (∃ recs t, allocate_all (plain_env 8) [3, 4, 9] sample_state = .ok (recs, t) ∧
      recs = [(2, 2), (4, 2), (6, 3)] ∧
      recs.Pairwise (fun a b => a.1 + a.2 ≤ b.1) ∧ t.archive.length = 9 ∧
      t.archive_capacity = 16) ∧
    (allocate_archived_clause { plain_env 8 with MAX_ARENA := 2 ^ 2 } sample_state 9 =
        .error .fatal ∧
      (2 : Nat) ^ 2 < sample_state.archive.length +
        bytes_of_archive_clause (plain_env 8) 9 / (plain_env 8).sizeof_ward) := by
  have h := allocate_archived_clause_total (plain_env 8) sample_state 31 rfl (by decide)
    (by decide) (by decide) (Or.inr ⟨1, by decide, rfl⟩)
  have hf := allocate_archived_clause_total { plain_env 8 with MAX_ARENA := 2 ^ 2 }
    sample_state 2 rfl (by decide) (by decide) (by decide) (Or.inr ⟨1, by decide, rfl⟩)
  refine ⟨?_, ?_, ?_⟩
  · obtain ⟨t, h1, h2, -⟩ := (h.1 3 (by decide)).2.2.2 (by intro h; cases h)
    have h3 : t.archive_capacity = 4 := by
      have h' : allocate_archived_clause (plain_env 8) sample_state 3 =
          .ok (2, { sample_state with
            archive := sample_state.archive ++ [ward.body, ward.body],
            archive_capacity := 4 }) := rfl
      rw [h'] at h1
      injection h1 with h1
      injection h1 with _ h1
      rw [← h1]
    exact ⟨t, h1, h2, h3⟩
  · have h' : ∃ recs t, allocate_all (plain_env 8) [3, 4, 9] sample_state = .ok (recs, t) ∧
        recs = [(2, 2), (4, 2), (6, 3)] ∧ t.archive.length = 9 ∧ t.archive_capacity = 16 :=
      ⟨_, _, rfl, rfl, rfl, rfl⟩
    obtain ⟨recs, t, a1, a2, a3, a4⟩ := h'
    exact ⟨recs, t, a1, a2, (h.2 [3, 4, 9] recs t (by decide) a1).2.2.1, a3, a4⟩
  · have hbig : (2 : Nat) ^ 2 < sample_state.archive.length +
        bytes_of_archive_clause (plain_env 8) 9 / (plain_env 8).sizeof_ward := by decide
    exact ⟨(hf.1 9 (by decide)).2.2.1.mpr hbig, hbig⟩

/-! ## Frame of a propagation pass and forcing clauses -/

theorem visit_watch_forcing (env : Env) (values : Nat → Int) (lit : Int) (arena : List ward)
    (head tail : Nat) (c : archive_clause)
    (hc : dereference_archive_clause arena tail = some c) (hok : record_ok c)
    (hvalid : literal_valid env (blocking_lit head))
    (hf : forcing_record env values lit c) :
    visit_watch env values lit arena head tail = .ok (.kept head) := by
  obtain ⟨hg, other, ho, hov, hoval, hun⟩ := hf
  obtain ⟨res, hres, hex, _⟩ := search_replacement_spec env values c hok
  have hexh : search_replacement env values c = .ok .exhausted := by
    rw [hres, hex.mpr hun]
  obtain ⟨other', ho', hcases⟩ := visit_watch_spec env values lit arena head tail c hc hok
  have heq : other' = other := by
    rw [ho] at ho'
    injection ho' with h
    exact h.symm
  subst heq
  rcases hcases with ⟨h1, _⟩ | ⟨_, _, h⟩ | ⟨_, _, h3, _⟩ | ⟨_, _, _, h4, _⟩ |
    ⟨_, _, _, _, h5, _⟩ | ⟨_, _, _, _, _, h6⟩
  · exact absurd hvalid h1
  · exact h
  · rw [hg] at h3; cases h3
  · exact absurd hov h4
  · omega
  · rcases h6 with ⟨h, _⟩ | ⟨r, rep, h, _⟩ | ⟨_, h, _⟩ | ⟨_, _, h⟩
    · rw [hexh] at h; cases h
    · rw [hexh] at h; cases h
    · exact absurd hoval h
    · exact h

/-- A visit does not change a record that is garbage or forcing. -/
theorem visit_watch_keeps_record (env : Env) (values : Nat → Int) (lit : Int)
    (arena : List ward) (head tail : Nat) (c' : archive_clause)
    (hc' : dereference_archive_clause arena tail = some c') (hok : record_ok c')
    (ref : Nat) (c : archive_clause) (hc : dereference_archive_clause arena ref = some c)
    (hfix : c.garbage = true ∨ forcing_record env values lit c)
    (a' : List ward) (hv : visit_watch env values lit arena head tail = .ok (.removed a')) :
    dereference_archive_clause a' ref = some c := by
  by_cases href : ref = tail
  · subst href
    rw [hc] at hc'
    injection hc' with hcc
    subst hcc
    by_cases hvalid : literal_valid env (blocking_lit head)
    · rcases hfix with hg | hf
      · by_cases htrue : value_of env values (blocking_lit head) > 0
        · rw [visit_watch_blocking_true env values lit arena head ref ⟨hvalid, htrue⟩] at hv
          cases hv
        · rw [visit_watch_garbage env values lit arena head ref
            ⟨hvalid, htrue, c, hc, hg⟩] at hv
          injection hv with hv
          injection hv with hv
          rw [← hv]
          exact hc
      · rw [visit_watch_forcing env values lit arena head ref c hc hok hvalid hf] at hv
        cases hv
    · rw [visit_watch_invalid env values lit arena head ref hvalid] at hv
      injection hv with hv
      injection hv with hv
      rw [← hv]
      exact hc
  · obtain ⟨other, _, hcases⟩ := visit_watch_spec env values lit arena head tail c' hc' hok
    have hset : ∀ x : archive_clause,
        dereference_archive_clause (arena.set tail (ward.head x)) ref = some c := by
      intro x
      rw [dereference_set arena tail ref c' x hc', if_neg href]
      exact hc
    have hsame : ∀ a'' : List ward, a'' = arena →
        visit_watch env values lit arena head tail = .ok (.removed a'') →
        dereference_archive_clause a' ref = some c := by
      intro a'' h1 h2
      rw [h2] at hv
      injection hv with hv
      injection hv with hv
      rw [← hv, h1]
      exact hc
    have hmark : visit_watch env values lit arena head tail =
          .ok (.removed (mark_garbage arena tail c')) →
        dereference_archive_clause a' ref = some c := by
      intro h2
      rw [h2] at hv
      injection hv with hv
      injection hv with hv
      rw [← hv]
      exact hset _
    rcases hcases with ⟨_, h⟩ | ⟨_, _, h⟩ | ⟨_, _, _, h⟩ | ⟨_, _, _, _, h⟩ |
      ⟨_, _, _, _, _, h⟩ | ⟨_, _, _, _, _, h6⟩
    · exact hsame arena rfl h
    · rw [h] at hv; cases hv
    · exact hsame arena rfl h
    · exact hmark h
    · rw [h] at hv; cases hv
    · rcases h6 with ⟨_, h⟩ | ⟨r, rep, _, h⟩ | ⟨_, _, h⟩ | ⟨_, _, h⟩
      · exact hmark h
      · rw [h] at hv
        injection hv with hv
        injection hv with hv
        rw [← hv]
        exact hset _
      · rw [h] at hv; cases hv
      · rw [h] at hv; cases hv
theorem visit_watch_forcing_or_true (env : Env) (values : Nat → Int) (lit : Int)
    (arena : List ward) (head tail : Nat) (c : archive_clause)
    (hc : dereference_archive_clause arena tail = some c) (hok : record_ok c)
    (hvalid : literal_valid env (blocking_lit head))
    (hf : forcing_record env values lit c) :
    visit_watch env values lit arena head tail = .ok (.kept head) := by
  by_cases htrue : value_of env values (blocking_lit head) > 0
  · exact visit_watch_blocking_true env values lit arena head tail ⟨hvalid, htrue⟩
  · exact visit_watch_forcing env values lit arena head tail c hc hok hvalid hf

/-- A walk does not change a record that is garbage or forcing, and it keeps
every pair of a forcing record whose blocking literal is valid. -/
theorem walk_watches_keeps_record (env : Env) (values : Nat → Int) (lit : Int) (ref : Nat)
    (c : archive_clause) (hfix : c.garbage = true ∨ forcing_record env values lit c)
    (ws : List Nat) :
    ∀ arena kept arena' conflict, pairs_ok arena ws = true →
      dereference_archive_clause arena ref = some c →
      walk_watches env values lit ws arena = .ok (kept, arena', conflict) →
      dereference_archive_clause arena' ref = some c ∧
      (forcing_record env values lit c → ∀ head, (head, ref) ∈ watch_pairs ws →
        literal_valid env (blocking_lit head) → (head, ref) ∈ watch_pairs kept) := by
  induction ws using pairs_induction with
  | h0 =>
    intro arena kept arena' conflict _ hc hw
    simp only [walk_watches, Except.ok.injEq, Prod.mk.injEq] at hw
    obtain ⟨h1, h2, _⟩ := hw
    subst h1
    subst h2
    exact ⟨hc, fun _ head hm _ => by simp [watch_pairs] at hm⟩
  | h1 x => intro arena kept arena' conflict hx; simp [pairs_ok] at hx
  | h2 head tail rest ih =>
    intro arena kept arena' conflict hp hc hw
    obtain ⟨hlt, ⟨c', hc', hok⟩, hrest⟩ := (pairs_ok_cons arena head tail rest).mp hp
    obtain ⟨v, hv, f1, f2, _, _⟩ := visit_watch_facts env values lit arena head tail c' hc' hok
    rw [walk_watches_cons env values lit arena head tail rest v hv] at hw
    have hhead : forcing_record env values lit c → ∀ h, (h, ref) = (head, tail) →
        literal_valid env (blocking_lit h) → v = .kept head := by
      intro hf h heq hvalid
      simp only [Prod.mk.injEq] at heq
      obtain ⟨rfl, rfl⟩ := heq
      have hcc : c' = c := by
        rw [hc] at hc'
        injection hc' with h
        exact h.symm
      subst hcc
      have := visit_watch_forcing_or_true env values lit arena h ref c' hc hok hvalid hf
      rw [this] at hv
      injection hv with hv
      exact hv.symm
    cases v with
    | removed a' =>
      simp only at hw
      obtain ⟨href, _⟩ := f1 a' rfl
      have hc2 := visit_watch_keeps_record env values lit arena head tail c' hc' hok ref c hc
        hfix a' hv
      obtain ⟨i1, i2⟩ := ih a' kept arena' conflict
        (pairs_ok_of_refines arena a' href rest hrest) hc2 hw
      refine ⟨i1, ?_⟩
      intro hf h hm hvalid
      rw [watch_pairs_cons] at hm
      rcases List.mem_cons.mp hm with heq | hm
      · have := hhead hf h heq hvalid
        cases this
      · exact i2 hf h hm hvalid
    | kept h' =>
      simp only at hw
      cases hr : walk_watches env values lit rest arena with
      | error a =>
        rw [hr] at hw
        cases hw
      | ok r =>
        obtain ⟨kr, ar, cr⟩ := r
        rw [hr] at hw
        simp only [Except.ok.injEq, Prod.mk.injEq] at hw
        obtain ⟨h1, h2, h3⟩ := hw
        subst h1
        subst h2
        subst h3
        obtain ⟨i1, i2⟩ := ih arena kr ar cr hrest hc hr
        refine ⟨i1, ?_⟩
        intro hf h hm hvalid
        rw [watch_pairs_cons] at hm
        rw [watch_pairs_cons]
        rcases List.mem_cons.mp hm with heq | hm
        · have := hhead hf h heq hvalid
          injection this with this
          rw [heq, this]
          exact List.mem_cons_self _ _
        · exact List.mem_cons_of_mem _ (i2 hf h hm hvalid)
    | conflict =>
      simp only [Except.ok.injEq, Prod.mk.injEq] at hw
      obtain ⟨h1, h2, _⟩ := hw
      subst h1
      subst h2
      exact ⟨hc, fun _ h hm _ => hm⟩
theorem resize_archive_vector_frame (s t : kissat) (idx n : Nat)
    (h : resize_archive_vector s idx n = .ok t) :
    t.values = s.values ∧ t.archive_propagate = s.archive_propagate ∧
    t.archive_conflicts = s.archive_conflicts := by
  unfold resize_archive_vector at h
  cases hv : s.archive_watches[idx]? with
  | none => rw [hv] at h; cases h
  | some v =>
    rw [hv] at h
    simp only at h
    split_ifs at h
    · injection h with h; subst h; exact ⟨rfl, rfl, rfl⟩
    · injection h with h; subst h; exact ⟨rfl, rfl, rfl⟩

theorem propagate_literal_frame (env : Env) (s : kissat) (ilit : Nat) (t : kissat)
    (h : propagate_literal env s ilit = .ok (.next t) ∨
      propagate_literal env s ilit = .ok (.done t)) :
    t.values = s.values ∧ t.archive_propagate = s.archive_propagate := by
  unfold propagate_literal at h
  simp only at h
  cases hw : watches_at s (lit2idx (-(env.kissat_export_literal ilit))) with
  | none => rw [hw] at h; simp at h
  | some p =>
    obtain ⟨idx, w⟩ := p
    rw [hw] at h
    simp only at h
    by_cases h0 : w.size = 0
    · rw [if_pos h0] at h
      rcases h with h | h
      · cases h
      · injection h with h; injection h with h; subst h; exact ⟨rfl, rfl⟩
    · rw [if_neg h0] at h
      by_cases h1 : s.archive_vectors.stack.length < w.offset + w.size
      · rw [if_pos h1] at h; simp at h
      · rw [if_neg h1] at h
        cases hwalk : walk_watches env s.values (env.kissat_export_literal ilit)
            (vector_contents s.archive_vectors.stack w) s.archive with
        | error a => rw [hwalk] at h; simp at h
        | ok r =>
          obtain ⟨kept, arena, fc⟩ := r
          rw [hwalk] at h
          simp only at h
          cases hr : resize_archive_vector
              { s with archive := arena,
                       archive_vectors :=
                         { s.archive_vectors with
                           stack := write_words s.archive_vectors.stack w.offset kept } }
              idx kept.length with
          | error a => rw [hr] at h; simp at h
          | ok s2 =>
            rw [hr] at h
            simp only at h
            obtain ⟨f1, f2, _⟩ := resize_archive_vector_frame _ _ _ _ hr
            cases fc with
            | true =>
              simp only [if_true] at h
              rcases h with h | h
              · cases h
              · injection h with h; injection h with h; subst h
                exact ⟨f1, f2⟩
            | false =>
              simp only [Bool.false_eq_true, if_false] at h
              rcases h with h | h
              · injection h with h; injection h with h; subst h
                exact ⟨f1, f2⟩
              · cases h

theorem propagate_queue_frame (env : Env) (queue : List Nat) :
    ∀ s t : kissat, propagate_queue env queue s = .ok t →
      t.values = s.values ∧ t.archive_propagate = s.archive_propagate := by
  induction queue with
  | nil =>
    intro s t h
    simp only [propagate_queue, Except.ok.injEq] at h
    subst h
    exact ⟨rfl, rfl⟩
  | cons ilit rest ih =>
    intro s t h
    simp only [propagate_queue] at h
    cases hstep : propagate_literal env s ilit with
    | error a => rw [hstep] at h; cases h
    | ok st =>
      rw [hstep] at h
      cases st with
      | next s' =>
        simp only at h
        obtain ⟨a1, a2⟩ := propagate_literal_frame env s ilit s' (Or.inl hstep)
        obtain ⟨b1, b2⟩ := ih s' t h
        exact ⟨b1.trans a1, b2.trans a2⟩
      | done s' =>
        simp only [Except.ok.injEq] at h
        subst h
        exact propagate_literal_frame env s ilit s' (Or.inr hstep)

theorem kissat_propagate_archive_frame (env : Env) (s t : kissat)
    (h : kissat_propagate_archive env s = .ok t) :
    t.values = s.values ∧ t.archive_propagate = s.archive_propagate := by
  unfold kissat_propagate_archive at h
  split_ifs at h
  · injection h with h; subst h; exact ⟨rfl, rfl⟩
  · injection h with h; subst h; exact ⟨rfl, rfl⟩
  · exact propagate_queue_frame env _ s t h

/-- C11: (1) a call of `kissat_propagate_archive` that returns leaves the
values array and the propagation queue as they were, and in a consistent state
whose queued literals are covered by the watch table the call returns.  (2) A
watch pair whose blocking literal is valid and whose record is forcing (not
garbage, other watched literal valid and unassigned, every unwatched literal
valid and false) is copied forward with its head word unchanged and nothing is
stored into the arena.  (3) For the walk of one queued literal in a consistent
state: values and queue are unchanged, a forcing record is the same record
after the walk (literals, `searched`, `garbage`, `size`), and each of its pairs
with a valid blocking literal is still in the list, unchanged. -/
theorem forcing_pair_left_unchanged (env : Env) (s : kissat) :
    (∀ t, kissat_propagate_archive env s = .ok t →
      t.values = s.values ∧ t.archive_propagate = s.archive_propagate) ∧
    (consistent s →
      (∀ ilit ∈ s.archive_propagate, env.kissat_export_literal ilit ≠ 0 ∧
        (env.kissat_export_literal ilit).natAbs ≤ s.max_var) →
      ∃ t, kissat_propagate_archive env s = .ok t) ∧
    (∀ (lit : Int) (arena : List ward) (head tail : Nat) (c : archive_clause),
      dereference_archive_clause arena tail = some c → record_ok c →
      literal_valid env (blocking_lit head) → forcing_record env s.values lit c →
      visit_watch env s.values lit arena head tail = .ok (.kept head)) ∧
    (consistent s → ∀ (ilit idx : Nat) (w : archive_vector),
      watches_at s (lit2idx (-(env.kissat_export_literal ilit))) = some (idx, w) →
      w.size ≠ 0 →
      ∃ t, (propagate_literal env s ilit = .ok (.next t) ∨
            propagate_literal env s ilit = .ok (.done t)) ∧
        t.values = s.values ∧ t.archive_propagate = s.archive_propagate ∧
        ∀ (ref : Nat) (c : archive_clause),
          dereference_archive_clause s.archive ref = some c →
          forcing_record env s.values (env.kissat_export_literal ilit) c →
          dereference_archive_clause t.archive ref = some c ∧
          ∀ head, (head, ref) ∈
              watch_pairs (watch_list s (-(env.kissat_export_literal ilit))) →
            literal_valid env (blocking_lit head) →
            (head, ref) ∈ watch_pairs (watch_list t (-(env.kissat_export_literal ilit)))) := by
  refine ⟨fun t h => kissat_propagate_archive_frame env s t h, ?_, ?_, ?_⟩
  · intro hs hq
    unfold kissat_propagate_archive
    split_ifs
    · exact ⟨s, rfl⟩
    · exact ⟨s, rfl⟩
    · obtain ⟨t, ht, _⟩ := propagate_queue_spec env s.archive_propagate s hs hq
      exact ⟨t, ht⟩
  · intro lit arena head tail c hc hok hvalid hf
    exact visit_watch_forcing_or_true env s.values lit arena head tail c hc hok hvalid hf
  · intro hs ilit idx w hw hne
    obtain ⟨kept, arena', conflict, t, hwalk, hstep, _, harena, hcont, _, _, hval, hqueue, _⟩ :=
      propagate_literal_spec env s ilit idx w hs hw hne
    have hw' := watches_at_eq s _ idx w hw
    have hpairs : pairs_ok s.archive (vector_contents s.archive_vectors.stack w) = true := by
      have := ((consistent_iff s).mp hs).2.2.2 idx
      rw [contents_at_some s idx w hw'] at this
      exact this
    have hidx := (watches_at_some s _ idx w hw).2
    have hne0 := lit_ne_zero_of_watches_at s _ idx w hw
    have hlist_s := (watch_list_of_watches_at s _ idx w hw).1
    have hlist_t : watch_list t (-(env.kissat_export_literal ilit)) = kept := by
      rw [watch_list_eq t _ hne0, ← hidx, hcont]
    refine ⟨t, ?_, hval, hqueue, ?_⟩
    · cases conflict with
      | true => right; simpa using hstep
      | false => left; simpa using hstep
    · intro ref c hc hf
      obtain ⟨k1, k2⟩ := walk_watches_keeps_record env s.values (env.kissat_export_literal ilit)
        ref c (Or.inr hf) _ s.archive kept arena' conflict hpairs hc hwalk
      rw [harena, hlist_s, hlist_t]
      exact ⟨k1, k2 hf⟩

theorem forcing_pair_left_unchanged_witness :
    consistent (assign_and_queue sample_state [-5, -7]) ∧
    (∃ t, kissat_propagate_archive (plain_env 8) (assign_and_queue sample_state [-5, -7]) =
        .ok t ∧
      t.values = (assign_and_queue sample_state [-5, -7]).values ∧
      t.archive_propagate = (assign_and_queue sample_state [-5, -7]).archive_propagate) ∧
    watch_pairs (watch_list (assign_and_queue sample_state [-5, -7]) 5) = [(2147483645, 0)] ∧
    (∃ t, (propagate_literal (plain_env 8) (assign_and_queue sample_state [-5, -7]) 9 =
          .ok (.next t) ∨
        propagate_literal (plain_env 8) (assign_and_queue sample_state [-5, -7]) 9 =
          .ok (.done t)) ∧
      dereference_archive_clause t.archive 0 =
        some { garbage := false, searched := 2, size := 3, lits := [5, -3, 7] } ∧
      (2147483645, 0) ∈ watch_pairs (watch_list t 5)) := by
  have h := forcing_pair_left_unchanged (plain_env 8) (assign_and_queue sample_state [-5, -7])
  obtain ⟨h1, h2, _, h4⟩ := h
  have hs : consistent (assign_and_queue sample_state [-5, -7]) := by decide
  refine ⟨hs, ?_, by decide, ?_⟩
  · obtain ⟨t, ht⟩ := h2 hs (by decide)
    exact ⟨t, ht, h1 t ht⟩
  · obtain ⟨t, ht, _, _, hrec⟩ := h4 hs 9 9 ⟨2, 2⟩ (by decide) (by decide)
    have hf : forcing_record (plain_env 8) (assign_and_queue sample_state [-5, -7]).values
        ((plain_env 8).kissat_export_literal 9)
        { garbage := false, searched := 2, size := 3, lits := [5, -3, 7] } := by
      refine ⟨rfl, -3, by decide, by decide, by decide, ?_⟩
      intro k k1 k2
      have hk : k = 2 := by
        have : k < 3 := k2
        omega
      subst hk
      exact ⟨7, rfl, by decide, by decide⟩
    obtain ⟨r1, r2⟩ := hrec 0 _ (by decide) hf
    exact ⟨t, ht, r1, r2 2147483645 (by decide) (by decide)⟩

/-! ## Literals that are no longer valid -/

theorem pairs_ok_back (arena : List ward) (back : List Nat) (front : List Nat) :
    front.length % 2 = 0 → pairs_ok arena (front ++ back) = true →
      pairs_ok arena back = true := by
  induction front using pairs_induction with
  | h0 => intro _ h; exact h
  | h1 x => intro h; simp at h
  | h2 head tail front ih =>
    intro hev hp
    simp only [List.cons_append] at hp
    simp only [List.length_cons] at hev
    rw [pairs_ok_cons] at hp
    exact ih (by omega) hp.2.2

theorem same_outside_vectors_refl (s : kissat) : same_outside_vectors s s :=
  ⟨rfl, rfl, rfl, rfl, rfl, rfl, rfl, rfl, rfl⟩

theorem enlarge_archive_vector_frame (env : Env) (s t : kissat) (idx pos : Nat)
    (h : enlarge_archive_vector env s idx = .ok (pos, t)) : same_outside_vectors s t := by
  unfold enlarge_archive_vector at h
  cases hv : s.archive_watches[idx]? with
  | none => rw [hv] at h; cases h
  | some v =>
    rw [hv] at h
    simp only at h
    split at h
    · cases h
    · split_ifs at h <;>
        (simp only [Except.ok.injEq, Prod.mk.injEq] at h
         obtain ⟨_, rfl⟩ := h
         exact ⟨rfl, rfl, rfl, rfl, rfl, rfl, rfl, rfl, by simp⟩)

theorem increment_size_frame (s : kissat) (idx : Nat) :
    same_outside_vectors s (increment_size s idx) := by
  unfold increment_size
  cases s.archive_watches[idx]? with
  | none => exact same_outside_vectors_refl s
  | some v => exact ⟨rfl, rfl, rfl, rfl, rfl, rfl, rfl, rfl, by simp⟩

theorem push_enlarged_frame (env : Env) (s t : kissat) (idx e : Nat)
    (h : push_enlarged env s idx e = .ok t) : same_outside_vectors s t := by
  unfold push_enlarged at h
  cases he : enlarge_archive_vector env s idx with
  | error a => rw [he] at h; cases h
  | ok r =>
    obtain ⟨pos, s'⟩ := r
    rw [he] at h
    simp only [Except.ok.injEq] at h
    subst h
    exact enlarge_archive_vector_frame env s s' idx pos he

theorem push_fresh_frame (env : Env) (s t : kissat) (idx e : Nat) (v : archive_vector)
    (h : (if s.archive_vectors.stack.length = s.archive_vectors.capacity then
        push_enlarged env s idx e
      else .ok (append_word
        { s with archive_watches :=
            s.archive_watches.set idx { v with offset := s.archive_vectors.stack.length } } e)) =
      .ok t) : same_outside_vectors s t := by
  by_cases hfull : s.archive_vectors.stack.length = s.archive_vectors.capacity
  · rw [if_pos hfull] at h
    exact push_enlarged_frame env s t idx e h
  · rw [if_neg hfull] at h
    simp only [Except.ok.injEq] at h
    subst h
    exact ⟨rfl, rfl, rfl, rfl, rfl, rfl, rfl, rfl, by simp [append_word]⟩

theorem push_archive_vectors_frame (env : Env) (s t : kissat) (idx e : Nat)
    (h : push_archive_vectors env s idx e = .ok t) : same_outside_vectors s t := by
  unfold push_archive_vectors at h
  cases hv : s.archive_watches[idx]? with
  | none => rw [hv] at h; cases h
  | some v =>
    rw [hv] at h
    simp only at h
    split at h
    · cases h
    · rename_i s' hp
      simp only [Except.ok.injEq] at h
      subst h
      refine same_outside_vectors_trans s s' _ ?_ (increment_size_frame s' idx)
      have hzero : same_outside_vectors s (push_stack_zero s) :=
        ⟨rfl, rfl, rfl, rfl, rfl, rfl, rfl, rfl, rfl⟩
      by_cases hfresh : v.size = 0 ∧ v.offset = 0
      · rw [if_pos hfresh] at hp
        by_cases hempty : s.archive_vectors.stack.length = 0
        · rw [if_pos hempty] at hp
          exact same_outside_vectors_trans _ _ _ hzero
            (push_fresh_frame env (push_stack_zero s) s' idx e v hp)
        · rw [if_neg hempty] at hp
          exact push_fresh_frame env s s' idx e v hp
      · rw [if_neg hfresh] at hp
        by_cases hend : v.offset + v.size = s.archive_vectors.stack.length
        · rw [if_pos hend] at hp
          by_cases hfull : s.archive_vectors.stack.length = s.archive_vectors.capacity
          · rw [if_pos hfull] at hp
            exact push_enlarged_frame env s s' idx e hp
          · rw [if_neg hfull] at hp
            simp only [Except.ok.injEq] at hp
            subst hp
            exact same_outside_vectors_refl s
        · rw [if_neg hend] at hp
          cases hx : s.archive_vectors.stack[v.offset + v.size]? with
          | none => rw [hx] at hp; cases hp
          | some x =>
            rw [hx] at hp
            simp only at hp
            by_cases hne : x ≠ INVALID_VECTOR_ELEMENT
            · rw [if_pos hne] at hp
              exact push_enlarged_frame env s s' idx e hp
            · rw [if_neg hne] at hp
              simp only [Except.ok.injEq] at hp
              subst hp
              exact same_outside_vectors_refl s

theorem push_blocking_archive_watch_frame (env : Env) (s t : kissat) (i : Int)
    (blocking : Int) (ref : Nat)
    (h : push_blocking_archive_watch env s i blocking ref = .ok t) :
    same_outside_vectors s t := by
  unfold push_blocking_archive_watch at h
  split_ifs at h
  cases h1 : push_archive_vectors env s i.toNat (archive_blocking_archive_watch blocking) with
  | error a => rw [h1] at h; cases h
  | ok s1 =>
    rw [h1] at h
    exact same_outside_vectors_trans _ _ _ (push_archive_vectors_frame env s s1 _ _ h1)
      (push_archive_vectors_frame env s1 t _ _ h)

theorem watch_archive_reference_frame (env : Env) (s t : kissat) (a b : Int) (ref : Nat)
    (h : watch_archive_reference env s a b ref = .ok t) : same_outside_vectors s t := by
  unfold watch_archive_reference watch_archive_blocking at h
  cases h1 : push_blocking_archive_watch env s (lit2idx a) b ref with
  | error e => rw [h1] at h; cases h
  | ok s1 =>
    rw [h1] at h
    exact same_outside_vectors_trans _ _ _ (push_blocking_archive_watch_frame env s s1 _ _ _ h1)
      (push_blocking_archive_watch_frame env s1 t _ _ _ h)

theorem watch_archive_clause_frame (env : Env) (s t : kissat) (ref : Nat)
    (h : watch_archive_clause env s ref = .ok t) : same_outside_vectors s t := by
  unfold watch_archive_clause at h
  split at h
  · split at h
    · exact watch_archive_reference_frame env s t _ _ ref h
    · cases h
  · cases h

theorem kissat_resize_archive_watches_frame (s t : kissat) (max_var_old max_var_new : Nat)
    (h : kissat_resize_archive_watches s max_var_old max_var_new = .ok t) :
    t.archive = s.archive ∧ t.archive_capacity = s.archive_capacity ∧
    t.archive_vectors = s.archive_vectors := by
  unfold kissat_resize_archive_watches at h
  split_ifs at h <;>
    (simp only [Except.ok.injEq] at h
     subst h
     exact ⟨rfl, rfl, rfl⟩)

theorem export_literals_frame (env : Env) (lits : List Nat) :
    ∀ (s t : kissat) (elits : List Int), export_literals env lits s = .ok (t, elits) →
      t.archive = s.archive ∧ t.archive_capacity = s.archive_capacity ∧
      t.archive_vectors = s.archive_vectors ∧
      elits = lits.map env.kissat_export_literal := by
  induction lits with
  | nil =>
    intro s t elits h
    simp only [export_literals, Except.ok.injEq, Prod.mk.injEq] at h
    obtain ⟨rfl, rfl⟩ := h
    exact ⟨rfl, rfl, rfl, rfl⟩
  | cons ilit rest ih =>
    intro s t elits h
    simp only [export_literals] at h
    split at h
    · cases h
    · rename_i s1 hres
      have hs1 : s1.archive = s.archive ∧ s1.archive_capacity = s.archive_capacity ∧
          s1.archive_vectors = s.archive_vectors := by
        split_ifs at hres
        · exact kissat_resize_archive_watches_frame s s1 _ _ hres
        · simp only [Except.ok.injEq] at hres
          subst hres
          exact ⟨rfl, rfl, rfl⟩
      cases hrest : export_literals env rest s1 with
      | error a => rw [hrest] at h; cases h
      | ok r =>
        obtain ⟨s2, l2⟩ := r
        rw [hrest] at h
        simp only [Except.ok.injEq, Prod.mk.injEq] at h
        obtain ⟨rfl, rfl⟩ := h
        obtain ⟨i1, i2, i3, i4⟩ := ih s1 s2 l2 hrest
        exact ⟨i1.trans hs1.1, i2.trans hs1.2.1, i3.trans hs1.2.2, by rw [i4]; rfl⟩

theorem allocate_archived_clause_arena (env : Env) (s s1 : kissat) (size res : Nat)
    (h : allocate_archived_clause env s size = .ok (res, s1)) :
    res = s.archive.length % 2 ^ 32 ∧
    s1.archive = s.archive ++
      List.replicate (bytes_of_archive_clause env size / env.sizeof_ward) ward.body := by
  unfold allocate_archived_clause at h
  simp only at h
  split at h
  · cases h
  · simp only [Except.ok.injEq, Prod.mk.injEq] at h
    obtain ⟨rfl, rfl⟩ := h
    exact ⟨rfl, rfl⟩

/-- The arena behind a call of `kissat_archive_clause` that returns: the arena
as it was, or the arena with fresh words appended and the new record stored at
the returned reference. -/
theorem kissat_archive_clause_arena (env : Env) (s t : kissat) (c : clause)
    (h : kissat_archive_clause env s c = .ok t) :
    t.archive = s.archive ∨
    ∃ n, t.archive = (s.archive ++ List.replicate n ward.body).set (s.archive.length % 2 ^ 32)
      (ward.head { garbage := false, size := c.lits.length, searched := 2,
                   lits := c.lits.map env.kissat_export_literal }) := by
  unfold kissat_archive_clause at h
  split_ifs at h
  · simp only [Except.ok.injEq] at h
    subst h
    left; rfl
  · right
    simp only at h
    cases ha : allocate_archived_clause env s c.lits.length with
    | error a => rw [ha] at h; cases h
    | ok r =>
      obtain ⟨res, s1⟩ := r
      rw [ha] at h
      simp only at h
      obtain ⟨hres, harena⟩ := allocate_archived_clause_arena env s s1 _ res ha
      cases he : export_literals env c.lits s1 with
      | error a => rw [he] at h; cases h
      | ok r =>
        obtain ⟨s2, lits⟩ := r
        rw [he] at h
        simp only at h
        obtain ⟨e1, _, _, e4⟩ := export_literals_frame env c.lits s1 s2 lits he
        have hf := watch_archive_clause_frame env _ t res h
        refine ⟨bytes_of_archive_clause env c.lits.length / env.sizeof_ward, ?_⟩
        rw [hf.2.2.1]
        show s2.archive.set res _ = _
        rw [e1, harena, hres, e4]

theorem record_ok_of_cursors_ok (arena : List ward) (h : cursors_ok arena) (ref : Nat)
    (c : archive_clause) (hc : dereference_archive_clause arena ref = some c) : record_ok c := by
  obtain ⟨h1, h2, h3⟩ := h ref c hc
  exact ⟨h1, h2, by omega⟩

theorem cursors_ok_set (arena : List ward) (tail : Nat) (c c' : archive_clause)
    (h : cursors_ok arena) (hc : dereference_archive_clause arena tail = some c)
    (h' : c'.size = c'.lits.length ∧ 2 ≤ c'.searched ∧ c'.searched < c'.size) :
    cursors_ok (arena.set tail (ward.head c')) := by
  intro ref x hx
  rw [dereference_set arena tail ref c c' hc] at hx
  by_cases href : ref = tail
  · rw [if_pos href] at hx
    injection hx with hx
    rw [← hx]
    exact h'
  · rw [if_neg href] at hx
    exact h ref x hx

theorem visit_watch_no_record (env : Env) (values : Nat → Int) (lit : Int) (arena : List ward)
    (head tail : Nat) (hd : dereference_archive_clause arena tail = none) (a' : List ward)
    (hv : visit_watch env values lit arena head tail = .ok (.removed a')) : a' = arena := by
  unfold visit_watch at hv
  rw [hd] at hv
  simp only at hv
  split_ifs at hv <;> first
    | (injection hv with hv; injection hv with hv; exact hv.symm)
    | cases hv

theorem visit_watch_cursors_ok (env : Env) (values : Nat → Int) (lit : Int) (arena : List ward)
    (head tail : Nat) (h : cursors_ok arena) (a' : List ward)
    (hv : visit_watch env values lit arena head tail = .ok (.removed a')) : cursors_ok a' := by
  cases hd : dereference_archive_clause arena tail with
  | none =>
    rw [visit_watch_no_record env values lit arena head tail hd a' hv]
    exact h
  | some c =>
    have hok := record_ok_of_cursors_ok arena h tail c hd
    obtain ⟨c1, c2, c3⟩ := h tail c hd
    obtain ⟨res, hres, _, hfound⟩ := search_replacement_spec env values c hok
    obtain ⟨other, _, hcases⟩ := visit_watch_spec env values lit arena head tail c hd hok
    have hsame : visit_watch env values lit arena head tail = .ok (.removed arena) →
        cursors_ok a' := by
      intro h2
      rw [h2] at hv
      injection hv with hv
      injection hv with hv
      rw [← hv]
      exact h
    have hmark : visit_watch env values lit arena head tail =
          .ok (.removed (mark_garbage arena tail c)) → cursors_ok a' := by
      intro h2
      rw [h2] at hv
      injection hv with hv
      injection hv with hv
      rw [← hv]
      exact cursors_ok_set arena tail c _ h hd ⟨c1, c2, c3⟩
    rcases hcases with ⟨_, h1⟩ | ⟨_, _, h1⟩ | ⟨_, _, _, h1⟩ | ⟨_, _, _, _, h1⟩ |
      ⟨_, _, _, _, _, h1⟩ | ⟨_, _, _, _, _, h6⟩
    · exact hsame h1
    · rw [h1] at hv; cases hv
    · exact hsame h1
    · exact hmark h1
    · rw [h1] at hv; cases hv
    · rcases h6 with ⟨_, h1⟩ | ⟨r, rep, hs, h1⟩ | ⟨_, _, h1⟩ | ⟨_, _, h1⟩
      · exact hmark h1
      · rw [h1] at hv
        injection hv with hv
        injection hv with hv
        rw [← hv]
        rw [hres] at hs
        injection hs with hs
        obtain ⟨r1, r2, _⟩ := hfound r rep hs
        unfold install_replacement
        refine cursors_ok_set arena tail c _ h hd ⟨?_, r1, r2⟩
        simp only [List.length_set]
        exact c1
      · rw [h1] at hv; cases hv
      · rw [h1] at hv; cases hv

theorem walk_watches_cursors_ok (env : Env) (values : Nat → Int) (lit : Int) (ws : List Nat) :
    ∀ arena kept arena' conflict, cursors_ok arena →
      walk_watches env values lit ws arena = .ok (kept, arena', conflict) →
      cursors_ok arena' := by
  induction ws using pairs_induction with
  | h0 =>
    intro arena kept arena' conflict h hw
    simp only [walk_watches, Except.ok.injEq, Prod.mk.injEq] at hw
    obtain ⟨_, rfl, _⟩ := hw
    exact h
  | h1 x =>
    intro arena kept arena' conflict _ hw
    simp [walk_watches] at hw
  | h2 head tail rest ih =>
    intro arena kept arena' conflict h hw
    cases hv : visit_watch env values lit arena head tail with
    | error a => simp [walk_watches, hv] at hw
    | ok v =>
      rw [walk_watches_cons env values lit arena head tail rest v hv] at hw
      cases v with
      | removed a' =>
        exact ih a' kept arena' conflict
          (visit_watch_cursors_ok env values lit arena head tail h a' hv) hw
      | kept h' =>
        simp only at hw
        cases hw0 : walk_watches env values lit rest arena with
        | error a => rw [hw0] at hw; cases hw
        | ok r =>
          obtain ⟨k0, a0, c0⟩ := r
          rw [hw0] at hw
          simp only [Except.ok.injEq, Prod.mk.injEq] at hw
          obtain ⟨_, rfl, _⟩ := hw
          exact ih arena k0 a0 c0 h hw0
      | conflict =>
        simp only [Except.ok.injEq, Prod.mk.injEq] at hw
        obtain ⟨_, rfl, _⟩ := hw
        exact h
/-- What a returning walk of one queued literal did: nothing (the list was
empty), or a walk of the list, the kept words written back, the vector
shrunk to them and possibly the conflict counter incremented. -/
theorem propagate_literal_inv (env : Env) (s : kissat) (ilit : Nat) (t : kissat)
    (h : propagate_literal env s ilit = .ok (.next t) ∨
      propagate_literal env s ilit = .ok (.done t)) :
    t = s ∨ ∃ idx w kept arena conflict s2,
      s.archive_watches[idx]? = some w ∧ w.size ≠ 0 ∧
      w.offset + w.size ≤ s.archive_vectors.stack.length ∧
      walk_watches env s.values (env.kissat_export_literal ilit)
        (vector_contents s.archive_vectors.stack w) s.archive = .ok (kept, arena, conflict) ∧
      resize_archive_vector
        { s with archive := arena,
                 archive_vectors :=
                   { s.archive_vectors with
                     stack := write_words s.archive_vectors.stack w.offset kept } }
        idx kept.length = .ok s2 ∧
      (t = s2 ∨ t = { s2 with archive_conflicts := s2.archive_conflicts + 1 }) := by
  unfold propagate_literal at h
  simp only at h
  cases hw : watches_at s (lit2idx (-(env.kissat_export_literal ilit))) with
  | none => rw [hw] at h; simp at h
  | some p =>
    obtain ⟨idx, w⟩ := p
    rw [hw] at h
    simp only at h
    by_cases h0 : w.size = 0
    · rw [if_pos h0] at h
      left
      rcases h with h | h
      · cases h
      · injection h with h; injection h with h; exact h.symm
    · rw [if_neg h0] at h
      by_cases h1 : s.archive_vectors.stack.length < w.offset + w.size
      · rw [if_pos h1] at h; simp at h
      · rw [if_neg h1] at h
        cases hwalk : walk_watches env s.values (env.kissat_export_literal ilit)
            (vector_contents s.archive_vectors.stack w) s.archive with
        | error a => rw [hwalk] at h; simp at h
        | ok r =>
          obtain ⟨kept, arena, fc⟩ := r
          rw [hwalk] at h
          simp only at h
          cases hr : resize_archive_vector
              { s with archive := arena,
                       archive_vectors :=
                         { s.archive_vectors with
                           stack := write_words s.archive_vectors.stack w.offset kept } }
              idx kept.length with
          | error a => rw [hr] at h; simp at h
          | ok s2 =>
            rw [hr] at h
            simp only at h
            right
            refine ⟨idx, w, kept, arena, fc, s2, watches_at_eq s _ idx w hw, h0, by omega, hwalk,
              hr, ?_⟩
            cases fc with
            | true =>
              simp only [if_true] at h
              rcases h with h | h
              · cases h
              · injection h with h; injection h with h; right; exact h.symm
            | false =>
              simp only [Bool.false_eq_true, if_false] at h
              rcases h with h | h
              · injection h with h; injection h with h; left; exact h.symm
              · cases h

theorem resize_archive_vector_arena (s t : kissat) (idx n : Nat)
    (h : resize_archive_vector s idx n = .ok t) : t.archive = s.archive := by
  unfold resize_archive_vector at h
  cases hv : s.archive_watches[idx]? with
  | none => rw [hv] at h; cases h
  | some v =>
    rw [hv] at h
    simp only at h
    split_ifs at h <;> (injection h with h; subst h; rfl)

theorem propagate_literal_cursors_ok (env : Env) (s : kissat) (ilit : Nat) (t : kissat)
    (hs : cursors_ok s.archive)
    (h : propagate_literal env s ilit = .ok (.next t) ∨
      propagate_literal env s ilit = .ok (.done t)) : cursors_ok t.archive := by
  rcases propagate_literal_inv env s ilit t h with rfl | ⟨idx, w, kept, arena, conflict, s2,
    _, _, _, hwalk, hr, ht⟩
  · exact hs
  · have ha := resize_archive_vector_arena _ _ _ _ hr
    have hc := walk_watches_cursors_ok env s.values _ _ s.archive kept arena conflict hs hwalk
    rcases ht with rfl | rfl
    · rw [ha]; exact hc
    · show cursors_ok s2.archive
      rw [ha]; exact hc

theorem propagate_queue_cursors_ok (env : Env) (queue : List Nat) :
    ∀ s t : kissat, cursors_ok s.archive → propagate_queue env queue s = .ok t →
      cursors_ok t.archive := by
  induction queue with
  | nil =>
    intro s t hs h
    simp only [propagate_queue, Except.ok.injEq] at h
    subst h
    exact hs
  | cons ilit rest ih =>
    intro s t hs h
    simp only [propagate_queue] at h
    cases hstep : propagate_literal env s ilit with
    | error a => rw [hstep] at h; cases h
    | ok st =>
      rw [hstep] at h
      cases st with
      | next s' =>
        simp only at h
        exact ih s' t (propagate_literal_cursors_ok env s ilit s' hs (Or.inl hstep)) h
      | done s' =>
        simp only [Except.ok.injEq] at h
        subst h
        exact propagate_literal_cursors_ok env s ilit s' hs (Or.inr hstep)

theorem kissat_propagate_archive_cursors_ok (env : Env) (s t : kissat)
    (hs : cursors_ok s.archive) (h : kissat_propagate_archive env s = .ok t) :
    cursors_ok t.archive := by
  unfold kissat_propagate_archive at h
  split_ifs at h
  · injection h with h; subst h; exact hs
  · injection h with h; subst h; exact hs
  · exact propagate_queue_cursors_ok env _ s t hs h

theorem dereference_append_body (l : List ward) (n ref : Nat) (c : archive_clause)
    (h : dereference_archive_clause (l ++ List.replicate n ward.body) ref = some c) :
    dereference_archive_clause l ref = some c := by
  unfold dereference_archive_clause at h ⊢
  by_cases href : ref < l.length
  · rw [List.getElem?_append_left href] at h
    exact h
  · rw [List.getElem?_append_right (by omega), List.getElem?_replicate] at h
    split_ifs at h

theorem kissat_archive_clause_cursors_ok (env : Env) (s t : kissat) (c : clause)
    (hs : cursors_ok s.archive) (hn : 3 ≤ c.lits.length)
    (h : kissat_archive_clause env s c = .ok t) : cursors_ok t.archive := by
  rcases kissat_archive_clause_arena env s t c h with ha | ⟨n, ha⟩
  · rw [ha]; exact hs
  · rw [ha]
    intro ref x hx
    unfold dereference_archive_clause at hx
    by_cases href : s.archive.length % 2 ^ 32 = ref
    · by_cases hlt : ref < (s.archive ++ List.replicate n ward.body).length
      · rw [href, List.getElem?_set_self hlt] at hx
        simp only [Option.some.injEq] at hx
        subst hx
        exact ⟨by simp, Nat.le_refl _, by show 2 < c.lits.length; omega⟩
      · rw [List.getElem?_eq_none (by rw [List.length_set]; omega)] at hx
        simp at hx
    · rw [List.getElem?_set_ne href] at hx
      exact hs ref x (dereference_append_body s.archive n ref x hx)

/-- C13: in every state reached from an empty archive by calls of
`kissat_archive_clause` (on clauses of at least three literals) and of
`kissat_propagate_archive`, with any change of the state outside the arena in
between, every record of the arena has `0 ≤ searched < size`, moreover
`2 ≤ searched` and `size` literals; and whatever one visit of a watch pair
stores into such an arena leaves the bound in force. -/
theorem searched_cursor_bound (env : Env) (s : kissat) (h : reachable env s) :
    (∀ (ref : Nat) (c : archive_clause), dereference_archive_clause s.archive ref = some c →
      0 ≤ c.searched ∧ c.searched < c.size ∧ 2 ≤ c.searched ∧ c.size = c.lits.length) ∧
    (∀ (lit : Int) (head tail : Nat) (a' : List ward),
      visit_watch env s.values lit s.archive head tail = .ok (.removed a') →
      ∀ (ref : Nat) (c : archive_clause), dereference_archive_clause a' ref = some c →
        2 ≤ c.searched ∧ c.searched < c.size) := by
  have hc : cursors_ok s.archive := by
    induction h with
    | empty s hs =>
      intro ref c hc
      rw [hs] at hc
      simp [dereference_archive_clause] at hc
    | archive s t c _ hn hcall ih => exact kissat_archive_clause_cursors_ok env s t c ih hn hcall
    | propagate s t _ hcall ih => exact kissat_propagate_archive_cursors_ok env s t ih hcall
    | other s t _ harena ih => rw [harena]; exact ih
  constructor
  · intro ref c hd
    obtain ⟨h1, h2, h3⟩ := hc ref c hd
    exact ⟨Nat.zero_le _, h3, h2, h1⟩
  · intro lit head tail a' hv ref c hd
    obtain ⟨_, h2, h3⟩ := visit_watch_cursors_ok env s.values lit s.archive head tail hc a' hv
      ref c hd
    exact ⟨h2, h3⟩
theorem searched_cursor_bound_witness :
    ∃ s1 s2,
      kissat_archive_clause (plain_env 8) initial_state (clause_of [1, 2, 3, 4]) = .ok s1 ∧
      kissat_propagate_archive (plain_env 8) (assign_and_queue s1 [-1, -3]) = .ok s2 ∧
      dereference_archive_clause s1.archive 0 =
        some { garbage := false, searched := 2, size := 4, lits := [1, 2, 3, 4] } ∧
      dereference_archive_clause s2.archive 0 =
        some { garbage := false, searched := 3, size := 4, lits := [2, 4, 3, 1] } ∧
      reachable (plain_env 8) s2 ∧
      ∀ (ref : Nat) (c : archive_clause), dereference_archive_clause s2.archive ref = some c →
        0 ≤ c.searched ∧ c.searched < c.size ∧ 2 ≤ c.searched ∧ c.size = c.lits.length := by
  have hr : ∃ s1 s2,
      kissat_archive_clause (plain_env 8) initial_state (clause_of [1, 2, 3, 4]) = .ok s1 ∧
      kissat_propagate_archive (plain_env 8) (assign_and_queue s1 [-1, -3]) = .ok s2 ∧
      dereference_archive_clause s1.archive 0 =
        some { garbage := false, searched := 2, size := 4, lits := [1, 2, 3, 4] } ∧
      dereference_archive_clause s2.archive 0 =
        some { garbage := false, searched := 3, size := 4, lits := [2, 4, 3, 1] } :=
    ⟨_, _, rfl, rfl, rfl, rfl⟩
  obtain ⟨s1, s2, h1, h2, h3, h4⟩ := hr
  have hreach : reachable (plain_env 8) s2 :=
    reachable.propagate _ _
      (reachable.other s1 (assign_and_queue s1 [-1, -3])
        (reachable.archive initial_state s1 (clause_of [1, 2, 3, 4])
          (reachable.empty _ rfl) (by decide) h1) rfl) h2
  exact ⟨s1, s2, h1, h2, h3, h4, hreach, (searched_cursor_bound (plain_env 8) s2 hreach).1⟩

/-! ## No sentinel in a live range -/

theorem heads_clear_snoc (e : Nat) (ws : List Nat) :
    heads_clear ws → (ws.length % 2 = 0 → e < 2 ^ 31) → heads_clear (ws ++ [e]) := by
  induction ws using pairs_induction with
  | h0 =>
    intro _ h
    exact h rfl
  | h1 x =>
    intro h _
    exact ⟨h, trivial⟩
  | h2 head tail rest ih =>
    intro h he
    simp only [List.cons_append]
    exact ⟨h.1, ih h.2 (fun hp => he (by simp only [List.length_cons]; omega))⟩

theorem heads_clear_take (ws : List Nat) : ∀ n, heads_clear ws → heads_clear (ws.take n) := by
  induction ws using pairs_induction with
  | h0 => intro n _; simp [heads_clear]
  | h1 x =>
    intro n h
    cases n with
    | zero => simp [heads_clear]
    | succ n => simpa using h
  | h2 head tail rest ih =>
    intro n h
    cases n with
    | zero => simp [heads_clear]
    | succ n =>
      cases n with
      | zero => exact h.1
      | succ n =>
        simp only [List.take_succ_cons]
        exact ⟨h.1, ih n h.2⟩

/-- The head word a visit copies forward is the head word read, or that word
with another blocking literal stored. -/
theorem visit_watch_kept_shape (env : Env) (values : Nat → Int) (lit : Int)
    (arena : List ward) (head tail h' : Nat)
    (hv : visit_watch env values lit arena head tail = .ok (.kept h')) :
    h' = head ∨ ∃ other, h' = set_blocking_lit head other := by
  unfold visit_watch at hv
  simp only at hv
  repeat' split at hv
  all_goals first
    | (injection hv with hv; injection hv with hv; left; exact hv.symm)
    | (injection hv with hv; injection hv with hv; right; exact ⟨_, hv.symm⟩)
    | cases hv

theorem walk_watches_heads (env : Env) (values : Nat → Int) (lit : Int) (ws : List Nat) :
    ∀ arena kept arena' conflict,
      walk_watches env values lit ws arena = .ok (kept, arena', conflict) →
      heads_clear ws → INVALID_VECTOR_ELEMENT ∉ ws →
      heads_clear kept ∧ INVALID_VECTOR_ELEMENT ∉ kept ∧ kept.length ≤ ws.length := by
  induction ws using pairs_induction with
  | h0 =>
    intro arena kept arena' conflict hw _ _
    simp only [walk_watches, Except.ok.injEq, Prod.mk.injEq] at hw
    obtain ⟨rfl, _, _⟩ := hw
    exact ⟨trivial, by simp, Nat.le_refl _⟩
  | h1 x =>
    intro arena kept arena' conflict hw
    simp [walk_watches] at hw
  | h2 head tail rest ih =>
    intro arena kept arena' conflict hw hh hs
    have hs' : INVALID_VECTOR_ELEMENT ∉ rest := fun h =>
      hs (List.mem_cons_of_mem _ (List.mem_cons_of_mem _ h))
    cases hv : visit_watch env values lit arena head tail with
    | error a => simp [walk_watches, hv] at hw
    | ok v =>
      rw [walk_watches_cons env values lit arena head tail rest v hv] at hw
      cases v with
      | removed a' =>
        obtain ⟨i1, i2, i3⟩ := ih a' kept arena' conflict hw hh.2 hs'
        exact ⟨i1, i2, by simp only [List.length_cons]; omega⟩
      | kept h' =>
        simp only at hw
        cases hw0 : walk_watches env values lit rest arena with
        | error a => rw [hw0] at hw; cases hw
        | ok r =>
          obtain ⟨k0, a0, c0⟩ := r
          rw [hw0] at hw
          simp only [Except.ok.injEq, Prod.mk.injEq] at hw
          obtain ⟨rfl, _, _⟩ := hw
          obtain ⟨i1, i2, i3⟩ := ih arena k0 a0 c0 hw0 hh.2 hs'
          have hlt : h' < 2 ^ 31 := by
            rcases visit_watch_kept_shape env values lit arena head tail h' hv with
              rfl | ⟨other, rfl⟩
            · exact hh.1
            · exact set_blocking_lit_lt head other hh.1
          refine ⟨⟨hlt, i1⟩, ?_, by simp only [List.length_cons]; omega⟩
          intro hmem
          rcases List.mem_cons.mp hmem with h | h
          · unfold INVALID_VECTOR_ELEMENT at h
            omega
          · rcases List.mem_cons.mp h with h | h
            · exact hs (List.mem_cons_of_mem _ (by rw [h]; exact List.mem_cons_self _ _))
            · exact i2 h
      | conflict =>
        simp only [Except.ok.injEq, Prod.mk.injEq] at hw
        obtain ⟨rfl, _, _⟩ := hw
        exact ⟨hh, hs, Nat.le_refl _⟩

theorem enlarge_archive_vector_ok (env : Env) (s t : kissat) (idx pos : Nat)
    (hs : vectors_ok s) (h : enlarge_archive_vector env s idx = .ok (pos, t)) :
    vectors_ok t ∧ ∀ j, contents_at t j = contents_at s j := by
  cases hv : s.archive_watches[idx]? with
  | none =>
    unfold enlarge_archive_vector at h
    rw [hv] at h
    cases h
  | some v =>
    obtain ⟨v1, v2, v3⟩ := (vectors_ok_iff s).mp hs
    obtain ⟨hin, hnosent⟩ := v2 idx v hv
    have hidx : idx < s.archive_watches.length := (List.getElem?_eq_some_iff.mp hv).1
    rcases enlarge_archive_vector_eq env s idx v v1 hv hin with hfatal | ⟨capacity', hle, heq⟩
    · rw [hfatal] at h
      cases h
    · rw [heq] at h
      simp only [Except.ok.injEq, Prod.mk.injEq] at h
      obtain ⟨_, ht⟩ := h
      have hstack : t.archive_vectors.stack =
          write_words s.archive_vectors.stack v.offset
              (List.replicate v.size INVALID_VECTOR_ELEMENT) ++
            vector_contents s.archive_vectors.stack v ++
            List.replicate ((if v.size = 0 then 1 else 2 * v.size) - v.size)
              INVALID_VECTOR_ELEMENT := by rw [← ht]
      have htbl : t.archive_watches =
          s.archive_watches.set idx ⟨s.archive_vectors.stack.length, v.size⟩ := by rw [← ht]
      have hcapv : t.archive_vectors.capacity = capacity' := by rw [← ht]
      have hc : v.size ≤ (if v.size = 0 then 1 else 2 * v.size) := by split <;> omega
      have hget := fun k => getElem?_enlarged_stack s.archive_vectors.stack v
        ((if v.size = 0 then 1 else 2 * v.size) - v.size) k hin
      have hlen := length_enlarged_stack s.archive_vectors.stack v
        ((if v.size = 0 then 1 else 2 * v.size) - v.size) hin
      have hmoved : ∀ k, k < v.size →
          t.archive_vectors.stack[s.archive_vectors.stack.length + k]? =
          s.archive_vectors.stack[v.offset + k]? := by
        intro k hk
        rw [hstack, hget, if_neg (by omega), if_pos (by omega)]
        congr 2
        omega
      obtain ⟨hok, hothers⟩ := vectors_ok_step s t idx v ⟨s.archive_vectors.stack.length, v.size⟩
        hs hv htbl
        (by rw [hstack, hcapv, hlen]; omega)
        (by rw [hstack, hlen]; omega)
        (by rw [hstack, hlen]; simp only; omega)
        (by
          intro k hk1 hk2 _
          rw [hstack, hget, if_pos hk1, if_neg hk2])
        (by
          intro k hk1 hk2
          simp only at hk1
          right; left; exact hk1)
        (by
          intro k hk1 hk2
          simp only at hk1 hk2
          have hk : k = s.archive_vectors.stack.length + (k - s.archive_vectors.stack.length) := by
            omega
          rw [hk, hmoved _ (by omega)]
          exact hnosent _ (by omega) (by omega))
      refine ⟨hok, ?_⟩
      intro j
      by_cases hj : j = idx
      · subst hj
        rw [contents_at_some t j ⟨s.archive_vectors.stack.length, v.size⟩
          (by rw [htbl, List.getElem?_set_self hidx]), contents_at_some s j v hv]
        apply List.ext_getElem?
        intro k
        rw [getElem?_vector_contents, getElem?_vector_contents]
        dsimp only
        by_cases hk : k < v.size
        · rw [if_pos hk, if_pos hk, hmoved k hk]
        · rw [if_neg hk, if_neg hk]
      · exact hothers j hj

theorem resize_archive_vector_ok (s t : kissat) (idx n : Nat)
    (hs : vectors_ok s) (h : resize_archive_vector s idx n = .ok t) :
    vectors_ok t ∧ contents_at t idx = (contents_at s idx).take n ∧
    ∀ j, j ≠ idx → contents_at t j = contents_at s j := by
  cases hv : s.archive_watches[idx]? with
  | none =>
    unfold resize_archive_vector at h
    rw [hv] at h
    cases h
  | some v =>
    obtain ⟨v1, v2, v3⟩ := (vectors_ok_iff s).mp hs
    obtain ⟨hin, hnosent⟩ := v2 idx v hv
    have hidx : idx < s.archive_watches.length := (List.getElem?_eq_some_iff.mp hv).1
    by_cases hn : n = v.size
    · subst hn
      rw [resize_archive_vector_same s idx v hv] at h
      injection h with h
      subst h
      refine ⟨hs, ?_, fun _ _ => rfl⟩
      rw [contents_at_some s idx v hv]
      unfold vector_contents
      rw [List.take_take, Nat.min_self]
    · have hlt : n < v.size := by
        by_contra hge
        unfold resize_archive_vector at h
        rw [hv] at h
        simp only at h
        rw [if_neg hn, if_pos (Or.inl (by omega))] at h
        cases h
      rw [resize_archive_vector_eq s idx n v hv hin hlt] at h
      injection h with ht
      have hstk : t.archive_vectors.stack =
          write_words s.archive_vectors.stack (v.offset + n)
            (List.replicate (v.size - n) INVALID_VECTOR_ELEMENT) := by rw [← ht]
      have htbl : t.archive_watches = s.archive_watches.set idx ⟨v.offset, n⟩ := by rw [← ht]
      have hcapv : t.archive_vectors.capacity = s.archive_vectors.capacity := by rw [← ht]
      have hstack : ∀ k, t.archive_vectors.stack[k]? =
          if v.offset + n ≤ k ∧ k < v.offset + v.size then some INVALID_VECTOR_ELEMENT
          else s.archive_vectors.stack[k]? := by
        intro k
        rw [hstk, getElem?_write_words _ _ _ _ (by rw [List.length_replicate]; omega),
          List.length_replicate]
        by_cases hk : v.offset + n ≤ k ∧ k < v.offset + v.size
        · rw [if_pos (by omega), if_pos hk, List.getElem?_replicate, if_pos (by omega)]
        · rw [if_neg (by omega), if_neg hk]
      have hlen : t.archive_vectors.stack.length = s.archive_vectors.stack.length := by
        rw [hstk]
        exact length_write_words _ _ _ (by rw [List.length_replicate]; omega)
      obtain ⟨hok, hothers⟩ := vectors_ok_step s t idx v ⟨v.offset, n⟩ hs hv htbl
        (by rw [hlen, hcapv]; exact v1)
        (by rw [hlen])
        (by rw [hlen]; simp only; omega)
        (by
          intro k hk1 hk2 _
          rw [hstack, if_neg (by omega)])
        (by
          intro k hk1 hk2
          simp only at hk1 hk2
          left; omega)
        (by
          intro k hk1 hk2
          simp only at hk1 hk2
          rw [hstack, if_neg (by omega)]
          exact hnosent k hk1 (by omega))
      refine ⟨hok, ?_, hothers⟩
      rw [contents_at_some t idx ⟨v.offset, n⟩ (by rw [htbl, List.getElem?_set_self hidx]),
        contents_at_some s idx v hv]
      apply List.ext_getElem?
      intro k
      rw [getElem?_vector_contents, List.getElem?_take, getElem?_vector_contents]
      dsimp only
      by_cases hk : k < n
      · rw [if_pos hk, if_pos hk, if_pos (by omega), hstack, if_neg (by omega)]
      · rw [if_neg hk, if_neg hk]

/-- The vector store behind the walk of one list: the kept words are written
back over the vector and the vector is shrunk to them. -/
theorem walked_vectors_ok (s s2 : kissat) (idx : Nat) (w : archive_vector) (kept : List Nat)
    (arena : List ward) (hs : vectors_ok s) (hw : s.archive_watches[idx]? = some w)
    (hk : kept.length ≤ w.size) (hsent : INVALID_VECTOR_ELEMENT ∉ kept)
    (hr : resize_archive_vector
      { s with archive := arena,
               archive_vectors :=
                 { s.archive_vectors with
                   stack := write_words s.archive_vectors.stack w.offset kept } }
      idx kept.length = .ok s2) :
    vectors_ok s2 ∧ contents_at s2 idx = kept ∧
    ∀ j, j ≠ idx → contents_at s2 j = contents_at s j := by
  obtain ⟨v1, v2, v3⟩ := (vectors_ok_iff s).mp hs
  obtain ⟨hin, hnosent⟩ := v2 idx w hw
  have hidx : idx < s.archive_watches.length := (List.getElem?_eq_some_iff.mp hw).1
  have hlen : (write_words s.archive_vectors.stack w.offset kept).length =
      s.archive_vectors.stack.length := length_write_words _ _ _ (by omega)
  have hget := fun k => getElem?_write_words s.archive_vectors.stack kept w.offset k (by omega)
  obtain ⟨hok1, hothers1⟩ := vectors_ok_step s
    { s with archive := arena,
             archive_vectors :=
               { s.archive_vectors with
                 stack := write_words s.archive_vectors.stack w.offset kept } }
    idx w w hs hw (set_same _ _ _ hw).symm
    (by
      show (write_words s.archive_vectors.stack w.offset kept).length ≤
        s.archive_vectors.capacity
      rw [hlen]; exact v1)
    (by
      show _ ≤ (write_words s.archive_vectors.stack w.offset kept).length
      rw [hlen])
    (by
      show _ ≤ (write_words s.archive_vectors.stack w.offset kept).length
      rw [hlen]; exact hin)
    (by
      intro k hk1 hk2 _
      show (write_words s.archive_vectors.stack w.offset kept)[k]? = _
      rw [hget, if_neg (by omega)])
    (by
      intro k hk1 hk2
      left; exact ⟨hk1, hk2⟩)
    (by
      intro k hk1 hk2
      show (write_words s.archive_vectors.stack w.offset kept)[k]? ≠ _
      rw [hget]
      by_cases hkk : w.offset ≤ k ∧ k < w.offset + kept.length
      · rw [if_pos hkk]
        intro hbad
        exact hsent (List.mem_iff_getElem?.mpr ⟨_, hbad⟩)
      · rw [if_neg hkk]
        exact hnosent k hk1 hk2)
  obtain ⟨hok2, hc2, hothers2⟩ := resize_archive_vector_ok _ s2 idx kept.length hok1 hr
  refine ⟨hok2, ?_, fun j hj => (hothers2 j hj).trans (hothers1 j hj)⟩
  rw [hc2]
  unfold contents_at
  show (match s.archive_watches[idx]? with
    | some v => vector_contents (write_words s.archive_vectors.stack w.offset kept) v
    | none => []).take _ = _
  rw [hw]
  apply List.ext_getElem?
  intro k
  rw [List.getElem?_take, getElem?_vector_contents]
  by_cases hkk : k < kept.length
  · rw [if_pos hkk, if_pos (by omega), hget, if_pos (by omega)]
    congr 1
    omega
  · rw [if_neg hkk, List.getElem?_eq_none (by omega)]

theorem store_ok_empty (s : kissat) (h1 : s.archive_vectors.stack = [])
    (h2 : ∀ v ∈ s.archive_watches, v = ⟨0, 0⟩) : store_ok s := by
  have hz : ∀ (i : Nat) (v : archive_vector), s.archive_watches[i]? = some v → v = ⟨0, 0⟩ :=
    fun i v hv => h2 v (List.mem_iff_getElem?.mpr ⟨i, hv⟩)
  constructor
  · rw [vectors_ok_iff]
    refine ⟨by rw [h1]; exact Nat.zero_le _, ?_, ?_⟩
    · intro i v hv
      rw [hz i v hv, h1]
      exact ⟨Nat.le_refl _, fun k _ hk => by simp at hk⟩
    · intro i j v w _ hv _
      rw [hz i v hv]
      unfold disjoint_vectors
      right; right; left; rfl
  · intro i
    unfold contents_at
    cases hv : s.archive_watches[i]? with
    | none => trivial
    | some v =>
      rw [hz i v hv]
      simp [vector_contents, heads_clear]

theorem store_ok_push (env : Env) (s t : kissat) (idx e : Nat) (hs : store_ok s)
    (he : e ≠ INVALID_VECTOR_ELEMENT)
    (hpar : (contents_at s idx).length % 2 = 0 → e < 2 ^ 31)
    (h : push_archive_vectors env s idx e = .ok t) : store_ok t := by
  cases hv : s.archive_watches[idx]? with
  | none =>
    unfold push_archive_vectors at h
    rw [hv] at h
    cases h
  | some v =>
    rcases push_archive_vectors_spec env s idx e v hs.1 hv he with hf | ⟨t', ht', hp⟩
    · rw [hf] at h; cases h
    · rw [ht'] at h
      injection h with h
      subst h
      refine ⟨hp.1, ?_⟩
      intro i
      by_cases hi : i = idx
      · subst hi
        rw [hp.2.2.1]
        exact heads_clear_snoc e _ (hs.2 i) hpar
      · rw [hp.2.2.2 i hi]
        exact hs.2 i

theorem store_ok_of_eq (s t : kissat) (h1 : t.archive_vectors = s.archive_vectors)
    (h2 : t.archive_watches = s.archive_watches) (hs : store_ok s) : store_ok t :=
  ⟨vectors_ok_of_eq s t h1 h2 hs.1, fun i => by
    rw [contents_at_of_eq s t h1 h2 i]; exact hs.2 i⟩

theorem store_ok_propagate_literal (env : Env) (s : kissat) (ilit : Nat) (t : kissat)
    (hs : store_ok s)
    (h : propagate_literal env s ilit = .ok (.next t) ∨
      propagate_literal env s ilit = .ok (.done t)) : store_ok t := by
  rcases propagate_literal_inv env s ilit t h with rfl | ⟨idx, w, kept, arena, conflict, s2,
    hw, _, hin, hwalk, hr, ht⟩
  · exact hs
  · have hcont := contents_at_some s idx w hw
    have hsent : INVALID_VECTOR_ELEMENT ∉ vector_contents s.archive_vectors.stack w := by
      intro hmem
      obtain ⟨k, a, b, c⟩ := (mem_vector_contents _ _ _).mp hmem
      exact (((vectors_ok_iff s).mp hs.1).2.1 idx w hw).2 k a b c
    have hheads : heads_clear (vector_contents s.archive_vectors.stack w) := by
      rw [← hcont]; exact hs.2 idx
    obtain ⟨k1, k2, k3⟩ := walk_watches_heads env s.values _ _ s.archive kept arena conflict
      hwalk hheads hsent
    rw [length_vector_contents _ _ hin] at k3
    obtain ⟨o1, o2, o3⟩ := walked_vectors_ok s s2 idx w kept arena hs.1 hw k3 k2 hr
    have hs2 : store_ok s2 := by
      refine ⟨o1, ?_⟩
      intro i
      by_cases hi : i = idx
      · subst hi
        rw [o2]; exact k1
      · rw [o3 i hi]; exact hs.2 i
    rcases ht with rfl | rfl
    · exact hs2
    · exact store_ok_of_eq s2 _ rfl rfl hs2

theorem store_ok_propagate_queue (env : Env) (queue : List Nat) :
    ∀ s t : kissat, store_ok s → propagate_queue env queue s = .ok t → store_ok t := by
  induction queue with
  | nil =>
    intro s t hs h
    simp only [propagate_queue, Except.ok.injEq] at h
    subst h
    exact hs
  | cons ilit rest ih =>
    intro s t hs h
    simp only [propagate_queue] at h
    cases hstep : propagate_literal env s ilit with
    | error a => rw [hstep] at h; cases h
    | ok st =>
      rw [hstep] at h
      cases st with
      | next s' =>
        simp only at h
        exact ih s' t (store_ok_propagate_literal env s ilit s' hs (Or.inl hstep)) h
      | done s' =>
        simp only [Except.ok.injEq] at h
        subst h
        exact store_ok_propagate_literal env s ilit s' hs (Or.inr hstep)

theorem store_ok_propagate (env : Env) (s t : kissat) (hs : store_ok s)
    (h : kissat_propagate_archive env s = .ok t) : store_ok t := by
  unfold kissat_propagate_archive at h
  split_ifs at h
  · injection h with h; subst h; exact hs
  · injection h with h; subst h; exact hs
  · exact store_ok_propagate_queue env _ s t hs h

theorem store_ok_of_reachable (env : Env) (s : kissat) (h : store_reachable env s) :
    store_ok s := by
  induction h with
  | empty s h1 h2 => exact store_ok_empty s h1 h2
  | push s t idx e _ he hpar hcall ih => exact store_ok_push env s t idx e ih he hpar hcall
  | enlarge s t idx pos _ hcall ih =>
    obtain ⟨h1, h2⟩ := enlarge_archive_vector_ok env s t idx pos ih.1 hcall
    exact ⟨h1, fun i => by rw [h2 i]; exact ih.2 i⟩
  | resize s t idx n _ hcall ih =>
    obtain ⟨h1, h2, h3⟩ := resize_archive_vector_ok s t idx n ih.1 hcall
    refine ⟨h1, ?_⟩
    intro i
    by_cases hi : i = idx
    · subst hi
      rw [h2]
      exact heads_clear_take _ n (ih.2 i)
    · rw [h3 i hi]; exact ih.2 i
  | propagate s t _ hcall ih => exact store_ok_propagate env s t ih hcall
  | other s t _ h1 h2 ih => exact store_ok_of_eq s t h1 h2 ih

/-- C14, as amended: in every state reached from an empty vector store by
calls of `push_archive_vectors` (element other than the sentinel, and with the
tag bit clear when pushed at an even position of its vector),
`enlarge_archive_vector`, `resize_archive_vector` and `kissat_propagate_archive`,
no element of the live range of a vector of the watch table is the sentinel. -/
theorem live_ranges_hold_no_sentinel (env : Env) (s : kissat) (h : store_reachable env s) :
    ∀ (i : Nat) (v : archive_vector), s.archive_watches[i]? = some v →
      INVALID_VECTOR_ELEMENT ∉ vector_contents s.archive_vectors.stack v ∧
      ∀ k, v.offset ≤ k → k < v.offset + v.size →
        s.archive_vectors.stack[k]? ≠ some INVALID_VECTOR_ELEMENT := by
  intro i v hv
  have hk := (((vectors_ok_iff s).mp (store_ok_of_reachable env s h).1).2.1 i v hv).2
  refine ⟨?_, hk⟩
  intro hmem
  obtain ⟨k, a, b, c⟩ := (mem_vector_contents _ _ _).mp hmem
  exact hk k a b c

/-- C14, as stated, fails: a head word with the tag bit set is an element
other than the sentinel; pushed (with a reference word) onto the watch vector
of literal `2` in an empty vector store and walked by `kissat_propagate_archive`
while the other watched literal `-1` of the clause is true, it gets the
blocking literal `-1` stored and is the sentinel, inside the live range. -/
theorem tag_bit_yields_sentinel :
    ∃ s1 s2 t,
      unwatched_state.archive_vectors.stack = [] ∧
      (∀ v ∈ unwatched_state.archive_watches, v = ⟨0, 0⟩) ∧
      2147483651 ≠ INVALID_VECTOR_ELEMENT ∧
      push_archive_vectors (plain_env 8) unwatched_state 3 2147483651 = .ok s1 ∧
      0 ≠ INVALID_VECTOR_ELEMENT ∧
      push_archive_vectors (plain_env 8) s1 3 0 = .ok s2 ∧
      kissat_propagate_archive (plain_env 8) s2 = .ok t ∧
      t.archive_watches[3]? = some ⟨2, 2⟩ ∧
      vector_contents t.archive_vectors.stack ⟨2, 2⟩ = [INVALID_VECTOR_ELEMENT, 0] ∧
      INVALID_VECTOR_ELEMENT ∈ vector_contents t.archive_vectors.stack ⟨2, 2⟩ :=
  ⟨_, _, _, rfl, by decide, by decide, rfl, by decide, rfl, rfl, rfl, rfl, by decide⟩

theorem live_ranges_hold_no_sentinel_witness :
    ∃ s1 s2 t,
      push_archive_vectors (plain_env 8) unwatched_state 3 3 = .ok s1 ∧
      push_archive_vectors (plain_env 8) s1 3 0 = .ok s2 ∧
      kissat_propagate_archive (plain_env 8) s2 = .ok t ∧
      store_reachable (plain_env 8) t ∧
      t.archive_watches[3]? = some ⟨2, 2⟩ ∧
      vector_contents t.archive_vectors.stack ⟨2, 2⟩ = [2147483647, 0] ∧
      INVALID_VECTOR_ELEMENT ∉ vector_contents t.archive_vectors.stack ⟨2, 2⟩ := by
  have hr : ∃ s1 s2 t,
      push_archive_vectors (plain_env 8) unwatched_state 3 3 = .ok s1 ∧
      push_archive_vectors (plain_env 8) s1 3 0 = .ok s2 ∧
      kissat_propagate_archive (plain_env 8) s2 = .ok t ∧
      t.archive_watches[3]? = some ⟨2, 2⟩ ∧
      vector_contents t.archive_vectors.stack ⟨2, 2⟩ = [2147483647, 0] ∧
      contents_at unwatched_state 3 = [] ∧ contents_at s1 3 = [3] :=
    ⟨_, _, _, rfl, rfl, rfl, rfl, rfl, rfl, rfl⟩
  obtain ⟨s1, s2, t, h1, h2, h3, h4, h5, h6, h7⟩ := hr
  have hreach : store_reachable (plain_env 8) t :=
    store_reachable.propagate s2 t
      (store_reachable.push s1 s2 3 0
        (store_reachable.push unwatched_state s1 3 3
          (store_reachable.empty _ rfl (by decide)) (by decide) (fun _ => by decide) h1)
        (by decide) (fun h => by rw [h7] at h; simp at h) h2) h3
  exact ⟨s1, s2, t, h1, h2, h3, hreach, h4, h5,
    (live_ranges_hold_no_sentinel (plain_env 8) t hreach 3 ⟨2, 2⟩ h4).1⟩

/-! ## The index of a literal -/

theorem int_value_ok (x : Int) (h1 : -(2 ^ 31) ≤ x) (h2 : x < 2 ^ 31) :
    int_value x = .ok x := by
  unfold int_value INT_MAX
  rw [if_pos (by constructor <;> omega)]

theorem int_value_high (x : Int) (h : 2 ^ 31 ≤ x) :
    int_value x = .error .undefined := by
  unfold int_value INT_MAX
  rw [if_neg (by omega)]

theorem lit2idx_int_eq (lit : Int) (h1 : -(2 ^ 30) < lit) (h2 : lit < 2 ^ 30) :
    lit2idx_int lit = .ok (lit2idx lit) := by
  unfold lit2idx_int lit2idx
  by_cases hl : lit < 0
  · rw [if_pos hl, if_pos hl, int_value_ok (-lit) (by omega) (by omega)]
    dsimp only
    rw [int_value_ok (-lit * 2) (by omega) (by omega)]
    exact int_value_ok _ (by omega) (by omega)
  · rw [if_neg hl, if_neg hl, int_value_ok (lit * 2) (by omega) (by omega)]
    exact int_value_ok _ (by omega) (by omega)

theorem lit2idx_onto (m : Int) (i : Int) (h0 : 0 ≤ i) (hi : i < 2 * m) :
    ∃ lit : Int, lit ≠ 0 ∧ -m ≤ lit ∧ lit ≤ m ∧ lit2idx lit = i := by
  by_cases hp : i % 2 = 0
  · refine ⟨-(i / 2 + 1), by omega, by omega, by omega, ?_⟩
    unfold lit2idx
    rw [if_pos (by omega)]
    omega
  · refine ⟨(i + 1) / 2, by omega, by omega, by omega, ?_⟩
    unfold lit2idx
    rw [if_neg (by omega)]
    omega

/-- The `int` overflow behind C21: for the literal `2 ^ 30` the product
`lit * 2` leaves the type `int`, and the index `2 v - 1` of the literal
`2 ^ 30 + 1` is no `int` value at all. -/
theorem lit2idx_leaves_int :
    lit2idx_int (2 ^ 30) = .error .undefined ∧
    lit2idx_int (-(2 ^ 30)) = .error .undefined ∧
    INT_MAX < lit2idx (2 ^ 30 + 1) := by
  refine ⟨?_, ?_, by decide⟩
  · unfold lit2idx_int
    rw [if_neg (by decide), int_value_high _ (by decide)]
  · unfold lit2idx_int
    rw [if_pos (by decide), int_value_ok _ (by decide) (by decide)]
    dsimp only
    rw [int_value_high _ (by decide)]

/-- C21 (amended): for `1 ≤ m < 2 ^ 30` the function `lit2idx`, restricted to
the non-zero literals with `|lit| ≤ m`, is computed without leaving the type
`int` and is a bijection onto `{0, ..., 2 m - 1}`: the negative literal `-v`
goes to `2 v - 2` and the positive literal `v` to `2 v - 1`, so a literal and
its negation take adjacent indices and two distinct literals never share an
index. -/
theorem lit2idx_bijection (m : Int) (h1 : 1 ≤ m) (h2 : m < 2 ^ 30) :
    (∀ lit : Int, lit ≠ 0 → -m ≤ lit → lit ≤ m →
      lit2idx_int lit = .ok (lit2idx lit) ∧ 0 ≤ lit2idx lit ∧ lit2idx lit < 2 * m) ∧
    (∀ a b : Int, a ≠ 0 → b ≠ 0 → lit2idx a = lit2idx b → a = b) ∧
    (∀ i : Int, 0 ≤ i → i < 2 * m →
      ∃ lit : Int, lit ≠ 0 ∧ -m ≤ lit ∧ lit ≤ m ∧ lit2idx lit = i) ∧
    (∀ v : Int, 1 ≤ v → v ≤ m →
      lit2idx (-v) = 2 * v - 2 ∧ lit2idx v = 2 * v - 1 ∧
      lit2idx v = lit2idx (-v) + 1) := by
  refine ⟨?_, ?_, ?_, ?_⟩
  · intro lit h0 hlo hhi
    refine ⟨lit2idx_int_eq lit (by omega) (by omega), ?_, ?_⟩
    · unfold lit2idx; split_ifs <;> omega
    · unfold lit2idx; split_ifs <;> omega
  · intro a b ha hb h
    unfold lit2idx at h
    split_ifs at h <;> omega
  · intro i h0 hi
    exact lit2idx_onto m i h0 hi
  · intro v hv1 hv2
    unfold lit2idx
    rw [if_pos (by omega), if_neg (by omega)]
    refine ⟨by omega, by omega, by omega⟩

theorem lit2idx_bijection_witness :
    (∀ lit : Int, lit ≠ 0 → -7 ≤ lit → lit ≤ 7 →
      lit2idx_int lit = .ok (lit2idx lit) ∧ 0 ≤ lit2idx lit ∧ lit2idx lit < 2 * 7) ∧
    (∀ a b : Int, a ≠ 0 → b ≠ 0 → lit2idx a = lit2idx b → a = b) ∧
    (∀ i : Int, 0 ≤ i → i < 2 * 7 →
      ∃ lit : Int, lit ≠ 0 ∧ -7 ≤ lit ∧ lit ≤ 7 ∧ lit2idx lit = i) ∧
    (∀ v : Int, 1 ≤ v → v ≤ 7 →
      lit2idx (-v) = 2 * v - 2 ∧ lit2idx v = 2 * v - 1 ∧
      lit2idx v = lit2idx (-v) + 1) :=
  lit2idx_bijection 7 (by decide) (by decide)

/-! ## The other watched literal and the encoding of watch words -/

theorem int_xor_cancel_left (a b : Int) : Int.xor (Int.xor a b) a = b := by
  cases a <;> cases b <;>
    simp only [Int.xor, Int.ofNat_eq_coe] <;>
    (congr 1; rw [Nat.xor_comm, ← Nat.xor_assoc, Nat.xor_self, Nat.zero_xor])

theorem int_xor_cancel_right (a b : Int) : Int.xor (Int.xor a b) b = a := by
  cases a <;> cases b <;>
    simp only [Int.xor, Int.ofNat_eq_coe] <;>
    (congr 1; rw [Nat.xor_assoc, Nat.xor_self, Nat.xor_zero])

/-- The other watched literal of a record whose first two literals include the
negation of the propagated literal. -/
theorem other_watched_of_owner (c : archive_clause) (lit l0 l1 : Int) (rest : List Int)
    (hl : c.lits = l0 :: l1 :: rest) (hown : l0 = -lit ∨ l1 = -lit) :
    (l0 = -lit ∧ other_watched c lit = some l1) ∨
    (l1 = -lit ∧ other_watched c lit = some l0) := by
  unfold other_watched
  rw [hl]
  rcases hown with h | h
  · left
    refine ⟨h, ?_⟩
    rw [← h]
    show some (Int.xor (Int.xor l0 l1) l0) = some l1
    rw [int_xor_cancel_left]
  · right
    refine ⟨h, ?_⟩
    rw [← h]
    show some (Int.xor (Int.xor l0 l1) l1) = some l0
    rw [int_xor_cancel_right]

/-- C26: for all integers `a` and `b` the expression `a ^ b ^ x` is `b` at
`x = a` and `a` at `x = b`; hence for a record whose first two literals are
`¬L` and `o`, in either order, the other literal computed in the walk of the
list of `¬L` is `o`, and it differs from `L` and from `¬L` whenever `o`
does. -/
theorem other_literal_by_xor (c : archive_clause) (lit o : Int) (rest : List Int)
    (hl : c.lits = -lit :: o :: rest ∨ c.lits = o :: -lit :: rest) :
    (∀ a b : Int, Int.xor (Int.xor a b) a = b ∧ Int.xor (Int.xor a b) b = a) ∧
    other_watched c lit = some o ∧
    (∀ other, other_watched c lit = some other →
      other = o ∧ (o ≠ lit → other ≠ lit) ∧ (o ≠ -lit → other ≠ -lit)) := by
  have ho : other_watched c lit = some o := by
    unfold other_watched
    rcases hl with h | h
    · rw [h]
      show some (Int.xor (Int.xor (-lit) o) (-lit)) = some o
      rw [int_xor_cancel_left]
    · rw [h]
      show some (Int.xor (Int.xor o (-lit)) (-lit)) = some o
      rw [int_xor_cancel_right]
  refine ⟨fun a b => ⟨int_xor_cancel_left a b, int_xor_cancel_right a b⟩, ho, ?_⟩
  intro other hother
  rw [ho] at hother
  injection hother with hother
  subst hother
  exact ⟨rfl, fun h => h, fun h => h⟩

theorem other_literal_by_xor_witness :
    (∀ a b : Int, Int.xor (Int.xor a b) a = b ∧ Int.xor (Int.xor a b) b = a) ∧
    other_watched { garbage := false, searched := 2, size := 3, lits := [-3, 5, 7] } (-5)
      = some (-3) ∧
    (∀ other,
      other_watched { garbage := false, searched := 2, size := 3, lits := [-3, 5, 7] } (-5)
        = some other →
      other = -3 ∧ ((-3 : Int) ≠ -5 → other ≠ -5) ∧ ((-3 : Int) ≠ -(-5) → other ≠ -(-5))) :=
  other_literal_by_xor { garbage := false, searched := 2, size := 3, lits := [-3, 5, 7] }
    (-5) (-3) [7] (Or.inr rfl)

/-- C28: a literal with `-2 ^ 30 ≤ lit < 2 ^ 30` is read back from the word
that `archive_blocking_archive_watch` builds, a reference below `2 ^ 31` is
the raw value of the word that `archive_large_archive_watch` builds, and both
words have the tag bit clear, so neither is the sentinel. -/
theorem watch_word_round_trip :
    (∀ lit : Int, -(2 ^ 30) ≤ lit → lit < 2 ^ 30 →
      blocking_lit (archive_blocking_archive_watch lit) = lit ∧
      binary_tag (archive_blocking_archive_watch lit) = false ∧
      archive_blocking_archive_watch lit < 2 ^ 32 ∧
      archive_blocking_archive_watch lit ≠ INVALID_VECTOR_ELEMENT) ∧
    (∀ ref : Nat, ref < 2 ^ 31 →
      archive_large_archive_watch ref = ref ∧
      binary_tag (archive_large_archive_watch ref) = false ∧
      archive_large_archive_watch ref ≠ INVALID_VECTOR_ELEMENT) := by
  constructor
  · intro lit h1 h2
    have hlt := archive_blocking_archive_watch_lt lit
    refine ⟨?_, ?_, by omega, ?_⟩
    · unfold blocking_lit archive_blocking_archive_watch
      have hnn : (0 : Int) ≤ lit % 2 ^ 31 := Int.emod_nonneg _ (by decide)
      have hup : lit % 2 ^ 31 < 2 ^ 31 := Int.emod_lt_of_pos _ (by decide)
      have hmod : (lit % 2 ^ 31).toNat % 2 ^ 31 = (lit % 2 ^ 31).toNat := by
        apply Nat.mod_eq_of_lt
        omega
      rw [hmod]
      split_ifs with hc <;> omega
    · unfold binary_tag
      have : archive_blocking_archive_watch lit / 2 ^ 31 = 0 :=
        Nat.div_eq_of_lt hlt
      rw [this]
      decide
    · unfold INVALID_VECTOR_ELEMENT
      omega
  · intro ref h
    have heq : archive_large_archive_watch ref = ref := by
      unfold archive_large_archive_watch
      exact Nat.mod_eq_of_lt h
    refine ⟨heq, ?_, ?_⟩
    · rw [heq]
      unfold binary_tag
      rw [Nat.div_eq_of_lt h]
      decide
    · rw [heq]
      unfold INVALID_VECTOR_ELEMENT
      omega

theorem watch_word_round_trip_witness :
    blocking_lit (archive_blocking_archive_watch (-3)) = -3 ∧
    binary_tag (archive_blocking_archive_watch (-3)) = false ∧
    archive_blocking_archive_watch (-3) < 2 ^ 32 ∧
    archive_blocking_archive_watch (-3) ≠ INVALID_VECTOR_ELEMENT ∧
    archive_large_archive_watch 6 = 6 ∧
    binary_tag (archive_large_archive_watch 6) = false ∧
    archive_large_archive_watch 6 ≠ INVALID_VECTOR_ELEMENT :=
  ⟨(watch_word_round_trip.1 (-3) (by decide) (by decide)).1,
   (watch_word_round_trip.1 (-3) (by decide) (by decide)).2.1,
   (watch_word_round_trip.1 (-3) (by decide) (by decide)).2.2.1,
   (watch_word_round_trip.1 (-3) (by decide) (by decide)).2.2.2,
   (watch_word_round_trip.2 6 (by decide)).1,
   (watch_word_round_trip.2 6 (by decide)).2.1,
   (watch_word_round_trip.2 6 (by decide)).2.2⟩

/-! ## The byte count of a record -/

theorem kissat_align_ward_spec (env : Env) (bytes : Nat) (hward : 0 < env.sizeof_ward) :
    kissat_align_ward env bytes % env.sizeof_ward = 0 ∧
    bytes ≤ kissat_align_ward env bytes ∧
    kissat_align_ward env bytes < bytes + env.sizeof_ward := by
  unfold kissat_align_ward
  have hdm := Nat.div_add_mod (bytes + env.sizeof_ward - 1) env.sizeof_ward
  have hlt := Nat.mod_lt (bytes + env.sizeof_ward - 1) hward
  have hcomm : (bytes + env.sizeof_ward - 1) / env.sizeof_ward * env.sizeof_ward =
      env.sizeof_ward * ((bytes + env.sizeof_ward - 1) / env.sizeof_ward) := Nat.mul_comm _ _
  refine ⟨Nat.mul_mod_left _ _, ?_, ?_⟩ <;> omega

theorem bytes_of_archive_clause_eq (env : Env) (n : Nat) (h3 : 3 ≤ n) (h32 : n < 2 ^ 32) :
    bytes_of_archive_clause env n = kissat_align_ward env (offsetof_lits + n * 4) := by
  have h1 : (n + 2 ^ 32 - 3) % 2 ^ 32 = n - 3 := by omega
  have h2 : (24 + (n - 3) * 4) % 2 ^ 64 = 12 + n * 4 := by omega
  unfold bytes_of_archive_clause sizeof_archive_clause offsetof_lits
  rw [h1, h2]

/-- C29: for a clause size `3 ≤ n < 2 ^ 32` the byte count
`bytes_of_archive_clause n` is a multiple of the arena word size, lies between
the header plus `4 n` bytes and less than one word more, and is the value of
`actual_bytes_of_archive_clause` for a record whose field `size` is `n`; so
`next_archive_clause` at the reference of a record yields the reference that
the next allocation returns. -/
theorem bytes_of_archive_clause_layout (env : Env) (n : Nat)
    (hward : 0 < env.sizeof_ward) (h3 : 3 ≤ n) (h32 : n < 2 ^ 32) :
    bytes_of_archive_clause env n % env.sizeof_ward = 0 ∧
    offsetof_lits + 4 * n ≤ bytes_of_archive_clause env n ∧
    bytes_of_archive_clause env n < offsetof_lits + 4 * n + env.sizeof_ward ∧
    (∀ c : archive_clause, c.size = n →
      actual_bytes_of_archive_clause env c = bytes_of_archive_clause env n) ∧
    (∀ (s s1 s2 : kissat) (r r2 n2 : Nat) (c : archive_clause), c.size = n →
      allocate_archived_clause env s n = .ok (r, s1) → s1.archive.length < 2 ^ 32 →
      allocate_archived_clause env s1 n2 = .ok (r2, s2) →
      r = s.archive.length ∧ next_archive_clause env r c = r2) := by
  have heq := bytes_of_archive_clause_eq env n h3 h32
  obtain ⟨ha, hb, hc⟩ := kissat_align_ward_spec env (offsetof_lits + n * 4) hward
  have hact : ∀ c : archive_clause, c.size = n →
      actual_bytes_of_archive_clause env c = bytes_of_archive_clause env n := by
    intro c hcs
    unfold actual_bytes_of_archive_clause END_LITS
    rw [hcs, heq]
  refine ⟨by rw [heq]; exact ha, by rw [heq]; omega, by rw [heq]; omega, hact, ?_⟩
  intro s s1 s2 r r2 n2 c hcs h1 hlen h2
  obtain ⟨hr, harena⟩ := allocate_archived_clause_arena env s s1 n r h1
  obtain ⟨hr2, _⟩ := allocate_archived_clause_arena env s1 s2 n2 r2 h2
  have hl1 : s1.archive.length =
      s.archive.length + bytes_of_archive_clause env n / env.sizeof_ward := by
    rw [harena, List.length_append, List.length_replicate]
  have hlt : s.archive.length < 2 ^ 32 := by
    rw [hl1] at hlen
    exact Nat.lt_of_le_of_lt (Nat.le_add_right _ _) hlen
  have hr' : r = s.archive.length := by
    rw [hr]
    exact Nat.mod_eq_of_lt hlt
  refine ⟨hr', ?_⟩
  unfold next_archive_clause
  rw [hact c hcs, hr2, Nat.mod_eq_of_lt hlen, hl1, hr']

theorem bytes_of_archive_clause_layout_witness :
    bytes_of_archive_clause (plain_env 8) 3 % (plain_env 8).sizeof_ward = 0 ∧
    offsetof_lits + 4 * 3 ≤ bytes_of_archive_clause (plain_env 8) 3 ∧
    bytes_of_archive_clause (plain_env 8) 3 < offsetof_lits + 4 * 3 + (plain_env 8).sizeof_ward ∧
    (∀ c : archive_clause, c.size = 3 →
      actual_bytes_of_archive_clause (plain_env 8) c = bytes_of_archive_clause (plain_env 8) 3) ∧
    (∀ (s s1 s2 : kissat) (r r2 n2 : Nat) (c : archive_clause), c.size = 3 →
      allocate_archived_clause (plain_env 8) s 3 = .ok (r, s1) → s1.archive.length < 2 ^ 32 →
      allocate_archived_clause (plain_env 8) s1 n2 = .ok (r2, s2) →
      r = s.archive.length ∧ next_archive_clause (plain_env 8) r c = r2) :=
  bytes_of_archive_clause_layout (plain_env 8) 3 (by decide) (by decide) (by decide)

/-- Two allocations in a row from the empty arena: the second reference is the
one that `next_archive_clause` computes from the first record. -/
theorem next_archive_clause_sample :
    ∃ s1 s2, allocate_archived_clause (plain_env 8) initial_state 5 = .ok (0, s1) ∧
      allocate_archived_clause (plain_env 8) s1 3 = .ok (2, s2) ∧
      next_archive_clause (plain_env 8) 0
        { garbage := false, searched := 2, size := 5, lits := [1, 2, 3, 4, 5] } = 2 :=
  ⟨_, _, rfl, rfl, rfl⟩

/-! ## A second pass after a replacement -/

/-- C25, evaluated at its scenario: archive the clause `5, -3, 7` in the
initial state and run `kissat_propagate_archive` with `-5` and `3` true and
queued: no conflict, the record becomes `-3, 7, 5` and the list of `7` holds
no pair.  With `7` then made false, a second run leaves the conflict counter
at 0, whether the queue holds `-7` alone or `-7` behind `-5` and `3`,
although the record is not garbage and each of its literals is false. -/
theorem second_pass_misses_conflict :
    ∃ s1 s2 s3 s4 c,
      kissat_archive_clause (plain_env 8) initial_state (clause_of [5, -3, 7]) = .ok s1 ∧
      kissat_propagate_archive (plain_env 8) (assign_and_queue s1 [-5, 3]) = .ok s2 ∧
      s2.archive_conflicts = 0 ∧
      dereference_archive_clause s2.archive 0 = some c ∧
      c.lits = [-3, 7, 5] ∧ c.garbage = false ∧
      watch_list s2 7 = [] ∧ watch_list s2 5 = [] ∧
      (∀ l ∈ c.lits, value_of (plain_env 8) (values_of [-5, 3, -7]) l < 0) ∧
      kissat_propagate_archive (plain_env 8)
        { s2 with values := values_of [-5, 3, -7],
                  archive_propagate := [(plain_env 8).kissat_import_literal (-7)] } = .ok s3 ∧
      s3.archive_conflicts = 0 ∧
      kissat_propagate_archive (plain_env 8) (assign_and_queue s2 [-5, 3, -7]) = .ok s4 ∧
      s4.archive_conflicts = 0 :=
  ⟨_, _, _, _, _, rfl, rfl, rfl, rfl, rfl, rfl, rfl, rfl, by decide, rfl, rfl, rfl, rfl⟩

/-! ## The order of the replacement search -/

theorem search_from_find (env : Env) (values : Nat → Int) (c : archive_clause) :
    ∀ count start, start + count ≤ c.lits.length →
      (∀ k, start ≤ k → k < start + count →
        ∃ x, c.lits[k]? = some x ∧ literal_valid env x) →
      search_from env values c.lits start count =
        .ok (match (List.range' start count).find? (non_false env values c) with
             | some r => .found r (c.lits[r]?.getD 0)
             | none => .exhausted) := by
  intro count
  induction count with
  | zero => intro start _ _; rfl
  | succ count ih =>
    intro start hlen hvalid
    obtain ⟨x, hx, hv1, hv2⟩ := hvalid start (Nat.le_refl _) (by omega)
    unfold search_from
    rw [hx]
    simp only [hv1, hv2, Bool.not_true, Bool.false_eq_true, if_false]
    rw [List.range'_succ, List.find?_cons]
    by_cases hval : values (env.kissat_import_literal x) ≥ 0
    · have hp : non_false env values c start = true := by
        unfold non_false
        rw [hx]
        exact decide_eq_true hval
      rw [if_pos hval, hp]
      show _ = Except.ok (Search.found start (c.lits[start]?.getD 0))
      rw [hx]
      rfl
    · have hp : non_false env values c start = false := by
        unfold non_false
        rw [hx]
        exact decide_eq_false hval
      rw [if_neg hval, hp]
      exact ih (start + 1) (by omega) (fun k h1 h2 => hvalid k (by omega) (by omega))

theorem search_replacement_find (env : Env) (values : Nat → Int) (c : archive_clause)
    (hok : record_ok c)
    (hvalid : ∀ k, 2 ≤ k → k < c.size → ∃ x, c.lits[k]? = some x ∧ literal_valid env x) :
    search_replacement env values c =
      .ok (match first_non_false env values c with
           | some r => .found r (c.lits[r]?.getD 0)
           | none => .exhausted) := by
  obtain ⟨hsz, h2, hle⟩ := hok
  unfold search_replacement first_non_false scan_order
  rw [if_neg (by omega),
    search_from_find env values c (c.size - c.searched) c.searched (by omega)
      (fun k h1 h3 => hvalid k (by omega) (by omega)),
    List.find?_append]
  cases hfirst : (List.range' c.searched (c.size - c.searched)).find? (non_false env values c) with
  | some r => rfl
  | none =>
    simp only [Option.none_or]
    rw [if_neg (by omega)]
    exact search_from_find env values c (c.searched - 2) 2 (by omega)
      (fun k h1 h3 => hvalid k (by omega) (by omega))

theorem scan_order_mem (c : archive_clause) (h2 : 2 ≤ c.searched) (hle : c.searched ≤ c.size)
    (k : Nat) : k ∈ scan_order c ↔ 2 ≤ k ∧ k < c.size := by
  unfold scan_order
  rw [List.mem_append, List.mem_range'_1, List.mem_range'_1]
  omega

theorem scan_order_nodup (c : archive_clause) : (scan_order c).Nodup := by
  unfold scan_order
  rw [List.nodup_append]
  refine ⟨List.nodup_range' _ _, List.nodup_range' _ _, ?_⟩
  intro a h1 h2
  rw [List.mem_range'_1] at h1 h2
  omega

theorem visit_watch_search (env : Env) (values : Nat → Int) (lit : Int) (arena : List ward)
    (head tail : Nat) (c : archive_clause) (other : Int)
    (hc : dereference_archive_clause arena tail = some c) (hok : record_ok c)
    (hb : literal_valid env (blocking_lit head))
    (hbv : ¬ value_of env values (blocking_lit head) > 0)
    (hg : c.garbage = false) (ho : other_watched c lit = some other)
    (hov : literal_valid env other) (hot : ¬ value_of env values other > 0) :
    (search_replacement env values c = .ok .invalid ∧
      visit_watch env values lit arena head tail =
        .ok (.removed (mark_garbage arena tail c))) ∨
    (∃ r rep, search_replacement env values c = .ok (.found r rep) ∧
      visit_watch env values lit arena head tail =
        .ok (.removed (install_replacement arena tail c lit other r rep))) ∨
    (search_replacement env values c = .ok .exhausted ∧
      value_of env values other ≠ 0 ∧
      visit_watch env values lit arena head tail = .ok .conflict) ∨
    (search_replacement env values c = .ok .exhausted ∧
      value_of env values other = 0 ∧
      visit_watch env values lit arena head tail = .ok (.kept head)) := by
  obtain ⟨other', ho', hcases⟩ := visit_watch_spec env values lit arena head tail c hc hok
  rw [ho] at ho'
  injection ho' with ho'
  subst ho'
  rcases hcases with ⟨h, _⟩ | ⟨_, h, _⟩ | ⟨_, _, h, _⟩ | ⟨_, _, _, h, _⟩ | ⟨_, _, _, _, h, _⟩ |
    ⟨_, _, _, _, _, h⟩
  · exact absurd hb h
  · exact absurd h hbv
  · rw [hg] at h; cases h
  · exact absurd hov h
  · exact absurd h hot
  · exact h

/-- C22: for a record with cursor `2 ≤ s ≤ n` whose unwatched literals are all
valid, the replacement search returns the first position, in the order
`s, ..., n - 1, 2, ..., s - 1` (each unwatched position once), whose literal is
not false.  If there is one, at `r`, the visit stores `r` into `searched`, the
other watched literal at position 0, the literal found at position 1 and `¬L`
at position `r`; if there is none, every unwatched literal is false and the
visit ends in a conflict or keeps the pair, the record as it was. -/
theorem replacement_search_order (env : Env) (values : Nat → Int) (lit : Int)
    (arena : List ward) (head tail : Nat) (c : archive_clause) (other : Int)
    (hc : dereference_archive_clause arena tail = some c) (hok : record_ok c)
    (hvalid : ∀ k, 2 ≤ k → k < c.size → ∃ x, c.lits[k]? = some x ∧ literal_valid env x)
    (hb : literal_valid env (blocking_lit head))
    (hbv : ¬ value_of env values (blocking_lit head) > 0)
    (hg : c.garbage = false) (ho : other_watched c lit = some other)
    (hov : literal_valid env other) (hot : ¬ value_of env values other > 0) :
    (scan_order c).Nodup ∧ (∀ k, k ∈ scan_order c ↔ 2 ≤ k ∧ k < c.size) ∧
    search_replacement env values c =
      .ok (match first_non_false env values c with
           | some r => .found r (c.lits[r]?.getD 0)
           | none => .exhausted) ∧
    (∀ r, first_non_false env values c = some r →
      ∃ rep before after, c.lits[r]? = some rep ∧ value_of env values rep ≥ 0 ∧
        scan_order c = before ++ r :: after ∧
        (∀ j ∈ before, ∃ y, c.lits[j]? = some y ∧ value_of env values y < 0) ∧
        visit_watch env values lit arena head tail =
          .ok (.removed (arena.set tail (ward.head
            { c with searched := r,
                     lits := ((c.lits.set 0 other).set 1 rep).set r (-lit) }))) ∧
        (((c.lits.set 0 other).set 1 rep).set r (-lit))[0]? = some other ∧
        (((c.lits.set 0 other).set 1 rep).set r (-lit))[1]? = some rep ∧
        (((c.lits.set 0 other).set 1 rep).set r (-lit))[r]? = some (-lit)) ∧
    (first_non_false env values c = none →
      (∀ k, 2 ≤ k → k < c.size → ∃ x, c.lits[k]? = some x ∧ value_of env values x < 0) ∧
      (visit_watch env values lit arena head tail = .ok .conflict ∨
        visit_watch env values lit arena head tail = .ok (.kept head))) := by
  have hfind := search_replacement_find env values c hok hvalid
  have hmem := scan_order_mem c hok.2.1 hok.2.2
  have hvisit := visit_watch_search env values lit arena head tail c other hc hok hb hbv hg ho
    hov hot
  refine ⟨scan_order_nodup c, hmem, hfind, ?_, ?_⟩
  · intro r hr
    rw [hr] at hfind
    unfold first_non_false at hr
    obtain ⟨hp, before, after, hsplit, hbefore⟩ := List.find?_eq_some.mp hr
    have hrmem : r ∈ scan_order c := by rw [hsplit]; simp
    obtain ⟨hr2, hrn⟩ := (hmem r).mp hrmem
    obtain ⟨rep, hrep, _⟩ := hvalid r hr2 hrn
    have hrepv : value_of env values rep ≥ 0 := by
      unfold non_false at hp
      rw [hrep] at hp
      exact of_decide_eq_true hp
    have hlen : c.lits.length = c.size := hok.1.symm
    refine ⟨rep, before, after, hrep, hrepv, hsplit, ?_, ?_, ?_, ?_, ?_⟩
    · intro j hj
      have hjmem : j ∈ scan_order c := by rw [hsplit]; simp [hj]
      obtain ⟨hj2, hjn⟩ := (hmem j).mp hjmem
      obtain ⟨y, hy, _⟩ := hvalid j hj2 hjn
      refine ⟨y, hy, ?_⟩
      have hnp := hbefore j hj
      unfold non_false at hnp
      rw [hy] at hnp
      simp only [Bool.not_eq_true', decide_eq_false_iff_not, ge_iff_le, not_le] at hnp
      exact hnp
    · rcases hvisit with ⟨h, _⟩ | ⟨r', rep', h, hv⟩ | ⟨h, _⟩ | ⟨h, _⟩
      · rw [hfind] at h; cases h
      · rw [hfind] at h
        simp only [hrep, Option.getD_some, Except.ok.injEq, Search.found.injEq] at h
        obtain ⟨h1, h2⟩ := h
        subst h1 h2
        exact hv
      · rw [hfind] at h; cases h
      · rw [hfind] at h; cases h
    · rw [List.getElem?_set_ne (by omega), List.getElem?_set_ne (by omega),
        List.getElem?_set_self (by omega)]
    · rw [List.getElem?_set_ne (by omega), List.getElem?_set_self]
      simp only [List.length_set]
      omega
    · rw [List.getElem?_set_self]
      simp only [List.length_set]
      omega
  · intro hnone
    rw [hnone] at hfind
    refine ⟨?_, ?_⟩
    · intro k hk2 hkn
      obtain ⟨x, hx, _⟩ := hvalid k hk2 hkn
      refine ⟨x, hx, ?_⟩
      unfold first_non_false at hnone
      have hnp := List.find?_eq_none.mp hnone k ((hmem k).mpr ⟨hk2, hkn⟩)
      unfold non_false at hnp
      rw [hx] at hnp
      simp only [decide_eq_true_eq, ge_iff_le, not_le] at hnp
      exact hnp
    · rcases hvisit with ⟨h, _⟩ | ⟨r', rep', h, hv⟩ | ⟨_, _, h⟩ | ⟨_, _, h⟩
      · rw [hfind] at h; cases h
      · rw [hfind] at h; cases h
      · exact Or.inl h
      · exact Or.inr h

/-- Witness of C22: the record `1, 2, 3, 4, 5` with cursor 3 in the walk of
the list of `1`, the literals `1`, `2`, `4`, `5` false and `3` unassigned: the
search visits the positions 3, 4, 2 and stops at position 2; the record
becomes `2, 3, 1, 4, 5` with cursor 2. -/
theorem replacement_search_order_witness :
    scan_order { garbage := false, searched := 3, size := 5, lits := [1, 2, 3, 4, 5] } =
      [3, 4, 2] ∧
    first_non_false (plain_env 8) (values_of [-1, -2, -4, -5])
      { garbage := false, searched := 3, size := 5, lits := [1, 2, 3, 4, 5] } = some 2 ∧
    visit_watch (plain_env 8) (values_of [-1, -2, -4, -5]) (-1)
      [ward.head { garbage := false, searched := 3, size := 5, lits := [1, 2, 3, 4, 5] },
       ward.body, ward.body] 2 0 =
      .ok (.removed
        [ward.head { garbage := false, searched := 2, size := 5, lits := [2, 3, 1, 4, 5] },
         ward.body, ward.body]) := by
  have hfirst : first_non_false (plain_env 8) (values_of [-1, -2, -4, -5])
      { garbage := false, searched := 3, size := 5, lits := [1, 2, 3, 4, 5] } = some 2 := by
    decide
  refine ⟨rfl, hfirst, ?_⟩
  obtain ⟨_, _, _, h4, _⟩ :=
    replacement_search_order (plain_env 8) (values_of [-1, -2, -4, -5]) (-1)
      [ward.head { garbage := false, searched := 3, size := 5, lits := [1, 2, 3, 4, 5] },
       ward.body, ward.body] 2 0
      { garbage := false, searched := 3, size := 5, lits := [1, 2, 3, 4, 5] } 2 rfl
      (by decide)
      (by
        intro k h2 h5
        have h5' : k < 5 := h5
        interval_cases k
        · exact ⟨3, rfl, by decide⟩
        · exact ⟨4, rfl, by decide⟩
        · exact ⟨5, rfl, by decide⟩)
      (by decide) (by decide) rfl (by decide) (by decide) (by decide)
  obtain ⟨rep, _, _, hrep, _, _, _, hv, _⟩ := h4 2 hfirst
  have hrep3 : rep = 3 := by
    have h : (some 3 : Option Int) = some rep := hrep
    injection h with h
    exact h.symm
  subst hrep3
  exact hv

/-! ## The records of the arena across a pass -/

theorem visit_watch_removed_shape (env : Env) (values : Nat → Int) (lit : Int)
    (arena : List ward) (head tail : Nat) (c : archive_clause)
    (hc : dereference_archive_clause arena tail = some c) (hok : record_ok c)
    (a' : List ward) (hv : visit_watch env values lit arena head tail = .ok (.removed a')) :
    a' = arena ∨ a' = mark_garbage arena tail c ∨
    ∃ other r rep, other_watched c lit = some other ∧ 2 ≤ r ∧ r < c.size ∧
      c.lits[r]? = some rep ∧ a' = install_replacement arena tail c lit other r rep := by
  obtain ⟨res, hres, _, hfound⟩ := search_replacement_spec env values c hok
  obtain ⟨other, ho, hcases⟩ := visit_watch_spec env values lit arena head tail c hc hok
  have hget : ∀ a, visit_watch env values lit arena head tail = .ok (.removed a) → a' = a := by
    intro a h2
    rw [h2] at hv
    injection hv with hv
    injection hv with hv
    exact hv.symm
  rcases hcases with ⟨_, h1⟩ | ⟨_, _, h1⟩ | ⟨_, _, _, h1⟩ | ⟨_, _, _, _, h1⟩ |
    ⟨_, _, _, _, _, h1⟩ | ⟨_, _, _, _, _, h6⟩
  · exact Or.inl (hget _ h1)
  · rw [h1] at hv; cases hv
  · exact Or.inl (hget _ h1)
  · exact Or.inr (Or.inl (hget _ h1))
  · rw [h1] at hv; cases hv
  · rcases h6 with ⟨_, h1⟩ | ⟨r, rep, hs, h1⟩ | ⟨_, _, h1⟩ | ⟨_, _, h1⟩
    · exact Or.inr (Or.inl (hget _ h1))
    · rw [hres] at hs
      injection hs with hs
      obtain ⟨r1, r2, r3, _⟩ := hfound r rep hs
      exact Or.inr (Or.inr ⟨other, r, rep, ho, r1, r2, r3, hget _ h1⟩)
    · rw [h1] at hv; cases hv
    · rw [h1] at hv; cases hv

theorem install_lits_eq (l0 l1 : Int) (tl : List Int) (o rep x : Int) (r : Nat) (hr : 2 ≤ r) :
    (((l0 :: l1 :: tl).set 0 o).set 1 rep).set r x = o :: rep :: tl.set (r - 2) x := by
  obtain ⟨k, rfl⟩ : ∃ k, r = k + 2 := ⟨r - 2, by omega⟩
  simp only [List.set_cons_zero, List.set_cons_succ, Nat.add_sub_cancel]

theorem perm_swap_middle (x y : Int) (A B : List Int) :
    (x :: (A ++ y :: B)).Perm (y :: (A ++ x :: B)) := by
  have h1 : (x :: (A ++ y :: B)).Perm (x :: y :: (A ++ B)) :=
    List.Perm.cons x List.perm_middle
  have h2 : (y :: (A ++ x :: B)).Perm (y :: x :: (A ++ B)) :=
    List.Perm.cons y List.perm_middle
  exact h1.trans ((List.Perm.swap y x (A ++ B)).trans h2.symm)

/-- The three stores of a replacement permute the literals of a record whose
first two literals include the negation of the propagated literal. -/
theorem install_lits_perm (c : archive_clause) (lit other rep : Int) (r : Nat)
    (l0 l1 : Int) (tl : List Int) (hl : c.lits = l0 :: l1 :: tl)
    (hown : l0 = -lit ∨ l1 = -lit) (ho : other_watched c lit = some other)
    (hr : 2 ≤ r) (hrep : c.lits[r]? = some rep) :
    (((c.lits.set 0 other).set 1 rep).set r (-lit)).Perm c.lits := by
  obtain ⟨k, rfl⟩ : ∃ k, r = k + 2 := ⟨r - 2, by omega⟩
  rw [hl] at hrep
  simp only [List.getElem?_cons_succ] at hrep
  have hk : k < tl.length := by
    rcases Nat.lt_or_ge k tl.length with h | h
    · exact h
    · rw [List.getElem?_eq_none h] at hrep; cases hrep
  have hget : tl[k] = rep := by
    rw [List.getElem?_eq_getElem hk] at hrep
    injection hrep
  have htl : tl = tl.take k ++ rep :: tl.drop (k + 1) := by
    rw [← hget, ← List.drop_eq_getElem_cons hk, List.take_append_drop]
  have hset : tl.set k (-lit) = tl.take k ++ (-lit) :: tl.drop (k + 1) := by
    rw [List.set_eq_take_append_cons_drop, if_pos hk]
  rw [hl, install_lits_eq l0 l1 tl other rep (-lit) (k + 2) (by omega), Nat.add_sub_cancel, hset]
  rcases other_watched_of_owner c lit l0 l1 tl hl hown with ⟨h0, h1⟩ | ⟨h0, h1⟩
  · rw [ho] at h1
    injection h1 with h1
    rw [h1, h0]
    -- l1 :: rep :: (A ++ ¬L :: B)  ~  ¬L :: l1 :: (A ++ rep :: B)
    have h2 : (rep :: (tl.take k ++ (-lit) :: tl.drop (k + 1))).Perm
        ((-lit) :: (tl.take k ++ rep :: tl.drop (k + 1))) :=
      perm_swap_middle rep (-lit) _ _
    have h3 := (List.Perm.cons l1 h2).trans (List.Perm.swap (-lit) l1 _)
    rw [← htl] at h3
    exact h3
  · rw [ho] at h1
    injection h1 with h1
    rw [h1, h0]
    have h2 : (rep :: (tl.take k ++ (-lit) :: tl.drop (k + 1))).Perm
        ((-lit) :: (tl.take k ++ rep :: tl.drop (k + 1))) :=
      perm_swap_middle rep (-lit) _ _
    have h3 := List.Perm.cons l0 h2
    rw [← htl] at h3
    exact h3

theorem literals_kept_refl (arena : List ward) : literals_kept arena arena :=
  fun _ c hc => ⟨c, hc, List.Perm.refl _⟩

theorem literals_kept_trans (a b c : List ward) (h1 : literals_kept a b)
    (h2 : literals_kept b c) : literals_kept a c := by
  intro ref r hr
  obtain ⟨r1, hr1, p1⟩ := h1 ref r hr
  obtain ⟨r2, hr2, p2⟩ := h2 ref r1 hr1
  exact ⟨r2, hr2, p2.trans p1⟩

theorem literals_kept_set (arena : List ward) (ref : Nat) (c c' : archive_clause)
    (hc : dereference_archive_clause arena ref = some c) (hp : c'.lits.Perm c.lits) :
    literals_kept arena (arena.set ref (ward.head c')) := by
  intro ref' r hr
  rw [dereference_set arena ref ref' c c' hc]
  by_cases h : ref' = ref
  · rw [if_pos h]
    rw [h, hc] at hr
    injection hr with hr
    rw [← hr]
    exact ⟨c', rfl, hp⟩
  · rw [if_neg h]
    exact ⟨r, hr, List.Perm.refl _⟩

theorem owns_iff (arena : List ward) (ref : Nat) (x : Int) :
    owns arena ref x = true ↔
      ∃ c l0 l1 tl, dereference_archive_clause arena ref = some c ∧
        c.lits = l0 :: l1 :: tl ∧ (l0 = x ∨ l1 = x) := by
  unfold owns
  constructor
  · intro h
    cases hd : dereference_archive_clause arena ref with
    | none => rw [hd] at h; cases h
    | some c =>
      rw [hd] at h
      dsimp only at h
      cases hl : c.lits with
      | nil => rw [hl] at h; cases h
      | cons l0 t =>
        cases t with
        | nil => rw [hl] at h; cases h
        | cons l1 tl =>
          rw [hl] at h
          exact ⟨c, l0, l1, tl, rfl, hl, of_decide_eq_true h⟩
  · rintro ⟨c, l0, l1, tl, hd, hl, h⟩
    rw [hd]
    dsimp only
    rw [hl]
    exact decide_eq_true h

theorem visit_watch_literals (env : Env) (values : Nat → Int) (lit : Int)
    (arena : List ward) (head tail : Nat) (c : archive_clause)
    (hc : dereference_archive_clause arena tail = some c) (hok : record_ok c)
    (hown : owns arena tail (-lit) = true)
    (a' : List ward) (hv : visit_watch env values lit arena head tail = .ok (.removed a')) :
    literals_kept arena a' := by
  rcases visit_watch_removed_shape env values lit arena head tail c hc hok a' hv with
    h | h | ⟨other, r, rep, ho, hr1, hr2, hrep, h⟩
  · rw [h]; exact literals_kept_refl arena
  · rw [h]
    exact literals_kept_set arena tail c _ hc (List.Perm.refl _)
  · rw [h]
    obtain ⟨c1, l0, l1, tl, hd, hl, hx⟩ := (owns_iff arena tail (-lit)).mp hown
    rw [hc] at hd
    injection hd with hd
    subst hd
    exact literals_kept_set arena tail c _ hc
      (install_lits_perm c lit other rep r l0 l1 tl hl hx ho hr1 hrep)

theorem walk_watches_literals (env : Env) (values : Nat → Int) (lit : Int) (ws : List Nat) :
    ∀ arena kept arena' conflict, pairs_ok arena ws = true →
      owned_walk env values lit ws arena = true →
      walk_watches env values lit ws arena = .ok (kept, arena', conflict) →
      literals_kept arena arena' := by
  induction ws using pairs_induction with
  | h0 =>
    intro arena kept arena' conflict _ _ hw
    simp only [walk_watches, Except.ok.injEq, Prod.mk.injEq] at hw
    obtain ⟨_, rfl, _⟩ := hw
    exact literals_kept_refl _
  | h1 x =>
    intro arena kept arena' conflict hp _ hw
    simp [walk_watches] at hw
  | h2 head tail rest ih =>
    intro arena kept arena' conflict hp hown hw
    obtain ⟨_, ⟨c, hc, hok⟩, hprest⟩ := (pairs_ok_cons arena head tail rest).mp hp
    obtain ⟨v, hv, hrem, _, _, _⟩ := visit_watch_facts env values lit arena head tail c hc hok
    rw [walk_watches_cons env values lit arena head tail rest v hv] at hw
    have hown' : owns arena tail (-lit) = true ∧
        (match visit_watch env values lit arena head tail with
         | .ok (.removed arena') => owned_walk env values lit rest arena'
         | .ok (.kept _) => owned_walk env values lit rest arena
         | _ => true) = true := by
      have h : owned_walk env values lit (head :: tail :: rest) arena =
          (owns arena tail (-lit) &&
          (match visit_watch env values lit arena head tail with
           | .ok (.removed arena') => owned_walk env values lit rest arena'
           | .ok (.kept _) => owned_walk env values lit rest arena
           | _ => true)) := rfl
      rw [h, Bool.and_eq_true] at hown
      exact hown
    obtain ⟨hown1, hown2⟩ := hown'
    rw [hv] at hown2
    cases v with
    | removed a1 =>
      dsimp only at hw hown2
      have h1 := visit_watch_literals env values lit arena head tail c hc hok hown1 a1 hv
      have hp1 := pairs_ok_of_refines arena a1 (hrem a1 rfl).1 rest hprest
      exact literals_kept_trans _ _ _ h1 (ih a1 kept arena' conflict hp1 hown2 hw)
    | kept h' =>
      dsimp only at hw hown2
      cases hrest : walk_watches env values lit rest arena with
      | error a => rw [hrest] at hw; cases hw
      | ok res =>
        obtain ⟨k, a2, cf⟩ := res
        rw [hrest] at hw
        simp only [Except.ok.injEq, Prod.mk.injEq] at hw
        obtain ⟨_, rfl, rfl⟩ := hw
        exact ih arena k a2 cf hprest hown2 hrest
    | conflict =>
      simp only [Except.ok.injEq, Prod.mk.injEq] at hw
      obtain ⟨_, rfl, _⟩ := hw
      exact literals_kept_refl _

theorem propagate_queue_arena (env : Env) (queue : List Nat) :
    ∀ s t : kissat, consistent s →
      (∀ ilit ∈ queue, env.kissat_export_literal ilit ≠ 0 ∧
        (env.kissat_export_literal ilit).natAbs ≤ s.max_var) →
      propagate_queue env queue s = .ok t →
      arena_refines s.archive t.archive ∧
      (owned_pass env queue s = true → literals_kept s.archive t.archive) := by
  induction queue with
  | nil =>
    intro s t _ _ h
    simp only [propagate_queue, Except.ok.injEq] at h
    subst h
    exact ⟨arena_refines_refl _, fun _ => literals_kept_refl _⟩
  | cons ilit rest ih =>
    intro s t hs hq h
    obtain ⟨h0, hm⟩ := hq ilit (List.mem_cons_self _ _)
    have hlen := ((consistent_iff s).mp hs).1
    obtain ⟨w, hw⟩ := watches_at_of_bound s (-(env.kissat_export_literal ilit)) hlen
      (by omega) (by omega)
    by_cases hne : w.size = 0
    · simp only [propagate_queue, propagate_literal, hw, hne, if_true, Except.ok.injEq] at h
      subst h
      exact ⟨arena_refines_refl _, fun _ => literals_kept_refl _⟩
    · obtain ⟨kept, a2, conflict, t1, hwk, hp, hc, ha, _, _, _, _, _, _, _, hmax, _⟩ :=
        propagate_literal_spec env s ilit _ w hs hw hne
      obtain ⟨hl1, _⟩ := watch_list_of_watches_at s _ _ w hw
      have hpairs : pairs_ok s.archive (vector_contents s.archive_vectors.stack w) = true := by
        have := ((consistent_iff s).mp hs).2.2.2
          (lit2idx (-(env.kissat_export_literal ilit))).toNat
        unfold contents_at at this
        rw [watches_at_eq s _ _ w hw] at this
        exact this
      have href : arena_refines s.archive a2 := by
        obtain ⟨k', a', c', hw', hr', _⟩ :=
          walk_watches_defined env s.values (env.kissat_export_literal ilit) _ s.archive hpairs
        rw [hwk] at hw'
        simp only [Except.ok.injEq, Prod.mk.injEq] at hw'
        obtain ⟨_, rfl, _⟩ := hw'
        exact hr'
      have hown : owned_pass env (ilit :: rest) s = true →
          owned_walk env s.values (env.kissat_export_literal ilit)
            (vector_contents s.archive_vectors.stack w) s.archive = true ∧
          (match propagate_literal env s ilit with
           | .ok (.next s') => owned_pass env rest s'
           | _ => true) = true := by
        intro ho
        have h' : owned_pass env (ilit :: rest) s =
            (owned_walk env s.values (env.kissat_export_literal ilit)
              (watch_list s (-(env.kissat_export_literal ilit))) s.archive &&
            (match propagate_literal env s ilit with
             | .ok (.next s') => owned_pass env rest s'
             | _ => true)) := rfl
        rw [h', Bool.and_eq_true, hl1] at ho
        exact ho
      have hlit : owned_pass env (ilit :: rest) s = true → literals_kept s.archive a2 :=
        fun ho => walk_watches_literals env s.values (env.kissat_export_literal ilit) _
          s.archive kept a2 conflict hpairs (hown ho).1 hwk
      cases conflict with
      | true =>
        simp only [propagate_queue, hp, if_true, Except.ok.injEq] at h
        subst h
        rw [ha]
        exact ⟨href, hlit⟩
      | false =>
        have hstep : propagate_literal env s ilit = .ok (.next t1) := by
          rw [hp]; simp
        simp only [propagate_queue, hstep] at h
        obtain ⟨i1, i2⟩ := ih t1 t hc
          (fun i hi => by rw [hmax]; exact hq i (List.mem_cons_of_mem _ hi)) h
        rw [ha] at i1 i2
        refine ⟨arena_refines_trans _ _ _ href i1, ?_⟩
        intro ho
        have ho2 := (hown ho).2
        rw [hstep] at ho2
        exact literals_kept_trans _ _ _ (hlit ho) (i2 ho2)

/-- C24: a call of `kissat_propagate_archive` in a consistent state returns
and leaves the arena with the same number of words and a record exactly where
there was one, each with its `size` unchanged and a garbage flag that is not
reset; the arena of a visit that removes a pair is the old arena, the old
arena with the record marked garbage, or the old arena with the three stores
of a replacement; and when each walked pair references, at the time it is
walked, a record with `¬L` among its first two literals, every record keeps
its literals up to their order. -/
theorem propagate_keeps_records (env : Env) (s : kissat) (hs : consistent s)
    (hq : ∀ ilit ∈ s.archive_propagate, env.kissat_export_literal ilit ≠ 0 ∧
      (env.kissat_export_literal ilit).natAbs ≤ s.max_var) :
    ∃ t, kissat_propagate_archive env s = .ok t ∧
      t.archive.length = s.archive.length ∧
      (∀ ref c', dereference_archive_clause t.archive ref = some c' →
        ∃ c, dereference_archive_clause s.archive ref = some c) ∧
      (∀ ref c, dereference_archive_clause s.archive ref = some c →
        ∃ c', dereference_archive_clause t.archive ref = some c' ∧ c'.size = c.size ∧
          (c.garbage = true → c'.garbage = true) ∧
          (owned_pass env s.archive_propagate s = true → c'.lits.Perm c.lits)) ∧
      (∀ lit arena head tail c a', dereference_archive_clause arena tail = some c →
        record_ok c →
        visit_watch env s.values lit arena head tail = .ok (.removed a') →
        a' = arena ∨ a' = mark_garbage arena tail c ∨
        ∃ other r rep, other_watched c lit = some other ∧ 2 ≤ r ∧ r < c.size ∧
          c.lits[r]? = some rep ∧ a' = install_replacement arena tail c lit other r rep) := by
  have hshape : ∀ lit arena head tail c a', dereference_archive_clause arena tail = some c →
      record_ok c →
      visit_watch env s.values lit arena head tail = .ok (.removed a') →
      a' = arena ∨ a' = mark_garbage arena tail c ∨
      ∃ other r rep, other_watched c lit = some other ∧ 2 ≤ r ∧ r < c.size ∧
        c.lits[r]? = some rep ∧ a' = install_replacement arena tail c lit other r rep :=
    fun lit arena head tail c a' hc hok hv =>
      visit_watch_removed_shape env s.values lit arena head tail c hc hok a' hv
  have hfinish : ∀ t : kissat, arena_refines s.archive t.archive →
      (owned_pass env s.archive_propagate s = true → literals_kept s.archive t.archive) →
      t.archive.length = s.archive.length ∧
      (∀ ref c', dereference_archive_clause t.archive ref = some c' →
        ∃ c, dereference_archive_clause s.archive ref = some c) ∧
      (∀ ref c, dereference_archive_clause s.archive ref = some c →
        ∃ c', dereference_archive_clause t.archive ref = some c' ∧ c'.size = c.size ∧
          (c.garbage = true → c'.garbage = true) ∧
          (owned_pass env s.archive_propagate s = true → c'.lits.Perm c.lits)) := by
    intro t href hlit
    obtain ⟨r1, r2, r3⟩ := href
    refine ⟨r1, r2, ?_⟩
    intro ref c hc
    obtain ⟨c', hc', hsz, _, hg⟩ := r3 ref c hc
    refine ⟨c', hc', hsz, hg, ?_⟩
    intro ho
    obtain ⟨c2, hc2, hperm⟩ := hlit ho ref c hc
    rw [hc'] at hc2
    injection hc2 with hc2
    rw [hc2]
    exact hperm
  by_cases hrun : (!s.option_archive || !s.archive_unlocked) = true ∨ s.archive.length = 0
  · have hcall : kissat_propagate_archive env s = .ok s := by
      unfold kissat_propagate_archive
      rcases hrun with h | h
      · rw [if_pos h]
      · by_cases h' : (!s.option_archive || !s.archive_unlocked) = true
        · rw [if_pos h']
        · rw [if_neg h', if_pos h]
    obtain ⟨f1, f2, f3⟩ := hfinish s (arena_refines_refl _) (fun _ => literals_kept_refl _)
    exact ⟨s, hcall, f1, f2, f3, hshape⟩
  · have h1 : ¬ (!s.option_archive || !s.archive_unlocked) = true := fun h => hrun (Or.inl h)
    have h2 : ¬ s.archive.length = 0 := fun h => hrun (Or.inr h)
    obtain ⟨t, ht, _⟩ := propagate_queue_spec env s.archive_propagate s hs hq
    have hcall : kissat_propagate_archive env s = .ok t := by
      unfold kissat_propagate_archive
      rw [if_neg h1, if_neg h2]
      exact ht
    obtain ⟨a1, a2⟩ := propagate_queue_arena env s.archive_propagate s t hs hq ht
    obtain ⟨f1, f2, f3⟩ := hfinish t a1 a2
    exact ⟨t, hcall, f1, f2, f3, hshape⟩

/-- Witness of C24: the state holding the clause `5, -3, 7` with `-5` and `3`
true and queued; the pass returns, every walked pair references a record with
`¬L` among its first two literals, and the record at reference 0 holds
`-3, 7, 5`, a permutation of its literals, with the size 3. -/
theorem propagate_keeps_records_witness :
    consistent (assign_and_queue sample_state [-5, 3]) ∧
    owned_pass (plain_env 8) (assign_and_queue sample_state [-5, 3]).archive_propagate
      (assign_and_queue sample_state [-5, 3]) = true ∧
    ∃ t c', kissat_propagate_archive (plain_env 8) (assign_and_queue sample_state [-5, 3]) =
        .ok t ∧
      t.archive.length = 2 ∧
      dereference_archive_clause t.archive 0 = some c' ∧ c'.size = 3 ∧
      c'.lits.Perm [5, -3, 7] ∧ c'.lits = [-3, 7, 5] := by
  have hpass : owned_pass (plain_env 8) (assign_and_queue sample_state [-5, 3]).archive_propagate
      (assign_and_queue sample_state [-5, 3]) = true := rfl
  refine ⟨by decide, hpass, ?_⟩
  obtain ⟨t, h1, h2, _, h4, _⟩ :=
    propagate_keeps_records (plain_env 8) (assign_and_queue sample_state [-5, 3])
      (by decide) (by decide)
  obtain ⟨c', hc', hsz, _, hperm⟩ := h4 0
    { garbage := false, searched := 2, size := 3, lits := [5, -3, 7] } rfl
  have h : ∃ u, kissat_propagate_archive (plain_env 8)
      (assign_and_queue sample_state [-5, 3]) = .ok u ∧
      dereference_archive_clause u.archive 0 =
        some { garbage := false, searched := 2, size := 3, lits := [-3, 7, 5] } :=
    ⟨_, rfl, rfl⟩
  obtain ⟨u, hu, hd⟩ := h
  rw [h1] at hu
  cases hu
  rw [hc'] at hd
  injection hd with hd
  refine ⟨t, c', h1, h2, hc', hsz, hperm hpass, ?_⟩
  rw [hd]

/-! ## Conflicts and falsified clauses -/

theorem idx2lit_lit2idx (x : Int) (h : x ≠ 0) : idx2lit (lit2idx x).toNat = x := by
  unfold idx2lit lit2idx
  by_cases hx : x < 0
  · rw [if_pos hx, if_pos (by omega)]
    omega
  · rw [if_neg hx, if_neg (by omega)]
    omega

theorem lit2idx_idx2lit (i : Nat) : idx2lit i ≠ 0 ∧ (lit2idx (idx2lit i)).toNat = i := by
  unfold idx2lit lit2idx
  by_cases hi : i % 2 = 0
  · rw [if_pos hi]
    refine ⟨by omega, ?_⟩
    rw [if_pos (by omega)]
    omega
  · rw [if_neg hi]
    refine ⟨by omega, ?_⟩
    rw [if_neg (by omega)]
    omega

theorem owns_congr (a b : List ward) (ref : Nat) (x : Int)
    (h : dereference_archive_clause b ref = dereference_archive_clause a ref) :
    owns b ref x = owns a ref x := by
  unfold owns
  rw [h]

theorem owns_set_ne (arena : List ward) (tail ref : Nat) (c c' : archive_clause) (x : Int)
    (hc : dereference_archive_clause arena tail = some c) (hne : ref ≠ tail) :
    owns (arena.set tail (ward.head c')) ref x = owns arena ref x := by
  apply owns_congr
  rw [dereference_set arena tail ref c c' hc, if_neg hne]

theorem owns_set_lits (arena : List ward) (tail ref : Nat) (c c' : archive_clause) (x : Int)
    (hc : dereference_archive_clause arena tail = some c) (hl : c'.lits = c.lits) :
    owns (arena.set tail (ward.head c')) ref x = owns arena ref x := by
  by_cases hne : ref = tail
  · subst hne
    unfold owns
    rw [dereference_set arena ref ref c c' hc, if_pos rfl, hc]
    dsimp only
    rw [hl]
  · exact owns_set_ne arena tail ref c c' x hc hne

/-- What a visit that removes a pair does to the ownership of records: a
record other than the visited one is untouched, and the visited record keeps
each of its two watched literals other than `¬lit`. -/
theorem visit_watch_owner (env : Env) (values : Nat → Int) (lit : Int)
    (arena : List ward) (head tail : Nat) (c : archive_clause)
    (hc : dereference_archive_clause arena tail = some c) (hok : record_ok c)
    (hown : owns arena tail (-lit) = true)
    (a' : List ward) (hv : visit_watch env values lit arena head tail = .ok (.removed a')) :
    (∀ ref, ref ≠ tail →
      dereference_archive_clause a' ref = dereference_archive_clause arena ref) ∧
    (∀ ref x, x ≠ -lit → owns arena ref x = true → owns a' ref x = true) := by
  rcases visit_watch_removed_shape env values lit arena head tail c hc hok a' hv with
    h | h | ⟨other, r, rep, ho, hr1, hr2, hrep, h⟩
  · rw [h]
    exact ⟨fun _ _ => rfl, fun _ _ _ h => h⟩
  · rw [h]
    unfold mark_garbage
    refine ⟨fun ref hne => by rw [dereference_set arena tail ref c _ hc, if_neg hne], ?_⟩
    intro ref x _ hx
    rw [owns_set_lits arena tail ref c { c with garbage := true } x hc rfl]
    exact hx
  · rw [h]
    unfold install_replacement
    refine ⟨fun ref hne => by rw [dereference_set arena tail ref c _ hc, if_neg hne], ?_⟩
    intro ref x hxy hx
    by_cases hne : ref = tail
    · subst hne
      obtain ⟨c1, l0, l1, tl, hd, hl, hy⟩ := (owns_iff arena ref (-lit)).mp hown
      rw [hc] at hd
      injection hd with hd
      subst hd
      obtain ⟨c2, m0, m1, ml, hd2, hl2, hx2⟩ := (owns_iff arena ref x).mp hx
      rw [hc] at hd2
      injection hd2 with hd2
      subst hd2
      rw [hl] at hl2
      injection hl2 with e0 hl2
      injection hl2 with e1 _
      subst e0 e1
      have hother : other = x := by
        rcases other_watched_of_owner c lit l0 l1 tl hl hy with ⟨h0, h1⟩ | ⟨h0, h1⟩
        · rw [ho] at h1
          injection h1 with h1
          rcases hx2 with h2 | h2
          · exact absurd (h2.symm.trans h0) hxy
          · rw [h1, h2]
        · rw [ho] at h1
          injection h1 with h1
          rcases hx2 with h2 | h2
          · rw [h1, h2]
          · exact absurd (h2.symm.trans h0) hxy
      apply (owns_iff _ ref x).mpr
      refine ⟨{ c with searched := r,
                       lits := ((c.lits.set 0 other).set 1 rep).set r (-lit) },
        other, rep, tl.set (r - 2) (-lit), ?_, ?_, Or.inl hother⟩
      · rw [dereference_set arena ref ref c _ hc, if_pos rfl]
      · show ((c.lits.set 0 other).set 1 rep).set r (-lit) = _
        rw [hl, install_lits_eq l0 l1 tl other rep (-lit) r hr1]
    · rw [owns_set_ne arena tail ref c _ x hc hne]
      exact hx

theorem walk_watches_frame (env : Env) (values : Nat → Int) (lit : Int) (ref : Nat)
    (ws : List Nat) :
    ∀ arena kept arena' conflict, pairs_ok arena ws = true →
      walk_watches env values lit ws arena = .ok (kept, arena', conflict) →
      ref ∉ (watch_pairs ws).map Prod.snd →
      dereference_archive_clause arena' ref = dereference_archive_clause arena ref := by
  induction ws using pairs_induction with
  | h0 =>
    intro arena kept arena' conflict _ hw _
    simp only [walk_watches, Except.ok.injEq, Prod.mk.injEq] at hw
    obtain ⟨_, rfl, _⟩ := hw
    rfl
  | h1 x => intro arena kept arena' conflict hx; simp [pairs_ok] at hx
  | h2 head tail rest ih =>
    intro arena kept arena' conflict hp hw hnot
    obtain ⟨_, ⟨c, hc, hok⟩, hprest⟩ := (pairs_ok_cons arena head tail rest).mp hp
    obtain ⟨v, hv, hrem, _, _, _⟩ := visit_watch_facts env values lit arena head tail c hc hok
    rw [walk_watches_cons env values lit arena head tail rest v hv] at hw
    rw [watch_pairs_cons, List.map_cons, List.mem_cons, not_or] at hnot
    obtain ⟨hne, hnot'⟩ := hnot
    cases v with
    | removed a1 =>
      dsimp only at hw
      have hp1 := pairs_ok_of_refines arena a1 (hrem a1 rfl).1 rest hprest
      rw [ih a1 kept arena' conflict hp1 hw hnot']
      rcases visit_watch_removed_shape env values lit arena head tail c hc hok a1 hv with
        h | h | ⟨other, r, rep, _, _, _, _, h⟩
      · rw [h]
      · rw [h]
        unfold mark_garbage
        rw [dereference_set arena tail ref c _ hc, if_neg hne]
      · rw [h]
        unfold install_replacement
        rw [dereference_set arena tail ref c _ hc, if_neg hne]
    | kept h' =>
      dsimp only at hw
      cases hrest : walk_watches env values lit rest arena with
      | error a => rw [hrest] at hw; cases hw
      | ok res =>
        obtain ⟨k, a2, cf⟩ := res
        rw [hrest] at hw
        simp only [Except.ok.injEq, Prod.mk.injEq] at hw
        obtain ⟨_, rfl, rfl⟩ := hw
        exact ih arena k a2 cf hprest hrest hnot'
    | conflict =>
      simp only [Except.ok.injEq, Prod.mk.injEq] at hw
      obtain ⟨_, rfl, _⟩ := hw
      rfl

theorem forall₂_same_pair_refs (l1 l2 : List (Nat × Nat))
    (h : List.Forall₂ same_pair_up_to_blocking l1 l2) :
    l1.map Prod.snd = l2.map Prod.snd := by
  induction h with
  | nil => rfl
  | cons hpq _ ih =>
    rw [List.map_cons, List.map_cons, ih, hpq.1]

theorem walk_watches_refs (env : Env) (values : Nat → Int) (lit : Int) (ws : List Nat)
    (arena : List ward) (kept : List Nat) (arena' : List ward) (conflict : Bool)
    (hp : pairs_ok arena ws = true)
    (hw : walk_watches env values lit ws arena = .ok (kept, arena', conflict)) :
    List.Sublist ((watch_pairs kept).map Prod.snd) ((watch_pairs ws).map Prod.snd) := by
  obtain ⟨⟨sub, hsub, hall⟩, _⟩ :=
    walk_watches_kept env values lit ws arena kept arena' conflict hp hw
  rw [forall₂_same_pair_refs _ _ hall]
  exact hsub.map _

/-- The walk of a list whose pairs reference distinct records, each with `¬lit`
among its first two literals: every pair left in the list still references
such a record, and a record keeps each watched literal other than `¬lit`. -/
theorem walk_watches_owner (env : Env) (values : Nat → Int) (lit : Int) (ws : List Nat) :
    ∀ arena kept arena' conflict, pairs_ok arena ws = true →
      ((watch_pairs ws).map Prod.snd).Nodup →
      (∀ p ∈ watch_pairs ws, owns arena p.2 (-lit) = true) →
      walk_watches env values lit ws arena = .ok (kept, arena', conflict) →
      (∀ p ∈ watch_pairs kept, owns arena' p.2 (-lit) = true) ∧
      (∀ ref x, x ≠ -lit → owns arena ref x = true → owns arena' ref x = true) := by
  induction ws using pairs_induction with
  | h0 =>
    intro arena kept arena' conflict _ _ _ hw
    simp only [walk_watches, Except.ok.injEq, Prod.mk.injEq] at hw
    obtain ⟨rfl, rfl, _⟩ := hw
    exact ⟨fun p hp => by simp [watch_pairs] at hp, fun _ _ _ h => h⟩
  | h1 x => intro arena kept arena' conflict hx; simp [pairs_ok] at hx
  | h2 head tail rest ih =>
    intro arena kept arena' conflict hp hnd hown hw
    obtain ⟨_, ⟨c, hc, hok⟩, hprest⟩ := (pairs_ok_cons arena head tail rest).mp hp
    obtain ⟨v, hv, hrem, _, _, _⟩ := visit_watch_facts env values lit arena head tail c hc hok
    have hw0 := hw
    rw [walk_watches_cons env values lit arena head tail rest v hv] at hw
    rw [watch_pairs_cons, List.map_cons, List.nodup_cons] at hnd
    obtain ⟨hnot, hnd'⟩ := hnd
    have hown1 : owns arena tail (-lit) = true :=
      hown (head, tail) (by rw [watch_pairs_cons]; exact List.mem_cons_self _ _)
    have hownr : ∀ p ∈ watch_pairs rest, owns arena p.2 (-lit) = true :=
      fun p hp => hown p (by rw [watch_pairs_cons]; exact List.mem_cons_of_mem _ hp)
    cases v with
    | removed a1 =>
      dsimp only at hw
      have hp1 := pairs_ok_of_refines arena a1 (hrem a1 rfl).1 rest hprest
      obtain ⟨v1, v2⟩ := visit_watch_owner env values lit arena head tail c hc hok hown1 a1 hv
      have hownr1 : ∀ p ∈ watch_pairs rest, owns a1 p.2 (-lit) = true := by
        intro p hp
        have hne : p.2 ≠ tail := by
          intro h
          apply hnot
          rw [← h]
          exact List.mem_map.mpr ⟨p, hp, rfl⟩
        rw [owns_congr arena a1 p.2 (-lit) (v1 p.2 hne)]
        exact hownr p hp
      obtain ⟨i1, i2⟩ := ih a1 kept arena' conflict hp1 hnd' hownr1 hw
      exact ⟨i1, fun ref x hx h => i2 ref x hx (v2 ref x hx h)⟩
    | kept h' =>
      dsimp only at hw
      cases hrest : walk_watches env values lit rest arena with
      | error a => rw [hrest] at hw; cases hw
      | ok res =>
        obtain ⟨k, a2, cf⟩ := res
        rw [hrest] at hw
        simp only [Except.ok.injEq, Prod.mk.injEq] at hw
        obtain ⟨rfl, rfl, rfl⟩ := hw
        obtain ⟨i1, i2⟩ := ih arena k a2 cf hprest hnd' hownr hrest
        refine ⟨?_, i2⟩
        intro p hp
        rw [watch_pairs_cons] at hp
        rcases List.mem_cons.mp hp with heq | hp
        · rw [heq]
          show owns a2 tail (-lit) = true
          rw [owns_congr arena a2 tail (-lit)
            (walk_watches_frame env values lit tail rest arena k a2 cf hprest hrest hnot)]
          exact hown1
        · exact i1 p hp
    | conflict =>
      simp only [Except.ok.injEq, Prod.mk.injEq] at hw
      obtain ⟨rfl, rfl, _⟩ := hw
      exact ⟨hown, fun _ _ _ h => h⟩

theorem owner_ok_iff (s : kissat) : owner_ok s ↔
    ∀ i, ∀ p ∈ watch_pairs (contents_at s i), owns s.archive p.2 (idx2lit i) = true := by
  unfold owner_ok
  constructor
  · intro h i p hp
    unfold contents_at at hp
    by_cases hi : i < s.archive_watches.length
    · rw [List.getElem?_eq_getElem hi] at hp
      exact h i hi p hp
    · rw [List.getElem?_eq_none (by omega)] at hp
      simp [watch_pairs] at hp
  · intro h i hi p hp
    apply h i p
    unfold contents_at
    rw [List.getElem?_eq_getElem hi]
    exact hp

theorem refs_nodup_iff (s : kissat) : refs_nodup s ↔
    ∀ i, ((watch_pairs (contents_at s i)).map Prod.snd).Nodup := by
  unfold refs_nodup
  constructor
  · intro h i
    unfold contents_at
    by_cases hi : i < s.archive_watches.length
    · rw [List.getElem?_eq_getElem hi]
      exact h i hi
    · rw [List.getElem?_eq_none (by omega)]
      simp [watch_pairs]
  · intro h i hi
    have := h i
    unfold contents_at at this
    rw [List.getElem?_eq_getElem hi] at this
    exact this

/-- One queued literal whose walk ends without conflict keeps the watch
invariant. -/
theorem propagate_literal_owner (env : Env) (s s' : kissat) (ilit : Nat)
    (hs : consistent s) (hown : owner_ok s) (hnd : refs_nodup s)
    (hstep : propagate_literal env s ilit = .ok (.next s')) :
    owner_ok s' ∧ refs_nodup s' := by
  cases hwa : watches_at s (lit2idx (-(env.kissat_export_literal ilit))) with
  | none =>
    unfold propagate_literal at hstep
    simp only [hwa] at hstep
    cases hstep
  | some iw =>
    obtain ⟨idx, w⟩ := iw
    by_cases hne : w.size = 0
    · unfold propagate_literal at hstep
      simp only [hwa, hne, if_true] at hstep
      cases hstep
    · obtain ⟨kept, a2, conflict, t, hwk, hp, _, ha, hcont, hothers, _⟩ :=
        propagate_literal_spec env s ilit idx w hs hwa hne
      rw [hp] at hstep
      cases conflict with
      | true => simp at hstep
      | false =>
        simp only [Bool.false_eq_true, if_false, Except.ok.injEq, Step.next.injEq] at hstep
        subst hstep
        have hy0 := lit_ne_zero_of_watches_at s _ idx w hwa
        obtain ⟨_, hidx⟩ := watches_at_some s _ idx w hwa
        have hlit : idx2lit idx = -(env.kissat_export_literal ilit) := by
          rw [hidx]
          exact idx2lit_lit2idx _ hy0
        have hcs : contents_at s idx = vector_contents s.archive_vectors.stack w :=
          contents_at_some s idx w (watches_at_eq s _ idx w hwa)
        have hpairs : pairs_ok s.archive (vector_contents s.archive_vectors.stack w) = true := by
          rw [← hcs]
          exact ((consistent_iff s).mp hs).2.2.2 idx
        have hnd1 : ((watch_pairs (vector_contents s.archive_vectors.stack w)).map
            Prod.snd).Nodup := by
          rw [← hcs]
          exact (refs_nodup_iff s).mp hnd idx
        have hown1 : ∀ p ∈ watch_pairs (vector_contents s.archive_vectors.stack w),
            owns s.archive p.2 (-(env.kissat_export_literal ilit)) = true := by
          intro p hp
          rw [← hcs] at hp
          rw [← hlit]
          exact (owner_ok_iff s).mp hown idx p hp
        obtain ⟨w1, w2⟩ := walk_watches_owner env s.values (env.kissat_export_literal ilit) _
          s.archive kept a2 false hpairs hnd1 hown1 hwk
        constructor
        · apply (owner_ok_iff t).mpr
          intro j p hp
          rw [ha]
          by_cases hj : j = idx
          · subst hj
            rw [hcont] at hp
            rw [hlit]
            exact w1 p hp
          · rw [hothers j hj] at hp
            apply w2
            · intro h
              apply hj
              have := (lit2idx_idx2lit j).2
              rw [h] at this
              rw [hidx, this]
            · exact (owner_ok_iff s).mp hown j p hp
        · apply (refs_nodup_iff t).mpr
          intro j
          by_cases hj : j = idx
          · subst hj
            rw [hcont]
            exact List.Nodup.sublist
              (walk_watches_refs env s.values (env.kissat_export_literal ilit) _ s.archive kept
                a2 false hpairs hwk) hnd1
          · rw [hothers j hj]
            exact (refs_nodup_iff s).mp hnd j

theorem state_after_owner (env : Env) (front : List Nat) :
    ∀ s sk : kissat, consistent s → owner_ok s → refs_nodup s →
      state_after env front s = some sk → owner_ok sk ∧ refs_nodup sk := by
  induction front with
  | nil =>
    intro s sk _ h1 h2 h
    simp only [state_after, Option.some.injEq] at h
    subst h
    exact ⟨h1, h2⟩
  | cons ilit rest ih =>
    intro s sk hs h1 h2 h
    unfold state_after at h
    cases hstep : propagate_literal env s ilit with
    | error a => rw [hstep] at h; cases h
    | ok step =>
      rw [hstep] at h
      cases step with
      | done s' => cases h
      | next s' =>
        dsimp only at h
        obtain ⟨o1, o2⟩ := propagate_literal_owner env s s' ilit hs h1 h2 hstep
        exact ih s' sk (propagate_literal_next env s s' ilit hs hstep).1 o1 o2 h

theorem watch_pairs_append (front back : List Nat) :
    front.length % 2 = 0 →
      watch_pairs (front ++ back) = watch_pairs front ++ watch_pairs back := by
  induction front using pairs_induction with
  | h0 => intro _; rfl
  | h1 x => intro h; simp at h
  | h2 head tail rest ih =>
    intro h
    simp only [List.length_cons] at h
    rw [List.cons_append, List.cons_append, watch_pairs_cons, watch_pairs_cons, ih (by omega)]
    rfl

/-- The conflict of C23 that no falsified clause backs: in `twice_watched_state`
every watch pair references the record `1, 2, 4`, whose first two literals are
distinct and include the literal of the list, every stored literal is valid and
the queued literal `-1` is true; the pass counts a conflict, yet the only
record, now `2, 4, 1`, holds the unassigned literal `4`. -/
theorem conflict_without_falsified_clause :
    consistent twice_watched_state ∧ owner_ok twice_watched_state ∧
    watch_list twice_watched_state 1 =
      [archive_blocking_archive_watch 2, archive_large_archive_watch 0,
       archive_blocking_archive_watch 2, archive_large_archive_watch 0] ∧
    watch_list twice_watched_state 2 =
      [archive_blocking_archive_watch 1, archive_large_archive_watch 0] ∧
    (∀ ilit ∈ twice_watched_state.archive_propagate,
      (plain_env 8).kissat_export_literal ilit = -1 ∧ 0 < twice_watched_state.values ilit) ∧
    (∀ l ∈ [(1 : Int), 2, 4], literal_valid (plain_env 8) l) ∧
    ∃ t c, kissat_propagate_archive (plain_env 8) twice_watched_state = .ok t ∧
      t.archive_conflicts = twice_watched_state.archive_conflicts + 1 ∧
      t.archive = [ward.head c, ward.body] ∧ c.lits = [2, 4, 1] ∧
      value_of (plain_env 8) t.values 4 = 0 :=
  ⟨by decide, by decide, rfl, rfl, by decide, by decide, _, _, rfl, rfl, rfl, rfl, rfl⟩

/-- A conflict pair whose record has `¬lit` among its first two literals, `¬lit`
being false: the record is not garbage and each of its literals is false. -/
theorem conflict_pair_falsified (env : Env) (values : Nat → Int) (lit : Int)
    (arena : List ward) (head tail : Nat) (c : archive_clause)
    (hc : dereference_archive_clause arena tail = some c) (hok : record_ok c)
    (hown : owns arena tail (-lit) = true) (hfalse : value_of env values (-lit) < 0)
    (hcp : conflict_pair env values lit arena head tail) :
    c.garbage = false ∧ ∀ l ∈ c.lits, value_of env values l < 0 := by
  obtain ⟨_, _, c1, other, hc1, hg, ho, _, hov, hun⟩ := hcp
  rw [hc] at hc1
  injection hc1 with hc1
  subst hc1
  refine ⟨hg, ?_⟩
  obtain ⟨c2, l0, l1, tl, hd, hl, hy⟩ := (owns_iff arena tail (-lit)).mp hown
  rw [hc] at hd
  injection hd with hd
  subst hd
  have h01 : value_of env values l0 < 0 ∧ value_of env values l1 < 0 := by
    rcases other_watched_of_owner c lit l0 l1 tl hl hy with ⟨h0, h1⟩ | ⟨h0, h1⟩
    · rw [ho] at h1
      injection h1 with h1
      rw [h0, ← h1]
      exact ⟨hfalse, hov⟩
    · rw [ho] at h1
      injection h1 with h1
      rw [h0, ← h1]
      exact ⟨hov, hfalse⟩
  intro l hmem
  rw [hl] at hmem
  rcases List.mem_cons.mp hmem with h | hmem
  · rw [h]; exact h01.1
  · rcases List.mem_cons.mp hmem with h | hmem
    · rw [h]; exact h01.2
    · obtain ⟨k, hk, hget⟩ := List.mem_iff_getElem.mp hmem
      have hsz : c.size = tl.length + 2 := by
        rw [hok.1, hl]
        simp
      obtain ⟨x, hx, _, hxv⟩ := hun (k + 2) (by omega) (by omega)
      rw [hl] at hx
      simp only [List.getElem?_cons_succ] at hx
      rw [List.getElem?_eq_getElem hk, hget] at hx
      injection hx with hx
      rw [hx]
      exact hxv

/-- C23 (amended): in a consistent state in which every queued literal is
true (its negation false), every watch pair in the list of a literal `x`
references a record with `x` among its first two literals, and no watch list
holds the same reference twice, a call of `kissat_propagate_archive` returns,
and when it has counted a conflict the arena holds a record that is not
garbage and all of whose literals are false under the assignment. -/
theorem conflict_is_backed (env : Env) (s : kissat) (hs : consistent s)
    (hq : ∀ ilit ∈ s.archive_propagate, env.kissat_export_literal ilit ≠ 0 ∧
      (env.kissat_export_literal ilit).natAbs ≤ s.max_var)
    (htrue : ∀ ilit ∈ s.archive_propagate, 0 < s.values ilit)
    (hneg : ∀ ilit ∈ s.archive_propagate,
      value_of env s.values (-(env.kissat_export_literal ilit)) = -(s.values ilit))
    (hown : owner_ok s) (hnd : refs_nodup s) :
    ∃ t, kissat_propagate_archive env s = .ok t ∧
      (t.archive_conflicts = s.archive_conflicts + 1 →
        ∃ ref c, dereference_archive_clause t.archive ref = some c ∧ c.garbage = false ∧
          ∀ l ∈ c.lits, value_of env t.values l < 0) := by
  by_cases hrun : (!s.option_archive || !s.archive_unlocked) = true ∨ s.archive.length = 0
  · have hcall : kissat_propagate_archive env s = .ok s := by
      unfold kissat_propagate_archive
      rcases hrun with h | h
      · rw [if_pos h]
      · by_cases h' : (!s.option_archive || !s.archive_unlocked) = true
        · rw [if_pos h']
        · rw [if_neg h', if_pos h]
    exact ⟨s, hcall, fun h => by omega⟩
  · have h1 : ¬ (!s.option_archive || !s.archive_unlocked) = true := fun h => hrun (Or.inl h)
    have h2 : ¬ s.archive.length = 0 := fun h => hrun (Or.inr h)
    obtain ⟨t, ht, _, hconf⟩ := propagate_queue_spec env s.archive_propagate s hs hq
    have hcall : kissat_propagate_archive env s = .ok t := by
      unfold kissat_propagate_archive
      rw [if_neg h1, if_neg h2]
      exact ht
    refine ⟨t, hcall, ?_⟩
    intro hplus
    obtain ⟨front, ilit, rest, sk, wf, head, tail, wb, kf, a2, hqueue, hreach, hlist, hwalk,
      hcp⟩ := hconf hplus
    obtain ⟨hsk, _, _, hval, _⟩ := state_after_spec env front s sk hs hreach
    obtain ⟨hownk, hndk⟩ := state_after_owner env front s sk hs hown hnd hreach
    obtain ⟨t', ht', hat', _⟩ :=
      propagate_queue_conflict env sk ilit rest wf head tail wb kf a2 hsk hlist hwalk hcp
    have htt : t' = t := by
      rw [hqueue, propagate_queue_append env front (ilit :: rest) s sk hreach, ht'] at ht
      injection ht
    subst htt
    have hvt : t'.values = s.values := (propagate_queue_frame env _ s t' ht).1
    have hmem : ilit ∈ s.archive_propagate := by
      rw [hqueue]
      exact List.mem_append_right _ (List.mem_cons_self _ _)
    have hfalse : value_of env s.values (-(env.kissat_export_literal ilit)) < 0 := by
      rw [hneg ilit hmem]
      have := htrue ilit hmem
      omega
    -- the list that is walked and the conflict pair in it
    have hy0 : -(env.kissat_export_literal ilit) ≠ 0 := by
      intro h
      rw [h, watch_list_zero] at hlist
      have := congrArg List.length hlist
      simp at this
      omega
    have heven := walk_watches_even env sk.values (env.kissat_export_literal ilit) wf sk.archive
      kf a2 hwalk
    have hcont : contents_at sk (lit2idx (-(env.kissat_export_literal ilit))).toNat =
        wf ++ head :: tail :: wb := by
      rw [← watch_list_eq sk _ hy0]
      exact hlist
    have hpairs := ((consistent_iff sk).mp hsk).2.2.2
      (lit2idx (-(env.kissat_export_literal ilit))).toNat
    rw [hcont] at hpairs
    have hpf := pairs_ok_front sk.archive (head :: tail :: wb) wf heven hpairs
    have hpb := pairs_ok_back sk.archive (head :: tail :: wb) wf heven hpairs
    obtain ⟨_, ⟨c, hc, hok⟩, _⟩ := (pairs_ok_cons sk.archive head tail wb).mp hpb
    have hsplit : watch_pairs (wf ++ head :: tail :: wb) =
        watch_pairs wf ++ (head, tail) :: watch_pairs wb := by
      rw [watch_pairs_append wf _ heven, watch_pairs_cons]
    have hownp : owns sk.archive tail (-(env.kissat_export_literal ilit)) = true := by
      have := (owner_ok_iff sk).mp hownk
        (lit2idx (-(env.kissat_export_literal ilit))).toNat (head, tail)
        (by rw [hcont, hsplit]; simp)
      rw [idx2lit_lit2idx _ hy0] at this
      exact this
    have hnot : tail ∉ (watch_pairs wf).map Prod.snd := by
      have := (refs_nodup_iff sk).mp hndk (lit2idx (-(env.kissat_export_literal ilit))).toNat
      rw [hcont, hsplit, List.map_append, List.map_cons] at this
      intro hin
      exact (List.nodup_append.mp this).2.2 hin (List.mem_cons_self _ _)
    have hframe := walk_watches_frame env sk.values (env.kissat_export_literal ilit) tail wf
      sk.archive kf a2 false hpf hwalk hnot
    have hc2 : dereference_archive_clause a2 tail = some c := by rw [hframe]; exact hc
    have hown2 : owns a2 tail (-(env.kissat_export_literal ilit)) = true := by
      rw [owns_congr sk.archive a2 tail _ hframe]
      exact hownp
    rw [← hval] at hfalse
    obtain ⟨g, hall⟩ := conflict_pair_falsified env sk.values (env.kissat_export_literal ilit)
      a2 head tail c hc2 hok hown2 hfalse hcp
    refine ⟨tail, c, by rw [hat']; exact hc2, g, ?_⟩
    rw [hvt, ← hval]
    exact hall

/-- Witness of C23: the state holding the clause `5, -3, 7` with `-5`, `3` and
`-7` true and queued; the pass counts a conflict and the record at reference 0
is not garbage and has all its literals false. -/
theorem conflict_is_backed_witness :
    consistent (assign_and_queue sample_state [-5, 3, -7]) ∧
    owner_ok (assign_and_queue sample_state [-5, 3, -7]) ∧
    refs_nodup (assign_and_queue sample_state [-5, 3, -7]) ∧
    ∃ t, kissat_propagate_archive (plain_env 8) (assign_and_queue sample_state [-5, 3, -7]) =
        .ok t ∧
      t.archive_conflicts = (assign_and_queue sample_state [-5, 3, -7]).archive_conflicts + 1 ∧
      ∃ ref c, dereference_archive_clause t.archive ref = some c ∧ c.garbage = false ∧
        ∀ l ∈ c.lits, value_of (plain_env 8) t.values l < 0 := by
  refine ⟨by decide, by decide, by decide, ?_⟩
  obtain ⟨t, h1, h2⟩ :=
    conflict_is_backed (plain_env 8) (assign_and_queue sample_state [-5, 3, -7])
      (by decide) (by decide) (by decide) (by decide) (by decide) (by decide)
  have h : ∃ u, kissat_propagate_archive (plain_env 8)
      (assign_and_queue sample_state [-5, 3, -7]) = .ok u ∧ u.archive_conflicts = 1 :=
    ⟨_, rfl, rfl⟩
  obtain ⟨u, hu, hc⟩ := h
  rw [h1] at hu
  cases hu
  exact ⟨t, h1, hc, h2 hc⟩

/-! ## The counter of free slots -/

theorem count_write_words (l xs : List Nat) (start a : Nat) :
    (write_words l start xs).count a + ((l.drop start).take xs.length).count a =
      l.count a + xs.count a := by
  have hl : l = l.take start ++ ((l.drop start).take xs.length ++ l.drop (start + xs.length)) := by
    have h1 : l.drop (start + xs.length) = (l.drop start).drop xs.length := by
      rw [List.drop_drop]
    rw [h1, List.take_append_drop, List.take_append_drop]
  have hc : l.count a = (l.take start).count a + (((l.drop start).take xs.length).count a +
      (l.drop (start + xs.length)).count a) := by
    conv_lhs => rw [hl]
    rw [List.count_append, List.count_append]
  unfold write_words
  rw [List.count_append, List.count_append, hc]
  omega

theorem region_count_zero (stack : List Nat) (off size a b : Nat)
    (h : ∀ k, off ≤ k → k < off + size → stack[k]? ≠ some INVALID_VECTOR_ELEMENT)
    (ha : off ≤ a) (hb : a + b ≤ off + size) :
    ((stack.drop a).take b).count INVALID_VECTOR_ELEMENT = 0 := by
  apply List.count_eq_zero.mpr
  intro hmem
  have hmem' : INVALID_VECTOR_ELEMENT ∈ vector_contents stack ⟨a, b⟩ := hmem
  obtain ⟨k, h1, h2, h3⟩ := (mem_vector_contents stack ⟨a, b⟩ _).mp hmem'
  dsimp only at h1 h2
  exact h k (by omega) (by omega) h3

theorem count_replicate_invalid (n : Nat) :
    (List.replicate n INVALID_VECTOR_ELEMENT).count INVALID_VECTOR_ELEMENT = n := by
  rw [List.count_replicate_self]

theorem count_invalid_eq (stack : List Nat)
    (h : ∀ x, stack[0]? = some x → x ≠ INVALID_VECTOR_ELEMENT) :
    count_invalid stack = stack.count INVALID_VECTOR_ELEMENT := by
  unfold count_invalid
  cases stack with
  | nil => rfl
  | cons x rest =>
    have hx : x ≠ INVALID_VECTOR_ELEMENT := h x (by simp)
    rw [List.drop_one, List.tail_cons, List.count_cons_of_ne (Ne.symm hx)]

theorem enlarge_archive_vector_pow (env : Env) (k : Nat) (s : kissat) (idx : Nat)
    (v : archive_vector) (hmax : env.MAX_VECTORS = 2 ^ k)
    (hpow : s.archive_vectors.capacity = 0 ∨ ∃ j, j ≤ k ∧ s.archive_vectors.capacity = 2 ^ j)
    (hcap : s.archive_vectors.stack.length ≤ s.archive_vectors.capacity)
    (hv : s.archive_watches[idx]? = some v)
    (hin : v.offset + v.size ≤ s.archive_vectors.stack.length) :
    enlarge_archive_vector env s idx = .error .fatal ∨
    ∃ capacity',
      (capacity' = 0 ∨ ∃ j, j ≤ k ∧ capacity' = 2 ^ j) ∧
      s.archive_vectors.stack.length + (if v.size = 0 then 1 else 2 * v.size) ≤ capacity' ∧
      enlarge_archive_vector env s idx = .ok (s.archive_vectors.stack.length + v.size,
        { s with
          archive_vectors :=
            { stack :=
                write_words s.archive_vectors.stack v.offset
                    (List.replicate v.size INVALID_VECTOR_ELEMENT) ++
                  vector_contents s.archive_vectors.stack v ++
                  List.replicate ((if v.size = 0 then 1 else 2 * v.size) - v.size)
                    INVALID_VECTOR_ELEMENT,
              capacity := capacity',
              usable := s.archive_vectors.usable + v.size +
                ((if v.size = 0 then 1 else 2 * v.size) - v.size) },
          archive_watches :=
            s.archive_watches.set idx { v with offset := s.archive_vectors.stack.length } }) := by
  unfold enlarge_archive_vector
  rw [hv, hmax]
  simp only
  by_cases hroom : (if v.size = 0 then 1 else 2 * v.size) >
      s.archive_vectors.capacity - s.archive_vectors.stack.length
  · rw [if_pos hroom]
    rcases enlarge_until_exact k s.archive_vectors.stack.length
        (if v.size = 0 then 1 else 2 * v.size)
        (s.archive_vectors.stack.length + (if v.size = 0 then 1 else 2 * v.size) + 1)
        s.archive_vectors.capacity hpow hcap (by omega) (by omega) with
      ⟨_, hfatal⟩ | ⟨_, capacity', j, hc, hj, hcj, hle⟩
    · left
      rw [hfatal]
    · right
      refine ⟨capacity', Or.inr ⟨j, hj, hcj⟩, hle, ?_⟩
      rw [hc]
      simp only
      rw [if_neg (by omega)]
  · rw [if_neg hroom]
    right
    refine ⟨s.archive_vectors.capacity, hpow, by omega, ?_⟩
    simp only
    rw [if_neg (by omega)]

/-- The call `enlarge_archive_vector` on a stack that is not empty keeps the
counter in step and leaves a free slot at the returned position. -/
theorem enlarge_archive_vector_usable (env : Env) (k : Nat) (s t : kissat) (idx pos : Nat)
    (hmax : env.MAX_VECTORS = 2 ^ k)
    (hs : vectors_ok s) (hu : usable_ok k s) (hne : s.archive_vectors.stack ≠ [])
    (h : enlarge_archive_vector env s idx = .ok (pos, t)) :
    usable_ok k t ∧ 1 ≤ pos ∧ pos < t.archive_vectors.stack.length ∧
    t.archive_vectors.stack[pos]? = some INVALID_VECTOR_ELEMENT ∧
    ∃ v, s.archive_watches[idx]? = some v ∧
      t.archive_watches[idx]? = some ⟨s.archive_vectors.stack.length, v.size⟩ ∧
      pos = s.archive_vectors.stack.length + v.size := by
  cases hv : s.archive_watches[idx]? with
  | none =>
    unfold enlarge_archive_vector at h
    rw [hv] at h
    cases h
  | some v =>
    obtain ⟨v1, v2, v3⟩ := (vectors_ok_iff s).mp hs
    obtain ⟨hin, hnosent⟩ := v2 idx v hv
    obtain ⟨u1, u2, u3, u4⟩ := hu
    have hidx : idx < s.archive_watches.length := (List.getElem?_eq_some_iff.mp hv).1
    have hlen0 : 0 < s.archive_vectors.stack.length := List.length_pos.mpr hne
    rcases enlarge_archive_vector_pow env k s idx v hmax u4 v1 hv hin with
      hfatal | ⟨capacity', hpow', hle, heq⟩
    · rw [hfatal] at h
      cases h
    · rw [heq] at h
      simp only [Except.ok.injEq, Prod.mk.injEq] at h
      obtain ⟨hpos, ht⟩ := h
      have hstack : t.archive_vectors.stack =
          write_words s.archive_vectors.stack v.offset
              (List.replicate v.size INVALID_VECTOR_ELEMENT) ++
            vector_contents s.archive_vectors.stack v ++
            List.replicate ((if v.size = 0 then 1 else 2 * v.size) - v.size)
              INVALID_VECTOR_ELEMENT := by rw [← ht]
      have htbl : t.archive_watches =
          s.archive_watches.set idx ⟨s.archive_vectors.stack.length, v.size⟩ := by rw [← ht]
      have hcapv : t.archive_vectors.capacity = capacity' := by rw [← ht]
      have husable : t.archive_vectors.usable = s.archive_vectors.usable + v.size +
          ((if v.size = 0 then 1 else 2 * v.size) - v.size) := by rw [← ht]
      have hdelta : 1 ≤ (if v.size = 0 then 1 else 2 * v.size) - v.size := by
        split <;> omega
      have hget := fun j => getElem?_enlarged_stack s.archive_vectors.stack v
        ((if v.size = 0 then 1 else 2 * v.size) - v.size) j hin
      have hlen := length_enlarged_stack s.archive_vectors.stack v
        ((if v.size = 0 then 1 else 2 * v.size) - v.size) hin
      have hcw := count_write_words s.archive_vectors.stack
        (List.replicate v.size INVALID_VECTOR_ELEMENT) v.offset INVALID_VECTOR_ELEMENT
      rw [List.length_replicate, count_replicate_invalid,
        region_count_zero s.archive_vectors.stack v.offset v.size v.offset v.size hnosent
          (Nat.le_refl _) (Nat.le_refl _)] at hcw
      have hmoved : (vector_contents s.archive_vectors.stack v).count INVALID_VECTOR_ELEMENT
          = 0 :=
        region_count_zero s.archive_vectors.stack v.offset v.size v.offset v.size hnosent
          (Nat.le_refl _) (Nat.le_refl _)
      refine ⟨⟨?_, ?_, ?_, ?_⟩, by omega, by rw [hstack, hlen]; omega, ?_,
        v, rfl, by rw [htbl, List.getElem?_set_self hidx], hpos.symm⟩
      · rw [husable, hstack, List.count_append, List.count_append, hmoved,
          count_replicate_invalid, u1]
        omega
      · intro x hx
        rw [hstack, hget, if_pos hlen0] at hx
        by_cases hv0 : v.size = 0
        · rw [if_neg (by omega)] at hx
          exact u2 x hx
        · have := u3 idx v hv hv0
          rw [if_neg (by omega)] at hx
          exact u2 x hx
      · intro i w hw hw0
        rw [htbl] at hw
        by_cases hi : i = idx
        · subst hi
          rw [List.getElem?_set_self hidx] at hw
          injection hw with hw
          rw [← hw]
          exact hlen0
        · rw [List.getElem?_set_ne (fun h => hi h.symm)] at hw
          exact u3 i w hw hw0
      · rw [hcapv]
        exact hpow'
      · rw [← hpos, hstack, hget, if_neg (by omega), if_neg (by omega), if_pos (by omega)]

theorem usable_ok_length (k : Nat) (s : kissat) (hk : k ≤ 64) (hs : vectors_ok s)
    (hu : usable_ok k s) : s.archive_vectors.stack.length ≤ 2 ^ 64 := by
  have h1 := ((vectors_ok_iff s).mp hs).1
  rcases hu.2.2.2 with h | ⟨j, hj, h⟩
  · omega
  · have h2 : (2 : Nat) ^ j ≤ 2 ^ 64 := Nat.pow_le_pow_right (by decide) (by omega)
    omega

theorem store_dec_usable (k : Nat) (s : kissat) (pos e : Nat) (hu : usable_ok k s)
    (hlen : s.archive_vectors.stack.length ≤ 2 ^ 64)
    (hpos : s.archive_vectors.stack[pos]? = some INVALID_VECTOR_ELEMENT) (h1 : 1 ≤ pos)
    (he : e ≠ INVALID_VECTOR_ELEMENT) :
    usable_ok k (dec_archive_usable (store_word s pos e)) := by
  obtain ⟨u1, u2, u3, u4⟩ := hu
  have hlt : pos < s.archive_vectors.stack.length := by
    rcases Nat.lt_or_ge pos s.archive_vectors.stack.length with h | h
    · exact h
    · rw [List.getElem?_eq_none h] at hpos; cases hpos
  have hget : s.archive_vectors.stack[pos] = INVALID_VECTOR_ELEMENT := by
    rw [List.getElem?_eq_getElem hlt] at hpos
    injection hpos
  have hregion : ((s.archive_vectors.stack.drop pos).take 1).count INVALID_VECTOR_ELEMENT
      = 1 := by
    rw [List.drop_eq_getElem_cons hlt, hget]
    simp
  have hcw := count_write_words s.archive_vectors.stack [e] pos INVALID_VECTOR_ELEMENT
  rw [List.length_singleton, hregion] at hcw
  have he0 : [e].count INVALID_VECTOR_ELEMENT = 0 := by
    rw [List.count_cons_of_ne (Ne.symm he)]
    rfl
  rw [he0] at hcw
  have hcount := List.count_le_length INVALID_VECTOR_ELEMENT s.archive_vectors.stack
  refine ⟨?_, ?_, u3, u4⟩
  · show (s.archive_vectors.usable + 2 ^ 64 - 1) % 2 ^ 64 =
      (write_words s.archive_vectors.stack pos [e]).count INVALID_VECTOR_ELEMENT
    omega
  · intro x hx
    have hx' : (write_words s.archive_vectors.stack pos [e])[0]? = some x := hx
    rw [getElem?_write_words _ _ _ _ (by simp only [List.length_singleton]; omega),
      if_neg (by omega)] at hx'
    exact u2 x hx'

theorem append_word_usable (k : Nat) (s : kissat) (e : Nat) (hu : usable_ok k s)
    (hne : s.archive_vectors.stack ≠ []) (he : e ≠ INVALID_VECTOR_ELEMENT) :
    usable_ok k (append_word s e) := by
  obtain ⟨u1, u2, u3, u4⟩ := hu
  have hlen0 : 0 < s.archive_vectors.stack.length := List.length_pos.mpr hne
  refine ⟨?_, ?_, u3, u4⟩
  · show s.archive_vectors.usable = (s.archive_vectors.stack ++ [e]).count INVALID_VECTOR_ELEMENT
    rw [List.count_append, List.count_cons_of_ne (Ne.symm he), u1]
    rfl
  · intro x hx
    have hx' : (s.archive_vectors.stack ++ [e])[0]? = some x := hx
    rw [List.getElem?_append_left hlen0] at hx'
    exact u2 x hx'

theorem set_vector_usable (k : Nat) (s : kissat) (idx : Nat) (v' : archive_vector)
    (hu : usable_ok k s) (hoff : v'.size ≠ 0 → 1 ≤ v'.offset) :
    usable_ok k { s with archive_watches := s.archive_watches.set idx v' } := by
  obtain ⟨u1, u2, u3, u4⟩ := hu
  refine ⟨u1, u2, ?_, u4⟩
  intro i w hw hw0
  have hw' : (s.archive_watches.set idx v')[i]? = some w := hw
  by_cases hi : i = idx
  · subst hi
    by_cases hlt : i < s.archive_watches.length
    · rw [List.getElem?_set_self hlt] at hw'
      injection hw' with hw'
      rw [← hw'] at hw0 ⊢
      exact hoff hw0
    · rw [List.getElem?_eq_none (by rw [List.length_set]; omega)] at hw'
      cases hw'
  · rw [List.getElem?_set_ne (fun h => hi h.symm)] at hw'
    exact u3 i w hw' hw0

theorem increment_size_usable (k : Nat) (s : kissat) (idx : Nat) (hu : usable_ok k s)
    (hoff : ∀ v, s.archive_watches[idx]? = some v → 1 ≤ v.offset) :
    usable_ok k (increment_size s idx) := by
  unfold increment_size
  cases hv : s.archive_watches[idx]? with
  | none => exact hu
  | some v => exact set_vector_usable k s idx _ hu (fun _ => hoff v hv)

theorem push_stack_zero_usable (k : Nat) (s : kissat) (hu : usable_ok k s)
    (hnil : s.archive_vectors.stack = []) : usable_ok k (push_stack_zero s) := by
  obtain ⟨u1, u2, u3, u4⟩ := hu
  unfold usable_ok push_stack_zero
  dsimp only
  rw [hnil] at u1 ⊢
  refine ⟨by rw [u1]; rfl, ?_, u3, ?_⟩
  · intro x hx
    simp only [List.nil_append, List.getElem?_cons_zero, Option.some.injEq] at hx
    rw [← hx]
    decide
  · by_cases hc : ([] : List Nat).length = s.archive_vectors.capacity
    · rw [if_pos hc]
      right
      refine ⟨0, Nat.zero_le _, ?_⟩
      rw [← hc]
      rfl
    · rw [if_neg hc]
      exact u4

theorem push_enlarged_usable (env : Env) (k : Nat) (s s' : kissat) (idx e : Nat)
    (hmax : env.MAX_VECTORS = 2 ^ k) (hk : k ≤ 64)
    (hs : vectors_ok s) (hu : usable_ok k s) (hne : s.archive_vectors.stack ≠ [])
    (he : e ≠ INVALID_VECTOR_ELEMENT)
    (h : push_enlarged env s idx e = .ok s') :
    usable_ok k s' ∧ ∀ v', s'.archive_watches[idx]? = some v' → 1 ≤ v'.offset := by
  unfold push_enlarged at h
  cases hen : enlarge_archive_vector env s idx with
  | error a => rw [hen] at h; cases h
  | ok r =>
    obtain ⟨pos, t1⟩ := r
    rw [hen] at h
    simp only [Except.ok.injEq] at h
    subst h
    obtain ⟨e1, e2, _, e4, v, _, e6, _⟩ :=
      enlarge_archive_vector_usable env k s t1 idx pos hmax hs hu hne hen
    have hlen := usable_ok_length k t1 hk (enlarge_archive_vector_ok env s t1 idx pos hs hen).1 e1
    refine ⟨store_dec_usable k t1 pos e e1 hlen e4 e2 he, ?_⟩
    intro v' hv'
    have hv'' : t1.archive_watches[idx]? = some v' := hv'
    rw [e6] at hv''
    injection hv'' with hv''
    rw [← hv'']
    exact List.length_pos.mpr hne

theorem push_fresh_usable (env : Env) (k : Nat) (s t : kissat) (idx e : Nat)
    (v : archive_vector) (hmax : env.MAX_VECTORS = 2 ^ k) (hk : k ≤ 64)
    (hs : vectors_ok s) (hu : usable_ok k s) (hne : s.archive_vectors.stack ≠ [])
    (hv : s.archive_watches[idx]? = some v) (hsize : v.size = 0)
    (he : e ≠ INVALID_VECTOR_ELEMENT)
    (h : (if s.archive_vectors.stack.length = s.archive_vectors.capacity then
        push_enlarged env s idx e
      else .ok (append_word
        { s with archive_watches :=
            s.archive_watches.set idx { v with offset := s.archive_vectors.stack.length } } e)) =
      .ok t) :
    usable_ok k t ∧ ∀ v', t.archive_watches[idx]? = some v' → 1 ≤ v'.offset := by
  have hidx : idx < s.archive_watches.length := (List.getElem?_eq_some_iff.mp hv).1
  by_cases hfull : s.archive_vectors.stack.length = s.archive_vectors.capacity
  · rw [if_pos hfull] at h
    exact push_enlarged_usable env k s t idx e hmax hk hs hu hne he h
  · rw [if_neg hfull] at h
    simp only [Except.ok.injEq] at h
    subst h
    refine ⟨append_word_usable k _ e
      (set_vector_usable k s idx _ hu (fun h0 => absurd hsize h0)) hne he, ?_⟩
    intro v' hv'
    have hv'' : (s.archive_watches.set idx
        { v with offset := s.archive_vectors.stack.length })[idx]? = some v' := hv'
    rw [List.getElem?_set_self hidx] at hv''
    injection hv'' with hv''
    rw [← hv'']
    exact List.length_pos.mpr hne

/-- A push of an element other than the sentinel keeps the counter in step. -/
theorem push_archive_vectors_usable (env : Env) (k : Nat) (s t : kissat) (idx e : Nat)
    (hmax : env.MAX_VECTORS = 2 ^ k) (hk : k ≤ 64)
    (hs : vectors_ok s) (hu : usable_ok k s) (he : e ≠ INVALID_VECTOR_ELEMENT)
    (h : push_archive_vectors env s idx e = .ok t) : usable_ok k t := by
  unfold push_archive_vectors at h
  cases hv : s.archive_watches[idx]? with
  | none => rw [hv] at h; cases h
  | some v =>
    rw [hv] at h
    simp only at h
    split at h
    · cases h
    · rename_i s' hp
      simp only [Except.ok.injEq] at h
      subst h
      have hgoal : usable_ok k s' ∧ ∀ v', s'.archive_watches[idx]? = some v' → 1 ≤ v'.offset := by
        by_cases hfresh : v.size = 0 ∧ v.offset = 0
        · rw [if_pos hfresh] at hp
          by_cases hempty : s.archive_vectors.stack.length = 0
          · rw [if_pos hempty] at hp
            obtain ⟨z1, _, z3, z4, _⟩ := push_stack_zero_spec s hs hempty
            have hnil : s.archive_vectors.stack = [] := List.length_eq_zero.mp hempty
            have hne1 : (push_stack_zero s).archive_vectors.stack ≠ [] := by
              intro h0
              rw [h0] at z4
              simp at z4
            exact push_fresh_usable env k (push_stack_zero s) s' idx e v hmax hk z1
              (push_stack_zero_usable k s hu hnil) hne1 (by rw [z3]; exact hv) hfresh.1 he hp
          · rw [if_neg hempty] at hp
            exact push_fresh_usable env k s s' idx e v hmax hk hs hu
              (fun h0 => hempty (by rw [h0]; rfl)) hv hfresh.1 he hp
        · rw [if_neg hfresh] at hp
          have hoffv : 1 ≤ v.offset := by
            by_cases h0 : v.size = 0
            · omega
            · exact hu.2.2.1 idx v hv h0
          by_cases hend : v.offset + v.size = s.archive_vectors.stack.length
          · have hne : s.archive_vectors.stack ≠ [] := by
              intro h0
              rw [h0] at hend
              simp at hend
              omega
            rw [if_pos hend] at hp
            by_cases hfull : s.archive_vectors.stack.length = s.archive_vectors.capacity
            · rw [if_pos hfull] at hp
              exact push_enlarged_usable env k s s' idx e hmax hk hs hu hne he hp
            · rw [if_neg hfull] at hp
              simp only [Except.ok.injEq] at hp
              subst hp
              refine ⟨append_word_usable k s e hu hne he, ?_⟩
              intro v' hv'
              have hv'' : s.archive_watches[idx]? = some v' := hv'
              rw [hv] at hv''
              injection hv'' with hv''
              rw [← hv'']
              exact hoffv
          · rw [if_neg hend] at hp
            cases hx : s.archive_vectors.stack[v.offset + v.size]? with
            | none => rw [hx] at hp; cases hp
            | some x =>
              rw [hx] at hp
              simp only at hp
              have hne : s.archive_vectors.stack ≠ [] := by
                intro h0
                rw [h0] at hx
                simp at hx
              by_cases hne' : x ≠ INVALID_VECTOR_ELEMENT
              · rw [if_pos hne'] at hp
                exact push_enlarged_usable env k s s' idx e hmax hk hs hu hne he hp
              · rw [if_neg hne'] at hp
                simp only [Except.ok.injEq] at hp
                subst hp
                have hxi : x = INVALID_VECTOR_ELEMENT := not_not.mp hne'
                refine ⟨store_dec_usable k s _ e hu (usable_ok_length k s hk hs hu)
                  (by rw [hx, hxi]) (by omega) he, ?_⟩
                intro v' hv'
                have hv'' : s.archive_watches[idx]? = some v' := hv'
                rw [hv] at hv''
                injection hv'' with hv''
                rw [← hv'']
                exact hoffv
      exact increment_size_usable k s' idx hgoal.1 hgoal.2

/-- The stack after a write of `xs` at `start` followed by a fill with the
sentinel behind it, both inside a range of `size` slots that held no sentinel:
the number of sentinels grows by the number of filled slots. -/
theorem count_written_back (stack xs : List Nat) (off size fill : Nat)
    (hin : off + size ≤ stack.length)
    (hnosent : ∀ k, off ≤ k → k < off + size → stack[k]? ≠ some INVALID_VECTOR_ELEMENT)
    (hxs : INVALID_VECTOR_ELEMENT ∉ xs) (hfit : xs.length + fill ≤ size) :
    (write_words (write_words stack off xs) (off + xs.length)
        (List.replicate fill INVALID_VECTOR_ELEMENT)).count INVALID_VECTOR_ELEMENT =
      stack.count INVALID_VECTOR_ELEMENT + fill ∧
    (write_words stack off xs).count INVALID_VECTOR_ELEMENT =
      stack.count INVALID_VECTOR_ELEMENT := by
  have h1 := count_write_words stack xs off INVALID_VECTOR_ELEMENT
  rw [region_count_zero stack off size off xs.length hnosent (Nat.le_refl _) (by omega),
    List.count_eq_zero.mpr hxs] at h1
  have hget := fun k => getElem?_write_words stack xs off k (by omega)
  have h2 := count_write_words (write_words stack off xs)
    (List.replicate fill INVALID_VECTOR_ELEMENT) (off + xs.length) INVALID_VECTOR_ELEMENT
  rw [List.length_replicate, count_replicate_invalid,
    region_count_zero (write_words stack off xs) (off + xs.length) fill (off + xs.length) fill
      (by
        intro k hk1 hk2
        rw [hget, if_neg (by omega)]
        exact hnosent k (by omega) (by omega))
      (Nat.le_refl _) (Nat.le_refl _)] at h2
  constructor <;> omega

theorem resized_usable (k : Nat) (s s1 s2 : kissat) (idx : Nat) (w : archive_vector)
    (xs : List Nat)
    (hs : vectors_ok s) (hu : usable_ok k s) (hw : s.archive_watches[idx]? = some w)
    (hw0 : w.size ≠ 0) (hfit : xs.length ≤ w.size) (hxs : INVALID_VECTOR_ELEMENT ∉ xs)
    (h1stack : s1.archive_vectors.stack = write_words s.archive_vectors.stack w.offset xs)
    (h1use : s1.archive_vectors.usable = s.archive_vectors.usable)
    (h1cap : s1.archive_vectors.capacity = s.archive_vectors.capacity)
    (h1tbl : s1.archive_watches = s.archive_watches)
    (hr : resize_archive_vector s1 idx xs.length = .ok s2) : usable_ok k s2 := by
  obtain ⟨v1, v2, v3⟩ := (vectors_ok_iff s).mp hs
  obtain ⟨hin, hnosent⟩ := v2 idx w hw
  obtain ⟨u1, u2, u3, u4⟩ := hu
  have hoff : 1 ≤ w.offset := u3 idx w hw hw0
  have hidx : idx < s.archive_watches.length := (List.getElem?_eq_some_iff.mp hw).1
  have hw1 : s1.archive_watches[idx]? = some w := by rw [h1tbl]; exact hw
  have hlen1 : s1.archive_vectors.stack.length = s.archive_vectors.stack.length := by
    rw [h1stack]
    exact length_write_words _ _ _ (by omega)
  have hget := fun j => getElem?_write_words s.archive_vectors.stack xs w.offset j (by omega)
  by_cases hn : xs.length = w.size
  · rw [hn, resize_archive_vector_same s1 idx w hw1] at hr
    injection hr with hr
    subst hr
    obtain ⟨_, c2⟩ := count_written_back s.archive_vectors.stack xs w.offset w.size 0 hin
      hnosent hxs (by omega)
    refine ⟨by rw [h1use, h1stack, c2]; exact u1, ?_, by rw [h1tbl]; exact u3,
      by rw [h1cap]; exact u4⟩
    intro x hx
    rw [h1stack, hget, if_neg (by omega)] at hx
    exact u2 x hx
  · rw [resize_archive_vector_eq s1 idx xs.length w hw1 (by rw [hlen1]; exact hin)
      (by omega)] at hr
    injection hr with hr
    subst hr
    obtain ⟨c1, _⟩ := count_written_back s.archive_vectors.stack xs w.offset w.size
      (w.size - xs.length) hin hnosent hxs (by omega)
    refine ⟨?_, ?_, ?_, by rw [← h1cap] at u4; exact u4⟩
    · show s1.archive_vectors.usable + (w.size - xs.length) =
        (write_words s1.archive_vectors.stack (w.offset + xs.length)
          (List.replicate (w.size - xs.length) INVALID_VECTOR_ELEMENT)).count
          INVALID_VECTOR_ELEMENT
      rw [h1use, h1stack, c1, u1]
    · intro x hx
      have hx' : (write_words s1.archive_vectors.stack (w.offset + xs.length)
          (List.replicate (w.size - xs.length) INVALID_VECTOR_ELEMENT))[0]? = some x := hx
      rw [getElem?_write_words _ _ _ _ (by rw [hlen1, List.length_replicate]; omega),
        if_neg (by omega), h1stack, hget, if_neg (by omega)] at hx'
      exact u2 x hx'
    · intro i v hv hv0
      have hv' : (s1.archive_watches.set idx { w with size := xs.length })[i]? = some v := hv
      rw [h1tbl] at hv'
      by_cases hi : i = idx
      · subst hi
        rw [List.getElem?_set_self hidx] at hv'
        injection hv' with hv'
        rw [← hv']
        exact hoff
      · rw [List.getElem?_set_ne (fun h => hi h.symm)] at hv'
        exact u3 i v hv' hv0

theorem resize_archive_vector_usable (k : Nat) (s t : kissat) (idx n : Nat)
    (hs : vectors_ok s) (hu : usable_ok k s)
    (h : resize_archive_vector s idx n = .ok t) : usable_ok k t := by
  cases hv : s.archive_watches[idx]? with
  | none =>
    unfold resize_archive_vector at h
    rw [hv] at h
    cases h
  | some v =>
    obtain ⟨v1, v2, v3⟩ := (vectors_ok_iff s).mp hs
    obtain ⟨hin, hnosent⟩ := v2 idx v hv
    by_cases hn : n = v.size
    · rw [hn, resize_archive_vector_same s idx v hv] at h
      injection h with h
      subst h
      exact hu
    · by_cases hlt : n < v.size
      · -- the first `n` elements are written over themselves
        have hlen : ((vector_contents s.archive_vectors.stack v).take n).length = n := by
          rw [List.length_take, length_vector_contents _ _ hin]
          omega
        have hself : write_words s.archive_vectors.stack v.offset
            ((vector_contents s.archive_vectors.stack v).take n) = s.archive_vectors.stack := by
          apply List.ext_getElem?
          intro j
          rw [getElem?_write_words _ _ _ _ (by rw [hlen]; omega), hlen]
          by_cases hj : v.offset ≤ j ∧ j < v.offset + n
          · rw [if_pos hj, List.getElem?_take, if_pos (by omega), getElem?_vector_contents,
              if_pos (by omega)]
            congr 1
            omega
          · rw [if_neg hj]
        have hxs : INVALID_VECTOR_ELEMENT ∉ (vector_contents s.archive_vectors.stack v).take n := by
          intro hmem
          obtain ⟨j, a, b, c⟩ := (mem_vector_contents _ _ _).mp (List.mem_of_mem_take hmem)
          exact hnosent j a b c
        exact resized_usable k s s t idx v _ hs hu hv (by omega) (by rw [hlen]; omega) hxs
          hself.symm rfl rfl rfl (by rw [hlen]; exact h)
      · unfold resize_archive_vector at h
        rw [hv] at h
        simp only at h
        rw [if_neg hn, if_pos (Or.inl (by omega))] at h
        cases h

theorem usable_ok_propagate_literal (env : Env) (k : Nat) (s : kissat) (ilit : Nat)
    (t : kissat) (hs : store_ok s) (hu : usable_ok k s)
    (h : propagate_literal env s ilit = .ok (.next t) ∨
      propagate_literal env s ilit = .ok (.done t)) : usable_ok k t := by
  rcases propagate_literal_inv env s ilit t h with rfl | ⟨idx, w, kept, arena, conflict, s2,
    hw, hw0, hin, hwalk, hr, ht⟩
  · exact hu
  · have hcont := contents_at_some s idx w hw
    have hsent : INVALID_VECTOR_ELEMENT ∉ vector_contents s.archive_vectors.stack w := by
      intro hmem
      obtain ⟨j, a, b, c⟩ := (mem_vector_contents _ _ _).mp hmem
      exact (((vectors_ok_iff s).mp hs.1).2.1 idx w hw).2 j a b c
    have hheads : heads_clear (vector_contents s.archive_vectors.stack w) := by
      rw [← hcont]; exact hs.2 idx
    obtain ⟨_, k2, k3⟩ := walk_watches_heads env s.values _ _ s.archive kept arena conflict
      hwalk hheads hsent
    rw [length_vector_contents _ _ hin] at k3
    have hu2 : usable_ok k s2 :=
      resized_usable k s
        { s with archive := arena,
                 archive_vectors :=
                   { s.archive_vectors with
                     stack := write_words s.archive_vectors.stack w.offset kept } }
        s2 idx w kept hs.1 hu hw hw0 k3 k2 rfl rfl rfl rfl hr
    rcases ht with rfl | rfl
    · exact hu2
    · exact hu2

theorem usable_ok_propagate_queue (env : Env) (k : Nat) (queue : List Nat) :
    ∀ s t : kissat, store_ok s → usable_ok k s → propagate_queue env queue s = .ok t →
      usable_ok k t := by
  induction queue with
  | nil =>
    intro s t _ hu h
    simp only [propagate_queue, Except.ok.injEq] at h
    subst h
    exact hu
  | cons ilit rest ih =>
    intro s t hs hu h
    unfold propagate_queue at h
    cases hstep : propagate_literal env s ilit with
    | error a => rw [hstep] at h; cases h
    | ok step =>
      rw [hstep] at h
      cases step with
      | done s' =>
        simp only [Except.ok.injEq] at h
        subst h
        exact usable_ok_propagate_literal env k s ilit s' hs hu (Or.inr hstep)
      | next s' =>
        dsimp only at h
        exact ih s' t (store_ok_propagate_literal env s ilit s' hs (Or.inl hstep))
          (usable_ok_propagate_literal env k s ilit s' hs hu (Or.inl hstep)) h

theorem usable_ok_propagate (env : Env) (k : Nat) (s t : kissat) (hs : store_ok s)
    (hu : usable_ok k s) (h : kissat_propagate_archive env s = .ok t) : usable_ok k t := by
  unfold kissat_propagate_archive at h
  split_ifs at h
  · injection h with h; subst h; exact hu
  · injection h with h; subst h; exact hu
  · exact usable_ok_propagate_queue env k _ s t hs hu h

theorem store_reachable_of_usable_reachable (env : Env) (s : kissat)
    (h : usable_reachable env s) : store_reachable env s := by
  induction h with
  | empty s h1 h2 => exact store_reachable.empty s (by rw [h1]) h2
  | push s t idx e _ he hpar h ih => exact store_reachable.push s t idx e ih he hpar h
  | enlarge s t idx pos _ _ h ih => exact store_reachable.enlarge s t idx pos ih h
  | resize s t idx n _ h ih => exact store_reachable.resize s t idx n ih h
  | propagate s t _ h ih => exact store_reachable.propagate s t ih h
  | other s t _ h1 h2 ih => exact store_reachable.other s t ih h1 h2

theorem usable_ok_of_reachable (env : Env) (k : Nat) (hmax : env.MAX_VECTORS = 2 ^ k)
    (hk : k ≤ 64) (s : kissat) (h : usable_reachable env s) : usable_ok k s := by
  induction h with
  | empty s h1 h2 =>
    refine ⟨by rw [h1]; rfl, ?_, ?_, Or.inl (by rw [h1])⟩
    · intro x hx
      rw [h1] at hx
      simp at hx
    · intro i v hv hv0
      have := h2 v (List.mem_iff_getElem?.mpr ⟨i, hv⟩)
      rw [this] at hv0
      exact absurd rfl hv0
  | push s t idx e hr he _ h ih =>
    exact push_archive_vectors_usable env k s t idx e hmax hk
      (store_ok_of_reachable env s (store_reachable_of_usable_reachable env s hr)).1 ih he h
  | enlarge s t idx pos hr hne h ih =>
    exact (enlarge_archive_vector_usable env k s t idx pos hmax
      (store_ok_of_reachable env s (store_reachable_of_usable_reachable env s hr)).1 ih hne h).1
  | resize s t idx n hr h ih =>
    exact resize_archive_vector_usable k s t idx n
      (store_ok_of_reachable env s (store_reachable_of_usable_reachable env s hr)).1 ih h
  | propagate s t hr h ih =>
    exact usable_ok_propagate env k s t
      (store_ok_of_reachable env s (store_reachable_of_usable_reachable env s hr)) ih h
  | other s t _ h1 h2 ih =>
    obtain ⟨u1, u2, u3, u4⟩ := ih
    exact ⟨by rw [h1]; exact u1, by rw [h1]; exact u2, by rw [h2]; exact u3,
      by rw [h1]; exact u4⟩

/-- The counter of C27 out of step, in two ways.  A call of
`enlarge_archive_vector` in the released vector store leaves the stack holding
the sentinel in its first element only, which the count from the second
element on does not see, and `usable` is 1.  And a head word with the tag bit
set, pushed onto the list of `2` and walked while the other watched literal
`-1` is true, becomes the sentinel inside its vector: the stack then holds two
sentinels behind its first element while `usable` is 1. -/
theorem usable_out_of_step :
    (∃ t, unwatched_state.archive_vectors = { stack := [], capacity := 0, usable := 0 } ∧
      (∀ v ∈ unwatched_state.archive_watches, v = ⟨0, 0⟩) ∧
      enlarge_archive_vector (plain_env 8) unwatched_state 0 = .ok (0, t) ∧
      t.archive_vectors.stack = [INVALID_VECTOR_ELEMENT] ∧
      t.archive_vectors.usable = 1 ∧ count_invalid t.archive_vectors.stack = 0) ∧
    (∃ s1 s2 t,
      2147483651 ≠ INVALID_VECTOR_ELEMENT ∧
      push_archive_vectors (plain_env 8) unwatched_state 3 2147483651 = .ok s1 ∧
      push_archive_vectors (plain_env 8) s1 3 0 = .ok s2 ∧
      kissat_propagate_archive (plain_env 8) s2 = .ok t ∧
      t.archive_vectors.stack = [0, INVALID_VECTOR_ELEMENT, INVALID_VECTOR_ELEMENT, 0] ∧
      t.archive_vectors.usable = 1 ∧ count_invalid t.archive_vectors.stack = 2) :=
  ⟨⟨_, rfl, by decide, rfl, rfl, rfl, rfl⟩,
   ⟨_, _, _, by decide, rfl, rfl, rfl, rfl, rfl, rfl⟩⟩

/-- C27 (amended): with `MAX_VECTORS` a power of two up to `2 ^ 64`, in every
state reached from the released vector store by pushes of watch words (an
element other than the sentinel, a head word with the tag bit clear), by
`enlarge_archive_vector` on a stack that is not empty, by
`resize_archive_vector` and by `kissat_propagate_archive`, the counter
`usable` is the number of sentinel-valued elements of the stack from its second
element on, which is what `check_archive_vectors` asserts. -/
theorem usable_counts_sentinels (env : Env) (k : Nat) (hmax : env.MAX_VECTORS = 2 ^ k)
    (hk : k ≤ 64) (s : kissat) (h : usable_reachable env s) :
    s.archive_vectors.usable = count_invalid s.archive_vectors.stack := by
  obtain ⟨u1, u2, _, _⟩ := usable_ok_of_reachable env k hmax hk s h
  rw [count_invalid_eq _ u2]
  exact u1

/-- Witness of C27: the head word for the blocking literal `3` and the
reference 0 are pushed onto the list of `2` in the released store and the list
is walked; the stack is then `0, sentinel, 2147483647, 0` and `usable` is 1. -/
theorem usable_counts_sentinels_witness :
    ∃ s1 s2 t,
      push_archive_vectors (plain_env 8) unwatched_state 3 3 = .ok s1 ∧
      push_archive_vectors (plain_env 8) s1 3 0 = .ok s2 ∧
      kissat_propagate_archive (plain_env 8) s2 = .ok t ∧
      usable_reachable (plain_env 8) t ∧
      t.archive_vectors.stack = [0, INVALID_VECTOR_ELEMENT, 2147483647, 0] ∧
      t.archive_vectors.usable = count_invalid t.archive_vectors.stack ∧
      t.archive_vectors.usable = 1 := by
  have hr : ∃ s1 s2 t,
      push_archive_vectors (plain_env 8) unwatched_state 3 3 = .ok s1 ∧
      push_archive_vectors (plain_env 8) s1 3 0 = .ok s2 ∧
      kissat_propagate_archive (plain_env 8) s2 = .ok t ∧
      t.archive_vectors.stack = [0, INVALID_VECTOR_ELEMENT, 2147483647, 0] ∧
      t.archive_vectors.usable = 1 ∧
      contents_at unwatched_state 3 = [] ∧ contents_at s1 3 = [3] :=
    ⟨_, _, _, rfl, rfl, rfl, rfl, rfl, rfl, rfl⟩
  obtain ⟨s1, s2, t, h1, h2, h3, h4, h5, h6, h7⟩ := hr
  have hreach : usable_reachable (plain_env 8) t :=
    usable_reachable.propagate s2 t
      (usable_reachable.push s1 s2 3 0
        (usable_reachable.push unwatched_state s1 3 3
          (usable_reachable.empty _ rfl (by decide)) (by decide) (fun _ => by decide) h1)
        (by decide) (fun h => by rw [h7] at h; simp at h) h2) h3
  exact ⟨s1, s2, t, h1, h2, h3, hreach, h4,
    usable_counts_sentinels (plain_env 8) 32 rfl (by decide) t hreach, h5⟩

end KissatArchive
